import Mathlib

/-!
# onert lowering core: tensor registry, lifetime planner, graph partitioner

A shallow embedding of

* `runtime/onert/core/include/backend/ITensorRegistry.h`
  (`PortableTensorRegistryTemplate`),
* `runtime/onert/core/include/backend/cpu_common/BackendContextHelpers.h`
  (`planTensors`, `genTensors`),
* `runtime/onert/core/src/compiler/ExecutorFactory.cc`
  (`createBackendContexts`, `initializeSubgraphIOTensors`, `prepareMigrantTensors`,
  `ExecutorFactory::create`, `createLinearExecutor`, `createDataflowExecutor`),

and a model of the permutation insertion pass, whose body is outside these
files, followed by the properties proved about them.

Conventions of the embedding.

* An index (`ir::OperandIndex`, `ir::OperationIndex`) is a natural number; a
  reference that may be the undefined index is an `Option`, `none` being the
  undefined index.
* A hash map keyed by indices is an association list; the order of the list
  stands for the (unspecified) iteration order of the container.
* A `uint32_t` counter is a natural number below `2 ^ 32`; increment and
  decrement wrap around.
* `assert` does not abort: the embedding follows the code past an assertion,
  as a build with `NDEBUG` does, and the asserted conditions are stated as
  properties.
* A `throw` is an `Except.error`, returned together with the state the call
  leaves behind.
-/

namespace onert

/-! ## Indices and index-keyed maps -/

abbrev OperandIndex := Nat
abbrev OperationIndex := Nat

/-- Index-keyed map (`ir::OperandIndexMap`, `util::ObjectManager`). -/
abbrev IndexMap (α : Type) := List (Nat × α)

namespace IndexMap

/-- Lookup, `m.find(k)`: the entry stored under `k`, if any. -/
def find {α : Type} : IndexMap α → Nat → Option α
  | [], _ => none
  | (k', v) :: t, k => if k' = k then some v else find t k

/-- Assignment `m[k] = v`: overwrite the entry of `k`, or add one. -/
def set {α : Type} : IndexMap α → Nat → α → IndexMap α
  | [], k, v => [(k, v)]
  | (k', v') :: t, k, v => if k' = k then (k, v) :: t else (k', v') :: set t k v

/-- The keys, in iteration order. -/
def keys {α : Type} (m : IndexMap α) : List Nat := m.map Prod.fst

/-- Membership test `m.find(k) != m.end()`. -/
def contains {α : Type} (m : IndexMap α) (k : Nat) : Bool := (find m k).isSome

end IndexMap

/-! ## Tensor registry (`ITensorRegistry.h`) -/

/-- A tensor object: its identity, and whether it is an `IPortableTensor`
(whether `dynamic_cast<IPortableTensor *>` succeeds on it). -/
structure ITensor where
  id : Nat
  portable : Bool
deriving DecidableEq

/-- The class `PortableTensorRegistryTemplate`: the two private maps. A stored
`std::shared_ptr` is an `Option`, `none` being the null pointer. -/
structure PortableTensorRegistryTemplate where
  _migrant : IndexMap (Option ITensor)
  _native : IndexMap (Option ITensor)
deriving DecidableEq

namespace PortableTensorRegistryTemplate

/-- A freshly constructed registry. -/
def empty : PortableTensorRegistryTemplate := { _migrant := [], _native := [] }

def getNativeTensor (r : PortableTensorRegistryTemplate) (ind : OperandIndex) :
    Option ITensor :=
  match IndexMap.find r._native ind with
  | some tensor => tensor
  | none => none

def getITensor (r : PortableTensorRegistryTemplate) (ind : OperandIndex) :
    Option ITensor :=
  match IndexMap.find r._migrant ind with
  | some external_tensor => external_tensor
  | none => getNativeTensor r ind

def getNativeITensor (r : PortableTensorRegistryTemplate) (ind : OperandIndex) :
    Option ITensor :=
  getNativeTensor r ind

def getPortableTensor (r : PortableTensorRegistryTemplate) (ind : OperandIndex) :
    Option ITensor :=
  match IndexMap.find r._migrant ind with
  | some (some external_tensor) => some external_tensor
  | _ => getNativeTensor r ind

/-- The method `setMigrantTensor`: the outcome of the call and the registry it
leaves behind. -/
def setMigrantTensor (r : PortableTensorRegistryTemplate) (ind : OperandIndex)
    (tensor : Option ITensor) : Except String Bool × PortableTensorRegistryTemplate :=
  match IndexMap.find r._native ind with
  | some _ =>
    (.error "Tried to set a migrant tensor but a native tensor already exists.", r)
  | none => (.ok true, { r with _migrant := IndexMap.set r._migrant ind tensor })

/-- The method `setNativeTensor`: the outcome of the call and the registry it
leaves behind. -/
def setNativeTensor (r : PortableTensorRegistryTemplate) (ind : OperandIndex)
    (tensor : Option ITensor) : Except String Unit × PortableTensorRegistryTemplate :=
  match IndexMap.find r._migrant ind with
  | some _ =>
    (.error "Tried to set a native tensor but a migrant tensor already exists.", r)
  | none => (.ok (), { r with _native := IndexMap.set r._native ind tensor })

end PortableTensorRegistryTemplate

/-- One call made on a registry by a client. -/
inductive RegistryCall where
  | setNativeTensor (ind : OperandIndex) (tensor : Option ITensor)
  | setMigrantTensor (ind : OperandIndex) (tensor : Option ITensor)
deriving DecidableEq

/-- The registry after one call, whether the call returned or raised. -/
def RegistryCall.apply (r : PortableTensorRegistryTemplate) :
    RegistryCall → PortableTensorRegistryTemplate
  | .setNativeTensor ind tensor => (r.setNativeTensor ind tensor).2
  | .setMigrantTensor ind tensor => (r.setMigrantTensor ind tensor).2

/-- The registry reached from `r` by a sequence of calls. -/
def runRegistryCalls (r : PortableTensorRegistryTemplate) (calls : List RegistryCall) :
    PortableTensorRegistryTemplate :=
  calls.foldl RegistryCall.apply r

/-- Whether a call outcome is a raised exception. -/
def raised {ε α : Type} : Except ε α → Bool
  | .error _ => true
  | .ok _ => false

/-- No index is a key of both maps. -/
def Exclusive (r : PortableTensorRegistryTemplate) : Prop :=
  ∀ ind : OperandIndex,
    ¬ (IndexMap.contains r._native ind = true ∧ IndexMap.contains r._migrant ind = true)

/-! ## Graph model (`ir::Graph`, `ir::Operand`, `ir::Operation`) -/

/-- Modelled from the spec: `ir::OperandIndexSequence::operator|` with
`ir::Remove::UNDEFINED` (declared in `ir/OperandIndexSequence.h`): the defined
indices of the sequence, in order. -/
def removeUndefined (seq : List (Option OperandIndex)) : List OperandIndex :=
  seq.filterMap id

/-- Modelled from the spec: `ir::OperandIndexSequence::operator|` with
`ir::Remove::DUPLICATED` (declared in `ir/OperandIndexSequence.h`): every element
once, at the place of its first occurrence. -/
def removeDuplicated {α : Type} [DecidableEq α] (seq : List α) : List α :=
  seq.foldl (fun acc ind => if ind ∈ acc then acc else acc ++ [ind]) []

/-- Modelled from the spec: the tensor descriptor `ir::Operand` (declared in
`ir/Operand.h`): shape, element type, constant and variable flags, the set of
operations that use it and the operation that defines it, if any. -/
structure Operand where
  shape : List Nat
  typeInfo : Nat
  isConstant : Bool
  isVariable : Bool
  getUses : List OperationIndex
  getDef : Option OperationIndex
deriving DecidableEq

/-- Modelled from the spec: the graph node `ir::Operation` (declared in
`ir/Operation.h`): an opcode and ordered lists of input and output operand
references, any of which may be undefined. -/
structure Operation where
  opcode : Nat
  getInputs : List (Option OperandIndex)
  getOutputs : List (Option OperandIndex)
deriving DecidableEq

inductive Layout where
  | UNKNOWN
  | NHWC
  | NCHW
deriving DecidableEq

/-- Modelled from the spec: `ir::Graph` (declared in `ir/Graph.h`): the operand
and operation containers, the graph inputs and outputs, and the layout. -/
structure Graph where
  operands : IndexMap Operand
  operations : IndexMap Operation
  getInputs : List (Option OperandIndex)
  getOutputs : List (Option OperandIndex)
  layout : Layout
deriving DecidableEq

/-- The defined inputs of operation `op_ind`; none when the operation is not
in the graph. -/
def Graph.inputsOf (graph : Graph) (op_ind : OperationIndex) : List OperandIndex :=
  match IndexMap.find graph.operations op_ind with
  | some op => removeUndefined (removeDuplicated op.getInputs)
  | none => []

/-- The defined outputs of operation `op_ind`; none when the operation is not
in the graph. -/
def Graph.outputsOf (graph : Graph) (op_ind : OperationIndex) : List OperandIndex :=
  match IndexMap.find graph.operations op_ind with
  | some op => removeUndefined (removeDuplicated op.getOutputs)
  | none => []

/-- The graph is well formed: the containers hold one object per index,
operation indices are valid 32-bit indices, and the use set and the def of
every operand agree with the input and output lists of the operations. -/
def Graph.WellFormed (graph : Graph) : Prop :=
  (IndexMap.keys graph.operands).Nodup ∧
  (IndexMap.keys graph.operations).Nodup ∧
  (∀ op_ind ∈ IndexMap.keys graph.operations, op_ind < 4294967295) ∧
  ∀ e ∈ graph.operands,
    e.2.getUses.Nodup ∧
    (∀ op_ind ∈ e.2.getUses, e.1 ∈ graph.inputsOf op_ind) ∧
    (∀ op_ind ∈ IndexMap.keys graph.operations,
      e.1 ∈ graph.inputsOf op_ind → op_ind ∈ e.2.getUses) ∧
    (∀ op_ind ∈ e.2.getDef, e.1 ∈ graph.outputsOf op_ind) ∧
    (∀ op_ind ∈ IndexMap.keys graph.operations,
      e.1 ∈ graph.outputsOf op_ind → e.2.getDef = some op_ind)

instance (graph : Graph) : Decidable graph.WellFormed := by
  delta Graph.WellFormed
  infer_instance

/-- The order lists every operation of the graph exactly once. -/
def ListsEachOperationOnce (graph : Graph) (order : List OperationIndex) : Prop :=
  ∀ op_ind ∈ IndexMap.keys graph.operations, order.count op_ind = 1

instance (graph : Graph) (order : List OperationIndex) :
    Decidable (ListsEachOperationOnce graph order) := by
  delta ListsEachOperationOnce
  infer_instance

/-! ## Tensor builder -/

/-- A call received by the tensor builder or by its dynamic tensor manager. -/
inductive BuilderCall where
  | registerTensorInfo (ind : OperandIndex)
  | notifyFirstUse (ind : OperandIndex)
  | notifyLastUse (ind : OperandIndex)
  | planDealloc (op_ind : OperationIndex) (ind : OperandIndex)
  | allocate
deriving DecidableEq

/-- Modelled from the spec: the backend's allocator abstraction
`cpu_common::TensorBuilder` (declared in `TensorBuilder.h`), as far as the
planner drives it: the operands registered with it, and the calls it has
received, oldest first. -/
structure TensorBuilder where
  registered : List OperandIndex
  calls : List BuilderCall
deriving DecidableEq

namespace TensorBuilder

def isRegistered (tb : TensorBuilder) (ind : OperandIndex) : Bool :=
  decide (ind ∈ tb.registered)

def registerTensorInfo (tb : TensorBuilder) (ind : OperandIndex) : TensorBuilder :=
  { registered := tb.registered ++ [ind], calls := tb.calls ++ [.registerTensorInfo ind] }

def notifyFirstUse (tb : TensorBuilder) (ind : OperandIndex) : TensorBuilder :=
  { tb with calls := tb.calls ++ [.notifyFirstUse ind] }

def notifyLastUse (tb : TensorBuilder) (ind : OperandIndex) : TensorBuilder :=
  { tb with calls := tb.calls ++ [.notifyLastUse ind] }

/-- The call `dynamicTensorManager()->planDealloc(op_ind, tensor)`, `tensor`
being the tensor of operand `ind`. -/
def planDealloc (tb : TensorBuilder) (op_ind : OperationIndex) (ind : OperandIndex) :
    TensorBuilder :=
  { tb with calls := tb.calls ++ [.planDealloc op_ind ind] }

def allocate (tb : TensorBuilder) : TensorBuilder :=
  { tb with calls := tb.calls ++ [.allocate] }

end TensorBuilder

/-! ## Lifetime planning (`planTensors`, `BackendContextHelpers.h`) -/

/-- The template parameter `T_BackendContext`, as far as `planTensors` reads
it: `graph()`, `external_operands()` and `tensor_builder`. -/
structure BackendContext where
  graph : Graph
  external_operands : List OperandIndex
  tensor_builder : TensorBuilder
deriving DecidableEq

/-- Increment of a `uint32_t`. -/
def uint32_inc (x : Nat) : Nat := (x + 1) % 4294967296

/-- Decrement of a `uint32_t`. -/
def uint32_dec (x : Nat) : Nat := (x + 4294967295) % 4294967296

namespace IndexMap

/-- The value read by `m[k]`: the entry of `k`, or the default `0`. -/
def get (m : IndexMap Nat) (k : Nat) : Nat := (find m k).getD 0

/-- The map after a read of `m[k]`: `operator[]` adds a zero entry for a key
that has none. -/
def touch (m : IndexMap Nat) (k : Nat) : IndexMap Nat :=
  if contains m k then m else set m k 0

end IndexMap

/-- The local variables of `planTensors`, and the tensor builder it drives. -/
structure PlanState where
  uses_map : IndexMap Nat
  def_map : IndexMap Nat
  constants : List OperandIndex
  tensor_builder : TensorBuilder
deriving DecidableEq

/-- The local `model_io` of `planTensors`. -/
def model_io (graph : Graph) : List OperandIndex :=
  removeDuplicated (removeUndefined (graph.getInputs ++ graph.getOutputs))

/-- The body of the "Prepare scanning" iteration, for one operand. -/
def prepareOperand (ctx : BackendContext) (st : PlanState) (e : OperandIndex × Operand) :
    PlanState :=
  if e.1 ∈ model_io ctx.graph then st
  else if e.1 ∈ ctx.external_operands then st
  else
    { uses_map := IndexMap.set st.uses_map e.1 (e.2.getUses.length % 4294967296)
      def_map := IndexMap.set st.def_map e.1 (if e.2.getDef.isSome then 1 else 0)
      constants := if e.2.isConstant then st.constants ++ [e.1] else st.constants
      tensor_builder :=
        if st.tensor_builder.isRegistered e.1 then st.tensor_builder
        else st.tensor_builder.registerTensorInfo e.1 }

/-- The "Prepare scanning" iteration over the operands of the graph. -/
def prepareScanning (ctx : BackendContext) : PlanState :=
  ctx.graph.operands.foldl (prepareOperand ctx)
    { uses_map := [], def_map := [], constants := [], tensor_builder := ctx.tensor_builder }

/-- The body of the first loop over `constants`. -/
def allocateConstant (st : PlanState) (ind : OperandIndex) : PlanState :=
  { st with
    uses_map := IndexMap.set st.uses_map ind (uint32_inc (IndexMap.get st.uses_map ind))
    tensor_builder := st.tensor_builder.notifyFirstUse ind }

/-- The body of the "Define outputs" loop. -/
def defineOutput (ctx : BackendContext) (st : PlanState) (ind : OperandIndex) : PlanState :=
  if ind ∈ model_io ctx.graph then st
  else if st.tensor_builder.isRegistered ind = false then st
  else if IndexMap.get st.def_map ind ≠ 0 then
    { st with
      def_map := IndexMap.set st.def_map ind 0
      tensor_builder := st.tensor_builder.notifyFirstUse ind }
  else { st with def_map := IndexMap.touch st.def_map ind }

/-- The body of the "Scan variable tensors" loop; `graph.operands().at(ind)`
throws for an index that is not in the graph. -/
def scanVariable (ctx : BackendContext) (st : PlanState) (ind : OperandIndex) :
    Except String Unit × PlanState :=
  if ind ∈ model_io ctx.graph then (.ok (), st)
  else if st.tensor_builder.isRegistered ind = false then (.ok (), st)
  else
    match IndexMap.find ctx.graph.operands ind with
    | none => (.error "out_of_range", st)
    | some operand =>
      if operand.isVariable then
        (.ok (), { st with tensor_builder := st.tensor_builder.notifyFirstUse ind })
      else (.ok (), st)

/-- The "Scan variable tensors" loop. -/
def scanVariables (ctx : BackendContext) :
    PlanState → List OperandIndex → Except String Unit × PlanState
  | st, [] => (.ok (), st)
  | st, ind :: rest =>
    match scanVariable ctx st ind with
    | (.ok _, st') => scanVariables ctx st' rest
    | (.error msg, st') => (.error msg, st')

/-- The body of the loop over the uses of the inputs. -/
def useInput (ctx : BackendContext) (op_ind : OperationIndex) (st : PlanState)
    (ind : OperandIndex) : PlanState :=
  if ind ∈ model_io ctx.graph then st
  else if st.tensor_builder.isRegistered ind = false then st
  else if uint32_dec (IndexMap.get st.uses_map ind) = 0 then
    { st with
      uses_map := IndexMap.set st.uses_map ind (uint32_dec (IndexMap.get st.uses_map ind))
      tensor_builder := (st.tensor_builder.notifyLastUse ind).planDealloc op_ind ind }
  else
    { st with
      uses_map := IndexMap.set st.uses_map ind (uint32_dec (IndexMap.get st.uses_map ind)) }

/-- The body of the loop over `order`, for one operation index. -/
def scanOperation (ctx : BackendContext) (st : PlanState) (op_ind : OperationIndex) :
    Except String Unit × PlanState :=
  match IndexMap.find ctx.graph.operations op_ind with
  | none => (.ok (), st)
  | some op =>
    let op_inputs := removeUndefined (removeDuplicated op.getInputs)
    let op_outputs := removeUndefined (removeDuplicated op.getOutputs)
    match scanVariables ctx (op_outputs.foldl (defineOutput ctx) st) op_inputs with
    | (.ok _, st') => (.ok (), op_inputs.foldl (useInput ctx op_ind) st')
    | (.error msg, st') => (.error msg, st')

/-- The loop over `order`. -/
def scanOperations (ctx : BackendContext) :
    PlanState → List OperationIndex → Except String Unit × PlanState
  | st, [] => (.ok (), st)
  | st, op_ind :: rest =>
    match scanOperation ctx st op_ind with
    | (.ok _, st') => scanOperations ctx st' rest
    | (.error msg, st') => (.error msg, st')

/-- The body of the "Dispose and validate" loop over `constants`. -/
def disposeConstant (st : PlanState) (ind : OperandIndex) : PlanState :=
  if uint32_dec (IndexMap.get st.uses_map ind) = 0 then
    { st with
      uses_map := IndexMap.set st.uses_map ind (uint32_dec (IndexMap.get st.uses_map ind))
      tensor_builder := st.tensor_builder.notifyLastUse ind }
  else
    { st with
      uses_map := IndexMap.set st.uses_map ind (uint32_dec (IndexMap.get st.uses_map ind)) }

/-- The state in which the loop over `order` starts: after "Prepare scanning"
and the first loop over `constants`. -/
def planTensorsStart (ctx : BackendContext) : PlanState :=
  (prepareScanning ctx).constants.foldl allocateConstant (prepareScanning ctx)

/-- The function `planTensors`: the outcome, and the local maps and the tensor
builder where it ends (at its last line, or where the exception left it). -/
def planTensors (ctx : BackendContext) (order : List OperationIndex) :
    Except String Unit × PlanState :=
  match scanOperations ctx (planTensorsStart ctx) order with
  | (.ok _, st) => (.ok (), st.constants.foldl disposeConstant st)
  | (.error msg, st) => (.error msg, st)

/-- The first final assertion of `planTensors`. -/
def usesAllZero (st : PlanState) : Bool := st.uses_map.all (fun it => it.2 == 0)

/-- The second final assertion of `planTensors`. -/
def defsAllZero (st : PlanState) : Bool := st.def_map.all (fun it => it.2 == 0)

/-- The operand is planned by `planTensors`: it is in the graph and is neither
a graph input or output nor external. -/
def Planned (ctx : BackendContext) (ind : OperandIndex) : Prop :=
  ind ∈ IndexMap.keys ctx.graph.operands ∧ ind ∉ model_io ctx.graph ∧
    ind ∉ ctx.external_operands

instance (ctx : BackendContext) (ind : OperandIndex) : Decidable (Planned ctx ind) := by
  delta Planned
  infer_instance

/-- The guard shared by the loops over an operation's operands: the index is
not a graph input or output and is registered with the tensor builder. -/
def Gate (graph : Graph) (registered : List OperandIndex) (ind : OperandIndex) : Prop :=
  ind ∉ model_io graph ∧ ind ∈ registered

instance (graph : Graph) (registered : List OperandIndex) (ind : OperandIndex) :
    Decidable (Gate graph registered ind) := by
  delta Gate
  infer_instance

/-- The number of operations listed in `rest` that read operand `ind`. -/
def remainingUses (graph : Graph) (ind : OperandIndex) (rest : List OperationIndex) : Nat :=
  rest.countP (fun op_ind => decide (ind ∈ graph.inputsOf op_ind))

/-- Whether a call is a last-use notification of one of the listed operands. -/
def BuilderCall.isLastUseOf (inds : List OperandIndex) : BuilderCall → Bool
  | .notifyLastUse ind => decide (ind ∈ inds)
  | _ => false

/-- Whether a call is a first-use notification. -/
def BuilderCall.isFirstUse : BuilderCall → Bool
  | .notifyFirstUse _ => true
  | _ => false

/-- The invariant of the loop over `order`, `rest` being the part of the order
still to be scanned: the remaining-use count of a planned operand is the number
of its readers still to come, plus one for a constant; a pending def is
cleared by an operation still to come; and the maps have entries only for
operands that pass the guard of the loops. -/
structure ScanInv (ctx : BackendContext) (st : PlanState) (rest : List OperationIndex) :
    Prop where
  planned_gate : ∀ ind, Planned ctx ind → Gate ctx.graph st.tensor_builder.registered ind
  uses : ∀ ind, Planned ctx ind →
    IndexMap.find st.uses_map ind =
      some ((remainingUses ctx.graph ind rest + if ind ∈ st.constants then 1 else 0)
        % 4294967296)
  defs : ∀ ind, Planned ctx ind →
    ∃ v, IndexMap.find st.def_map ind = some v ∧
      (v = 0 ∨ ∃ op_ind ∈ rest, ind ∈ ctx.graph.outputsOf op_ind)
  nodup_uses : (IndexMap.keys st.uses_map).Nodup
  nodup_defs : (IndexMap.keys st.def_map).Nodup
  keys_uses : ∀ k ∈ IndexMap.keys st.uses_map, Gate ctx.graph st.tensor_builder.registered k
  keys_defs : ∀ k ∈ IndexMap.keys st.def_map, Gate ctx.graph st.tensor_builder.registered k
  const_planned : ∀ ind ∈ st.constants, Planned ctx ind
  nodup_consts : st.constants.Nodup
  bound : ∀ ind ∈ st.constants, remainingUses ctx.graph ind rest < 4294967296

/-- The operand is a planned constant: a planned operand whose descriptor is
marked constant. -/
def PlannedConstant (ctx : BackendContext) (ind : OperandIndex) : Prop :=
  Planned ctx ind ∧
    ∃ obj, IndexMap.find ctx.graph.operands ind = some obj ∧ obj.isConstant = true

/-- Whether a call is a registration. -/
def BuilderCall.isRegister : BuilderCall → Bool
  | .registerTensorInfo _ => true
  | _ => false

/-! ## Graph partitioning (`createBackendContexts`, `ExecutorFactory.cc`) -/

/-- A backend, identified by the address of its `backend::Backend` object. -/
abbrev Backend := Nat

/-- Modelled from the spec: the placement factor `ir::operand::PermuteFactor`
(declared in `ir/operand/PermuteFactor.h`): a backend and a layout. -/
structure PermuteFactor where
  backend : Backend
  layout : Layout
deriving DecidableEq

/-- Modelled from the spec: the lower info of an operand (declared in
`compiler/OperandLowerInfo.h`); only the def-side factors are read here. -/
structure OperandLowerInfo where
  def_factors : List PermuteFactor
deriving DecidableEq

/-- Modelled from the spec: the lower info of an operation (declared in
`compiler/OperationLowerInfo.h`): its backend and layout. -/
structure OperationLowerInfo where
  backend : Backend
  layout : Layout
deriving DecidableEq

/-- Modelled from the spec: `compiler::GraphLowerInfo` (declared in
`compiler/GraphLowerInfo.h`): the two lower-info maps. -/
structure GraphLowerInfo where
  operation : IndexMap OperationLowerInfo
  operand : IndexMap OperandLowerInfo
deriving DecidableEq

/-- Modelled from the spec: `compiler::LoweredGraph` (declared in
`compiler/LoweredGraph.h`): the whole graph and its lower info. -/
structure LoweredGraph where
  graph : Graph
  lower_info : GraphLowerInfo
deriving DecidableEq

/-- The struct `backend::ContextData` as `createBackendContexts` fills it; the
pointer `custom_kernel_builder`, copied from the whole graph, is left out. -/
structure ContextData where
  graph : Graph
  external_operands : List OperandIndex
  operation_layouts : IndexMap Layout
  operand_layouts : IndexMap Layout
  op_order : List OperationIndex
  is_linear_executor : Bool
deriving DecidableEq

/-- Modelled from the spec: `ir::Graph::addOperand(index, operand)` (defined
in `ir/Graph.cc`): stores the operand under `index` and returns `index`, or
returns the undefined index when `index` is taken already. -/
def Graph.addOperand (graph : Graph) (index : OperandIndex) (operand : Operand) :
    Option OperandIndex × Graph :=
  if IndexMap.contains graph.operands index then (none, graph)
  else (some index, { graph with operands := graph.operands ++ [(index, operand)] })

/-- Modelled from the spec: `ir::Graph::addOperation(index, operation)`
(defined in `ir/Graph.cc`): stores the operation under `index` and returns
`index`, or returns the undefined index when `index` is taken already. -/
def Graph.addOperation (graph : Graph) (index : OperationIndex) (operation : Operation) :
    Option OperationIndex × Graph :=
  if IndexMap.contains graph.operations index then (none, graph)
  else (some index, { graph with operations := graph.operations ++ [(index, operation)] })

/-- Modelled from the spec: `ir::Graph::addInput` (defined in `ir/Graph.cc`). -/
def Graph.addInput (graph : Graph) (ind : OperandIndex) : Graph :=
  { graph with getInputs := graph.getInputs ++ [some ind] }

/-- Modelled from the spec: `ir::Graph::addOutput` (defined in `ir/Graph.cc`). -/
def Graph.addOutput (graph : Graph) (ind : OperandIndex) : Graph :=
  { graph with getOutputs := graph.getOutputs ++ [some ind] }

/-- Modelled from the spec: `ir::Graph::finishBuilding` (defined in
`ir/Graph.cc`): the use sets and defs of the operands are rebuilt from the
graph's own operations. -/
def Graph.finishBuilding (graph : Graph) : Graph :=
  { graph with
    operands := graph.operands.map fun e =>
      (e.1, { e.2 with
        getUses := (IndexMap.keys graph.operations).filter
          fun op_ind => decide (e.1 ∈ graph.inputsOf op_ind)
        getDef := ((IndexMap.keys graph.operations).filter
          fun op_ind => decide (e.1 ∈ graph.outputsOf op_ind)).getLast? }) }

/-- Modelled from the spec: `util::Set::add` (declared in `util/Set.h`). -/
def setAdd (set : List OperandIndex) (ind : OperandIndex) : List OperandIndex :=
  if ind ∈ set then set else set ++ [ind]

/-- The first loop of `createBackendContexts`, for one backend of
`BackendManager::getAll()`: an entry with a fresh graph of the whole graph's
layout. -/
def initContextData (lgraph : LoweredGraph) (context_data_map : IndexMap ContextData)
    (backend : Backend) : IndexMap ContextData :=
  let data : ContextData :=
    (IndexMap.find context_data_map backend).getD
      { graph := { operands := [], operations := [], getInputs := [], getOutputs := [],
                   layout := .UNKNOWN }
        external_operands := [], operation_layouts := [], operand_layouts := [],
        op_order := [], is_linear_executor := false }
  IndexMap.set context_data_map backend
    { data with
      graph := { operands := [], operations := [], getInputs := [], getOutputs := [],
                 layout := lgraph.graph.layout } }

/-- The body of the loop over `io_list`: copy one operand into the partial
graph of `backend`. `at` on a missing index throws; `getOnlyElement` of an
empty set has no value. -/
def copyOperand (lgraph : LoweredGraph) (backend : Backend) (data : ContextData)
    (operand_ind : OperandIndex) : Except String ContextData :=
  match IndexMap.find lgraph.graph.operands operand_ind with
  | none => .error "out_of_range"
  | some operand =>
    match data.graph.addOperand operand_ind { operand with getUses := [], getDef := none } with
    | (none, _) => .ok data
    | (some _, partial_graph) =>
      match IndexMap.find lgraph.lower_info.operand operand_ind with
      | none => .error "out_of_range"
      | some operand_li =>
        match operand_li.def_factors with
        | [] => .error "getOnlyElement"
        | permute_factor :: _ =>
          let partial_graph :=
            if some operand_ind ∈ lgraph.graph.getInputs then partial_graph.addInput operand_ind
            else partial_graph
          let partial_graph :=
            if some operand_ind ∈ lgraph.graph.getOutputs then
              partial_graph.addOutput operand_ind
            else partial_graph
          .ok { data with
                graph := partial_graph
                external_operands :=
                  if permute_factor.backend ≠ backend then
                    setAdd data.external_operands operand_ind
                  else data.external_operands
                operand_layouts :=
                  IndexMap.set data.operand_layouts operand_ind permute_factor.layout }

/-- The loop over `io_list`. -/
def copyOperands (lgraph : LoweredGraph) (backend : Backend) :
    ContextData → List OperandIndex → Except String ContextData
  | data, [] => .ok data
  | data, operand_ind :: rest =>
    match copyOperand lgraph backend data operand_ind with
    | .ok data' => copyOperands lgraph backend data' rest
    | .error msg => .error msg

/-- The body of the iteration over the operations of the whole graph. An
operation assigned to a backend that `getAll()` does not list finds a default
entry with a null graph. -/
def partitionOperation (lgraph : LoweredGraph) (context_data_map : IndexMap ContextData)
    (e : OperationIndex × Operation) : Except String (IndexMap ContextData) :=
  match IndexMap.find lgraph.lower_info.operation e.1 with
  | none => .error "out_of_range"
  | some op_li =>
    match IndexMap.find context_data_map op_li.backend with
    | none => .error "null graph"
    | some data =>
      match copyOperands lgraph op_li.backend data
          (removeUndefined (removeDuplicated (e.2.getInputs ++ e.2.getOutputs))) with
      | .error msg => .error msg
      | .ok data' =>
        match data'.graph.addOperation e.1 e.2 with
        | (none, _) => .error "out_of_range"
        | (some new_op_ind, partial_graph) =>
          match IndexMap.find lgraph.lower_info.operation new_op_ind with
          | none => .error "out_of_range"
          | some new_op_li =>
            .ok (IndexMap.set context_data_map op_li.backend
              { data' with
                graph := partial_graph
                operation_layouts :=
                  IndexMap.set data'.operation_layouts new_op_ind new_op_li.layout })

/-- The iteration over the operations of the whole graph. -/
def partitionOperations (lgraph : LoweredGraph) :
    IndexMap ContextData → List (OperationIndex × Operation) →
      Except String (IndexMap ContextData)
  | context_data_map, [] => .ok context_data_map
  | context_data_map, e :: rest =>
    match partitionOperation lgraph context_data_map e with
    | .ok context_data_map' => partitionOperations lgraph context_data_map' rest
    | .error msg => .error msg

/-- The body of the "Create contexts" loop: the context data handed to
`backend->newContext`. -/
def finishContextData (whole_op_order : List OperationIndex) (linear_executor : Bool)
    (data : ContextData) : ContextData :=
  { data with
    graph := data.graph.finishBuilding
    op_order := data.op_order ++
      whole_op_order.filter fun ind => IndexMap.contains data.graph.finishBuilding.operations ind
    is_linear_executor := linear_executor }

/-- The function `createBackendContexts`. `backends` is the result of
`BackendManager::getAll()`, `whole_op_order` the result of
`lgraph.graph().topolSortOperations()`; a backend context is represented by
the context data it was created from. -/
def createBackendContexts (backends : List Backend) (lgraph : LoweredGraph)
    (whole_op_order : List OperationIndex) (linear_executor : Bool) :
    Except String (IndexMap ContextData) :=
  match partitionOperations lgraph (backends.foldl (initContextData lgraph) [])
      lgraph.graph.operations with
  | .error msg => .error msg
  | .ok context_data_map =>
    .ok (context_data_map.map fun pair =>
      (pair.1, finishContextData whole_op_order linear_executor pair.2))

/-- The backend that the lower info assigns to an operation. -/
def assignedBackend (lgraph : LoweredGraph) (op_ind : OperationIndex) : Option Backend :=
  (IndexMap.find lgraph.lower_info.operation op_ind).map (·.backend)

/-- The backend of the def-side factor that the lower info records for an
operand. -/
def defBackend (lgraph : LoweredGraph) (ind : OperandIndex) : Option Backend :=
  match IndexMap.find lgraph.lower_info.operand ind with
  | some operand_li => operand_li.def_factors.head?.map (·.backend)
  | none => none

/-- The operand is a defined input or output of the operation. -/
def Operation.references (op : Operation) (ind : OperandIndex) : Prop :=
  some ind ∈ op.getInputs ∨ some ind ∈ op.getOutputs

instance (op : Operation) (ind : OperandIndex) : Decidable (op.references ind) := by
  delta Operation.references
  infer_instance

/-- The entry that the first loop of `createBackendContexts` creates for a
backend. -/
def emptyContextData (lgraph : LoweredGraph) : ContextData :=
  { graph := { operands := [], operations := [], getInputs := [], getOutputs := [],
               layout := lgraph.graph.layout }
    external_operands := [], operation_layouts := [], operand_layouts := [],
    op_order := [], is_linear_executor := false }

/-- What holds of the context data of backend `backend` while the operations
are distributed: a copied operand is the whole graph's operand with its uses
and def cleared, the external operands are the copied operands whose def-side
backend is another one, and no order is recorded yet. -/
structure DataInv (lgraph : LoweredGraph) (backend : Backend) (data : ContextData) : Prop where
  operands : ∀ e ∈ data.graph.operands, ∃ operand,
    IndexMap.find lgraph.graph.operands e.1 = some operand ∧
      e.2 = { operand with getUses := [], getDef := none }
  nodup : (IndexMap.keys data.graph.operands).Nodup
  external : ∀ ind, ind ∈ data.external_operands ↔
    (ind ∈ IndexMap.keys data.graph.operands ∧
      ∃ pb, defBackend lgraph ind = some pb ∧ pb ≠ backend)
  op_order : data.op_order = []

/-- What holds of the context data map after the operations `done` have been
distributed. -/
structure MapInv (lgraph : LoweredGraph) (backends : List Backend)
    (context_data_map : IndexMap ContextData) (done : List (OperationIndex × Operation)) :
    Prop where
  keys_nodup : (IndexMap.keys context_data_map).Nodup
  keys : ∀ b, b ∈ IndexMap.keys context_data_map ↔ b ∈ backends
  done_nodup : (IndexMap.keys done).Nodup
  assigned : ∀ e ∈ done, ∃ b, assignedBackend lgraph e.1 = some b ∧
    b ∈ IndexMap.keys context_data_map
  data : ∀ b data, IndexMap.find context_data_map b = some data →
    DataInv lgraph b data ∧
    data.graph.operations =
      done.filter (fun e => decide (assignedBackend lgraph e.1 = some b)) ∧
    ∀ ind, ind ∈ IndexMap.keys data.graph.operands ↔
      ∃ e ∈ done, assignedBackend lgraph e.1 = some b ∧ e.2.references ind

/-! ## Migrant resolution (`ExecutorFactory::prepareMigrantTensors`) -/

/-- Modelled from the spec: `compiler::TensorRegistries::getITensor` (declared
in `compiler/TensorRegistries.h`): the first tensor returned by a registry of
the set. `tensor_regs` lists the backends whose registries the set holds, in
the iteration order of the set; the registries themselves are those of the
backend contexts. -/
def TensorRegistries.getITensor (tensor_regs : List Backend)
    (backend_contexts : IndexMap PortableTensorRegistryTemplate) (ind : OperandIndex) :
    Option ITensor :=
  tensor_regs.findSome? fun backend =>
    match IndexMap.find backend_contexts backend with
    | some tensor_registry => tensor_registry.getITensor ind
    | none => none

/-- The body of the loop over the inputs and outputs of an operation of
backend `backend`. `backend_contexts` maps each backend to the tensor registry
of its context. A null `tensor` passes the `assert` and fails the
`dynamic_cast`. -/
def migrateOperand (tensor_regs : List Backend) (backend : Backend)
    (backend_contexts : IndexMap PortableTensorRegistryTemplate) (ind : OperandIndex) :
    Except String Unit × IndexMap PortableTensorRegistryTemplate :=
  match IndexMap.find backend_contexts backend with
  | none => (.error "out_of_range", backend_contexts)
  | some tensor_registry =>
    if (tensor_registry.getITensor ind).isSome then (.ok (), backend_contexts)
    else
      match TensorRegistries.getITensor tensor_regs backend_contexts ind with
      | none => (.ok (), backend_contexts)
      | some tensor =>
        if tensor.portable then
          match tensor_registry.setMigrantTensor ind (some tensor) with
          | (.ok _, tensor_registry') =>
            (.ok (), IndexMap.set backend_contexts backend tensor_registry')
          | (.error msg, tensor_registry') =>
            (.error msg, IndexMap.set backend_contexts backend tensor_registry')
        else (.ok (), backend_contexts)

/-- The loop over the inputs and outputs of one operation. -/
def migrateOperands (tensor_regs : List Backend) (backend : Backend) :
    IndexMap PortableTensorRegistryTemplate → List OperandIndex →
      Except String Unit × IndexMap PortableTensorRegistryTemplate
  | backend_contexts, [] => (.ok (), backend_contexts)
  | backend_contexts, ind :: rest =>
    match migrateOperand tensor_regs backend backend_contexts ind with
    | (.ok _, backend_contexts') => migrateOperands tensor_regs backend backend_contexts' rest
    | (.error msg, backend_contexts') => (.error msg, backend_contexts')

/-- The body of the iteration over the operations of the whole graph.
`getRawPtr` returns null for an operation without lower info, and `at` throws
for a backend without a context. -/
def migrateOperation (lgraph : LoweredGraph) (tensor_regs : List Backend)
    (backend_contexts : IndexMap PortableTensorRegistryTemplate)
    (e : OperationIndex × Operation) :
    Except String Unit × IndexMap PortableTensorRegistryTemplate :=
  match IndexMap.find lgraph.lower_info.operation e.1 with
  | none => (.error "null lower info", backend_contexts)
  | some lower_info =>
    match IndexMap.find backend_contexts lower_info.backend with
    | none => (.error "out_of_range", backend_contexts)
    | some _ =>
      migrateOperands tensor_regs lower_info.backend backend_contexts
        (removeUndefined (removeDuplicated (e.2.getInputs ++ e.2.getOutputs)))

/-- The iteration over the operations of the whole graph. -/
def migrateOperations (lgraph : LoweredGraph) (tensor_regs : List Backend) :
    IndexMap PortableTensorRegistryTemplate → List (OperationIndex × Operation) →
      Except String Unit × IndexMap PortableTensorRegistryTemplate
  | backend_contexts, [] => (.ok (), backend_contexts)
  | backend_contexts, e :: rest =>
    match migrateOperation lgraph tensor_regs backend_contexts e with
    | (.ok _, backend_contexts') => migrateOperations lgraph tensor_regs backend_contexts' rest
    | (.error msg, backend_contexts') => (.error msg, backend_contexts')

/-- The function `ExecutorFactory::prepareMigrantTensors`: the outcome, and
the tensor registries of the backend contexts as it leaves them. -/
def prepareMigrantTensors (lgraph : LoweredGraph) (tensor_regs : List Backend)
    (backend_contexts : IndexMap PortableTensorRegistryTemplate) :
    Except String Unit × IndexMap PortableTensorRegistryTemplate :=
  migrateOperations lgraph tensor_regs backend_contexts lgraph.graph.operations

/-- The registries `st'` extend the registries `st`: the same backends have a
registry, native maps are equal, and a migrant entry either is as before or
was added, for an operand the registry had no tensor for, with the portable
tensor `found` for it. -/
structure Extends (found : OperandIndex → Option ITensor)
    (st st' : IndexMap PortableTensorRegistryTemplate) : Prop where
  keys : ∀ b, IndexMap.find st' b = none ↔ IndexMap.find st b = none
  regs : ∀ b reg reg', IndexMap.find st b = some reg → IndexMap.find st' b = some reg' →
    reg'._native = reg._native ∧
    ∀ i, IndexMap.find reg'._migrant i = IndexMap.find reg._migrant i ∨
      (reg.getITensor i = none ∧
        ∃ t, found i = some t ∧ t.portable = true ∧
          IndexMap.find reg'._migrant i = some (some t))

/-- Operand `ind` has been resolved for backend `b`: the registry of `b`
returns a tensor for it if the tensor found for it is portable. -/
def Resolved (found : OperandIndex → Option ITensor)
    (st : IndexMap PortableTensorRegistryTemplate) (b : Backend) (ind : OperandIndex) : Prop :=
  ∃ reg, IndexMap.find st b = some reg ∧
    ∀ t, found ind = some t → t.portable = true → reg.getITensor ind ≠ none

/-- The lowered graph is consistent with the registered backends: operation
indices are unique, every operation is assigned to a registered backend, and
every operand an operation references is in the whole graph and has a
def-side factor in the lower info. -/
def LoweredGraph.Consistent (backends : List Backend) (lgraph : LoweredGraph) : Prop :=
  (IndexMap.keys lgraph.graph.operations).Nodup ∧
  ∀ e ∈ lgraph.graph.operations,
    (∃ b, assignedBackend lgraph e.1 = some b ∧ b ∈ backends) ∧
    ∀ ind, e.2.references ind →
      IndexMap.contains lgraph.graph.operands ind = true ∧
        (defBackend lgraph ind).isSome = true

/-! ## Executor creation (`ExecutorFactory::create`, `ExecutorFactory.cc`) -/

/-- The member of `compiler::CompilerOptions` that selects the executor. -/
structure CompilerOptions where
  executor : String
deriving DecidableEq

/-- The class of the executor object that the factory constructs. -/
inductive ExecutorClass where
  | LinearExecutor
  | DataflowExecutor
  | ParallelExecutor
deriving DecidableEq

/-- What the executor-creating functions take from outside their own code:
the result of `BackendManager::getAll()`, the identifier
`backend->config()->id()` of a backend, the topological order of a graph, and
the outcome of the steps that run on the backends' own tensors and kernels
between `createBackendContexts` and the construction of the executor;
`generate` is an error when one of these steps throws. -/
structure FactoryEnv where
  getAll : List Backend
  id : Backend → String
  topolSortOperations : Graph → List OperationIndex
  generate : IndexMap ContextData → Except String Unit

/-- The executor object that an executor-creating function returns: its class,
the backend contexts moved into it, and the contexts on which `genKernels` was
invoked, in the order of the invocations. -/
structure Executor where
  cls : ExecutorClass
  backend_contexts : IndexMap ContextData
  ordered_contexts : List (Backend × ContextData)
deriving DecidableEq

/-- The body of the loop "Adjust the order of backends": `emplace_back` for the
builtin backend, `emplace_front` for any other. -/
def adjustOrder (id : Backend → String) (ordered_contexts : List (Backend × ContextData))
    (pair : Backend × ContextData) : List (Backend × ContextData) :=
  if id pair.1 = "builtin" then ordered_contexts ++ [pair] else pair :: ordered_contexts

/-- The deque `ordered_contexts` after the loop "Adjust the order of
backends"; the loop "Generate kernels" invokes `genKernels` on its elements
from front to back. -/
def orderedContexts (id : Backend → String) (backend_contexts : IndexMap ContextData) :
    List (Backend × ContextData) :=
  backend_contexts.foldl (adjustOrder id) []

/-- The function `ExecutorFactory::createLinearExecutor`. -/
def createLinearExecutor (env : FactoryEnv) (lowered_graph : LoweredGraph)
    (options : CompilerOptions) : Except String Executor :=
  match createBackendContexts env.getAll lowered_graph
      (env.topolSortOperations lowered_graph.graph) (decide (options.executor = "Linear")) with
  | .error msg => .error msg
  | .ok backend_contexts =>
    match env.generate backend_contexts with
    | .error msg => .error msg
    | .ok _ =>
      .ok { cls := .LinearExecutor
            backend_contexts := backend_contexts
            ordered_contexts := orderedContexts env.id backend_contexts }

/-- The function `ExecutorFactory::createDataflowExecutor`. -/
def createDataflowExecutor (env : FactoryEnv) (lowered_graph : LoweredGraph)
    (options : CompilerOptions) (parallel : Bool) : Except String Executor :=
  match createBackendContexts env.getAll lowered_graph
      (env.topolSortOperations lowered_graph.graph) (decide (options.executor = "Linear")) with
  | .error msg => .error msg
  | .ok backend_contexts =>
    match env.generate backend_contexts with
    | .error msg => .error msg
    | .ok _ =>
      .ok { cls := if parallel then .ParallelExecutor else .DataflowExecutor
            backend_contexts := backend_contexts
            ordered_contexts := orderedContexts env.id backend_contexts }

/-- The member `ExecutorFactory::_map` as the constructor of the factory fills
it. -/
def ExecutorFactory._map (env : FactoryEnv) :
    List (String × (LoweredGraph → CompilerOptions → Except String Executor)) :=
  [("Linear", createLinearExecutor env),
   ("Dataflow", fun lowered_graph options =>
      createDataflowExecutor env lowered_graph options false),
   ("Parallel", fun lowered_graph options =>
      createDataflowExecutor env lowered_graph options true)]

/-- The function `ExecutorFactory::create`; `_map.at` throws for a name that is
not a key of the map. -/
def ExecutorFactory.create (env : FactoryEnv) (lowered_graph : LoweredGraph)
    (options : CompilerOptions) : Except String Executor :=
  match (ExecutorFactory._map env).lookup options.executor with
  | none => .error "out_of_range"
  | some creator => creator lowered_graph options

/-- No registry of the backend contexts returns a tensor for operand `ind`. -/
def NoTensor (backend_contexts : IndexMap PortableTensorRegistryTemplate)
    (ind : OperandIndex) : Prop :=
  ∀ e ∈ backend_contexts, e.2.getITensor ind = none

instance (backend_contexts : IndexMap PortableTensorRegistryTemplate) (ind : OperandIndex) :
    Decidable (NoTensor backend_contexts ind) := by
  delta NoTensor
  infer_instance

/-! ## Tensor generation (`genTensors`, `BackendContextHelpers.h`) -/

/-- The body of the first iteration of `genTensors` over the operands of the
graph: an operand that is neither a graph input or output nor external is
registered with the tensor builder. -/
def registerOperand (ctx : BackendContext) (tensor_builder : TensorBuilder)
    (e : OperandIndex × Operand) : TensorBuilder :=
  if e.1 ∈ model_io ctx.graph then tensor_builder
  else if e.1 ∈ ctx.external_operands then tensor_builder
  else tensor_builder.registerTensorInfo e.1

/-- The body of the iteration over the operands that `genTensors` runs for an
executor without a fixed linear order. -/
def notifyRegistered (tensor_builder : TensorBuilder) (e : OperandIndex × Operand) :
    TensorBuilder :=
  if tensor_builder.isRegistered e.1 then tensor_builder.notifyFirstUse e.1
  else tensor_builder

/-- The backend context after the registrations of `genTensors`. -/
def registeredContext (ctx : BackendContext) : BackendContext :=
  { ctx with tensor_builder := ctx.graph.operands.foldl (registerOperand ctx) ctx.tensor_builder }

/-- The function `genTensors`: the outcome, and the tensor builder as it leaves
it. `executor` is the value of `util::getConfigString(util::config::EXECUTOR)`. -/
def genTensors (ctx : BackendContext) (order : List OperationIndex) (executor : String) :
    Except String Unit × TensorBuilder :=
  if executor = "Linear" then
    match planTensors (registeredContext ctx) order with
    | (.ok _, st) => (.ok (), st.tensor_builder.allocate)
    | (.error msg, st) => (.error msg, st.tensor_builder)
  else
    (.ok (),
      (ctx.graph.operands.foldl notifyRegistered (registeredContext ctx).tensor_builder).allocate)

/-- Whether a call is a first-use or a last-use notification. -/
def BuilderCall.isNotification : BuilderCall → Bool
  | .notifyFirstUse _ => true
  | .notifyLastUse _ => true
  | _ => false

/-! ### The operands that `planTensors` can touch -/

/-- The operand a call is about; `allocate` is about none. -/
def BuilderCall.operand : BuilderCall → Option OperandIndex
  | .registerTensorInfo ind => some ind
  | .notifyFirstUse ind => some ind
  | .notifyLastUse ind => some ind
  | .planDealloc _ ind => some ind
  | .allocate => none

/-- The operand can pass a guard of `planTensors`: it is not a graph input or
output, and it is registered with the tensor builder of the context or is
planned. -/
def Touchable (ctx : BackendContext) (k : OperandIndex) : Prop :=
  k ∉ model_io ctx.graph ∧ (k ∈ ctx.tensor_builder.registered ∨ Planned ctx k)

/-- What holds of every state of `planTensors`: registrations, map entries,
the list of constants and the calls issued so far are about operands that can
pass a guard. -/
structure Within (ctx : BackendContext) (st : PlanState) : Prop where
  registered : ∀ k ∈ st.tensor_builder.registered,
    k ∈ ctx.tensor_builder.registered ∨ Planned ctx k
  uses : ∀ k ∈ IndexMap.keys st.uses_map, Touchable ctx k
  defs : ∀ k ∈ IndexMap.keys st.def_map, Touchable ctx k
  consts : ∀ k ∈ st.constants, Touchable ctx k
  calls : ∃ issued, st.tensor_builder.calls = ctx.tensor_builder.calls ++ issued ∧
    ∀ c ∈ issued, ∀ k ∈ c.operand, Touchable ctx k

/-! ### The calls that `planTensors` issues for one operation -/

/-- Whether operand `ind` of the graph is a variable
(`graph.operands().at(ind).info().isVariable()`). -/
def variableOperand (graph : Graph) (ind : OperandIndex) : Bool :=
  match IndexMap.find graph.operands ind with
  | some operand => operand.isVariable
  | none => false

/-- The last-use notification and the planned deallocation of each of the
listed operands, in order. -/
def lastUseCalls (op_ind : OperationIndex) : List OperandIndex → List BuilderCall
  | [] => []
  | ind :: rest => .notifyLastUse ind :: .planDealloc op_ind ind :: lastUseCalls op_ind rest

/-- The calls of the "Define outputs" loop for operation `op_ind`, run from
state `st`. -/
def outputCalls (ctx : BackendContext) (st : PlanState) (op_ind : OperationIndex) :
    List BuilderCall :=
  ((ctx.graph.outputsOf op_ind).filter fun k =>
    decide (Gate ctx.graph st.tensor_builder.registered k ∧
      IndexMap.get st.def_map k ≠ 0)).map BuilderCall.notifyFirstUse

/-- The calls of the "Scan variable tensors" loop for operation `op_ind`. -/
def variableCalls (ctx : BackendContext) (st : PlanState) (op_ind : OperationIndex) :
    List BuilderCall :=
  ((ctx.graph.inputsOf op_ind).filter fun k =>
    decide (Gate ctx.graph st.tensor_builder.registered k ∧
      variableOperand ctx.graph k = true)).map BuilderCall.notifyFirstUse

/-- The calls of the loop over the uses of the inputs of operation `op_ind`,
run from state `st`. -/
def inputCalls (ctx : BackendContext) (st : PlanState) (op_ind : OperationIndex) :
    List BuilderCall :=
  lastUseCalls op_ind
    ((ctx.graph.inputsOf op_ind).filter fun k =>
      decide (Gate ctx.graph st.tensor_builder.registered k ∧
        uint32_dec (IndexMap.get st.uses_map k) = 0))

/-- Every defined input of an operation of the graph is an operand of the
graph. -/
def Graph.InputsExist (graph : Graph) : Prop :=
  ∀ op_ind ∈ IndexMap.keys graph.operations, ∀ k ∈ graph.inputsOf op_ind,
    k ∈ IndexMap.keys graph.operands

instance (graph : Graph) : Decidable graph.InputsExist := by
  delta Graph.InputsExist
  infer_instance

/-- The data model of operands: an operand that an operation defines is
neither a constant nor a variable. -/
def Graph.DefinedAreComputed (graph : Graph) : Prop :=
  ∀ e ∈ graph.operands, e.2.getDef.isSome = true →
    e.2.isConstant = false ∧ e.2.isVariable = false

instance (graph : Graph) : Decidable graph.DefinedAreComputed := by
  delta Graph.DefinedAreComputed
  infer_instance

/-! ## Native tensors after tensor generation -/

/-- Modelled from the spec: whether the operation is a conversion between
placement factors (`ir::OpCode::Permute`, declared in `ir/OpCodes.h`); the
opcode is numbered `65535` here. -/
def Operation.isPermute (op : Operation) : Bool := op.opcode == 65535

/-- The first loop of `initializeSubgraphIOTensors`: the backend whose registry
`builtin_tensor_reg` ends up pointing to, the last one in iteration order whose
id is `builtin::Config::ID`, the string "builtin"; none when the pointer stays
null. -/
def findBuiltin (id : Backend → String) (backend_contexts : IndexMap ContextData) :
    Option Backend :=
  backend_contexts.foldl
    (fun builtin_tensor_reg e => if id e.1 = "builtin" then some e.1 else builtin_tensor_reg)
    none

/-- Modelled from the spec: `ir::OperandInfo` (declared in `ir/OperandInfo.h`):
the shape, the element type and the constant and variable flags of an
operand. -/
structure OperandInfo where
  shape : List Nat
  typeInfo : Nat
  isConstant : Bool
  isVariable : Bool
deriving DecidableEq

/-- Modelled from the spec: the accessor `ir::Operand::info()`. -/
def Operand.info (operand : Operand) : OperandInfo :=
  { shape := operand.shape, typeInfo := operand.typeInfo, isConstant := operand.isConstant,
    isVariable := operand.isVariable }

/-- Modelled from the spec: `backend::builtin::IOTensor` (declared in
`backend/builtin/IOTensor.h`), as far as its constructor fixes it: the operand
info and the layout it is built from. -/
structure IOTensor where
  info : OperandInfo
  layout : Layout
deriving DecidableEq

/-- The second loop of `initializeSubgraphIOTensors`: the calls
`setNativeIOTensor(ind, tensor)` made on the registry `builtin_tensor_reg`, as
the entries they store. `at` throws for an index that is not in the graph; the
call through a null `builtin_tensor_reg` is an error. -/
def setNativeIOTensors (lowered_graph : LoweredGraph) (builtin_tensor_reg : Option Backend) :
    List OperandIndex → Except String (IndexMap IOTensor)
  | [] => .ok []
  | ind :: rest =>
    match IndexMap.find lowered_graph.graph.operands ind with
    | none => .error "out_of_range"
    | some operand =>
      if builtin_tensor_reg.isSome = false then .error "null builtin_tensor_reg"
      else
        match setNativeIOTensors lowered_graph builtin_tensor_reg rest with
        | .error msg => .error msg
        | .ok done => .ok ((ind, { info := operand.info, layout := Layout.NHWC }) :: done)

/-- The function `initializeSubgraphIOTensors`: the backend whose registry got
the IOTensors, and the IOTensors it got, by operand. -/
def initializeSubgraphIOTensors (id : Backend → String) (lowered_graph : LoweredGraph)
    (backend_contexts : IndexMap ContextData) (indices : List OperandIndex) :
    Except String (Option Backend × IndexMap IOTensor) :=
  match setNativeIOTensors lowered_graph (findBuiltin id backend_contexts) indices with
  | .error msg => .error msg
  | .ok done => .ok (findBuiltin id backend_contexts, done)

/-- Modelled from the spec: the backend context that `backend->newContext`
creates from the context data (defined in each backend's `Backend.h`): it has
the partial graph and the external operands of the data, and a tensor builder
that has received no call. -/
def newContext (data : ContextData) : BackendContext :=
  { graph := data.graph, external_operands := data.external_operands,
    tensor_builder := { registered := [], calls := [] } }

/-- Modelled from the spec: the native side of the tensor registry of a
backend after tensor generation (`cpu_common::TensorBuilder`,
`builtin::TensorRegistry`, declared outside `ExecutorFactory.cc`): the operands
registered with the tensor builder of the backend, which builds a native
tensor for each of them, and the operands for which the registry got a native
IOTensor. -/
structure NativeTensors where
  native : List OperandIndex
  native_io : List OperandIndex
deriving DecidableEq

/-- The registry holds a native tensor for the operand. -/
def NativeTensors.holds (r : NativeTensors) (ind : OperandIndex) : Prop :=
  ind ∈ r.native ∨ ind ∈ r.native_io

instance (r : NativeTensors) (ind : OperandIndex) : Decidable (r.holds ind) := by
  delta NativeTensors.holds
  infer_instance

/-- The loop `for (auto &pair : backend_contexts) pair.second->genTensors()`:
the operands registered with the tensor builder of each backend. `executor` is
the configured executor name. -/
def genTensorsAll (executor : String) :
    List (Backend × ContextData) → Except String (IndexMap (List OperandIndex))
  | [] => .ok []
  | pair :: rest =>
    match genTensors (newContext pair.2) pair.2.op_order executor with
    | (.error msg, _) => .error msg
    | (.ok _, tensor_builder) =>
      match genTensorsAll executor rest with
      | .error msg => .error msg
      | .ok done => .ok ((pair.1, tensor_builder.registered) :: done)

/-- The steps of `createLinearExecutor` and `createDataflowExecutor` from
`initializeSubgraphIOTensors` to the loop over `genTensors`: the native tensors
that the registry of each backend holds afterwards. -/
def generateTensors (id : Backend → String) (executor : String) (lowered_graph : LoweredGraph)
    (backend_contexts : IndexMap ContextData) : Except String (IndexMap NativeTensors) :=
  match initializeSubgraphIOTensors id lowered_graph backend_contexts
      (removeUndefined (removeDuplicated
        (lowered_graph.graph.getInputs ++ lowered_graph.graph.getOutputs))) with
  | .error msg => .error msg
  | .ok subgraph_io =>
    match genTensorsAll executor backend_contexts with
    | .error msg => .error msg
    | .ok registered =>
      .ok (registered.map fun pair =>
        (pair.1, { native := pair.2
                   native_io :=
                     if subgraph_io.1 = some pair.1 then IndexMap.keys subgraph_io.2 else [] }))

/-- What holds of the graph inputs and outputs of a partial graph while the
operations are distributed: they are the graph inputs and outputs of the whole
graph among the copied operands, and every copied operand has a def-side
factor. -/
structure SubgraphInv (lgraph : LoweredGraph) (data : ContextData) : Prop where
  inputs : ∀ x, x ∈ data.graph.getInputs ↔
    ∃ ind, x = some ind ∧ ind ∈ IndexMap.keys data.graph.operands ∧
      some ind ∈ lgraph.graph.getInputs
  outputs : ∀ x, x ∈ data.graph.getOutputs ↔
    ∃ ind, x = some ind ∧ ind ∈ IndexMap.keys data.graph.operands ∧
      some ind ∈ lgraph.graph.getOutputs
  def_side : ∀ ind ∈ IndexMap.keys data.graph.operands, (defBackend lgraph ind).isSome = true

/-! ## Permutation insertion (`PermutationInsertionPass`) -/

/-- Modelled from the spec: the use-side factor that a consuming operation
requests for the operands it reads: the backend and the layout that the lower
info assigns to the operation. -/
def requestedFactor (lgraph : LoweredGraph) (op_ind : OperationIndex) : Option PermuteFactor :=
  (IndexMap.find lgraph.lower_info.operation op_ind).map fun op_li =>
    { backend := op_li.backend, layout := op_li.layout }

/-- The def-side factor that the lower info records for an operand. -/
def defFactor (lgraph : LoweredGraph) (index : OperandIndex) : Option PermuteFactor :=
  match IndexMap.find lgraph.lower_info.operand index with
  | some operand_li => operand_li.def_factors.head?
  | none => none

/-- Modelled from the spec: the distinct use-side factors of an operand, the
factors requested by the operations that read it, each one once. -/
def useFactors (lgraph : LoweredGraph) (index : OperandIndex) : List PermuteFactor :=
  removeDuplicated
    ((lgraph.graph.operations.filter fun e => decide (some index ∈ e.2.getInputs)).filterMap
      fun e => requestedFactor lgraph e.1)

/-- Modelled from the spec: the factors for which the pass synthesizes a
conversion of the operand: its use-side factors that differ from its def-side
factor. -/
def insertSet (lgraph : LoweredGraph) (index : OperandIndex) : List PermuteFactor :=
  match defFactor lgraph index with
  | some def_factor => (useFactors lgraph index).filter fun factor => decide (factor ≠ def_factor)
  | none => []

/-- Modelled from the spec: a conversion that the pass synthesizes: the
original operand, the target factor, and the indices of the conversion
operation and of its output operand. -/
structure InsertedPermute where
  operand : OperandIndex
  factor : PermuteFactor
  operation : OperationIndex
  output : OperandIndex
deriving DecidableEq

/-- An index above every index of the list. -/
def freshIndex (indices : List Nat) : Nat := indices.foldl max 0 + 1

/-- Modelled from the spec: the conversions to synthesize, for the operands in
iteration order and for each of them one per factor of its insert set. -/
def permutesOf (lgraph : LoweredGraph) : List OperandIndex → List (OperandIndex × PermuteFactor)
  | [] => []
  | index :: rest =>
    (insertSet lgraph index).map (fun factor => (index, factor)) ++ permutesOf lgraph rest

/-- Modelled from the spec: fresh consecutive indices for the conversion
operations and for their output operands. -/
def numberPermutes : OperationIndex → OperandIndex → List (OperandIndex × PermuteFactor) →
    List InsertedPermute
  | _, _, [] => []
  | permute_index, output, required :: rest =>
    { operand := required.1, factor := required.2, operation := permute_index,
      output := output } :: numberPermutes (permute_index + 1) (output + 1) rest

/-- Modelled from the spec: the conversions that the pass inserts into a
lowered graph. -/
def insertedPermutes (lgraph : LoweredGraph) : List InsertedPermute :=
  numberPermutes (freshIndex (IndexMap.keys lgraph.graph.operations))
    (freshIndex (IndexMap.keys lgraph.graph.operands))
    (permutesOf lgraph (IndexMap.keys lgraph.graph.operands))

/-- Modelled from the spec: the operand that a use of `index` requesting
`factor` reads after the pass: the output of the conversion of `index` to
`factor`, or `index` itself when there is no such conversion. -/
def permutedOperand : List InsertedPermute → OperandIndex → PermuteFactor → OperandIndex
  | [], index, _ => index
  | permute :: rest, index, factor =>
    if permute.operand = index ∧ permute.factor = factor then permute.output
    else permutedOperand rest index factor

/-- Modelled from the spec: the rewiring of the uses: every defined input of
the operation is replaced by the operand that a use requesting the operation's
factor reads. -/
def rewireInputs (lgraph : LoweredGraph) (inserted : List InsertedPermute)
    (op_ind : OperationIndex) (op : Operation) : Operation :=
  match requestedFactor lgraph op_ind with
  | none => op
  | some factor =>
    { op with
      getInputs := op.getInputs.map fun input =>
        input.map fun index => permutedOperand inserted index factor }

/-- Modelled from the spec: the conversion operation: a `Permute` that reads
the original operand and writes the new operand. -/
def InsertedPermute.toOperation (permute : InsertedPermute) : Operation :=
  { opcode := 65535, getInputs := [some permute.operand], getOutputs := [some permute.output] }

/-- Modelled from the spec: the descriptor of the new operand: the shape and
the type of the original operand; it is neither a constant nor a variable. -/
def InsertedPermute.toOperand (lgraph : LoweredGraph) (permute : InsertedPermute) : Operand :=
  match IndexMap.find lgraph.graph.operands permute.operand with
  | some object =>
    { object with isConstant := false, isVariable := false, getUses := [], getDef := none }
  | none =>
    { shape := [], typeInfo := 0, isConstant := false, isVariable := false, getUses := [],
      getDef := none }

/-- Modelled from the spec: the permutation insertion pass
(`PermutationInsertionPass::run`, defined in `PermutationInsertionPass.cc`):
for every operand and every use-side factor that differs from its def-side
factor, one conversion operation from the operand to a new operand carrying
that factor is added, on the builtin backend `builtin`, and the uses that
requested the factor read the new operand; the use sets and defs are rebuilt
from the operations. -/
def PermutationInsertionPass.run (builtin : Backend) (lgraph : LoweredGraph) : LoweredGraph :=
  { graph :=
      Graph.finishBuilding
        { lgraph.graph with
          operands := lgraph.graph.operands ++
            (insertedPermutes lgraph).map fun permute =>
              (permute.output, permute.toOperand lgraph)
          operations :=
            (lgraph.graph.operations.map fun e =>
              (e.1, rewireInputs lgraph (insertedPermutes lgraph) e.1 e.2)) ++
            (insertedPermutes lgraph).map fun permute =>
              (permute.operation, permute.toOperation) }
    lower_info :=
      { operation :=
          ((insertedPermutes lgraph).map fun permute =>
            (permute.operation,
              ({ backend := builtin, layout := permute.factor.layout } : OperationLowerInfo))) ++
          lgraph.lower_info.operation
        operand :=
          ((insertedPermutes lgraph).map fun permute =>
            (permute.output, ({ def_factors := [permute.factor] } : OperandLowerInfo))) ++
          lgraph.lower_info.operand } }

/-! ## Registries without null entries -/

/-- The tensor argument of a call is not the null pointer. -/
def RegistryCall.NonNull : RegistryCall → Prop
  | .setNativeTensor _ tensor => tensor.isSome = true
  | .setMigrantTensor _ tensor => tensor.isSome = true

instance (c : RegistryCall) : Decidable c.NonNull := by
  cases c <;> (simp only [RegistryCall.NonNull]; infer_instance)

/-- No lookup in either map of the registry finds an entry that holds the
null pointer: what the assertions `assert(tensor != nullptr)` of the two
setters maintain. -/
def NonNull (r : PortableTensorRegistryTemplate) : Prop :=
  ∀ ind : OperandIndex,
    IndexMap.find r._native ind ≠ some none ∧ IndexMap.find r._migrant ind ≠ some none

/-- The registry is reached from the empty registry by calls of
`setNativeTensor` and `setMigrantTensor` whose tensor argument is not null,
raising calls included. -/
def PortableTensorRegistryTemplate.Built (r : PortableTensorRegistryTemplate) : Prop :=
  ∃ calls : List RegistryCall,
    (∀ c ∈ calls, c.NonNull) ∧ r = runRegistryCalls PortableTensorRegistryTemplate.empty calls

/-! ## Topological orders -/

/-- Operation `p` is listed in the order before the first place at which
operation `c` is listed. -/
def ListedBefore (order : List OperationIndex) (p c : OperationIndex) : Prop :=
  c ∈ order ∧ p ∈ order.takeWhile fun op_ind => decide (op_ind ≠ c)

instance (order : List OperationIndex) (p c : OperationIndex) :
    Decidable (ListedBefore order p c) := by
  delta ListedBefore
  infer_instance

/-- The order is a topological order of the graph: whenever an operation of
the graph produces an operand that an operation of the graph consumes, the
producer is listed before the consumer. -/
def TopologicalOrder (graph : Graph) (order : List OperationIndex) : Prop :=
  ∀ p ∈ IndexMap.keys graph.operations, ∀ c ∈ IndexMap.keys graph.operations,
    ∀ ind ∈ graph.outputsOf p, ind ∈ graph.inputsOf c → ListedBefore order p c

instance (graph : Graph) (order : List OperationIndex) :
    Decidable (TopologicalOrder graph order) := by
  delta TopologicalOrder
  infer_instance

/-- The calls of the "Dispose and validate" loop over `constants`, run from
state `st`. -/
def disposeCalls (st : PlanState) : List BuilderCall :=
  (st.constants.filter fun ind =>
    decide (uint32_dec (IndexMap.get st.uses_map ind) = 0)).map BuilderCall.notifyLastUse

/-- Every planned operand that no operation defines is a constant or a
variable. -/
def UndefinedHaveData (ctx : BackendContext) : Prop :=
  ∀ e ∈ ctx.graph.operands, Planned ctx e.1 → e.2.getDef = none →
    e.2.isConstant = true ∨ e.2.isVariable = true

instance (ctx : BackendContext) : Decidable (UndefinedHaveData ctx) := by
  delta UndefinedHaveData
  infer_instance

/-! ### The calls of `setMigrantTensor` made by `prepareMigrantTensors` -/

/-- One call `tensor_registry->setMigrantTensor(ind, ptensor)` made by
`prepareMigrantTensors`: the backend whose registry receives it, the operand,
the tensor, and the registry as it is when the call is made. -/
structure MigrantCall where
  backend : Backend
  ind : OperandIndex
  tensor : ITensor
  registry : PortableTensorRegistryTemplate
deriving DecidableEq

/-- The registries of the backend contexts after the call. -/
def applyMigrantCall (backend_contexts : IndexMap PortableTensorRegistryTemplate)
    (call : MigrantCall) : IndexMap PortableTensorRegistryTemplate :=
  IndexMap.set backend_contexts call.backend
    (call.registry.setMigrantTensor call.ind (some call.tensor)).2

/-- The call of `setMigrantTensor` made by the body of the loop over the inputs
and outputs of an operation, if it makes one: the branches are those of
`migrateOperand`. -/
def migrateOperandCall (tensor_regs : List Backend) (backend : Backend)
    (backend_contexts : IndexMap PortableTensorRegistryTemplate) (ind : OperandIndex) :
    Option MigrantCall :=
  match IndexMap.find backend_contexts backend with
  | none => none
  | some tensor_registry =>
    if (tensor_registry.getITensor ind).isSome then none
    else
      match TensorRegistries.getITensor tensor_regs backend_contexts ind with
      | none => none
      | some tensor =>
        if tensor.portable then
          some { backend := backend, ind := ind, tensor := tensor, registry := tensor_registry }
        else none

/-- The calls of `setMigrantTensor` made by the loop over the inputs and
outputs of one operation, in order. -/
def migrateOperandsCalls (tensor_regs : List Backend) (backend : Backend) :
    IndexMap PortableTensorRegistryTemplate → List OperandIndex → List MigrantCall
  | _, [] => []
  | backend_contexts, ind :: rest =>
    (migrateOperandCall tensor_regs backend backend_contexts ind).toList ++
      match migrateOperand tensor_regs backend backend_contexts ind with
      | (.ok _, backend_contexts') =>
        migrateOperandsCalls tensor_regs backend backend_contexts' rest
      | (.error _, _) => []

/-- The calls of `setMigrantTensor` made for one operation of the whole
graph. -/
def migrateOperationCalls (lgraph : LoweredGraph) (tensor_regs : List Backend)
    (backend_contexts : IndexMap PortableTensorRegistryTemplate)
    (e : OperationIndex × Operation) : List MigrantCall :=
  match IndexMap.find lgraph.lower_info.operation e.1 with
  | none => []
  | some lower_info =>
    match IndexMap.find backend_contexts lower_info.backend with
    | none => []
    | some _ =>
      migrateOperandsCalls tensor_regs lower_info.backend backend_contexts
        (removeUndefined (removeDuplicated (e.2.getInputs ++ e.2.getOutputs)))

/-- The calls of `setMigrantTensor` made by the iteration over the operations
of the whole graph, in order. -/
def migrateOperationsCalls (lgraph : LoweredGraph) (tensor_regs : List Backend) :
    IndexMap PortableTensorRegistryTemplate → List (OperationIndex × Operation) →
      List MigrantCall
  | _, [] => []
  | backend_contexts, e :: rest =>
    migrateOperationCalls lgraph tensor_regs backend_contexts e ++
      match migrateOperation lgraph tensor_regs backend_contexts e with
      | (.ok _, backend_contexts') =>
        migrateOperationsCalls lgraph tensor_regs backend_contexts' rest
      | (.error _, _) => []

/-- The calls of `setMigrantTensor` made by `prepareMigrantTensors`, in order. -/
def prepareMigrantTensorsCalls (lgraph : LoweredGraph) (tensor_regs : List Backend)
    (backend_contexts : IndexMap PortableTensorRegistryTemplate) : List MigrantCall :=
  migrateOperationsCalls lgraph tensor_regs backend_contexts lgraph.graph.operations

/-- Each call of the list is made on the registry that its backend has once
the calls before it have been made. -/
def CallsTimed : IndexMap PortableTensorRegistryTemplate → List MigrantCall → Prop
  | _, [] => True
  | backend_contexts, call :: rest =>
    IndexMap.find backend_contexts call.backend = some call.registry ∧
      CallsTimed (applyMigrantCall backend_contexts call) rest

instance decCallsTimed : (st : IndexMap PortableTensorRegistryTemplate) →
    (calls : List MigrantCall) → Decidable (CallsTimed st calls)
  | _, [] => isTrue trivial
  | st, call :: rest =>
    have := decCallsTimed (applyMigrantCall st call) rest
    (inferInstance : Decidable (IndexMap.find st call.backend = some call.registry ∧
      CallsTimed (applyMigrantCall st call) rest))

/-- What holds of a run of a loop of `prepareMigrantTensors` that starts with
the registries `st` and ends with outcome `outcome` and registries `st'`, and
of the calls listed for it: the calls are made on the registries as they are
at the time, they account for every change of the registries, each is made
for an operand its registry returns no tensor for, and an error is `at`
throwing, the null lower info, or the error of one of the calls. -/
structure Traced (st : IndexMap PortableTensorRegistryTemplate) (calls : List MigrantCall)
    (outcome : Except String Unit) (st' : IndexMap PortableTensorRegistryTemplate) :
    Prop where
  timed : CallsTimed st calls
  replay : st' = calls.foldl applyMigrantCall st
  no_tensor : ∀ c ∈ calls, c.registry.getITensor c.ind = none
  error : ∀ msg, outcome = .error msg →
    msg = "out_of_range" ∨ msg = "null lower info" ∨
      ∃ c ∈ calls, (c.registry.setMigrantTensor c.ind (some c.tensor)).1 = .error msg

/-! ### Lowered graphs after permutation insertion -/

/-- Every operation other than a conversion uses and defines its operands on
their def-side backend: an operand it references that is not a graph input or
output has the backend of the operation as the backend of its def-side
factor. -/
def LoweredGraph.OperandsOnDefSide (lgraph : LoweredGraph) : Prop :=
  ∀ e ∈ lgraph.graph.operations, e.2.isPermute = false →
    ∀ ind ∈ removeUndefined (removeDuplicated (e.2.getInputs ++ e.2.getOutputs)),
      ind ∉ model_io lgraph.graph → defBackend lgraph ind = assignedBackend lgraph e.1

instance (lgraph : LoweredGraph) : Decidable lgraph.OperandsOnDefSide := by
  delta LoweredGraph.OperandsOnDefSide
  infer_instance

/-- A conversion connects operands of other operations: every operand that a
conversion reads or writes and that is not a graph input or output is
referenced by an operation that is not a conversion (the pass inserts a
conversion of an operand only towards a factor that a reader of the operand
requests). -/
def LoweredGraph.ConversionsConnect (lgraph : LoweredGraph) : Prop :=
  ∀ e ∈ lgraph.graph.operations, e.2.isPermute = true →
    ∀ ind ∈ removeUndefined (removeDuplicated (e.2.getInputs ++ e.2.getOutputs)),
      ind ∉ model_io lgraph.graph →
        ∃ e' ∈ lgraph.graph.operations, e'.2.isPermute = false ∧ e'.2.references ind

instance (lgraph : LoweredGraph) : Decidable lgraph.ConversionsConnect := by
  delta LoweredGraph.ConversionsConnect
  infer_instance

/-! ## Example graphs -/

/-- An operand descriptor of shape `[1]`. -/
def exampleOperand (isConstant isVariable : Bool) (uses : List OperationIndex)
    (definer : Option OperationIndex) : Operand :=
  { shape := [1], typeInfo := 0, isConstant := isConstant, isVariable := isVariable,
    getUses := uses, getDef := definer }

/-- The graph `Const(0), Input(1) → OpA(0) → T(2) → OpB(1) → Output(3)`; `OpB`
reads `T` twice and has an undefined optional input. -/
def scenarioBGraph : Graph :=
  { operands := [(0, exampleOperand true false [0] none),
                 (1, exampleOperand false false [0] none),
                 (2, exampleOperand false false [1] (some 0)),
                 (3, exampleOperand false false [] (some 1))]
    operations := [(0, { opcode := 0, getInputs := [some 1, some 0], getOutputs := [some 2] }),
                   (1, { opcode := 1, getInputs := [some 2, none, some 2],
                         getOutputs := [some 3] })]
    getInputs := [some 1]
    getOutputs := [some 3]
    layout := .NHWC }

/-- A backend context for `scenarioBGraph` with a fresh tensor builder. -/
def scenarioBContext : BackendContext :=
  { graph := scenarioBGraph, external_operands := [],
    tensor_builder := { registered := [], calls := [] } }

/-- The scenario-B graph lowered onto three registered backends `0`, `1`, `2`:
`OpA` runs on backend `0`, `OpB` on backend `1`, and no operation is assigned
to backend `2`, which owns the graph input. -/
def scenarioBLowered : LoweredGraph :=
  { graph := scenarioBGraph
    lower_info :=
      { operation := [(0, { backend := 0, layout := .NHWC }),
                      (1, { backend := 1, layout := .NHWC })]
        operand := [(0, { def_factors := [{ backend := 0, layout := .NHWC }] }),
                    (1, { def_factors := [{ backend := 2, layout := .NHWC }] }),
                    (2, { def_factors := [{ backend := 0, layout := .NHWC }] }),
                    (3, { def_factors := [{ backend := 1, layout := .NHWC }] })] } }

/-- The backend contexts created for `scenarioBLowered`. -/
def scenarioBContexts : IndexMap ContextData :=
  match createBackendContexts [0, 1, 2] scenarioBLowered [0, 1] true with
  | .ok contexts => contexts
  | .error _ => []

/-- The context data created for backend `0` of `scenarioBLowered`. -/
def scenarioBPartition0 : ContextData :=
  (IndexMap.find scenarioBContexts 0).getD (emptyContextData scenarioBLowered)

/-- Tensor registries for the backends of `scenarioBLowered` after tensor
generation: backends `0` and `1` hold portable tensors for the operands they
define, backend `2` holds a tensor for the graph input that is not portable. -/
def scenarioBRegistries : IndexMap PortableTensorRegistryTemplate :=
  [(0, { _migrant := [],
         _native := [(0, some { id := 100, portable := true }),
                     (2, some { id := 102, portable := true })] }),
   (1, { _migrant := [], _native := [(3, some { id := 103, portable := true })] }),
   (2, { _migrant := [], _native := [(1, some { id := 101, portable := false })] })]

/-- An environment for `scenarioBLowered`: backends `0`, `1` and the builtin
backend `2`, and steps that complete. -/
def scenarioBEnv : FactoryEnv :=
  { getAll := [0, 1, 2]
    id := fun backend => if backend = 2 then "builtin" else if backend = 1 then "cpu" else "ruy"
    topolSortOperations := fun _ => [0, 1]
    generate := fun _ => .ok () }

/-- The scenario-A graph `Input(0) → OpA(0) → Output(1)`. -/
def scenarioAGraph : Graph :=
  { operands := [(0, exampleOperand false false [0] none),
                 (1, exampleOperand false false [] (some 0))]
    operations := [(0, { opcode := 0, getInputs := [some 0], getOutputs := [some 1] })]
    getInputs := [some 0]
    getOutputs := [some 1]
    layout := .NHWC }

/-- The backend context of the single backend of scenario A, with the tensor
builder in state `tensor_builder`. -/
def scenarioAContext (tensor_builder : TensorBuilder) : BackendContext :=
  { graph := scenarioAGraph, external_operands := [], tensor_builder := tensor_builder }

/-- Tensor registries for the backends of `scenarioBLowered` in which no
backend holds a tensor for operand `2`, the output of `OpA`. -/
def missingTensorRegistries : IndexMap PortableTensorRegistryTemplate :=
  [(0, { _migrant := [], _native := [(0, some { id := 100, portable := true })] }),
   (1, { _migrant := [], _native := [(3, some { id := 103, portable := true })] }),
   (2, { _migrant := [], _native := [(1, some { id := 101, portable := false })] })]

/-- The lowered graph of scenario D: `Input(0) → OpA(0) → Y(1)`, and `Y` is
read by `OpB(1)` and `OpC(2)`, which write `Out1(2)` and `Out2(3)`. `OpA` runs
on backend `0`, `OpB` and `OpC` on backend `1`, all in layout NHWC. -/
def scenarioDLowered : LoweredGraph :=
  { graph :=
      { operands := [(0, exampleOperand false false [0] none),
                     (1, exampleOperand false false [1, 2] (some 0)),
                     (2, exampleOperand false false [] (some 1)),
                     (3, exampleOperand false false [] (some 2))]
        operations := [(0, { opcode := 0, getInputs := [some 0], getOutputs := [some 1] }),
                       (1, { opcode := 1, getInputs := [some 1], getOutputs := [some 2] }),
                       (2, { opcode := 1, getInputs := [some 1], getOutputs := [some 3] })]
        getInputs := [some 0]
        getOutputs := [some 2, some 3]
        layout := .NHWC }
    lower_info :=
      { operation := [(0, { backend := 0, layout := .NHWC }),
                      (1, { backend := 1, layout := .NHWC }),
                      (2, { backend := 1, layout := .NHWC })]
        operand := [(0, { def_factors := [{ backend := 0, layout := .NHWC }] }),
                    (1, { def_factors := [{ backend := 0, layout := .NHWC }] }),
                    (2, { def_factors := [{ backend := 1, layout := .NHWC }] }),
                    (3, { def_factors := [{ backend := 1, layout := .NHWC }] })] } }

/-- The model of the test `UnusedConstOutputOnly`: a single constant tensor of
shape `1x2x2x1` that is the only output of a graph with no inputs and no
operations, with its def-side factor on backend `2`. -/
def unusedConstOutputLowered : LoweredGraph :=
  { graph :=
      { operands := [(0, { shape := [1, 2, 2, 1], typeInfo := 0, isConstant := true,
                           isVariable := false, getUses := [], getDef := none })]
        operations := []
        getInputs := []
        getOutputs := [some 0]
        layout := .NHWC }
    lower_info :=
      { operation := []
        operand := [(0, { def_factors := [{ backend := 2, layout := .NHWC }] })] } }

/-- The backend contexts created for `unusedConstOutputLowered`. -/
def unusedConstOutputContexts : IndexMap ContextData :=
  match createBackendContexts [0, 1, 2] unusedConstOutputLowered [] true with
  | .ok contexts => contexts
  | .error _ => []

/-- The scenario-B graph lowered with both operations on backend `0`; backend
`2` owns the graph input. -/
def chainLowered : LoweredGraph :=
  { graph := scenarioBGraph
    lower_info :=
      { operation := [(0, { backend := 0, layout := .NHWC }),
                      (1, { backend := 0, layout := .NHWC })]
        operand := [(0, { def_factors := [{ backend := 0, layout := .NHWC }] }),
                    (1, { def_factors := [{ backend := 2, layout := .NHWC }] }),
                    (2, { def_factors := [{ backend := 0, layout := .NHWC }] }),
                    (3, { def_factors := [{ backend := 0, layout := .NHWC }] })] } }

/-- The backend contexts created for `chainLowered`. -/
def chainContexts : IndexMap ContextData :=
  match createBackendContexts [0, 1, 2] chainLowered [0, 1] true with
  | .ok contexts => contexts
  | .error _ => []

/-- The context data created for backend `0` of `chainLowered`. -/
def chainPartition0 : ContextData :=
  (IndexMap.find chainContexts 0).getD (emptyContextData chainLowered)

/-- The graph `Input(1), Var(0) → Op(0) → Output(2)`, in which operand `0` is
a variable read by `Op`. -/
def variableGraph : Graph :=
  { operands := [(0, exampleOperand false true [0] none),
                 (1, exampleOperand false false [0] none),
                 (2, exampleOperand false false [] (some 0))]
    operations := [(0, { opcode := 0, getInputs := [some 1, some 0], getOutputs := [some 2] })]
    getInputs := [some 1]
    getOutputs := [some 2]
    layout := .NHWC }

/-- A backend context for `variableGraph` with a fresh tensor builder. -/
def variableContext : BackendContext :=
  { graph := variableGraph, external_operands := [],
    tensor_builder := { registered := [], calls := [] } }

/-- The graph `Input(0) → Op(0) → Output(1), Spare(2)`: `Op` writes operand
`2`, which no operation reads and which is not a graph output. -/
def unconsumedGraph : Graph :=
  { operands := [(0, exampleOperand false false [0] none),
                 (1, exampleOperand false false [] (some 0)),
                 (2, exampleOperand false false [] (some 0))]
    operations := [(0, { opcode := 0, getInputs := [some 0],
                         getOutputs := [some 1, some 2] })]
    getInputs := [some 0]
    getOutputs := [some 1]
    layout := .NHWC }

/-- A backend context for `unconsumedGraph` with a fresh tensor builder. -/
def unconsumedContext : BackendContext :=
  { graph := unconsumedGraph, external_operands := [],
    tensor_builder := { registered := [], calls := [] } }

/-- Tensor registries for the backends of `scenarioBLowered` after tensor
generation in which every tensor is portable. -/
def portableRegistries : IndexMap PortableTensorRegistryTemplate :=
  [(0, { _migrant := [],
         _native := [(0, some { id := 100, portable := true }),
                     (2, some { id := 102, portable := true })] }),
   (1, { _migrant := [], _native := [(3, some { id := 103, portable := true })] }),
   (2, { _migrant := [], _native := [(1, some { id := 101, portable := true })] })]

/-- The lowered graph of scenario D after permutation insertion with builtin
backend `2`: `Input(0) → OpA(0) → Y(1) → Permute(3) → Y'(4)`, and `Y'` is read
by `OpB(1)` and `OpC(2)`. -/
def convertedLowered : LoweredGraph :=
  PermutationInsertionPass.run 2 scenarioDLowered

/-- The backend contexts created for `convertedLowered`. -/
def convertedContexts : IndexMap ContextData :=
  match createBackendContexts [0, 1, 2] convertedLowered [0, 3, 1, 2] false with
  | .ok contexts => contexts
  | .error _ => []

/-- The native tensors of the backends of `convertedLowered` after tensor
generation for the executor "Dataflow". -/
def convertedTensors : IndexMap NativeTensors :=
  match generateTensors scenarioBEnv.id "Dataflow" convertedLowered convertedContexts with
  | .ok registries => registries
  | .error _ => []

/-! # Lemmas and theorems -/

/-! ## Lemmas on index maps -/

namespace IndexMap

theorem find_set {α : Type} (m : IndexMap α) (k k' : Nat) (v : α) :
    find (set m k v) k' = if k = k' then some v else find m k' := by
  induction m with
  | nil => simp [set, find]
  | cons e t ih =>
    obtain ⟨a, b⟩ := e
    by_cases h : a = k
    · subst h
      by_cases h' : a = k' <;> simp [set, find, h']
    · by_cases h' : k = k'
      · subst h'
        simp [set, find, h, ih]
      · by_cases h'' : a = k'
        · subst h''
          simp [set, find, h, h']
        · simp [set, find, h, h', h'', ih]

theorem find_set_self {α : Type} (m : IndexMap α) (k : Nat) (v : α) :
    find (set m k v) k = some v := by
  simp [find_set]

theorem find_set_ne {α : Type} (m : IndexMap α) {k k' : Nat} (v : α) (h : k ≠ k') :
    find (set m k v) k' = find m k' := by
  simp [find_set, h]

theorem contains_set {α : Type} (m : IndexMap α) (k k' : Nat) (v : α) :
    contains (set m k v) k' = (decide (k = k') || contains m k') := by
  unfold contains
  rw [find_set]
  by_cases h : k = k' <;> simp [h]

end IndexMap

namespace IndexMap

theorem mem_keys_set {α : Type} (m : IndexMap α) (k k' : Nat) (v : α) :
    k' ∈ keys (set m k v) ↔ k' = k ∨ k' ∈ keys m := by
  induction m with
  | nil => simp [set, keys]
  | cons e t ih =>
    obtain ⟨a, b⟩ := e
    by_cases h : a = k
    · subst h
      simp [set, keys]
    · simp only [set, h, if_false, keys, List.map_cons, List.mem_cons] at ih ⊢
      rw [ih]
      tauto

theorem nodup_keys_set {α : Type} (m : IndexMap α) (k : Nat) (v : α)
    (h : (keys m).Nodup) : (keys (set m k v)).Nodup := by
  induction m with
  | nil => simp [set, keys]
  | cons e t ih =>
    obtain ⟨a, b⟩ := e
    by_cases hk : a = k
    · subst hk
      simpa [set, keys] using h
    · have h' : a ∉ keys t ∧ (keys t).Nodup := by simpa [keys] using h
      have hmem := mem_keys_set t k a v
      have : a ∉ keys (set t k v) := by
        rw [hmem]
        rintro (h1 | h1)
        · exact hk h1
        · exact h'.1 h1
      have ih' := ih h'.2
      simp only [set, hk, if_false, keys, List.map_cons, List.nodup_cons]
      exact ⟨by simpa [keys] using this, by simpa [keys] using ih'⟩

theorem find_eq_none_iff {α : Type} (m : IndexMap α) (k : Nat) :
    find m k = none ↔ k ∉ keys m := by
  induction m with
  | nil => simp [find, keys]
  | cons e t ih =>
    obtain ⟨a, b⟩ := e
    by_cases h : a = k
    · subst h
      simp [find, keys]
    · have h' : ¬ k = a := fun hh => h hh.symm
      simp only [find, h, if_false, ih, keys, List.map_cons, List.mem_cons, h', false_or]

theorem mem_keys_of_find {α : Type} {m : IndexMap α} {k : Nat} {v : α}
    (h : find m k = some v) : k ∈ keys m := by
  by_contra hk
  rw [← find_eq_none_iff] at hk
  rw [hk] at h
  exact Option.noConfusion h

theorem mem_of_find {α : Type} {m : IndexMap α} {k : Nat} {v : α}
    (h : find m k = some v) : (k, v) ∈ m := by
  induction m with
  | nil => simp [find] at h
  | cons e t ih =>
    obtain ⟨a, b⟩ := e
    by_cases hk : a = k
    · subst hk
      simp only [find, if_true, Option.some.injEq] at h
      subst h
      exact List.mem_cons_self _ _
    · simp only [find, hk, if_false] at h
      exact List.mem_cons_of_mem _ (ih h)

theorem find_of_mem {α : Type} {m : IndexMap α} {k : Nat} {v : α}
    (hnd : (keys m).Nodup) (h : (k, v) ∈ m) : find m k = some v := by
  induction m with
  | nil => simp at h
  | cons e t ih =>
    obtain ⟨a, b⟩ := e
    have h' : a ∉ keys t ∧ (keys t).Nodup := by simpa [keys] using hnd
    rcases List.mem_cons.1 h with heq | hmem
    · cases heq
      simp [find]
    · have hk : k ∈ keys t := List.mem_map.2 ⟨(k, v), hmem, rfl⟩
      have hne : ¬ a = k := by
        intro hh
        subst hh
        exact h'.1 hk
      simp only [find, hne, if_false]
      exact ih h'.2 hmem

theorem exists_find_of_mem_keys {α : Type} {m : IndexMap α} {k : Nat}
    (h : k ∈ keys m) : ∃ v, find m k = some v := by
  cases hf : find m k with
  | none => exact absurd h ((find_eq_none_iff m k).1 hf)
  | some v => exact ⟨v, rfl⟩

theorem find_touch (m : IndexMap Nat) (k k' : Nat) :
    find (touch m k) k' =
      if k = k' ∧ find m k = none then some 0 else find m k' := by
  unfold touch contains
  cases hf : find m k with
  | none =>
    simp only [Option.isSome_none, Bool.false_eq_true, if_false, find_set, and_true]
  | some v =>
    simp

theorem nodup_keys_touch (m : IndexMap Nat) (k : Nat) (h : (keys m).Nodup) :
    (keys (touch m k)).Nodup := by
  unfold touch
  split
  · exact h
  · exact nodup_keys_set m k 0 h

theorem mem_keys_touch (m : IndexMap Nat) (k k' : Nat) :
    k' ∈ keys (touch m k) ↔ k' = k ∨ k' ∈ keys m := by
  unfold touch contains
  cases hf : find m k with
  | none => simp [mem_keys_set]
  | some v =>
    have := mem_keys_of_find hf
    simp only [Option.isSome_some, if_true]
    constructor
    · exact Or.inr
    · rintro (h | h)
      · subst h
        exact this
      · exact h

theorem get_eq_of_find {m : IndexMap Nat} {k v : Nat} (h : find m k = some v) :
    get m k = v := by
  simp [get, h]

/-- Every entry is zero as soon as every lookup is. -/
theorem all_zero_of_find (m : IndexMap Nat) (hnd : (keys m).Nodup)
    (h : ∀ k v, find m k = some v → v = 0) : m.all (fun it => it.2 == 0) = true := by
  rw [List.all_eq_true]
  intro e he
  obtain ⟨k, v⟩ := e
  have := h k v (find_of_mem hnd he)
  simp [this]

end IndexMap

/-! ## Lemmas on index sequences -/

theorem removeDuplicated_aux {α : Type} [DecidableEq α] (seq acc : List α) (h : acc.Nodup) :
    (seq.foldl (fun acc ind => if ind ∈ acc then acc else acc ++ [ind]) acc).Nodup ∧
    ∀ x, x ∈ seq.foldl (fun acc ind => if ind ∈ acc then acc else acc ++ [ind]) acc ↔
      x ∈ acc ∨ x ∈ seq := by
  induction seq generalizing acc with
  | nil => simp [h]
  | cons a t ih =>
    simp only [List.foldl_cons]
    by_cases ha : a ∈ acc
    · simp only [ha, if_true]
      obtain ⟨h1, h2⟩ := ih acc h
      refine ⟨h1, fun x => ?_⟩
      rw [h2 x, List.mem_cons]
      constructor
      · rintro (hx | hx)
        · exact Or.inl hx
        · exact Or.inr (Or.inr hx)
      · rintro (hx | hx | hx)
        · exact Or.inl hx
        · subst hx
          exact Or.inl ha
        · exact Or.inr hx
    · simp only [ha, if_false]
      have hnd : (acc ++ [a]).Nodup := by
        rw [List.nodup_append]
        refine ⟨h, List.nodup_singleton a, ?_⟩
        intro x hx hx'
        rw [List.mem_singleton] at hx'
        subst hx'
        exact ha hx
      obtain ⟨h1, h2⟩ := ih (acc ++ [a]) hnd
      refine ⟨h1, fun x => ?_⟩
      rw [h2 x, List.mem_append, List.mem_singleton, List.mem_cons]
      tauto

theorem nodup_removeDuplicated {α : Type} [DecidableEq α] (seq : List α) :
    (removeDuplicated seq).Nodup :=
  (removeDuplicated_aux seq [] List.nodup_nil).1

theorem mem_removeDuplicated {α : Type} [DecidableEq α] (seq : List α) (x : α) :
    x ∈ removeDuplicated seq ↔ x ∈ seq := by
  unfold removeDuplicated
  rw [(removeDuplicated_aux seq [] List.nodup_nil).2 x]
  simp

theorem mem_removeUndefined (seq : List (Option OperandIndex)) (ind : OperandIndex) :
    ind ∈ removeUndefined seq ↔ some ind ∈ seq := by
  unfold removeUndefined
  simp [List.mem_filterMap]

theorem nodup_removeUndefined (seq : List (Option OperandIndex)) (h : seq.Nodup) :
    (removeUndefined seq).Nodup := by
  unfold removeUndefined
  apply List.Nodup.filterMap _ h
  intro a a' b hb hb'
  simp only [id, Option.mem_def] at hb hb'
  rw [hb, hb']

theorem nodup_inputsOf (graph : Graph) (op_ind : OperationIndex) :
    (graph.inputsOf op_ind).Nodup := by
  unfold Graph.inputsOf
  split
  · exact nodup_removeUndefined _ (nodup_removeDuplicated _)
  · exact List.nodup_nil

theorem nodup_outputsOf (graph : Graph) (op_ind : OperationIndex) :
    (graph.outputsOf op_ind).Nodup := by
  unfold Graph.outputsOf
  split
  · exact nodup_removeUndefined _ (nodup_removeDuplicated _)
  · exact List.nodup_nil


/-! ## The loops of `planTensors`, one by one -/

theorem not_isRegistered_iff (tb : TensorBuilder) (ind : OperandIndex) :
    tb.isRegistered ind = false ↔ ind ∉ tb.registered := by
  simp [TensorBuilder.isRegistered]

/-! ### Define outputs -/

theorem defineOutput_registered (ctx : BackendContext) (st : PlanState) (ind : OperandIndex) :
    (defineOutput ctx st ind).tensor_builder.registered = st.tensor_builder.registered := by
  unfold defineOutput
  split_ifs <;> rfl

theorem defineOutput_uses_map (ctx : BackendContext) (st : PlanState) (ind : OperandIndex) :
    (defineOutput ctx st ind).uses_map = st.uses_map := by
  unfold defineOutput
  split_ifs <;> rfl

theorem defineOutput_constants (ctx : BackendContext) (st : PlanState) (ind : OperandIndex) :
    (defineOutput ctx st ind).constants = st.constants := by
  unfold defineOutput
  split_ifs <;> rfl

theorem defineOutput_find (ctx : BackendContext) (st : PlanState) (ind k : OperandIndex) :
    IndexMap.find (defineOutput ctx st ind).def_map k =
      if k = ind ∧ Gate ctx.graph st.tensor_builder.registered k then some 0
      else IndexMap.find st.def_map k := by
  unfold defineOutput Gate
  by_cases hk : k = ind
  · subst hk
    by_cases h1 : k ∈ model_io ctx.graph
    · simp [h1]
    · by_cases h2 : k ∈ st.tensor_builder.registered
      · have h2' : ¬ (st.tensor_builder.isRegistered k = false) := by
          simp [TensorBuilder.isRegistered, h2]
        rw [if_neg h1, if_neg h2']
        by_cases h3 : IndexMap.get st.def_map k = 0
        · rw [if_neg (not_not.2 h3)]
          simp only [IndexMap.find_touch, true_and, h1, not_false_eq_true, h2, and_self, if_true]
          cases hf : IndexMap.find st.def_map k with
          | none => simp
          | some v =>
            have : v = 0 := by
              have := IndexMap.get_eq_of_find hf
              omega
            simp [this]
        · rw [if_pos h3]
          simp [IndexMap.find_set, h1, h2]
      · have h2' : st.tensor_builder.isRegistered k = false := by
          simp [TensorBuilder.isRegistered, h2]
        rw [if_neg h1, if_pos h2']
        simp [h2]
  · have hk' : ¬ ind = k := fun h => hk h.symm
    simp only [hk, false_and, if_false]
    split_ifs
    · rfl
    · rfl
    · simp [IndexMap.find_set, hk']
    · simp [IndexMap.find_touch, hk']

theorem defineOutput_nodup (ctx : BackendContext) (st : PlanState) (ind : OperandIndex)
    (h : (IndexMap.keys st.def_map).Nodup) :
    (IndexMap.keys (defineOutput ctx st ind).def_map).Nodup := by
  unfold defineOutput
  split_ifs
  · exact h
  · exact h
  · exact IndexMap.nodup_keys_set _ _ _ h
  · exact IndexMap.nodup_keys_touch _ _ h

theorem defineOutput_calls (ctx : BackendContext) (st : PlanState) (ind : OperandIndex) :
    ∃ extra, (defineOutput ctx st ind).tensor_builder.calls = st.tensor_builder.calls ++ extra ∧
      ∀ c ∈ extra, c.isFirstUse = true := by
  unfold defineOutput
  split_ifs
  · exact ⟨[], by simp, by simp⟩
  · exact ⟨[], by simp, by simp⟩
  · exact ⟨[.notifyFirstUse ind], rfl, by simp [BuilderCall.isFirstUse]⟩
  · exact ⟨[], by simp, by simp⟩

theorem foldl_defineOutput_registered (ctx : BackendContext) (l : List OperandIndex)
    (st : PlanState) :
    (l.foldl (defineOutput ctx) st).tensor_builder.registered =
      st.tensor_builder.registered := by
  induction l generalizing st with
  | nil => rfl
  | cons a t ih => rw [List.foldl_cons, ih, defineOutput_registered]

theorem foldl_defineOutput_uses_map (ctx : BackendContext) (l : List OperandIndex)
    (st : PlanState) : (l.foldl (defineOutput ctx) st).uses_map = st.uses_map := by
  induction l generalizing st with
  | nil => rfl
  | cons a t ih => rw [List.foldl_cons, ih, defineOutput_uses_map]

theorem foldl_defineOutput_constants (ctx : BackendContext) (l : List OperandIndex)
    (st : PlanState) : (l.foldl (defineOutput ctx) st).constants = st.constants := by
  induction l generalizing st with
  | nil => rfl
  | cons a t ih => rw [List.foldl_cons, ih, defineOutput_constants]

theorem foldl_defineOutput_find (ctx : BackendContext) (l : List OperandIndex)
    (st : PlanState) (k : OperandIndex) :
    IndexMap.find (l.foldl (defineOutput ctx) st).def_map k =
      if k ∈ l ∧ Gate ctx.graph st.tensor_builder.registered k then some 0
      else IndexMap.find st.def_map k := by
  induction l generalizing st with
  | nil => simp
  | cons a t ih =>
    rw [List.foldl_cons, ih, defineOutput_registered, defineOutput_find]
    by_cases hg : Gate ctx.graph st.tensor_builder.registered k
    · by_cases h1 : k ∈ t
      · simp [h1, hg]
      · by_cases h2 : k = a
        · subst h2
          simp [h1, hg]
        · simp [h1, h2, hg]
    · simp [hg]

theorem foldl_defineOutput_nodup (ctx : BackendContext) (l : List OperandIndex)
    (st : PlanState) (h : (IndexMap.keys st.def_map).Nodup) :
    (IndexMap.keys (l.foldl (defineOutput ctx) st).def_map).Nodup := by
  induction l generalizing st with
  | nil => exact h
  | cons a t ih =>
    rw [List.foldl_cons]
    exact ih _ (defineOutput_nodup ctx st a h)

theorem foldl_defineOutput_calls (ctx : BackendContext) (l : List OperandIndex)
    (st : PlanState) :
    ∃ extra, (l.foldl (defineOutput ctx) st).tensor_builder.calls =
        st.tensor_builder.calls ++ extra ∧
      ∀ c ∈ extra, c.isFirstUse = true := by
  induction l generalizing st with
  | nil => exact ⟨[], by simp, by simp⟩
  | cons a t ih =>
    rw [List.foldl_cons]
    obtain ⟨e1, h1, h1'⟩ := defineOutput_calls ctx st a
    obtain ⟨e2, h2, h2'⟩ := ih (defineOutput ctx st a)
    refine ⟨e1 ++ e2, by rw [h2, h1, List.append_assoc], ?_⟩
    intro c hc
    rcases List.mem_append.1 hc with h | h
    · exact h1' c h
    · exact h2' c h

/-! ### Scan variable tensors -/

theorem scanVariable_frame (ctx : BackendContext) (st : PlanState) (ind : OperandIndex) :
    (scanVariable ctx st ind).2.uses_map = st.uses_map ∧
    (scanVariable ctx st ind).2.def_map = st.def_map ∧
    (scanVariable ctx st ind).2.constants = st.constants ∧
    (scanVariable ctx st ind).2.tensor_builder.registered = st.tensor_builder.registered ∧
    ∃ extra, (scanVariable ctx st ind).2.tensor_builder.calls =
        st.tensor_builder.calls ++ extra ∧ ∀ c ∈ extra, c.isFirstUse = true := by
  unfold scanVariable
  split_ifs
  · exact ⟨rfl, rfl, rfl, rfl, [], by simp, by simp⟩
  · exact ⟨rfl, rfl, rfl, rfl, [], by simp, by simp⟩
  · split
    · exact ⟨rfl, rfl, rfl, rfl, [], by simp, by simp⟩
    · split_ifs
      · exact ⟨rfl, rfl, rfl, rfl, [.notifyFirstUse ind], rfl, by simp [BuilderCall.isFirstUse]⟩
      · exact ⟨rfl, rfl, rfl, rfl, [], by simp, by simp⟩

theorem scanVariable_ok (ctx : BackendContext) (st : PlanState) (ind : OperandIndex)
    (h : Gate ctx.graph st.tensor_builder.registered ind →
      ind ∈ IndexMap.keys ctx.graph.operands) :
    (scanVariable ctx st ind).1 = .ok () := by
  unfold scanVariable
  split_ifs with h1 h2
  · rfl
  · rfl
  · have hreg : ind ∈ st.tensor_builder.registered := by
      by_contra hn
      exact h2 ((not_isRegistered_iff _ _).2 hn)
    obtain ⟨v, hv⟩ := IndexMap.exists_find_of_mem_keys (h ⟨h1, hreg⟩)
    rw [hv]
    simp only
    split_ifs <;> rfl

theorem scanVariables_frame (ctx : BackendContext) (l : List OperandIndex) (st : PlanState) :
    (scanVariables ctx st l).2.uses_map = st.uses_map ∧
    (scanVariables ctx st l).2.def_map = st.def_map ∧
    (scanVariables ctx st l).2.constants = st.constants ∧
    (scanVariables ctx st l).2.tensor_builder.registered = st.tensor_builder.registered ∧
    ∃ extra, (scanVariables ctx st l).2.tensor_builder.calls =
        st.tensor_builder.calls ++ extra ∧ ∀ c ∈ extra, c.isFirstUse = true := by
  induction l generalizing st with
  | nil => exact ⟨rfl, rfl, rfl, rfl, [], by simp [scanVariables], by simp⟩
  | cons a t ih =>
    obtain ⟨h1, h2, h3, h4, e1, h5, h6⟩ := scanVariable_frame ctx st a
    unfold scanVariables
    cases hs : scanVariable ctx st a with
    | mk r st1 =>
      rw [hs] at h1 h2 h3 h4 h5
      simp only at h1 h2 h3 h4 h5
      cases r with
      | error msg => exact ⟨h1, h2, h3, h4, e1, h5, h6⟩
      | ok u =>
        obtain ⟨g1, g2, g3, g4, e2, g5, g6⟩ := ih st1
        refine ⟨g1.trans h1, g2.trans h2, g3.trans h3, g4.trans h4, e1 ++ e2, ?_, ?_⟩
        · simp only
          rw [g5, h5, List.append_assoc]
        · intro c hc
          rcases List.mem_append.1 hc with h | h
          · exact h6 c h
          · exact g6 c h

theorem scanVariables_ok (ctx : BackendContext) (l : List OperandIndex) (st : PlanState)
    (h : ∀ ind ∈ l, Gate ctx.graph st.tensor_builder.registered ind →
      ind ∈ IndexMap.keys ctx.graph.operands) :
    (scanVariables ctx st l).1 = .ok () := by
  induction l generalizing st with
  | nil => rfl
  | cons a t ih =>
    have h1 := scanVariable_ok ctx st a (h a (List.mem_cons_self _ _))
    have h2 := (scanVariable_frame ctx st a).2.2.2.1
    unfold scanVariables
    cases hs : scanVariable ctx st a with
    | mk r st1 =>
      rw [hs] at h1 h2
      simp only at h1 h2
      subst h1
      simp only
      apply ih
      intro ind hind
      rw [h2]
      exact h ind (List.mem_cons_of_mem _ hind)

/-! ### Scan the uses of the inputs -/

theorem useInput_registered (ctx : BackendContext) (op_ind : OperationIndex) (st : PlanState)
    (ind : OperandIndex) :
    (useInput ctx op_ind st ind).tensor_builder.registered = st.tensor_builder.registered := by
  unfold useInput
  split_ifs <;> rfl

theorem useInput_def_map (ctx : BackendContext) (op_ind : OperationIndex) (st : PlanState)
    (ind : OperandIndex) : (useInput ctx op_ind st ind).def_map = st.def_map := by
  unfold useInput
  split_ifs <;> rfl

theorem useInput_constants (ctx : BackendContext) (op_ind : OperationIndex) (st : PlanState)
    (ind : OperandIndex) : (useInput ctx op_ind st ind).constants = st.constants := by
  unfold useInput
  split_ifs <;> rfl

theorem useInput_find (ctx : BackendContext) (op_ind : OperationIndex) (st : PlanState)
    (ind k : OperandIndex) :
    IndexMap.find (useInput ctx op_ind st ind).uses_map k =
      if k = ind ∧ Gate ctx.graph st.tensor_builder.registered k then
        some (uint32_dec (IndexMap.get st.uses_map k))
      else IndexMap.find st.uses_map k := by
  unfold useInput Gate
  by_cases hk : k = ind
  · subst hk
    by_cases h1 : k ∈ model_io ctx.graph
    · simp [h1]
    · by_cases h2 : k ∈ st.tensor_builder.registered
      · have h2' : ¬ (st.tensor_builder.isRegistered k = false) := by
          simp [TensorBuilder.isRegistered, h2]
        rw [if_neg h1, if_neg h2']
        simp only [true_and, h1, not_false_eq_true, h2, and_self, if_true]
        split_ifs <;> simp [IndexMap.find_set]
      · have h2' : st.tensor_builder.isRegistered k = false := by
          simp [TensorBuilder.isRegistered, h2]
        rw [if_neg h1, if_pos h2']
        simp [h2]
  · have hk' : ¬ ind = k := fun h => hk h.symm
    simp only [hk, false_and, if_false]
    split_ifs
    · rfl
    · rfl
    · simp [IndexMap.find_set, hk']
    · simp [IndexMap.find_set, hk']

theorem useInput_nodup (ctx : BackendContext) (op_ind : OperationIndex) (st : PlanState)
    (ind : OperandIndex) (h : (IndexMap.keys st.uses_map).Nodup) :
    (IndexMap.keys (useInput ctx op_ind st ind).uses_map).Nodup := by
  unfold useInput
  split_ifs
  · exact h
  · exact h
  · exact IndexMap.nodup_keys_set _ _ _ h
  · exact IndexMap.nodup_keys_set _ _ _ h

theorem useInput_calls (ctx : BackendContext) (op_ind : OperationIndex) (st : PlanState)
    (ind : OperandIndex) :
    (useInput ctx op_ind st ind).tensor_builder.calls =
      st.tensor_builder.calls ++
        (if Gate ctx.graph st.tensor_builder.registered ind ∧
            uint32_dec (IndexMap.get st.uses_map ind) = 0 then
          [.notifyLastUse ind, .planDealloc op_ind ind]
        else []) := by
  unfold useInput Gate
  by_cases h1 : ind ∈ model_io ctx.graph
  · simp [h1]
  · by_cases h2 : ind ∈ st.tensor_builder.registered
    · have h2' : ¬ (st.tensor_builder.isRegistered ind = false) := by
        simp [TensorBuilder.isRegistered, h2]
      rw [if_neg h1, if_neg h2']
      simp only [h1, not_false_eq_true, h2, and_self, true_and]
      split_ifs
      · simp [TensorBuilder.planDealloc, TensorBuilder.notifyLastUse]
      · simp
    · have h2' : st.tensor_builder.isRegistered ind = false := by
        simp [TensorBuilder.isRegistered, h2]
      rw [if_neg h1, if_pos h2']
      simp [h2]

theorem foldl_useInput_registered (ctx : BackendContext) (op_ind : OperationIndex)
    (l : List OperandIndex) (st : PlanState) :
    (l.foldl (useInput ctx op_ind) st).tensor_builder.registered =
      st.tensor_builder.registered := by
  induction l generalizing st with
  | nil => rfl
  | cons a t ih => rw [List.foldl_cons, ih, useInput_registered]

theorem foldl_useInput_def_map (ctx : BackendContext) (op_ind : OperationIndex)
    (l : List OperandIndex) (st : PlanState) :
    (l.foldl (useInput ctx op_ind) st).def_map = st.def_map := by
  induction l generalizing st with
  | nil => rfl
  | cons a t ih => rw [List.foldl_cons, ih, useInput_def_map]

theorem foldl_useInput_constants (ctx : BackendContext) (op_ind : OperationIndex)
    (l : List OperandIndex) (st : PlanState) :
    (l.foldl (useInput ctx op_ind) st).constants = st.constants := by
  induction l generalizing st with
  | nil => rfl
  | cons a t ih => rw [List.foldl_cons, ih, useInput_constants]

theorem foldl_useInput_nodup (ctx : BackendContext) (op_ind : OperationIndex)
    (l : List OperandIndex) (st : PlanState) (h : (IndexMap.keys st.uses_map).Nodup) :
    (IndexMap.keys (l.foldl (useInput ctx op_ind) st).uses_map).Nodup := by
  induction l generalizing st with
  | nil => exact h
  | cons a t ih =>
    rw [List.foldl_cons]
    exact ih _ (useInput_nodup ctx op_ind st a h)

theorem get_useInput_of_ne (ctx : BackendContext) (op_ind : OperationIndex) (st : PlanState)
    {ind k : OperandIndex} (h : k ≠ ind) :
    IndexMap.get (useInput ctx op_ind st ind).uses_map k = IndexMap.get st.uses_map k := by
  unfold IndexMap.get
  rw [useInput_find]
  simp [h]

theorem foldl_useInput_find (ctx : BackendContext) (op_ind : OperationIndex)
    (l : List OperandIndex) (hl : l.Nodup) (st : PlanState) (k : OperandIndex) :
    IndexMap.find (l.foldl (useInput ctx op_ind) st).uses_map k =
      if k ∈ l ∧ Gate ctx.graph st.tensor_builder.registered k then
        some (uint32_dec (IndexMap.get st.uses_map k))
      else IndexMap.find st.uses_map k := by
  induction l generalizing st with
  | nil => simp
  | cons a t ih =>
    have hat : a ∉ t ∧ t.Nodup := List.nodup_cons.1 hl
    rw [List.foldl_cons, ih hat.2, useInput_registered, useInput_find]
    by_cases hg : Gate ctx.graph st.tensor_builder.registered k
    · by_cases h1 : k ∈ t
      · have hne : k ≠ a := by
          intro h
          subst h
          exact hat.1 h1
        simp [h1, hg, get_useInput_of_ne ctx op_ind st hne]
      · by_cases h2 : k = a
        · subst h2
          simp [h1, hg]
        · simp [h1, h2, hg]
    · simp [hg]

theorem foldl_useInput_calls (ctx : BackendContext) (op_ind : OperationIndex)
    (l : List OperandIndex) (hl : l.Nodup) (st : PlanState) :
    ∃ extra, (l.foldl (useInput ctx op_ind) st).tensor_builder.calls =
        st.tensor_builder.calls ++ extra ∧
      ∀ c ∈ extra, ∃ ind ∈ l,
        (c = .notifyLastUse ind ∨ c = .planDealloc op_ind ind) ∧
        Gate ctx.graph st.tensor_builder.registered ind ∧
        uint32_dec (IndexMap.get st.uses_map ind) = 0 := by
  induction l generalizing st with
  | nil => exact ⟨[], by simp, by simp⟩
  | cons a t ih =>
    have hat : a ∉ t ∧ t.Nodup := List.nodup_cons.1 hl
    rw [List.foldl_cons]
    obtain ⟨e2, h2, h2'⟩ := ih hat.2 (useInput ctx op_ind st a)
    rw [useInput_calls] at h2
    refine ⟨(if Gate ctx.graph st.tensor_builder.registered a ∧
            uint32_dec (IndexMap.get st.uses_map a) = 0 then
          [.notifyLastUse a, .planDealloc op_ind a]
        else []) ++ e2, by rw [h2, List.append_assoc], ?_⟩
    intro c hc
    rcases List.mem_append.1 hc with h | h
    · split_ifs at h with hcond
      · refine ⟨a, List.mem_cons_self _ _, ?_, hcond.1, hcond.2⟩
        simpa using h
      · simp at h
    · obtain ⟨ind, hind, hc', hg, hz⟩ := h2' c h
      have hne : ind ≠ a := by
        intro hh
        subst hh
        exact hat.1 hind
      rw [useInput_registered] at hg
      rw [get_useInput_of_ne ctx op_ind st hne] at hz
      exact ⟨ind, List.mem_cons_of_mem _ hind, hc', hg, hz⟩

/-! ### Prepare scanning -/

theorem prepareOperand_find_uses (ctx : BackendContext) (st : PlanState)
    (e : OperandIndex × Operand) (k : OperandIndex) :
    IndexMap.find (prepareOperand ctx st e).uses_map k =
      if k = e.1 ∧ k ∉ model_io ctx.graph ∧ k ∉ ctx.external_operands then
        some (e.2.getUses.length % 4294967296)
      else IndexMap.find st.uses_map k := by
  unfold prepareOperand
  by_cases hk : k = e.1
  · subst hk
    split_ifs <;> simp_all [IndexMap.find_set]
  · have hk' : ¬ e.1 = k := fun h => hk h.symm
    simp only [hk, false_and, if_false]
    split_ifs <;> simp [IndexMap.find_set, hk']

theorem prepareOperand_find_def (ctx : BackendContext) (st : PlanState)
    (e : OperandIndex × Operand) (k : OperandIndex) :
    IndexMap.find (prepareOperand ctx st e).def_map k =
      if k = e.1 ∧ k ∉ model_io ctx.graph ∧ k ∉ ctx.external_operands then
        some (if e.2.getDef.isSome then 1 else 0)
      else IndexMap.find st.def_map k := by
  unfold prepareOperand
  by_cases hk : k = e.1
  · subst hk
    split_ifs <;> simp_all [IndexMap.find_set]
  · have hk' : ¬ e.1 = k := fun h => hk h.symm
    simp only [hk, false_and, if_false]
    split_ifs <;> simp [IndexMap.find_set, hk']

theorem prepareOperand_nodup (ctx : BackendContext) (st : PlanState)
    (e : OperandIndex × Operand)
    (h : (IndexMap.keys st.uses_map).Nodup ∧ (IndexMap.keys st.def_map).Nodup) :
    (IndexMap.keys (prepareOperand ctx st e).uses_map).Nodup ∧
      (IndexMap.keys (prepareOperand ctx st e).def_map).Nodup := by
  unfold prepareOperand
  split_ifs <;>
    first
    | exact h
    | exact ⟨IndexMap.nodup_keys_set _ _ _ h.1, IndexMap.nodup_keys_set _ _ _ h.2⟩

theorem prepareOperand_constants (ctx : BackendContext) (st : PlanState)
    (e : OperandIndex × Operand) :
    (prepareOperand ctx st e).constants =
      st.constants ++
        (if e.1 ∉ model_io ctx.graph ∧ e.1 ∉ ctx.external_operands ∧ e.2.isConstant = true
          then [e.1] else []) := by
  unfold prepareOperand
  split_ifs <;> simp_all

theorem prepareOperand_registered (ctx : BackendContext) (st : PlanState)
    (e : OperandIndex × Operand) (k : OperandIndex) :
    k ∈ (prepareOperand ctx st e).tensor_builder.registered ↔
      k ∈ st.tensor_builder.registered ∨
        (k = e.1 ∧ k ∉ model_io ctx.graph ∧ k ∉ ctx.external_operands) := by
  unfold prepareOperand
  by_cases h1 : e.1 ∈ model_io ctx.graph
  · rw [if_pos h1]
    constructor
    · exact Or.inl
    · rintro (h | ⟨h, h', _⟩)
      · exact h
      · subst h
        exact absurd h1 h'
  · rw [if_neg h1]
    by_cases h2 : e.1 ∈ ctx.external_operands
    · rw [if_pos h2]
      constructor
      · exact Or.inl
      · rintro (h | ⟨h, _, h'⟩)
        · exact h
        · subst h
          exact absurd h2 h'
    · rw [if_neg h2]
      by_cases h3 : e.1 ∈ st.tensor_builder.registered
      · have h3' : st.tensor_builder.isRegistered e.1 = true := by
          simp [TensorBuilder.isRegistered, h3]
        simp only [h3', if_true]
        constructor
        · exact Or.inl
        · rintro (h | ⟨h, _, _⟩)
          · exact h
          · subst h
            exact h3
      · have h3' : st.tensor_builder.isRegistered e.1 = false := by
          simp [TensorBuilder.isRegistered, h3]
        rw [h3']
        simp only [Bool.false_eq_true, if_false, TensorBuilder.registerTensorInfo,
          List.mem_append, List.mem_singleton]
        constructor
        · rintro (h | h)
          · exact Or.inl h
          · subst h
            exact Or.inr ⟨rfl, h1, h2⟩
        · rintro (h | ⟨h, _, _⟩)
          · exact Or.inl h
          · exact Or.inr h

/-- The planned constants, in the order in which "Prepare scanning" meets
them. -/
theorem foldl_prepareOperand_constants (ctx : BackendContext)
    (es : List (OperandIndex × Operand)) (st : PlanState) :
    (es.foldl (prepareOperand ctx) st).constants =
      st.constants ++
        (es.filter (fun e => decide (e.1 ∉ model_io ctx.graph ∧
          e.1 ∉ ctx.external_operands ∧ e.2.isConstant = true))).map Prod.fst := by
  induction es generalizing st with
  | nil => simp
  | cons a t ih =>
    rw [List.foldl_cons, ih, prepareOperand_constants, List.filter_cons]
    split_ifs with h1 h2 h2
    · simp
    · simp only [decide_eq_true_eq] at h2
      exact absurd h1 h2
    · simp only [decide_eq_true_eq] at h2
      exact absurd h2 h1
    · simp

theorem foldl_prepareOperand_nodup (ctx : BackendContext)
    (es : List (OperandIndex × Operand)) (st : PlanState)
    (h : (IndexMap.keys st.uses_map).Nodup ∧ (IndexMap.keys st.def_map).Nodup) :
    (IndexMap.keys (es.foldl (prepareOperand ctx) st).uses_map).Nodup ∧
      (IndexMap.keys (es.foldl (prepareOperand ctx) st).def_map).Nodup := by
  induction es generalizing st with
  | nil => exact h
  | cons a t ih =>
    rw [List.foldl_cons]
    exact ih _ (prepareOperand_nodup ctx st a h)

theorem foldl_prepareOperand_registered (ctx : BackendContext)
    (es : List (OperandIndex × Operand)) (st : PlanState) (k : OperandIndex) :
    k ∈ (es.foldl (prepareOperand ctx) st).tensor_builder.registered ↔
      k ∈ st.tensor_builder.registered ∨
        (k ∈ IndexMap.keys es ∧ k ∉ model_io ctx.graph ∧ k ∉ ctx.external_operands) := by
  induction es generalizing st with
  | nil => simp [IndexMap.keys]
  | cons a t ih =>
    rw [List.foldl_cons, ih, prepareOperand_registered]
    simp only [IndexMap.keys, List.map_cons, List.mem_cons]
    tauto

theorem foldl_prepareOperand_find_uses (ctx : BackendContext)
    (es : List (OperandIndex × Operand)) (hes : (IndexMap.keys es).Nodup) (st : PlanState)
    (k : OperandIndex) :
    IndexMap.find (es.foldl (prepareOperand ctx) st).uses_map k =
      match IndexMap.find es k with
      | some obj =>
        if k ∉ model_io ctx.graph ∧ k ∉ ctx.external_operands then
          some (obj.getUses.length % 4294967296)
        else IndexMap.find st.uses_map k
      | none => IndexMap.find st.uses_map k := by
  induction es generalizing st with
  | nil => simp [IndexMap.find]
  | cons a t ih =>
    obtain ⟨i, obj⟩ := a
    have hat : i ∉ IndexMap.keys t ∧ (IndexMap.keys t).Nodup := by
      simpa [IndexMap.keys] using hes
    rw [List.foldl_cons, ih hat.2, prepareOperand_find_uses]
    by_cases hk : i = k
    · subst hk
      have hnone : IndexMap.find t i = none := (IndexMap.find_eq_none_iff t i).2 hat.1
      simp [IndexMap.find, hnone]
    · have hk' : ¬ k = i := fun h => hk h.symm
      simp [IndexMap.find, hk, hk']

theorem foldl_prepareOperand_find_def (ctx : BackendContext)
    (es : List (OperandIndex × Operand)) (hes : (IndexMap.keys es).Nodup) (st : PlanState)
    (k : OperandIndex) :
    IndexMap.find (es.foldl (prepareOperand ctx) st).def_map k =
      match IndexMap.find es k with
      | some obj =>
        if k ∉ model_io ctx.graph ∧ k ∉ ctx.external_operands then
          some (if obj.getDef.isSome then 1 else 0)
        else IndexMap.find st.def_map k
      | none => IndexMap.find st.def_map k := by
  induction es generalizing st with
  | nil => simp [IndexMap.find]
  | cons a t ih =>
    obtain ⟨i, obj⟩ := a
    have hat : i ∉ IndexMap.keys t ∧ (IndexMap.keys t).Nodup := by
      simpa [IndexMap.keys] using hes
    rw [List.foldl_cons, ih hat.2, prepareOperand_find_def]
    by_cases hk : i = k
    · subst hk
      have hnone : IndexMap.find t i = none := (IndexMap.find_eq_none_iff t i).2 hat.1
      simp [IndexMap.find, hnone]
    · have hk' : ¬ k = i := fun h => hk h.symm
      simp [IndexMap.find, hk, hk']

/-! ### The first loop over the constants -/

theorem foldl_allocateConstant_frame (l : List OperandIndex) (st : PlanState) :
    (l.foldl allocateConstant st).def_map = st.def_map ∧
    (l.foldl allocateConstant st).constants = st.constants ∧
    (l.foldl allocateConstant st).tensor_builder.registered = st.tensor_builder.registered ∧
    (l.foldl allocateConstant st).tensor_builder.calls =
      st.tensor_builder.calls ++ l.map BuilderCall.notifyFirstUse := by
  induction l generalizing st with
  | nil => simp
  | cons a t ih =>
    obtain ⟨h1, h2, h3, h4⟩ := ih (allocateConstant st a)
    rw [List.foldl_cons]
    refine ⟨h1, h2, h3, ?_⟩
    rw [h4]
    simp [allocateConstant, TensorBuilder.notifyFirstUse]

theorem foldl_allocateConstant_nodup (l : List OperandIndex) (st : PlanState)
    (h : (IndexMap.keys st.uses_map).Nodup) :
    (IndexMap.keys (l.foldl allocateConstant st).uses_map).Nodup := by
  induction l generalizing st with
  | nil => exact h
  | cons a t ih =>
    rw [List.foldl_cons]
    exact ih _ (IndexMap.nodup_keys_set _ _ _ h)

theorem foldl_allocateConstant_find (l : List OperandIndex) (hl : l.Nodup) (st : PlanState)
    (k : OperandIndex) :
    IndexMap.find (l.foldl allocateConstant st).uses_map k =
      if k ∈ l then some (uint32_inc (IndexMap.get st.uses_map k))
      else IndexMap.find st.uses_map k := by
  induction l generalizing st with
  | nil => simp
  | cons a t ih =>
    have hat : a ∉ t ∧ t.Nodup := List.nodup_cons.1 hl
    rw [List.foldl_cons, ih hat.2]
    by_cases hk : k = a
    · subst hk
      simp [hat.1, allocateConstant, IndexMap.find_set]
    · have hk' : ¬ a = k := fun h => hk h.symm
      simp [hk, allocateConstant, IndexMap.find_set, IndexMap.get, hk']

/-! ### Dispose -/

theorem foldl_disposeConstant_frame (l : List OperandIndex) (st : PlanState) :
    (l.foldl disposeConstant st).def_map = st.def_map ∧
    (l.foldl disposeConstant st).constants = st.constants ∧
    (l.foldl disposeConstant st).tensor_builder.registered = st.tensor_builder.registered := by
  induction l generalizing st with
  | nil => simp
  | cons a t ih =>
    obtain ⟨h1, h2, h3⟩ := ih (disposeConstant st a)
    rw [List.foldl_cons]
    refine ⟨h1.trans ?_, h2.trans ?_, h3.trans ?_⟩ <;>
    · unfold disposeConstant
      split_ifs <;> rfl

theorem disposeConstant_find (st : PlanState) (ind k : OperandIndex) :
    IndexMap.find (disposeConstant st ind).uses_map k =
      if k = ind then some (uint32_dec (IndexMap.get st.uses_map k))
      else IndexMap.find st.uses_map k := by
  unfold disposeConstant
  by_cases hk : k = ind
  · subst hk
    by_cases hz : uint32_dec (IndexMap.get st.uses_map k) = 0 <;>
      simp [hz, IndexMap.find_set]
  · have hk' : ¬ ind = k := fun h => hk h.symm
    by_cases hz : uint32_dec (IndexMap.get st.uses_map ind) = 0 <;>
      simp [hz, IndexMap.find_set, hk, hk']

theorem foldl_disposeConstant_nodup (l : List OperandIndex) (st : PlanState)
    (h : (IndexMap.keys st.uses_map).Nodup) :
    (IndexMap.keys (l.foldl disposeConstant st).uses_map).Nodup := by
  induction l generalizing st with
  | nil => exact h
  | cons a t ih =>
    rw [List.foldl_cons]
    apply ih
    unfold disposeConstant
    split_ifs <;> exact IndexMap.nodup_keys_set _ _ _ h

theorem foldl_disposeConstant_find (l : List OperandIndex) (hl : l.Nodup) (st : PlanState)
    (k : OperandIndex) :
    IndexMap.find (l.foldl disposeConstant st).uses_map k =
      if k ∈ l then some (uint32_dec (IndexMap.get st.uses_map k))
      else IndexMap.find st.uses_map k := by
  induction l generalizing st with
  | nil => simp
  | cons a t ih =>
    have hat : a ∉ t ∧ t.Nodup := List.nodup_cons.1 hl
    rw [List.foldl_cons, ih hat.2, disposeConstant_find]
    by_cases hk : k = a
    · subst hk
      simp [hat.1]
    · simp [hk, IndexMap.get, disposeConstant_find]

/-- The calls made by the dispose loop: one last-use notification for each
constant whose count reaches zero, in the order of `constants`. -/
theorem foldl_disposeConstant_calls (l : List OperandIndex) (hl : l.Nodup) (st : PlanState) :
    (l.foldl disposeConstant st).tensor_builder.calls =
      st.tensor_builder.calls ++
        (l.filter (fun ind => decide (uint32_dec (IndexMap.get st.uses_map ind) = 0))).map
          BuilderCall.notifyLastUse := by
  induction l generalizing st with
  | nil => simp
  | cons a t ih =>
    have hat : a ∉ t ∧ t.Nodup := List.nodup_cons.1 hl
    rw [List.foldl_cons, ih hat.2]
    have hfilter : t.filter (fun ind =>
          decide (uint32_dec (IndexMap.get (disposeConstant st a).uses_map ind) = 0)) =
        t.filter (fun ind => decide (uint32_dec (IndexMap.get st.uses_map ind) = 0)) := by
      apply List.filter_congr
      intro x hx
      have hne : ¬ x = a := by
        intro h
        subst h
        exact hat.1 hx
      simp [IndexMap.get, disposeConstant_find, hne]
    rw [hfilter, List.filter_cons]
    unfold disposeConstant
    split_ifs with h1 h2 h2
    · simp [TensorBuilder.notifyLastUse]
    · simp only [decide_eq_true_eq] at h2
      exact absurd h1 h2
    · simp only [decide_eq_true_eq] at h2
      exact absurd h2 h1
    · simp

/-! ### Counting the readers of an operand -/

theorem mem_keys_of_mem_inputsOf {graph : Graph} {op_ind : OperationIndex}
    {ind : OperandIndex} (h : ind ∈ graph.inputsOf op_ind) :
    op_ind ∈ IndexMap.keys graph.operations := by
  unfold Graph.inputsOf at h
  cases hf : IndexMap.find graph.operations op_ind with
  | none => simp [hf] at h
  | some op => exact IndexMap.mem_keys_of_find hf

theorem mem_keys_of_mem_outputsOf {graph : Graph} {op_ind : OperationIndex}
    {ind : OperandIndex} (h : ind ∈ graph.outputsOf op_ind) :
    op_ind ∈ IndexMap.keys graph.operations := by
  unfold Graph.outputsOf at h
  cases hf : IndexMap.find graph.operations op_ind with
  | none => simp [hf] at h
  | some op => exact IndexMap.mem_keys_of_find hf

theorem mem_order_of_mem_keys {graph : Graph} {order : List OperationIndex}
    (horder : ListsEachOperationOnce graph order) {op_ind : OperationIndex}
    (h : op_ind ∈ IndexMap.keys graph.operations) : op_ind ∈ order := by
  have := horder op_ind h
  by_contra hn
  rw [List.count_eq_zero.2 hn] at this
  exact absurd this (by decide)

theorem remainingUses_cons (graph : Graph) (ind : OperandIndex) (op_ind : OperationIndex)
    (rest : List OperationIndex) :
    remainingUses graph ind (op_ind :: rest) =
      remainingUses graph ind rest + if ind ∈ graph.inputsOf op_ind then 1 else 0 := by
  unfold remainingUses
  rw [List.countP_cons]
  simp

theorem remainingUses_eq_length {graph : Graph} {order : List OperationIndex}
    (hwf : graph.WellFormed) (horder : ListsEachOperationOnce graph order)
    {ind : OperandIndex} {obj : Operand} (he : (ind, obj) ∈ graph.operands) :
    remainingUses graph ind order = obj.getUses.length := by
  obtain ⟨_, _, _, hops⟩ := hwf
  obtain ⟨hnd, huse1, huse2, _, _⟩ := hops (ind, obj) he
  unfold remainingUses
  rw [List.countP_eq_length_filter]
  apply List.Perm.length_eq
  rw [List.perm_ext_iff_of_nodup _ hnd]
  · intro op_ind
    simp only [List.mem_filter, decide_eq_true_eq]
    constructor
    · rintro ⟨_, h⟩
      exact huse2 op_ind (mem_keys_of_mem_inputsOf h) h
    · intro h
      have h' := huse1 op_ind h
      exact ⟨mem_order_of_mem_keys horder (mem_keys_of_mem_inputsOf h'), h'⟩
  · rw [List.nodup_iff_count_le_one]
    intro op_ind
    by_cases hp : ind ∈ graph.inputsOf op_ind
    · rw [List.count_filter (by simpa using hp)]
      exact le_of_eq (horder op_ind (mem_keys_of_mem_inputsOf hp))
    · have : op_ind ∉ order.filter (fun op_ind => decide (ind ∈ graph.inputsOf op_ind)) := by
        simp [List.mem_filter, hp]
      rw [List.count_eq_zero.2 this]
      exact Nat.zero_le _

theorem getUses_length_lt {graph : Graph} (hwf : graph.WellFormed) {ind : OperandIndex}
    {obj : Operand} (he : (ind, obj) ∈ graph.operands) :
    obj.getUses.length < 4294967296 := by
  obtain ⟨_, _, hlt, hops⟩ := hwf
  obtain ⟨hnd, huse1, _, _, _⟩ := hops (ind, obj) he
  have hsub : obj.getUses ⊆ List.range 4294967295 := by
    intro op_ind h
    rw [List.mem_range]
    exact hlt op_ind (mem_keys_of_mem_inputsOf (huse1 op_ind h))
  have := (List.subperm_of_subset hnd hsub).length_le
  rw [List.length_range] at this
  exact Nat.lt_succ_of_le this

/-! ### One step of the loop over the order -/

theorem scanOperation_of_find_none (ctx : BackendContext) (st : PlanState)
    (op_ind : OperationIndex) (h : IndexMap.find ctx.graph.operations op_ind = none) :
    scanOperation ctx st op_ind = (.ok (), st) := by
  unfold scanOperation
  rw [h]

theorem scanOperation_of_find_some (ctx : BackendContext) (st : PlanState)
    (op_ind : OperationIndex) {op : Operation}
    (h : IndexMap.find ctx.graph.operations op_ind = some op) :
    scanOperation ctx st op_ind =
      match scanVariables ctx ((ctx.graph.outputsOf op_ind).foldl (defineOutput ctx) st)
          (ctx.graph.inputsOf op_ind) with
      | (.ok _, st') => (.ok (), (ctx.graph.inputsOf op_ind).foldl (useInput ctx op_ind) st')
      | (.error msg, st') => (.error msg, st') := by
  unfold scanOperation Graph.outputsOf Graph.inputsOf
  rw [h]

theorem inputsOf_of_find_none (graph : Graph) (op_ind : OperationIndex)
    (h : IndexMap.find graph.operations op_ind = none) : graph.inputsOf op_ind = [] := by
  unfold Graph.inputsOf
  rw [h]

theorem outputsOf_of_find_none (graph : Graph) (op_ind : OperationIndex)
    (h : IndexMap.find graph.operations op_ind = none) : graph.outputsOf op_ind = [] := by
  unfold Graph.outputsOf
  rw [h]

theorem uint32_dec_succ (n b : Nat) :
    uint32_dec ((n + 1 + b) % 4294967296) = (n + b) % 4294967296 := by
  unfold uint32_dec
  omega

theorem uint32_inc_mod (n : Nat) :
    uint32_inc (n % 4294967296) = (n + 1) % 4294967296 := by
  unfold uint32_inc
  omega

theorem isLastUseOf_of_isFirstUse (inds : List OperandIndex) {c : BuilderCall}
    (h : c.isFirstUse = true) : c.isLastUseOf inds = false := by
  cases c <;> simp_all [BuilderCall.isFirstUse, BuilderCall.isLastUseOf]

theorem scanOperation_step (ctx : BackendContext) (st : PlanState) (op_ind : OperationIndex)
    (rest : List OperationIndex) (inv : ScanInv ctx st (op_ind :: rest)) :
    ((scanOperation ctx st op_ind).1 = .ok () →
      ScanInv ctx (scanOperation ctx st op_ind).2 rest) ∧
    (scanOperation ctx st op_ind).2.constants = st.constants ∧
    (scanOperation ctx st op_ind).2.tensor_builder.registered =
      st.tensor_builder.registered ∧
    (∃ extra, (scanOperation ctx st op_ind).2.tensor_builder.calls =
        st.tensor_builder.calls ++ extra ∧
      ∀ c ∈ extra, c.isLastUseOf st.constants = false) ∧
    ((∀ ind, Gate ctx.graph st.tensor_builder.registered ind →
        ind ∈ IndexMap.keys ctx.graph.operands) →
      (scanOperation ctx st op_ind).1 = .ok ()) := by
  cases hf : IndexMap.find ctx.graph.operations op_ind with
  | none =>
    rw [scanOperation_of_find_none ctx st op_ind hf]
    have hin := inputsOf_of_find_none ctx.graph op_ind hf
    have hout := outputsOf_of_find_none ctx.graph op_ind hf
    refine ⟨fun _ => ?_, rfl, rfl, ⟨[], by simp, by simp⟩, fun _ => rfl⟩
    refine
      { planned_gate := inv.planned_gate
        uses := ?_
        defs := ?_
        nodup_uses := inv.nodup_uses
        nodup_defs := inv.nodup_defs
        keys_uses := inv.keys_uses
        keys_defs := inv.keys_defs
        const_planned := inv.const_planned
        nodup_consts := inv.nodup_consts
        bound := ?_ }
    · intro ind hp
      have := inv.uses ind hp
      rw [remainingUses_cons, hin] at this
      simpa using this
    · intro ind hp
      obtain ⟨v, hv, h⟩ := inv.defs ind hp
      refine ⟨v, hv, ?_⟩
      rcases h with h | ⟨o, ho, hmem⟩
      · exact Or.inl h
      · rcases List.mem_cons.1 ho with h1 | h1
        · subst h1
          rw [hout] at hmem
          simp at hmem
        · exact Or.inr ⟨o, h1, hmem⟩
    · intro ind hc
      have := inv.bound ind hc
      rw [remainingUses_cons] at this
      omega
  | some op =>
    rw [scanOperation_of_find_some ctx st op_ind hf]
    have hr1 := foldl_defineOutput_registered ctx (ctx.graph.outputsOf op_ind) st
    have hu1 := foldl_defineOutput_uses_map ctx (ctx.graph.outputsOf op_ind) st
    have hc1 := foldl_defineOutput_constants ctx (ctx.graph.outputsOf op_ind) st
    have hd1 := foldl_defineOutput_find ctx (ctx.graph.outputsOf op_ind) st
    have hn1 := foldl_defineOutput_nodup ctx (ctx.graph.outputsOf op_ind) st inv.nodup_defs
    obtain ⟨e1, hl1, hl1'⟩ := foldl_defineOutput_calls ctx (ctx.graph.outputsOf op_ind) st
    have hfr := scanVariables_frame ctx (ctx.graph.inputsOf op_ind)
      ((ctx.graph.outputsOf op_ind).foldl (defineOutput ctx) st)
    have hok := scanVariables_ok ctx (ctx.graph.inputsOf op_ind)
      ((ctx.graph.outputsOf op_ind).foldl (defineOutput ctx) st)
    cases hsv : scanVariables ctx ((ctx.graph.outputsOf op_ind).foldl (defineOutput ctx) st)
        (ctx.graph.inputsOf op_ind) with
    | mk r st2 =>
      rw [hsv] at hfr hok
      simp only at hfr hok
      obtain ⟨hu2, hd2, hc2, hr2, e2, hl2, hl2'⟩ := hfr
      rw [hu1] at hu2
      rw [hc1] at hc2
      rw [hr1] at hr2 hok
      cases r with
      | error msg =>
        refine ⟨fun h => Except.noConfusion h, hc2, hr2, ⟨e1 ++ e2, ?_, ?_⟩, fun h => ?_⟩
        · show st2.tensor_builder.calls = _
          rw [hl2, hl1, List.append_assoc]
        · intro c hc
          rcases List.mem_append.1 hc with h | h
          · exact isLastUseOf_of_isFirstUse _ (hl1' c h)
          · exact isLastUseOf_of_isFirstUse _ (hl2' c h)
        · exact absurd (hok (fun ind _ hg => h ind hg)) (by simp)
      | ok u =>
        have hr3 := foldl_useInput_registered ctx op_ind (ctx.graph.inputsOf op_ind) st2
        have hc3 := foldl_useInput_constants ctx op_ind (ctx.graph.inputsOf op_ind) st2
        have hd3 := foldl_useInput_def_map ctx op_ind (ctx.graph.inputsOf op_ind) st2
        have hu3 := foldl_useInput_find ctx op_ind (ctx.graph.inputsOf op_ind)
          (nodup_inputsOf _ _) st2
        have hn3 := foldl_useInput_nodup ctx op_ind (ctx.graph.inputsOf op_ind) st2
          (by rw [hu2]; exact inv.nodup_uses)
        obtain ⟨e3, hl3, hl3'⟩ := foldl_useInput_calls ctx op_ind (ctx.graph.inputsOf op_ind)
          (nodup_inputsOf _ _) st2
        rw [hr2] at hr3 hu3 hl3'
        rw [hu2] at hu3 hl3'
        rw [hc2] at hc3
        rw [hd2] at hd3
        refine ⟨fun _ => ?_, hc3, hr3, ⟨e1 ++ e2 ++ e3, ?_, ?_⟩, fun _ => rfl⟩
        · show ScanInv ctx (List.foldl (useInput ctx op_ind) st2 (ctx.graph.inputsOf op_ind)) rest
          refine
            { planned_gate := ?_
              uses := ?_
              defs := ?_
              nodup_uses := hn3
              nodup_defs := by rw [hd3]; exact hn1
              keys_uses := ?_
              keys_defs := ?_
              const_planned := by rw [hc3]; exact inv.const_planned
              nodup_consts := by rw [hc3]; exact inv.nodup_consts
              bound := ?_ }
          · intro ind hp
            rw [hr3]
            exact inv.planned_gate ind hp
          · intro ind hp
            have hg := inv.planned_gate ind hp
            have hold := inv.uses ind hp
            rw [remainingUses_cons] at hold
            rw [hu3, hc3]
            by_cases hin : ind ∈ ctx.graph.inputsOf op_ind
            · rw [if_pos ⟨hin, hg⟩, IndexMap.get_eq_of_find hold]
              simp only [hin, if_true]
              rw [uint32_dec_succ]
            · simp only [hin, false_and, if_false, Nat.add_zero] at hold ⊢
              exact hold
          · intro ind hp
            have hg := inv.planned_gate ind hp
            obtain ⟨v, hv, h⟩ := inv.defs ind hp
            rw [hd3, hd1]
            by_cases hout : ind ∈ ctx.graph.outputsOf op_ind
            · exact ⟨0, by rw [if_pos ⟨hout, hg⟩], Or.inl rfl⟩
            · refine ⟨v, by simp [hout, hv], ?_⟩
              rcases h with h | ⟨o, ho, hmem⟩
              · exact Or.inl h
              · rcases List.mem_cons.1 ho with h1 | h1
                · subst h1
                  exact absurd hmem hout
                · exact Or.inr ⟨o, h1, hmem⟩
          · intro k hk
            rw [hr3]
            obtain ⟨v, hv⟩ := IndexMap.exists_find_of_mem_keys hk
            rw [hu3] at hv
            by_cases hcond : k ∈ ctx.graph.inputsOf op_ind ∧
                Gate ctx.graph st.tensor_builder.registered k
            · exact hcond.2
            · rw [if_neg hcond] at hv
              exact inv.keys_uses k (IndexMap.mem_keys_of_find hv)
          · intro k hk
            rw [hr3]
            obtain ⟨v, hv⟩ := IndexMap.exists_find_of_mem_keys hk
            rw [hd3, hd1] at hv
            by_cases hcond : k ∈ ctx.graph.outputsOf op_ind ∧
                Gate ctx.graph st.tensor_builder.registered k
            · exact hcond.2
            · rw [if_neg hcond] at hv
              exact inv.keys_defs k (IndexMap.mem_keys_of_find hv)
          · intro ind hc
            rw [hc3] at hc
            have := inv.bound ind hc
            rw [remainingUses_cons] at this
            omega
        · show (List.foldl (useInput ctx op_ind) st2
              (ctx.graph.inputsOf op_ind)).tensor_builder.calls = _
          rw [hl3, hl2, hl1, List.append_assoc, List.append_assoc, List.append_assoc]
        · intro c hc
          rcases List.mem_append.1 hc with h | h
          · rcases List.mem_append.1 h with h | h
            · exact isLastUseOf_of_isFirstUse _ (hl1' c h)
            · exact isLastUseOf_of_isFirstUse _ (hl2' c h)
          · obtain ⟨ind, hin, hcase, hg, hz⟩ := hl3' c h
            rcases hcase with hcase | hcase
            · subst hcase
              simp only [BuilderCall.isLastUseOf, decide_eq_false_iff_not]
              intro hconst
              have hold := inv.uses ind (inv.const_planned ind hconst)
              have hb := inv.bound ind hconst
              rw [remainingUses_cons] at hold hb
              simp only [hin, if_true, hconst] at hold hb
              rw [IndexMap.get_eq_of_find hold, uint32_dec_succ] at hz
              omega
            · subst hcase
              rfl

/-! ### The whole loop over the order -/

theorem scanOperations_inv (ctx : BackendContext) (rest : List OperationIndex)
    (st : PlanState) (inv : ScanInv ctx st rest) :
    ((scanOperations ctx st rest).1 = .ok () →
      ScanInv ctx (scanOperations ctx st rest).2 []) ∧
    (scanOperations ctx st rest).2.constants = st.constants ∧
    (scanOperations ctx st rest).2.tensor_builder.registered =
      st.tensor_builder.registered ∧
    (∃ extra, (scanOperations ctx st rest).2.tensor_builder.calls =
        st.tensor_builder.calls ++ extra ∧
      ∀ c ∈ extra, c.isLastUseOf st.constants = false) ∧
    ((∀ ind, Gate ctx.graph st.tensor_builder.registered ind →
        ind ∈ IndexMap.keys ctx.graph.operands) →
      (scanOperations ctx st rest).1 = .ok ()) := by
  induction rest generalizing st with
  | nil =>
    exact ⟨fun _ => inv, rfl, rfl, ⟨[], by simp [scanOperations], by simp⟩, fun _ => rfl⟩
  | cons op_ind rest ih =>
    obtain ⟨h1, h2, h3, ⟨e1, h4, h4'⟩, h5⟩ := scanOperation_step ctx st op_ind rest inv
    unfold scanOperations
    cases hs : scanOperation ctx st op_ind with
    | mk r st1 =>
      rw [hs] at h1 h2 h3 h4 h5
      cases r with
      | error msg =>
        refine ⟨fun h => Except.noConfusion h, h2, h3, ⟨e1, h4, h4'⟩, fun h => ?_⟩
        exact absurd (h5 h) (by simp)
      | ok u =>
        obtain ⟨g1, g2, g3, ⟨e2, g4, g4'⟩, g5⟩ := ih st1 (h1 rfl)
        refine ⟨g1, g2.trans h2, g3.trans h3, ⟨e1 ++ e2, ?_, ?_⟩, fun h => ?_⟩
        · show (scanOperations ctx st1 rest).2.tensor_builder.calls = _
          rw [g4, h4, List.append_assoc]
        · intro c hc
          rcases List.mem_append.1 hc with h | h
          · exact h4' c h
          · have := g4' c h
            rw [show st1.constants = st.constants from h2] at this
            exact this
        · apply g5
          intro ind hg
          rw [show st1.tensor_builder.registered = st.tensor_builder.registered from h3] at hg
          exact h ind hg

/-! ### The state in which the scan starts -/

theorem prepareScanning_find_uses (ctx : BackendContext)
    (hnd : (IndexMap.keys ctx.graph.operands).Nodup) (k : OperandIndex) :
    IndexMap.find (prepareScanning ctx).uses_map k =
      match IndexMap.find ctx.graph.operands k with
      | some obj =>
        if k ∉ model_io ctx.graph ∧ k ∉ ctx.external_operands then
          some (obj.getUses.length % 4294967296)
        else none
      | none => none := by
  unfold prepareScanning
  rw [foldl_prepareOperand_find_uses ctx _ hnd]
  simp [IndexMap.find]

theorem prepareScanning_find_def (ctx : BackendContext)
    (hnd : (IndexMap.keys ctx.graph.operands).Nodup) (k : OperandIndex) :
    IndexMap.find (prepareScanning ctx).def_map k =
      match IndexMap.find ctx.graph.operands k with
      | some obj =>
        if k ∉ model_io ctx.graph ∧ k ∉ ctx.external_operands then
          some (if obj.getDef.isSome then 1 else 0)
        else none
      | none => none := by
  unfold prepareScanning
  rw [foldl_prepareOperand_find_def ctx _ hnd]
  simp [IndexMap.find]

theorem prepareScanning_registered (ctx : BackendContext) (k : OperandIndex) :
    k ∈ (prepareScanning ctx).tensor_builder.registered ↔
      k ∈ ctx.tensor_builder.registered ∨ Planned ctx k := by
  unfold prepareScanning Planned
  rw [foldl_prepareOperand_registered]

theorem prepareScanning_constants (ctx : BackendContext) :
    (prepareScanning ctx).constants =
      (ctx.graph.operands.filter (fun e => decide (e.1 ∉ model_io ctx.graph ∧
          e.1 ∉ ctx.external_operands ∧ e.2.isConstant = true))).map Prod.fst := by
  unfold prepareScanning
  rw [foldl_prepareOperand_constants]
  simp

theorem mem_prepareScanning_constants (ctx : BackendContext)
    (hnd : (IndexMap.keys ctx.graph.operands).Nodup) (ind : OperandIndex) :
    ind ∈ (prepareScanning ctx).constants ↔ PlannedConstant ctx ind := by
  rw [prepareScanning_constants]
  unfold PlannedConstant Planned
  simp only [List.mem_map, List.mem_filter, decide_eq_true_eq]
  constructor
  · rintro ⟨⟨i, obj⟩, ⟨hmem, h1, h2, h3⟩, rfl⟩
    exact ⟨⟨List.mem_map.2 ⟨(i, obj), hmem, rfl⟩, h1, h2⟩, obj,
      IndexMap.find_of_mem hnd hmem, h3⟩
  · rintro ⟨⟨_, h1, h2⟩, obj, hf, h3⟩
    exact ⟨(ind, obj), ⟨IndexMap.mem_of_find hf, h1, h2, h3⟩, rfl⟩

theorem nodup_prepareScanning_constants (ctx : BackendContext)
    (hnd : (IndexMap.keys ctx.graph.operands).Nodup) :
    (prepareScanning ctx).constants.Nodup := by
  rw [prepareScanning_constants]
  exact List.Nodup.sublist ((List.filter_sublist _).map Prod.fst) hnd

theorem foldl_prepareOperand_calls (ctx : BackendContext)
    (es : List (OperandIndex × Operand)) (st : PlanState) :
    ∃ extra, (es.foldl (prepareOperand ctx) st).tensor_builder.calls =
        st.tensor_builder.calls ++ extra ∧ ∀ c ∈ extra, c.isRegister = true := by
  induction es generalizing st with
  | nil => exact ⟨[], by simp, by simp⟩
  | cons a t ih =>
    rw [List.foldl_cons]
    obtain ⟨e2, h2, h2'⟩ := ih (prepareOperand ctx st a)
    have h1 : ∃ e1, (prepareOperand ctx st a).tensor_builder.calls =
        st.tensor_builder.calls ++ e1 ∧ ∀ c ∈ e1, c.isRegister = true := by
      unfold prepareOperand
      by_cases ha : a.1 ∈ model_io ctx.graph
      · exact ⟨[], by simp [ha], by simp⟩
      · by_cases hb : a.1 ∈ ctx.external_operands
        · exact ⟨[], by simp [ha, hb], by simp⟩
        · by_cases hc : st.tensor_builder.isRegistered a.1 = true
          · exact ⟨[], by simp [ha, hb, hc], by simp⟩
          · exact ⟨[.registerTensorInfo a.1],
              by simp [ha, hb, hc, TensorBuilder.registerTensorInfo],
              by simp [BuilderCall.isRegister]⟩
    obtain ⟨e1, h1, h1'⟩ := h1
    refine ⟨e1 ++ e2, by rw [h2, h1, List.append_assoc], ?_⟩
    intro c hc
    rcases List.mem_append.1 hc with h | h
    · exact h1' c h
    · exact h2' c h

theorem remainingUses_nil (graph : Graph) (ind : OperandIndex) :
    remainingUses graph ind [] = 0 := by
  simp [remainingUses]

theorem scanInv_start (ctx : BackendContext) (order : List OperationIndex)
    (hwf : ctx.graph.WellFormed) (horder : ListsEachOperationOnce ctx.graph order) :
    ScanInv ctx (planTensorsStart ctx) order := by
  have hnd : (IndexMap.keys ctx.graph.operands).Nodup := hwf.1
  have hcn := nodup_prepareScanning_constants ctx hnd
  have hmc := mem_prepareScanning_constants ctx hnd
  obtain ⟨hd, hc, hr, _⟩ :=
    foldl_allocateConstant_frame (prepareScanning ctx).constants (prepareScanning ctx)
  have hu := foldl_allocateConstant_find (prepareScanning ctx).constants hcn (prepareScanning ctx)
  have hpn : (IndexMap.keys (prepareScanning ctx).uses_map).Nodup ∧
      (IndexMap.keys (prepareScanning ctx).def_map).Nodup := by
    unfold prepareScanning
    exact foldl_prepareOperand_nodup ctx _ _ ⟨by simp [IndexMap.keys], by simp [IndexMap.keys]⟩
  have hgate : ∀ ind, Planned ctx ind →
      Gate ctx.graph (prepareScanning ctx).tensor_builder.registered ind := by
    intro ind hp
    exact ⟨hp.2.1, (prepareScanning_registered ctx ind).2 (Or.inr hp)⟩
  -- what "Prepare scanning" stores for a planned operand
  have hpu : ∀ ind, Planned ctx ind → ∃ obj, (ind, obj) ∈ ctx.graph.operands ∧
      IndexMap.find (prepareScanning ctx).uses_map ind =
        some (obj.getUses.length % 4294967296) ∧
      IndexMap.find (prepareScanning ctx).def_map ind =
        some (if obj.getDef.isSome then 1 else 0) := by
    intro ind hp
    obtain ⟨obj, hobj⟩ := IndexMap.exists_find_of_mem_keys hp.1
    refine ⟨obj, IndexMap.mem_of_find hobj, ?_, ?_⟩
    · rw [prepareScanning_find_uses ctx hnd, hobj]
      simp [hp.2.1, hp.2.2]
    · rw [prepareScanning_find_def ctx hnd, hobj]
      simp [hp.2.1, hp.2.2]
  -- an entry of either map belongs to a planned operand
  have hku : ∀ k v, IndexMap.find (prepareScanning ctx).uses_map k = some v → Planned ctx k := by
    intro k v hv
    rw [prepareScanning_find_uses ctx hnd] at hv
    cases hobj : IndexMap.find ctx.graph.operands k with
    | none => simp [hobj] at hv
    | some obj =>
      rw [hobj] at hv
      simp only at hv
      by_cases hcond : k ∉ model_io ctx.graph ∧ k ∉ ctx.external_operands
      · exact ⟨IndexMap.mem_keys_of_find hobj, hcond.1, hcond.2⟩
      · rw [if_neg hcond] at hv
        exact Option.noConfusion hv
  have hkd : ∀ k v, IndexMap.find (prepareScanning ctx).def_map k = some v → Planned ctx k := by
    intro k v hv
    rw [prepareScanning_find_def ctx hnd] at hv
    cases hobj : IndexMap.find ctx.graph.operands k with
    | none => simp [hobj] at hv
    | some obj =>
      rw [hobj] at hv
      simp only at hv
      by_cases hcond : k ∉ model_io ctx.graph ∧ k ∉ ctx.external_operands
      · exact ⟨IndexMap.mem_keys_of_find hobj, hcond.1, hcond.2⟩
      · rw [if_neg hcond] at hv
        exact Option.noConfusion hv
  unfold planTensorsStart
  refine
    { planned_gate := ?_
      uses := ?_
      defs := ?_
      nodup_uses := foldl_allocateConstant_nodup _ _ hpn.1
      nodup_defs := by rw [hd]; exact hpn.2
      keys_uses := ?_
      keys_defs := ?_
      const_planned := ?_
      nodup_consts := by rw [hc]; exact hcn
      bound := ?_ }
  · intro ind hp
    rw [hr]
    exact hgate ind hp
  · intro ind hp
    obtain ⟨obj, hmem, hfu, _⟩ := hpu ind hp
    rw [hu, hc, remainingUses_eq_length hwf horder hmem]
    by_cases hconst : ind ∈ (prepareScanning ctx).constants
    · simp only [hconst, if_true]
      rw [IndexMap.get_eq_of_find hfu, uint32_inc_mod]
    · simp only [hconst, if_false, Nat.add_zero]
      exact hfu
  · intro ind hp
    obtain ⟨obj, hmem, _, hfd⟩ := hpu ind hp
    rw [hd]
    refine ⟨_, hfd, ?_⟩
    cases hdef : obj.getDef with
    | none => exact Or.inl (by simp)
    | some d =>
      right
      obtain ⟨_, _, _, hops⟩ := hwf
      obtain ⟨_, _, _, hdef1, _⟩ := hops (ind, obj) hmem
      have hout : ind ∈ ctx.graph.outputsOf d := hdef1 d (by simp [hdef])
      exact ⟨d, mem_order_of_mem_keys horder (mem_keys_of_mem_outputsOf hout), hout⟩
  · intro k hk
    rw [hr]
    obtain ⟨v, hv⟩ := IndexMap.exists_find_of_mem_keys hk
    rw [hu] at hv
    by_cases hconst : k ∈ (prepareScanning ctx).constants
    · exact hgate k ((hmc k).1 hconst).1
    · rw [if_neg hconst] at hv
      exact hgate k (hku k v hv)
  · intro k hk
    rw [hr]
    rw [hd] at hk
    obtain ⟨v, hv⟩ := IndexMap.exists_find_of_mem_keys hk
    exact hgate k (hkd k v hv)
  · intro ind hconst
    rw [hc] at hconst
    exact ((hmc ind).1 hconst).1
  · intro ind hconst
    rw [hc] at hconst
    have hp := ((hmc ind).1 hconst).1
    obtain ⟨obj, hmem, _, _⟩ := hpu ind hp
    rw [remainingUses_eq_length hwf horder hmem]
    exact getUses_length_lt hwf hmem

/-! ## Properties of `planTensors` -/

theorem planTensorsStart_registered (ctx : BackendContext) (k : OperandIndex) :
    k ∈ (planTensorsStart ctx).tensor_builder.registered ↔
      k ∈ ctx.tensor_builder.registered ∨ Planned ctx k := by
  unfold planTensorsStart
  rw [(foldl_allocateConstant_frame _ _).2.2.1, prepareScanning_registered]

theorem planTensorsStart_constants (ctx : BackendContext) :
    (planTensorsStart ctx).constants = (prepareScanning ctx).constants := by
  unfold planTensorsStart
  exact (foldl_allocateConstant_frame _ _).2.1

/-- Both final assertions of `planTensors` hold when the registrations at
entry are limited to planned operands: `planTensors` runs to its end, and
every entry of the remaining-use map and every entry of the pending-def map
is zero. -/
theorem planTensors_all_zero (ctx : BackendContext) (order : List OperationIndex)
    (hwf : ctx.graph.WellFormed) (horder : ListsEachOperationOnce ctx.graph order)
    (hreg : ∀ ind ∈ ctx.tensor_builder.registered, ind ∉ model_io ctx.graph →
      Planned ctx ind) :
    (planTensors ctx order).1 = .ok () ∧
      usesAllZero (planTensors ctx order).2 = true ∧
      defsAllZero (planTensors ctx order).2 = true := by
  have inv0 := scanInv_start ctx order hwf horder
  obtain ⟨h1, h2, h3, _, h5⟩ := scanOperations_inv ctx order _ inv0
  have hgp : ∀ ind, Gate ctx.graph (planTensorsStart ctx).tensor_builder.registered ind →
      Planned ctx ind := by
    intro ind hg
    rcases (planTensorsStart_registered ctx ind).1 hg.2 with h | h
    · exact hreg ind h hg.1
    · exact h
  have hok := h5 (fun ind hg => (hgp ind hg).1)
  unfold planTensors
  cases hs : scanOperations ctx (planTensorsStart ctx) order with
  | mk r st3 =>
    rw [hs] at h1 h2 h3 hok
    simp only at h1 h2 h3 hok
    subst hok
    have inv := h1 rfl
    obtain ⟨hd, _, _⟩ := foldl_disposeConstant_frame st3.constants st3
    have hu := foldl_disposeConstant_find st3.constants inv.nodup_consts st3
    refine ⟨rfl, ?_, ?_⟩
    · apply IndexMap.all_zero_of_find _
        (foldl_disposeConstant_nodup st3.constants st3 inv.nodup_uses)
      intro k v hv
      rw [hu] at hv
      by_cases hconst : k ∈ st3.constants
      · rw [if_pos hconst] at hv
        have hold := inv.uses k (inv.const_planned k hconst)
        rw [remainingUses_nil] at hold
        simp only [hconst, if_true] at hold
        rw [IndexMap.get_eq_of_find hold] at hv
        have h0 := uint32_dec_succ 0 0
        simp only [Nat.zero_add, Nat.add_zero] at h0
        rw [h0] at hv
        simpa using hv.symm
      · rw [if_neg hconst] at hv
        have hg := inv.keys_uses k (IndexMap.mem_keys_of_find hv)
        rw [h3] at hg
        have hold := inv.uses k (hgp k hg)
        rw [remainingUses_nil, hv] at hold
        simp only [hconst, if_false] at hold
        simpa using hold
    · apply IndexMap.all_zero_of_find _ (by rw [hd]; exact inv.nodup_defs)
      intro k v hv
      rw [hd] at hv
      have hg := inv.keys_defs k (IndexMap.mem_keys_of_find hv)
      rw [h3] at hg
      obtain ⟨v', hv', h⟩ := inv.defs k (hgp k hg)
      rw [hv] at hv'
      rcases h with h | ⟨o, ho, _⟩
      · rw [← h]
        exact Option.some.inj hv'
      · simp at ho

/-- C4. Constant lifetime in `planTensors`, for a well-formed graph and an
order listing each operation once. The calls of `planTensors` are, in this
order: the registrations of "Prepare scanning"; one first-use notification per
planned constant; the calls `scan` issued by the loop over the order; the calls
`dispose` issued by the last loop. The first-use notifications of the planned
constants therefore precede every call of the scan. No last-use notification
of a planned constant is issued by the scan and `dispose` holds nothing but
last-use notifications of planned constants, so every last-use notification
of a planned constant comes after every last-use notification of any other
operand; and when `planTensors` runs to its end, `dispose` is one last-use
notification per planned constant. -/
theorem planTensors_constant_lifetime (ctx : BackendContext) (order : List OperationIndex)
    (hwf : ctx.graph.WellFormed) (horder : ListsEachOperationOnce ctx.graph order) :
    ∃ prepare scan dispose : List BuilderCall,
      (∀ ind, ind ∈ (prepareScanning ctx).constants ↔ PlannedConstant ctx ind) ∧
      (prepareScanning ctx).tensor_builder.calls = ctx.tensor_builder.calls ++ prepare ∧
      (∀ c ∈ prepare, c.isRegister = true) ∧
      (planTensorsStart ctx).tensor_builder.calls =
        ctx.tensor_builder.calls ++ prepare ++
          (prepareScanning ctx).constants.map BuilderCall.notifyFirstUse ∧
      (scanOperations ctx (planTensorsStart ctx) order).2.tensor_builder.calls =
        (planTensorsStart ctx).tensor_builder.calls ++ scan ∧
      (planTensors ctx order).2.tensor_builder.calls =
        (planTensorsStart ctx).tensor_builder.calls ++ scan ++ dispose ∧
      (∀ c ∈ scan, c.isLastUseOf (prepareScanning ctx).constants = false) ∧
      (∀ c ∈ dispose, c.isLastUseOf (prepareScanning ctx).constants = true) ∧
      ((planTensors ctx order).1 = .ok () →
        dispose = (prepareScanning ctx).constants.map BuilderCall.notifyLastUse) := by
  have inv0 := scanInv_start ctx order hwf horder
  obtain ⟨h1, h2, _, ⟨scan, h4, h4'⟩, _⟩ := scanOperations_inv ctx order _ inv0
  obtain ⟨prepare, hp, hp'⟩ := foldl_prepareOperand_calls ctx ctx.graph.operands
    { uses_map := [], def_map := [], constants := [], tensor_builder := ctx.tensor_builder }
  have hpc : (prepareScanning ctx).tensor_builder.calls =
      ctx.tensor_builder.calls ++ prepare := hp
  have hstart : (planTensorsStart ctx).tensor_builder.calls =
      ctx.tensor_builder.calls ++ prepare ++
        (prepareScanning ctx).constants.map BuilderCall.notifyFirstUse := by
    unfold planTensorsStart
    rw [(foldl_allocateConstant_frame _ _).2.2.2, hpc]
  have hcs := planTensorsStart_constants ctx
  rw [hcs] at h4' h2
  unfold planTensors
  cases hs : scanOperations ctx (planTensorsStart ctx) order with
  | mk r st3 =>
    rw [hs] at h1 h2 h4
    simp only at h1 h2 h4
    cases r with
    | error msg =>
      refine ⟨prepare, scan, [], mem_prepareScanning_constants ctx hwf.1, hpc, hp', hstart,
        h4, ?_, h4', by simp, fun h => Except.noConfusion h⟩
      show st3.tensor_builder.calls = _
      rw [h4, List.append_nil]
    | ok u =>
      have inv := h1 rfl
      have hcalls := foldl_disposeConstant_calls st3.constants inv.nodup_consts st3
      have hall : st3.constants.filter
          (fun ind => decide (uint32_dec (IndexMap.get st3.uses_map ind) = 0)) =
          st3.constants := by
        rw [List.filter_eq_self]
        intro ind hconst
        have hold := inv.uses ind (inv.const_planned ind hconst)
        rw [remainingUses_nil] at hold
        simp only [hconst, if_true] at hold
        rw [IndexMap.get_eq_of_find hold]
        have h0 := uint32_dec_succ 0 0
        simp only [Nat.zero_add, Nat.add_zero] at h0
        rw [h0]
        decide
      rw [hall] at hcalls
      refine ⟨prepare, scan, (prepareScanning ctx).constants.map BuilderCall.notifyLastUse,
        mem_prepareScanning_constants ctx hwf.1, hpc, hp', hstart, h4, ?_, h4', ?_,
        fun _ => rfl⟩
      · show (List.foldl disposeConstant st3 st3.constants).tensor_builder.calls = _
        rw [hcalls, h4, h2]
      · intro c hc
        obtain ⟨ind, hind, rfl⟩ := List.mem_map.1 hc
        simp [BuilderCall.isLastUseOf, hind]

/-- Witness of `planTensors_constant_lifetime` on the scenario-B graph. -/
theorem planTensors_constant_lifetime_witness :
    ∃ prepare scan dispose : List BuilderCall,
      (∀ ind, ind ∈ (prepareScanning scenarioBContext).constants ↔
        PlannedConstant scenarioBContext ind) ∧
      (prepareScanning scenarioBContext).tensor_builder.calls =
        scenarioBContext.tensor_builder.calls ++ prepare ∧
      (∀ c ∈ prepare, c.isRegister = true) ∧
      (planTensorsStart scenarioBContext).tensor_builder.calls =
        scenarioBContext.tensor_builder.calls ++ prepare ++
          (prepareScanning scenarioBContext).constants.map BuilderCall.notifyFirstUse ∧
      (scanOperations scenarioBContext (planTensorsStart scenarioBContext)
          [0, 1]).2.tensor_builder.calls =
        (planTensorsStart scenarioBContext).tensor_builder.calls ++ scan ∧
      (planTensors scenarioBContext [0, 1]).2.tensor_builder.calls =
        (planTensorsStart scenarioBContext).tensor_builder.calls ++ scan ++ dispose ∧
      (∀ c ∈ scan, c.isLastUseOf (prepareScanning scenarioBContext).constants = false) ∧
      (∀ c ∈ dispose, c.isLastUseOf (prepareScanning scenarioBContext).constants = true) ∧
      ((planTensors scenarioBContext [0, 1]).1 = .ok () →
        dispose =
          (prepareScanning scenarioBContext).constants.map BuilderCall.notifyLastUse) :=
  planTensors_constant_lifetime scenarioBContext [0, 1] (by decide) (by decide)

/-! ## More lemmas on index maps -/

namespace IndexMap

theorem keys_set_of_mem {α : Type} (m : IndexMap α) (k : Nat) (v : α) (h : k ∈ keys m) :
    keys (set m k v) = keys m := by
  induction m with
  | nil => simp [keys] at h
  | cons e t ih =>
    obtain ⟨a, b⟩ := e
    by_cases hk : a = k
    · subst hk
      simp [set, keys]
    · have ht : k ∈ keys t := by
        have h' : k ∈ a :: keys t := h
        rcases List.mem_cons.1 h' with h1 | h1
        · exact absurd h1.symm hk
        · exact h1
      have := ih ht
      simp only [set, hk, if_false, keys, List.map_cons] at this ⊢
      rw [this]

theorem find_append_singleton {α : Type} (m : IndexMap α) (k k' : Nat) (v : α) :
    find (m ++ [(k, v)]) k' =
      match find m k' with
      | some w => some w
      | none => if k = k' then some v else none := by
  induction m with
  | nil => simp [find]
  | cons e t ih =>
    obtain ⟨a, b⟩ := e
    by_cases h : a = k'
    · simp [find, h]
    · simp only [List.cons_append, find, h, if_false]
      exact ih

theorem keys_append {α : Type} (m m' : IndexMap α) : keys (m ++ m') = keys m ++ keys m' := by
  simp [keys]

theorem find_map_val {α β : Type} (m : IndexMap α) (f : Nat → α → β) (k : Nat) :
    find (m.map fun e => (e.1, f e.1 e.2)) k = (find m k).map (f k) := by
  induction m with
  | nil => simp [find]
  | cons e t ih =>
    obtain ⟨a, b⟩ := e
    by_cases h : a = k
    · subst h
      simp [find]
    · simp only [List.map_cons, find, h, if_false]
      exact ih

theorem keys_map_val {α β : Type} (m : IndexMap α) (f : Nat → α → β) :
    keys (m.map fun e => (e.1, f e.1 e.2)) = keys m := by
  simp [keys, Function.comp_def]

theorem contains_iff_mem_keys {α : Type} (m : IndexMap α) (k : Nat) :
    contains m k = true ↔ k ∈ keys m := by
  unfold contains
  constructor
  · intro h
    cases hf : find m k with
    | none => simp [hf] at h
    | some v => exact mem_keys_of_find hf
  · intro h
    obtain ⟨v, hv⟩ := exists_find_of_mem_keys h
    simp [hv]

end IndexMap

/-! ## The loops of `createBackendContexts`, one by one -/

theorem initContextData_eq (lgraph : LoweredGraph) (m : IndexMap ContextData) (b : Backend)
    (h : ∀ b' data, IndexMap.find m b' = some data → data = emptyContextData lgraph) :
    initContextData lgraph m b = IndexMap.set m b (emptyContextData lgraph) := by
  unfold initContextData
  cases hf : IndexMap.find m b with
  | none => rfl
  | some data =>
    rw [h b data hf]
    rfl

theorem foldl_initContextData (lgraph : LoweredGraph) (backends : List Backend)
    (m : IndexMap ContextData) (hnd : (IndexMap.keys m).Nodup)
    (h : ∀ b' data, IndexMap.find m b' = some data → data = emptyContextData lgraph) :
    (IndexMap.keys (backends.foldl (initContextData lgraph) m)).Nodup ∧
    (∀ b, b ∈ IndexMap.keys (backends.foldl (initContextData lgraph) m) ↔
      b ∈ IndexMap.keys m ∨ b ∈ backends) ∧
    ∀ b' data, IndexMap.find (backends.foldl (initContextData lgraph) m) b' = some data →
      data = emptyContextData lgraph := by
  induction backends generalizing m with
  | nil => exact ⟨hnd, by simp, h⟩
  | cons a t ih =>
    rw [List.foldl_cons, initContextData_eq lgraph m a h]
    have h' : ∀ b' data, IndexMap.find (IndexMap.set m a (emptyContextData lgraph)) b' =
        some data → data = emptyContextData lgraph := by
      intro b' data hf
      rw [IndexMap.find_set] at hf
      by_cases hab : a = b'
      · rw [if_pos hab] at hf
        exact (Option.some.inj hf).symm
      · rw [if_neg hab] at hf
        exact h b' data hf
    obtain ⟨h1, h2, h3⟩ := ih _ (IndexMap.nodup_keys_set m a _ hnd) h'
    refine ⟨h1, fun b => ?_, h3⟩
    rw [h2, IndexMap.mem_keys_set, List.mem_cons]
    tauto

theorem dataInv_empty (lgraph : LoweredGraph) (b : Backend) :
    DataInv lgraph b (emptyContextData lgraph) :=
  { operands := by simp [emptyContextData]
    nodup := by simp [emptyContextData, IndexMap.keys]
    external := by simp [emptyContextData, IndexMap.keys]
    op_order := rfl }

theorem mem_setAdd (set : List OperandIndex) (ind k : OperandIndex) :
    k ∈ setAdd set ind ↔ k = ind ∨ k ∈ set := by
  unfold setAdd
  split_ifs with h
  · constructor
    · exact Or.inr
    · rintro (h1 | h1)
      · subst h1
        exact h
      · exact h1
  · rw [List.mem_append, List.mem_singleton]
    tauto

theorem defBackend_eq (lgraph : LoweredGraph) (ind : OperandIndex)
    {operand_li : OperandLowerInfo} {permute_factor : PermuteFactor}
    {rest : List PermuteFactor}
    (h1 : IndexMap.find lgraph.lower_info.operand ind = some operand_li)
    (h2 : operand_li.def_factors = permute_factor :: rest) :
    defBackend lgraph ind = some permute_factor.backend := by
  unfold defBackend
  rw [h1]
  simp [h2]

theorem copyOperand_spec (lgraph : LoweredGraph) (b : Backend) (data data' : ContextData)
    (ind : OperandIndex) (h : copyOperand lgraph b data ind = .ok data')
    (inv : DataInv lgraph b data) :
    DataInv lgraph b data' ∧ data'.graph.operations = data.graph.operations ∧
      ∀ k, k ∈ IndexMap.keys data'.graph.operands ↔
        k = ind ∨ k ∈ IndexMap.keys data.graph.operands := by
  unfold copyOperand at h
  cases h1 : IndexMap.find lgraph.graph.operands ind with
  | none =>
    rw [h1] at h
    exact Except.noConfusion h
  | some operand =>
    rw [h1] at h
    simp only at h
    by_cases hc : IndexMap.contains data.graph.operands ind = true
    · simp only [Graph.addOperand, hc, if_true] at h
      cases h
      refine ⟨inv, rfl, fun k => ?_⟩
      constructor
      · exact Or.inr
      · rintro (hk | hk)
        · subst hk
          exact (IndexMap.contains_iff_mem_keys _ _).1 hc
        · exact hk
    · have hnk : ind ∉ IndexMap.keys data.graph.operands := fun hk =>
        hc ((IndexMap.contains_iff_mem_keys _ _).2 hk)
      simp only [Graph.addOperand, hc, Bool.false_eq_true, if_false] at h
      cases h2 : IndexMap.find lgraph.lower_info.operand ind with
      | none =>
        rw [h2] at h
        exact Except.noConfusion h
      | some operand_li =>
        rw [h2] at h
        simp only at h
        cases h3 : operand_li.def_factors with
        | nil =>
          rw [h3] at h
          exact Except.noConfusion h
        | cons permute_factor rest =>
          rw [h3] at h
          simp only at h
          have hdb := defBackend_eq lgraph ind h2 h3
          cases h
          have hops : ∀ g : Graph, (if some ind ∈ lgraph.graph.getOutputs then
              (if some ind ∈ lgraph.graph.getInputs then g.addInput ind else g).addOutput ind
              else (if some ind ∈ lgraph.graph.getInputs then g.addInput ind else g)).operands =
              g.operands ∧
            (if some ind ∈ lgraph.graph.getOutputs then
              (if some ind ∈ lgraph.graph.getInputs then g.addInput ind else g).addOutput ind
              else (if some ind ∈ lgraph.graph.getInputs then g.addInput ind else g)).operations =
              g.operations := by
            intro g
            split_ifs <;> exact ⟨rfl, rfl⟩
          refine ⟨?_, ?_, ?_⟩
          · refine { operands := ?_, nodup := ?_, external := ?_, op_order := inv.op_order }
            · intro e he
              rw [(hops _).1] at he
              rcases List.mem_append.1 he with he | he
              · exact inv.operands e he
              · rw [List.mem_singleton] at he
                subst he
                exact ⟨operand, h1, rfl⟩
            · rw [(hops _).1, IndexMap.keys_append, List.nodup_append]
              refine ⟨inv.nodup, by simp [IndexMap.keys], ?_⟩
              intro k hk hk'
              have : k = ind := by simpa [IndexMap.keys] using hk'
              subst this
              exact hnk hk
            · intro k
              rw [(hops _).1, IndexMap.keys_append]
              have hkeys : IndexMap.keys [(ind, ({ operand with getUses := [], getDef := none } :
                  Operand))] = [ind] := rfl
              rw [hkeys, List.mem_append, List.mem_singleton]
              by_cases hk : k = ind
              · subst hk
                have hne : k ∉ data.external_operands := fun hx => hnk ((inv.external k).1 hx).1
                by_cases hpb : permute_factor.backend ≠ b
                · rw [if_pos hpb, mem_setAdd]
                  exact ⟨fun _ => ⟨Or.inr rfl, _, hdb, hpb⟩, fun _ => Or.inl rfl⟩
                · rw [if_neg hpb]
                  constructor
                  · intro hx
                    exact absurd hx hne
                  · rintro ⟨_, pb, hpb', hne'⟩
                    rw [hdb] at hpb'
                    cases hpb'
                    exact absurd hne' hpb
              · have : k ∈ (if permute_factor.backend ≠ b then
                    setAdd data.external_operands ind else data.external_operands) ↔
                    k ∈ data.external_operands := by
                  split_ifs
                  · rw [mem_setAdd]
                    simp [hk]
                  · rfl
                rw [this, inv.external k]
                simp [hk]
          · exact (hops _).2
          · intro k
            rw [(hops _).1, IndexMap.keys_append]
            simp only [IndexMap.keys, List.map_cons, List.map_nil, List.mem_append,
              List.mem_singleton]
            tauto

theorem copyOperands_spec (lgraph : LoweredGraph) (b : Backend) (l : List OperandIndex)
    (data data' : ContextData) (h : copyOperands lgraph b data l = .ok data')
    (inv : DataInv lgraph b data) :
    DataInv lgraph b data' ∧ data'.graph.operations = data.graph.operations ∧
      ∀ k, k ∈ IndexMap.keys data'.graph.operands ↔
        k ∈ l ∨ k ∈ IndexMap.keys data.graph.operands := by
  induction l generalizing data with
  | nil =>
    unfold copyOperands at h
    cases h
    exact ⟨inv, rfl, by simp⟩
  | cons a t ih =>
    unfold copyOperands at h
    cases h1 : copyOperand lgraph b data a with
    | error msg =>
      rw [h1] at h
      exact Except.noConfusion h
    | ok data1 =>
      rw [h1] at h
      simp only at h
      obtain ⟨i1, o1, k1⟩ := copyOperand_spec lgraph b data data1 a h1 inv
      obtain ⟨i2, o2, k2⟩ := ih data1 h i1
      refine ⟨i2, o2.trans o1, fun k => ?_⟩
      rw [k2, k1, List.mem_cons]
      tauto

theorem mem_io_list (op : Operation) (k : OperandIndex) :
    k ∈ removeUndefined (removeDuplicated (op.getInputs ++ op.getOutputs)) ↔
      op.references k := by
  rw [mem_removeUndefined, mem_removeDuplicated, List.mem_append]
  rfl

theorem assignedBackend_eq (lgraph : LoweredGraph) (op_ind : OperationIndex)
    {op_li : OperationLowerInfo}
    (h : IndexMap.find lgraph.lower_info.operation op_ind = some op_li) :
    assignedBackend lgraph op_ind = some op_li.backend := by
  unfold assignedBackend
  rw [h]
  rfl

theorem partitionOperation_spec (lgraph : LoweredGraph) (backends : List Backend)
    (m m' : IndexMap ContextData) (done : List (OperationIndex × Operation))
    (e : OperationIndex × Operation) (h : partitionOperation lgraph m e = .ok m')
    (inv : MapInv lgraph backends m done) : MapInv lgraph backends m' (done ++ [e]) := by
  unfold partitionOperation at h
  cases h1 : IndexMap.find lgraph.lower_info.operation e.1 with
  | none =>
    rw [h1] at h
    exact Except.noConfusion h
  | some op_li =>
    rw [h1] at h
    simp only at h
    have hab := assignedBackend_eq lgraph e.1 h1
    cases h2 : IndexMap.find m op_li.backend with
    | none =>
      rw [h2] at h
      exact Except.noConfusion h
    | some data =>
      rw [h2] at h
      simp only at h
      obtain ⟨dinv, hops, hkeys⟩ := inv.data _ _ h2
      cases h3 : copyOperands lgraph op_li.backend data
          (removeUndefined (removeDuplicated (e.2.getInputs ++ e.2.getOutputs))) with
      | error msg =>
        rw [h3] at h
        exact Except.noConfusion h
      | ok data1 =>
        rw [h3] at h
        simp only at h
        obtain ⟨dinv1, hops1, hkeys1⟩ := copyOperands_spec lgraph _ _ data data1 h3 dinv
        by_cases hc : IndexMap.contains data1.graph.operations e.1 = true
        · simp only [Graph.addOperation, hc, if_true] at h
          exact Except.noConfusion h
        · simp only [Graph.addOperation, hc, Bool.false_eq_true, if_false, h1] at h
          cases h
          have hnk : e.1 ∉ IndexMap.keys data1.graph.operations := fun hk =>
            hc ((IndexMap.contains_iff_mem_keys _ _).2 hk)
          have hbk : op_li.backend ∈ IndexMap.keys m := IndexMap.mem_keys_of_find h2
          refine { keys_nodup := ?_, keys := ?_, done_nodup := ?_, assigned := ?_, data := ?_ }
          · exact IndexMap.nodup_keys_set _ _ _ inv.keys_nodup
          · intro b
            rw [IndexMap.keys_set_of_mem _ _ _ hbk]
            exact inv.keys b
          swap
          · intro e' he'
            rw [IndexMap.keys_set_of_mem _ _ _ hbk]
            rcases List.mem_append.1 he' with h' | h'
            · exact inv.assigned e' h'
            · rw [List.mem_singleton] at h'
              subst h'
              exact ⟨_, hab, hbk⟩
          · rw [IndexMap.keys_append, List.nodup_append]
            refine ⟨inv.done_nodup, by simp [IndexMap.keys], ?_⟩
            intro k hk hk'
            have hke : k = e.1 := by simpa [IndexMap.keys] using hk'
            subst hke
            apply hnk
            rw [hops1, hops]
            obtain ⟨e', he', hfst⟩ := List.mem_map.1 hk
            refine List.mem_map.2 ⟨e', List.mem_filter.2 ⟨he', ?_⟩, hfst⟩
            rw [decide_eq_true_eq, hfst]
            exact hab
          · intro b d hd
            rw [IndexMap.find_set] at hd
            by_cases hb : op_li.backend = b
            · subst hb
              rw [if_pos rfl] at hd
              cases hd
              refine ⟨?_, ?_, ?_⟩
              · exact
                  { operands := dinv1.operands
                    nodup := dinv1.nodup
                    external := dinv1.external
                    op_order := dinv1.op_order }
              · show data1.graph.operations ++ [e] = _
                rw [hops1, hops, List.filter_append]
                simp [hab]
              · intro ind
                show ind ∈ IndexMap.keys data1.graph.operands ↔ _
                rw [hkeys1, hkeys, mem_io_list]
                constructor
                · rintro (hr | ⟨e', he', ha', hr'⟩)
                  · exact ⟨e, by simp, hab, hr⟩
                  · exact ⟨e', List.mem_append_left _ he', ha', hr'⟩
                · rintro ⟨e', he', ha', hr'⟩
                  rcases List.mem_append.1 he' with h' | h'
                  · exact Or.inr ⟨e', h', ha', hr'⟩
                  · rw [List.mem_singleton] at h'
                    subst h'
                    exact Or.inl hr'
            · rw [if_neg hb] at hd
              obtain ⟨di, ho, hk⟩ := inv.data b d hd
              have hne : ¬ assignedBackend lgraph e.1 = some b := by
                rw [hab]
                intro hh
                exact hb (Option.some.inj hh)
              refine ⟨di, ?_, ?_⟩
              · rw [ho, List.filter_append]
                simp [hne]
              · intro ind
                rw [hk]
                constructor
                · rintro ⟨e', he', ha', hr'⟩
                  exact ⟨e', List.mem_append_left _ he', ha', hr'⟩
                · rintro ⟨e', he', ha', hr'⟩
                  rcases List.mem_append.1 he' with h' | h'
                  · exact ⟨e', h', ha', hr'⟩
                  · rw [List.mem_singleton] at h'
                    subst h'
                    exact absurd ha' hne

theorem partitionOperations_spec (lgraph : LoweredGraph) (backends : List Backend)
    (rest : List (OperationIndex × Operation)) (m m' : IndexMap ContextData)
    (done : List (OperationIndex × Operation))
    (h : partitionOperations lgraph m rest = .ok m') (inv : MapInv lgraph backends m done) :
    MapInv lgraph backends m' (done ++ rest) := by
  induction rest generalizing m done with
  | nil =>
    unfold partitionOperations at h
    cases h
    simpa using inv
  | cons e t ih =>
    unfold partitionOperations at h
    cases h1 : partitionOperation lgraph m e with
    | error msg =>
      rw [h1] at h
      exact Except.noConfusion h
    | ok m1 =>
      rw [h1] at h
      simp only at h
      have := ih m1 (done ++ [e]) h (partitionOperation_spec lgraph backends m m1 done e h1 inv)
      simpa using this

theorem mapInv_init (lgraph : LoweredGraph) (backends : List Backend) :
    MapInv lgraph backends (backends.foldl (initContextData lgraph) []) [] := by
  obtain ⟨h1, h2, h3⟩ := foldl_initContextData lgraph backends []
    (by simp [IndexMap.keys]) (by simp [IndexMap.find])
  refine { keys_nodup := h1, keys := ?_, done_nodup := by simp [IndexMap.keys],
           assigned := by simp, data := ?_ }
  · intro b
    rw [h2]
    simp [IndexMap.keys]
  · intro b d hd
    rw [h3 b d hd]
    exact ⟨dataInv_empty lgraph b, rfl, by simp [emptyContextData, IndexMap.keys]⟩

/-- What `createBackendContexts` returns: the finished context data of a map
that satisfies the partition invariant for all operations of the whole
graph. -/
theorem createBackendContexts_spec (backends : List Backend) (lgraph : LoweredGraph)
    (whole_op_order : List OperationIndex) (linear_executor : Bool)
    (contexts : IndexMap ContextData)
    (h : createBackendContexts backends lgraph whole_op_order linear_executor = .ok contexts) :
    ∃ m, MapInv lgraph backends m lgraph.graph.operations ∧
      contexts = m.map fun pair =>
        (pair.1, finishContextData whole_op_order linear_executor pair.2) := by
  unfold createBackendContexts at h
  cases h1 : partitionOperations lgraph (backends.foldl (initContextData lgraph) [])
      lgraph.graph.operations with
  | error msg =>
    rw [h1] at h
    exact Except.noConfusion h
  | ok m =>
    rw [h1] at h
    simp only at h
    cases h
    have := partitionOperations_spec lgraph backends _ _ m [] h1 (mapInv_init lgraph backends)
    exact ⟨m, by simpa using this, rfl⟩

theorem mem_contexts (whole_op_order : List OperationIndex) (linear_executor : Bool)
    (m : IndexMap ContextData) (hnd : (IndexMap.keys m).Nodup) (b : Backend)
    (data : ContextData)
    (h : (b, data) ∈ m.map fun pair =>
      (pair.1, finishContextData whole_op_order linear_executor pair.2)) :
    ∃ d, IndexMap.find m b = some d ∧
      data = finishContextData whole_op_order linear_executor d := by
  obtain ⟨⟨b', d⟩, hmem, heq⟩ := List.mem_map.1 h
  cases heq
  exact ⟨d, IndexMap.find_of_mem hnd hmem, rfl⟩

theorem find_contexts (whole_op_order : List OperationIndex) (linear_executor : Bool)
    (m : IndexMap ContextData) (b : Backend) :
    IndexMap.find (m.map fun pair =>
      (pair.1, finishContextData whole_op_order linear_executor pair.2)) b =
      (IndexMap.find m b).map (finishContextData whole_op_order linear_executor) :=
  IndexMap.find_map_val m (fun _ d => finishContextData whole_op_order linear_executor d) b

theorem finishBuilding_operations (graph : Graph) :
    graph.finishBuilding.operations = graph.operations := rfl

theorem finishBuilding_keys (graph : Graph) :
    IndexMap.keys graph.finishBuilding.operands = IndexMap.keys graph.operands := by
  simp [Graph.finishBuilding, IndexMap.keys, Function.comp_def]

theorem finishBuilding_find (graph : Graph) (ind : OperandIndex) (obj : Operand)
    (h : IndexMap.find graph.finishBuilding.operands ind = some obj) :
    ∃ obj0, IndexMap.find graph.operands ind = some obj0 ∧ obj.shape = obj0.shape ∧
      obj.typeInfo = obj0.typeInfo ∧ obj.isConstant = obj0.isConstant ∧
      obj.isVariable = obj0.isVariable := by
  have := IndexMap.find_map_val graph.operands (fun k (o : Operand) =>
    ({ o with
        getUses := (IndexMap.keys graph.operations).filter
          fun op_ind => decide (k ∈ graph.inputsOf op_ind)
        getDef := ((IndexMap.keys graph.operations).filter
          fun op_ind => decide (k ∈ graph.outputsOf op_ind)).getLast? } : Operand)) ind
  have h' : IndexMap.find graph.finishBuilding.operands ind = _ := this
  rw [h'] at h
  cases hf : IndexMap.find graph.operands ind with
  | none =>
    rw [hf] at h
    exact Option.noConfusion h
  | some obj0 =>
    rw [hf] at h
    cases h
    exact ⟨obj0, rfl, rfl, rfl, rfl, rfl⟩

/-! ### `createBackendContexts` returns on consistent input -/

theorem copyOperand_ok (lgraph : LoweredGraph) (b : Backend) (data : ContextData)
    (ind : OperandIndex) (h1 : IndexMap.contains lgraph.graph.operands ind = true)
    (h2 : (defBackend lgraph ind).isSome = true) :
    ∃ data', copyOperand lgraph b data ind = .ok data' := by
  unfold copyOperand
  obtain ⟨operand, hop⟩ :=
    IndexMap.exists_find_of_mem_keys ((IndexMap.contains_iff_mem_keys _ _).1 h1)
  rw [hop]
  simp only
  unfold Graph.addOperand
  by_cases hc : IndexMap.contains data.graph.operands ind = true
  · rw [if_pos hc]
    exact ⟨_, rfl⟩
  · rw [if_neg hc]
    simp only
    unfold defBackend at h2
    cases hli : IndexMap.find lgraph.lower_info.operand ind with
    | none => simp [hli] at h2
    | some operand_li =>
      rw [hli] at h2
      simp only
      cases hdf : operand_li.def_factors with
      | nil => simp [hdf] at h2
      | cons pf rest => exact ⟨_, rfl⟩

theorem copyOperands_ok (lgraph : LoweredGraph) (b : Backend) (l : List OperandIndex)
    (data : ContextData)
    (h : ∀ ind ∈ l, IndexMap.contains lgraph.graph.operands ind = true ∧
      (defBackend lgraph ind).isSome = true) :
    ∃ data', copyOperands lgraph b data l = .ok data' := by
  induction l generalizing data with
  | nil => exact ⟨data, rfl⟩
  | cons a t ih =>
    obtain ⟨data1, h1⟩ := copyOperand_ok lgraph b data a
      (h a (List.mem_cons_self _ _)).1 (h a (List.mem_cons_self _ _)).2
    obtain ⟨data2, h2⟩ := ih data1 (fun ind hind => h ind (List.mem_cons_of_mem _ hind))
    refine ⟨data2, ?_⟩
    unfold copyOperands
    rw [h1]
    exact h2

theorem partitionOperation_ok (lgraph : LoweredGraph) (backends : List Backend)
    (m : IndexMap ContextData) (done : List (OperationIndex × Operation))
    (e : OperationIndex × Operation) (inv : MapInv lgraph backends m done)
    (hb : ∃ b, assignedBackend lgraph e.1 = some b ∧ b ∈ backends)
    (hrefs : ∀ ind, e.2.references ind →
      IndexMap.contains lgraph.graph.operands ind = true ∧
        (defBackend lgraph ind).isSome = true)
    (hnew : e.1 ∉ IndexMap.keys done) :
    ∃ m', partitionOperation lgraph m e = .ok m' := by
  obtain ⟨b, hab, hbb⟩ := hb
  unfold assignedBackend at hab
  cases h1 : IndexMap.find lgraph.lower_info.operation e.1 with
  | none => simp [h1] at hab
  | some op_li =>
    rw [h1] at hab
    have hbe : op_li.backend = b := by simpa using hab
    subst hbe
    obtain ⟨data, h2⟩ := IndexMap.exists_find_of_mem_keys ((inv.keys _).2 hbb)
    obtain ⟨dinv, hops, _⟩ := inv.data _ _ h2
    obtain ⟨data1, h3⟩ := copyOperands_ok lgraph op_li.backend
      (removeUndefined (removeDuplicated (e.2.getInputs ++ e.2.getOutputs))) data
      (fun ind hind => hrefs ind ((mem_io_list e.2 ind).1 hind))
    obtain ⟨_, hops1, _⟩ := copyOperands_spec lgraph _ _ data data1 h3 dinv
    have hc : ¬ IndexMap.contains data1.graph.operations e.1 = true := by
      rw [IndexMap.contains_iff_mem_keys, hops1, hops]
      intro hk
      obtain ⟨e', he', hfst⟩ := List.mem_map.1 hk
      exact hnew (List.mem_map.2 ⟨e', (List.mem_filter.1 he').1, hfst⟩)
    unfold partitionOperation
    rw [h1]
    simp only
    rw [h2]
    simp only
    rw [h3]
    simp only [Graph.addOperation, hc, Bool.false_eq_true, if_false, h1]
    exact ⟨_, rfl⟩

theorem partitionOperations_ok (lgraph : LoweredGraph) (backends : List Backend)
    (rest : List (OperationIndex × Operation)) (m : IndexMap ContextData)
    (done : List (OperationIndex × Operation)) (inv : MapInv lgraph backends m done)
    (hrest : ∀ e ∈ rest, (∃ b, assignedBackend lgraph e.1 = some b ∧ b ∈ backends) ∧
      ∀ ind, e.2.references ind →
        IndexMap.contains lgraph.graph.operands ind = true ∧
          (defBackend lgraph ind).isSome = true)
    (hnd : (IndexMap.keys (done ++ rest)).Nodup) :
    ∃ m', partitionOperations lgraph m rest = .ok m' := by
  induction rest generalizing m done with
  | nil => exact ⟨m, rfl⟩
  | cons e t ih =>
    have hnew : e.1 ∉ IndexMap.keys done := by
      rw [IndexMap.keys_append, List.nodup_append] at hnd
      intro hk
      exact hnd.2.2 hk (by simp [IndexMap.keys])
    obtain ⟨m1, h1⟩ := partitionOperation_ok lgraph backends m done e inv
      (hrest e (List.mem_cons_self _ _)).1 (hrest e (List.mem_cons_self _ _)).2 hnew
    have inv1 := partitionOperation_spec lgraph backends m m1 done e h1 inv
    obtain ⟨m2, h2⟩ := ih m1 (done ++ [e]) inv1
      (fun e' he' => hrest e' (List.mem_cons_of_mem _ he')) (by simpa using hnd)
    refine ⟨m2, ?_⟩
    unfold partitionOperations
    rw [h1]
    exact h2

/-- On a lowered graph that is consistent with the registered backends,
`createBackendContexts` returns. -/
theorem createBackendContexts_returns (backends : List Backend) (lgraph : LoweredGraph)
    (whole_op_order : List OperationIndex) (linear_executor : Bool)
    (h : lgraph.Consistent backends) :
    ∃ contexts,
      createBackendContexts backends lgraph whole_op_order linear_executor = .ok contexts := by
  obtain ⟨m, hm⟩ := partitionOperations_ok lgraph backends lgraph.graph.operations _ []
    (mapInv_init lgraph backends) h.2 (by simpa using h.1)
  unfold createBackendContexts
  rw [hm]
  exact ⟨_, rfl⟩

/-! ## Properties of `createBackendContexts` -/

theorem scenarioBContexts_eq :
    createBackendContexts [0, 1, 2] scenarioBLowered [0, 1] true = .ok scenarioBContexts := by
  rfl

theorem nodup_keys_filter {α : Type} (m : IndexMap α) (p : Nat × α → Bool)
    (h : (IndexMap.keys m).Nodup) : (IndexMap.keys (m.filter p)).Nodup :=
  List.Nodup.sublist ((List.filter_sublist _).map Prod.fst) h

/-- C5. Identifier stability of the partitioner. In every partial graph that
`createBackendContexts` returns, an operation found under an index is the
operation the whole graph holds under that index, and an operand found under
an index has the shape and element type of the operand the whole graph holds
under that index. Conversely every operation of the whole graph, and every
operand it references, is found under its own index in the partial graph of
the operation's backend. -/
theorem createBackendContexts_identifier_stability (backends : List Backend)
    (lgraph : LoweredGraph) (whole_op_order : List OperationIndex) (linear_executor : Bool)
    (contexts : IndexMap ContextData)
    (h : createBackendContexts backends lgraph whole_op_order linear_executor = .ok contexts) :
    (∀ b data, (b, data) ∈ contexts →
      (∀ op_ind op, IndexMap.find data.graph.operations op_ind = some op →
        IndexMap.find lgraph.graph.operations op_ind = some op) ∧
      (∀ ind obj, IndexMap.find data.graph.operands ind = some obj →
        ∃ operand, IndexMap.find lgraph.graph.operands ind = some operand ∧
          obj.shape = operand.shape ∧ obj.typeInfo = operand.typeInfo)) ∧
    (∀ e ∈ lgraph.graph.operations, ∃ b data,
      assignedBackend lgraph e.1 = some b ∧ IndexMap.find contexts b = some data ∧
      IndexMap.find data.graph.operations e.1 = some e.2 ∧
      ∀ ind, e.2.references ind → ∃ obj operand,
        IndexMap.find data.graph.operands ind = some obj ∧
        IndexMap.find lgraph.graph.operands ind = some operand ∧
        obj.shape = operand.shape ∧ obj.typeInfo = operand.typeInfo) := by
  obtain ⟨m, inv, rfl⟩ := createBackendContexts_spec _ _ _ _ _ h
  have hstab : ∀ d b, IndexMap.find m b = some d → ∀ ind obj,
      IndexMap.find d.graph.finishBuilding.operands ind = some obj →
      ∃ operand, IndexMap.find lgraph.graph.operands ind = some operand ∧
        obj.shape = operand.shape ∧ obj.typeInfo = operand.typeInfo := by
    intro d b hd ind obj hobj
    obtain ⟨dinv, _, _⟩ := inv.data b d hd
    obtain ⟨obj0, hobj0, hs, ht, _, _⟩ := finishBuilding_find _ _ _ hobj
    obtain ⟨operand, hop, heq⟩ := dinv.operands _ (IndexMap.mem_of_find hobj0)
    have heq' : obj0 = { operand with getUses := [], getDef := none } := heq
    refine ⟨operand, hop, ?_, ?_⟩
    · rw [hs, heq']
    · rw [ht, heq']
  constructor
  · intro b data hmem
    obtain ⟨d, hd, rfl⟩ := mem_contexts _ _ m inv.keys_nodup b data hmem
    obtain ⟨_, hops, _⟩ := inv.data b d hd
    refine ⟨?_, hstab d b hd⟩
    intro op_ind op hop
    have hop' : IndexMap.find d.graph.operations op_ind = some op := hop
    rw [hops] at hop'
    exact IndexMap.find_of_mem inv.done_nodup (List.mem_filter.1 (IndexMap.mem_of_find hop')).1
  · intro e he
    obtain ⟨b, hab, hbk⟩ := inv.assigned e he
    obtain ⟨d, hd⟩ := IndexMap.exists_find_of_mem_keys hbk
    obtain ⟨_, hops, hkeys⟩ := inv.data b d hd
    refine ⟨b, finishContextData whole_op_order linear_executor d, hab, ?_, ?_, ?_⟩
    · rw [find_contexts, hd]
      rfl
    · show IndexMap.find d.graph.operations e.1 = some e.2
      rw [hops]
      apply IndexMap.find_of_mem (nodup_keys_filter _ _ inv.done_nodup)
      exact List.mem_filter.2 ⟨he, by simpa using hab⟩
    · intro ind href
      have hk : ind ∈ IndexMap.keys d.graph.finishBuilding.operands := by
        rw [finishBuilding_keys, hkeys]
        exact ⟨e, he, hab, href⟩
      obtain ⟨obj, hobj⟩ := IndexMap.exists_find_of_mem_keys hk
      obtain ⟨operand, h1, h2, h3⟩ := hstab d b hd ind obj hobj
      exact ⟨obj, operand, hobj, h1, h2, h3⟩

/-- Witness of `createBackendContexts_identifier_stability` on the lowered
scenario-B graph. -/
theorem createBackendContexts_identifier_stability_witness :
    (∀ b data, (b, data) ∈ scenarioBContexts →
      (∀ op_ind op, IndexMap.find data.graph.operations op_ind = some op →
        IndexMap.find scenarioBLowered.graph.operations op_ind = some op) ∧
      (∀ ind obj, IndexMap.find data.graph.operands ind = some obj →
        ∃ operand, IndexMap.find scenarioBLowered.graph.operands ind = some operand ∧
          obj.shape = operand.shape ∧ obj.typeInfo = operand.typeInfo)) ∧
    (∀ e ∈ scenarioBLowered.graph.operations, ∃ b data,
      assignedBackend scenarioBLowered e.1 = some b ∧
      IndexMap.find scenarioBContexts b = some data ∧
      IndexMap.find data.graph.operations e.1 = some e.2 ∧
      ∀ ind, e.2.references ind → ∃ obj operand,
        IndexMap.find data.graph.operands ind = some obj ∧
        IndexMap.find scenarioBLowered.graph.operands ind = some operand ∧
        obj.shape = operand.shape ∧ obj.typeInfo = operand.typeInfo) :=
  createBackendContexts_identifier_stability [0, 1, 2] scenarioBLowered [0, 1] true
    scenarioBContexts scenarioBContexts_eq

/-- C6. Local execution order. The `op_order` of every partition returned by
`createBackendContexts` is the whole graph's operation order filtered to the
operations present in that partition's graph; it is a subsequence of the whole
order, it lists operations of the partition only, and when the whole order
lists each operation of the whole graph exactly once it lists each operation
of the partition exactly once. -/
theorem createBackendContexts_op_order (backends : List Backend)
    (lgraph : LoweredGraph) (whole_op_order : List OperationIndex) (linear_executor : Bool)
    (contexts : IndexMap ContextData)
    (h : createBackendContexts backends lgraph whole_op_order linear_executor = .ok contexts) :
    ∀ b data, (b, data) ∈ contexts →
      data.op_order =
        whole_op_order.filter (fun ind => IndexMap.contains data.graph.operations ind) ∧
      data.op_order.Sublist whole_op_order ∧
      (∀ op_ind ∈ data.op_order, op_ind ∈ IndexMap.keys data.graph.operations) ∧
      (ListsEachOperationOnce lgraph.graph whole_op_order →
        ∀ op_ind ∈ IndexMap.keys data.graph.operations, data.op_order.count op_ind = 1) := by
  obtain ⟨m, inv, rfl⟩ := createBackendContexts_spec _ _ _ _ _ h
  intro b data hmem
  obtain ⟨d, hd, rfl⟩ := mem_contexts _ _ m inv.keys_nodup b data hmem
  obtain ⟨dinv, hops, _⟩ := inv.data b d hd
  have horder : (finishContextData whole_op_order linear_executor d).op_order =
      whole_op_order.filter (fun ind =>
        IndexMap.contains (finishContextData whole_op_order linear_executor d).graph.operations
          ind) := by
    show d.op_order ++ _ = _
    rw [dinv.op_order]
    rfl
  refine ⟨horder, ?_, ?_, ?_⟩
  · rw [horder]
    exact List.filter_sublist _
  · intro op_ind hop
    rw [horder] at hop
    exact (IndexMap.contains_iff_mem_keys _ _).1 (List.mem_filter.1 hop).2
  · intro hwhole op_ind hop
    rw [horder, List.count_filter ((IndexMap.contains_iff_mem_keys _ _).2 hop)]
    apply hwhole
    have hop' : op_ind ∈ IndexMap.keys d.graph.operations := hop
    rw [hops] at hop'
    obtain ⟨e, he, rfl⟩ := List.mem_map.1 hop'
    exact List.mem_map.2 ⟨e, (List.mem_filter.1 he).1, rfl⟩

/-- Witness of `createBackendContexts_op_order` on the partition of backend
`0` of the lowered scenario-B graph. -/
theorem createBackendContexts_op_order_witness :
    scenarioBPartition0.op_order =
        [0, 1].filter (fun ind => IndexMap.contains scenarioBPartition0.graph.operations ind) ∧
      scenarioBPartition0.op_order.Sublist [0, 1] ∧
      (∀ op_ind ∈ scenarioBPartition0.op_order,
        op_ind ∈ IndexMap.keys scenarioBPartition0.graph.operations) ∧
      (ListsEachOperationOnce scenarioBLowered.graph [0, 1] →
        ∀ op_ind ∈ IndexMap.keys scenarioBPartition0.graph.operations,
          scenarioBPartition0.op_order.count op_ind = 1) :=
  createBackendContexts_op_order [0, 1, 2] scenarioBLowered [0, 1] true
    scenarioBContexts scenarioBContexts_eq 0 scenarioBPartition0 (by decide)

/-- C7. Operation placement. `createBackendContexts` clones every operation of
the whole graph into the partial graph of the backend that the lower info
assigns to it, under its own index, and into no other partial graph; and every
operation index of a partial graph is an operation index of the whole graph,
assigned to that partition's backend. -/
theorem createBackendContexts_operation_placement (backends : List Backend)
    (lgraph : LoweredGraph) (whole_op_order : List OperationIndex) (linear_executor : Bool)
    (contexts : IndexMap ContextData)
    (h : createBackendContexts backends lgraph whole_op_order linear_executor = .ok contexts) :
    (∀ e ∈ lgraph.graph.operations, ∃ b data,
      assignedBackend lgraph e.1 = some b ∧ IndexMap.find contexts b = some data ∧
      IndexMap.find data.graph.operations e.1 = some e.2 ∧
      ∀ b' data', (b', data') ∈ contexts →
        e.1 ∈ IndexMap.keys data'.graph.operations → b' = b ∧ data' = data) ∧
    (∀ b data, (b, data) ∈ contexts → ∀ op_ind ∈ IndexMap.keys data.graph.operations,
      op_ind ∈ IndexMap.keys lgraph.graph.operations ∧
        assignedBackend lgraph op_ind = some b) := by
  obtain ⟨m, inv, rfl⟩ := createBackendContexts_spec _ _ _ _ _ h
  have hback : ∀ b data, (b, data) ∈ (m.map fun pair =>
        (pair.1, finishContextData whole_op_order linear_executor pair.2)) →
      ∀ op_ind ∈ IndexMap.keys data.graph.operations,
        op_ind ∈ IndexMap.keys lgraph.graph.operations ∧
          assignedBackend lgraph op_ind = some b := by
    intro b data hmem op_ind hop
    obtain ⟨d, hd, rfl⟩ := mem_contexts _ _ m inv.keys_nodup b data hmem
    obtain ⟨_, hops, _⟩ := inv.data b d hd
    have hop' : op_ind ∈ IndexMap.keys d.graph.operations := hop
    rw [hops] at hop'
    obtain ⟨e, he, rfl⟩ := List.mem_map.1 hop'
    obtain ⟨he1, he2⟩ := List.mem_filter.1 he
    exact ⟨List.mem_map.2 ⟨e, he1, rfl⟩, by simpa using he2⟩
  refine ⟨?_, hback⟩
  intro e he
  obtain ⟨b, hab, hbk⟩ := inv.assigned e he
  obtain ⟨d, hd⟩ := IndexMap.exists_find_of_mem_keys hbk
  obtain ⟨_, hops, _⟩ := inv.data b d hd
  refine ⟨b, finishContextData whole_op_order linear_executor d, hab, ?_, ?_, ?_⟩
  · rw [find_contexts, hd]
    rfl
  · show IndexMap.find d.graph.operations e.1 = some e.2
    rw [hops]
    apply IndexMap.find_of_mem (nodup_keys_filter _ _ inv.done_nodup)
    exact List.mem_filter.2 ⟨he, by simpa using hab⟩
  · intro b' data' hmem' hop
    have hb' : b' = b := by
      have := (hback b' data' hmem' e.1 hop).2
      rw [hab] at this
      exact (Option.some.inj this).symm
    subst hb'
    obtain ⟨d', hd', rfl⟩ := mem_contexts _ _ m inv.keys_nodup b' data' hmem'
    rw [hd] at hd'
    cases hd'
    exact ⟨rfl, rfl⟩

/-- Witness of `createBackendContexts_operation_placement` on the lowered
scenario-B graph. -/
theorem createBackendContexts_operation_placement_witness :
    (∀ e ∈ scenarioBLowered.graph.operations, ∃ b data,
      assignedBackend scenarioBLowered e.1 = some b ∧
      IndexMap.find scenarioBContexts b = some data ∧
      IndexMap.find data.graph.operations e.1 = some e.2 ∧
      ∀ b' data', (b', data') ∈ scenarioBContexts →
        e.1 ∈ IndexMap.keys data'.graph.operations → b' = b ∧ data' = data) ∧
    (∀ b data, (b, data) ∈ scenarioBContexts →
      ∀ op_ind ∈ IndexMap.keys data.graph.operations,
        op_ind ∈ IndexMap.keys scenarioBLowered.graph.operations ∧
          assignedBackend scenarioBLowered op_ind = some b) :=
  createBackendContexts_operation_placement [0, 1, 2] scenarioBLowered [0, 1] true
    scenarioBContexts scenarioBContexts_eq

/-- C8. External marking. After `createBackendContexts`, an operand index
belongs to a partition's `external_operands` exactly when the operand is a
defined input or output of some operation assigned to that partition's backend
and the backend of the operand's def-side factor in the lower info is another
backend. -/
theorem createBackendContexts_external_operands (backends : List Backend)
    (lgraph : LoweredGraph) (whole_op_order : List OperationIndex) (linear_executor : Bool)
    (contexts : IndexMap ContextData)
    (h : createBackendContexts backends lgraph whole_op_order linear_executor = .ok contexts) :
    ∀ b data, (b, data) ∈ contexts → ∀ ind,
      ind ∈ data.external_operands ↔
        ((∃ e ∈ lgraph.graph.operations,
            assignedBackend lgraph e.1 = some b ∧ e.2.references ind) ∧
          ∃ pb, defBackend lgraph ind = some pb ∧ pb ≠ b) := by
  obtain ⟨m, inv, rfl⟩ := createBackendContexts_spec _ _ _ _ _ h
  intro b data hmem ind
  obtain ⟨d, hd, rfl⟩ := mem_contexts _ _ m inv.keys_nodup b data hmem
  obtain ⟨dinv, _, hkeys⟩ := inv.data b d hd
  show ind ∈ d.external_operands ↔ _
  rw [dinv.external, hkeys]

/-- Witness of `createBackendContexts_external_operands`: the graph input `1`
of the lowered scenario-B graph, defined on backend `2`, in the partition of
backend `0`. -/
theorem createBackendContexts_external_operands_witness :
    1 ∈ scenarioBPartition0.external_operands ↔
      ((∃ e ∈ scenarioBLowered.graph.operations,
          assignedBackend scenarioBLowered e.1 = some 0 ∧ e.2.references 1) ∧
        ∃ pb, defBackend scenarioBLowered 1 = some pb ∧ pb ≠ 0) :=
  createBackendContexts_external_operands [0, 1, 2] scenarioBLowered [0, 1] true
    scenarioBContexts scenarioBContexts_eq 0 scenarioBPartition0 (by decide) 1

/-- C9 (counterexample). No operation of the lowered scenario-B graph is
assigned to the registered backend `2`, and `createBackendContexts` still
returns a context for backend `2`, with an empty partial graph. -/
theorem createBackendContexts_keeps_empty_partition :
    (∀ e ∈ scenarioBLowered.graph.operations, assignedBackend scenarioBLowered e.1 ≠ some 2) ∧
    ∃ contexts data,
      createBackendContexts [0, 1, 2] scenarioBLowered [0, 1] true = .ok contexts ∧
      IndexMap.find contexts 2 = some data ∧ data.graph.operations = [] :=
  ⟨by decide, _, _, scenarioBContexts_eq, rfl, rfl⟩

/-- C9 (as amended). `createBackendContexts` returns a backend context for a
backend if and only if the backend is registered with the backend manager; the
partial graph of a returned context has no operation exactly when no operation
of the whole graph is assigned to its backend. -/
theorem createBackendContexts_context_per_backend (backends : List Backend)
    (lgraph : LoweredGraph) (whole_op_order : List OperationIndex) (linear_executor : Bool)
    (contexts : IndexMap ContextData)
    (h : createBackendContexts backends lgraph whole_op_order linear_executor = .ok contexts) :
    (∀ b, IndexMap.contains contexts b = true ↔ b ∈ backends) ∧
    (∀ b data, (b, data) ∈ contexts →
      (data.graph.operations = [] ↔
        ∀ e ∈ lgraph.graph.operations, assignedBackend lgraph e.1 ≠ some b)) := by
  obtain ⟨m, inv, rfl⟩ := createBackendContexts_spec _ _ _ _ _ h
  constructor
  · intro b
    rw [IndexMap.contains_iff_mem_keys,
      IndexMap.keys_map_val m (fun _ d => finishContextData whole_op_order linear_executor d)]
    exact inv.keys b
  · intro b data hmem
    obtain ⟨d, hd, rfl⟩ := mem_contexts _ _ m inv.keys_nodup b data hmem
    obtain ⟨_, hops, _⟩ := inv.data b d hd
    show d.graph.operations = [] ↔ _
    rw [hops, List.filter_eq_nil_iff]
    simp

/-- Witness of `createBackendContexts_context_per_backend` on the lowered
scenario-B graph. -/
theorem createBackendContexts_context_per_backend_witness :
    (∀ b, IndexMap.contains scenarioBContexts b = true ↔ b ∈ [0, 1, 2]) ∧
    (∀ b data, (b, data) ∈ scenarioBContexts →
      (data.graph.operations = [] ↔
        ∀ e ∈ scenarioBLowered.graph.operations,
          assignedBackend scenarioBLowered e.1 ≠ some b)) :=
  createBackendContexts_context_per_backend [0, 1, 2] scenarioBLowered [0, 1] true
    scenarioBContexts scenarioBContexts_eq

/-! ## The loops of `prepareMigrantTensors` -/

theorem getITensor_congr {reg reg' : PortableTensorRegistryTemplate} {i : OperandIndex}
    (h1 : reg'._native = reg._native)
    (h2 : IndexMap.find reg'._migrant i = IndexMap.find reg._migrant i) :
    reg'.getITensor i = reg.getITensor i := by
  unfold PortableTensorRegistryTemplate.getITensor
    PortableTensorRegistryTemplate.getNativeTensor
  rw [h1, h2]

theorem getITensor_of_migrant {reg : PortableTensorRegistryTemplate} {i : OperandIndex}
    {t : Option ITensor} (h : IndexMap.find reg._migrant i = some t) :
    reg.getITensor i = t := by
  unfold PortableTensorRegistryTemplate.getITensor
  rw [h]

theorem extends_refl (found : OperandIndex → Option ITensor)
    (st : IndexMap PortableTensorRegistryTemplate) : Extends found st st :=
  { keys := fun _ => Iff.rfl
    regs := by
      intro b reg reg' h h'
      rw [h] at h'
      cases h'
      exact ⟨rfl, fun _ => Or.inl rfl⟩ }

theorem getITensor_of_extends {found : OperandIndex → Option ITensor}
    {st st' : IndexMap PortableTensorRegistryTemplate} (hext : Extends found st st')
    {b : Backend} {reg reg' : PortableTensorRegistryTemplate}
    (h : IndexMap.find st b = some reg) (h' : IndexMap.find st' b = some reg')
    (i : OperandIndex) :
    reg'.getITensor i = reg.getITensor i ∨
      (reg.getITensor i = none ∧
        ∃ t, found i = some t ∧ t.portable = true ∧ reg'.getITensor i = some t) := by
  obtain ⟨hn, hm⟩ := hext.regs b reg reg' h h'
  rcases hm i with hm' | ⟨h0, t, ht, hp, hm'⟩
  · exact Or.inl (getITensor_congr hn hm')
  · exact Or.inr ⟨h0, t, ht, hp, getITensor_of_migrant hm'⟩

theorem extends_trans {found : OperandIndex → Option ITensor}
    {st st' st'' : IndexMap PortableTensorRegistryTemplate}
    (h1 : Extends found st st') (h2 : Extends found st' st'') : Extends found st st'' := by
  refine { keys := fun b => (h2.keys b).trans (h1.keys b), regs := ?_ }
  intro b reg reg'' hr hr''
  cases hr' : IndexMap.find st' b with
  | none => exact absurd ((h1.keys b).1 hr') (by simp [hr])
  | some reg' =>
    obtain ⟨n1, m1⟩ := h1.regs b reg reg' hr hr'
    obtain ⟨n2, m2⟩ := h2.regs b reg' reg'' hr' hr''
    refine ⟨n2.trans n1, fun i => ?_⟩
    rcases m2 i with e2 | ⟨z2, t, ht, hp, e2⟩
    · rcases m1 i with e1 | ⟨z1, t, ht, hp, e1⟩
      · exact Or.inl (e2.trans e1)
      · exact Or.inr ⟨z1, t, ht, hp, e2.trans e1⟩
    · rcases m1 i with e1 | ⟨_, t1, _, _, e1⟩
      · refine Or.inr ⟨?_, t, ht, hp, e2⟩
        rw [← getITensor_congr n1 e1]
        exact z2
      · rw [getITensor_of_migrant e1] at z2
        exact Option.noConfusion z2

theorem findSome_eq_of_filled (bs : List Backend) (f f0 : Backend → Option ITensor)
    (T : Option ITensor) (hT : bs.findSome? f0 = T)
    (h : ∀ b ∈ bs, f b = f0 b ∨ (f0 b = none ∧ ∃ t, T = some t ∧ f b = some t)) :
    bs.findSome? f = T := by
  induction bs with
  | nil => simpa using hT
  | cons a t ih =>
    rw [List.findSome?_cons] at hT ⊢
    cases h0 : f0 a with
    | some t0 =>
      rw [h0] at hT
      rcases h a (List.mem_cons_self _ _) with h1 | ⟨h1, _⟩
      · rw [h1, h0]
        exact hT
      · rw [h0] at h1
        exact Option.noConfusion h1
    | none =>
      rw [h0] at hT
      simp only at hT
      rcases h a (List.mem_cons_self _ _) with h1 | ⟨_, t', hT', h1⟩
      · rw [h1, h0]
        exact ih hT (fun b hb => h b (List.mem_cons_of_mem _ hb))
      · rw [h1]
        exact hT'.symm

/-- The lookup in the combined registries is not changed by the entries that
the pass adds. -/
theorem getITensor_combined_of_extends (tensor_regs : List Backend)
    (st0 st : IndexMap PortableTensorRegistryTemplate)
    (hext : Extends (TensorRegistries.getITensor tensor_regs st0) st0 st) (i : OperandIndex) :
    TensorRegistries.getITensor tensor_regs st i =
      TensorRegistries.getITensor tensor_regs st0 i := by
  unfold TensorRegistries.getITensor
  apply findSome_eq_of_filled _ _ _ _ rfl
  intro b _
  cases h0 : IndexMap.find st0 b with
  | none =>
    rw [(hext.keys b).2 h0]
    exact Or.inl rfl
  | some reg0 =>
    cases h1 : IndexMap.find st b with
    | none => exact absurd ((hext.keys b).1 h1) (by simp [h0])
    | some reg =>
      simp only
      rcases getITensor_of_extends hext h0 h1 i with h | ⟨hz, t, ht, _, h⟩
      · exact Or.inl h
      · refine Or.inr ⟨hz, t, ?_, h⟩
        exact ht

theorem resolved_of_extends {found : OperandIndex → Option ITensor}
    {st st' : IndexMap PortableTensorRegistryTemplate} (hext : Extends found st st')
    {b : Backend} {ind : OperandIndex} (h : Resolved found st b ind) :
    Resolved found st' b ind := by
  obtain ⟨reg, hreg, hres⟩ := h
  cases h1 : IndexMap.find st' b with
  | none => exact absurd ((hext.keys b).1 h1) (by simp [hreg])
  | some reg' =>
    refine ⟨reg', h1, fun t ht hp => ?_⟩
    rcases getITensor_of_extends hext hreg h1 ind with h | ⟨_, t', _, _, h⟩
    · rw [h]
      exact hres t ht hp
    · rw [h]
      exact Option.noConfusion

theorem migrateOperand_spec (tensor_regs : List Backend) (b : Backend)
    (found : OperandIndex → Option ITensor) (st : IndexMap PortableTensorRegistryTemplate)
    (ind : OperandIndex)
    (hc : ∀ i, TensorRegistries.getITensor tensor_regs st i = found i) :
    Extends found st (migrateOperand tensor_regs b st ind).2 ∧
      ((migrateOperand tensor_regs b st ind).1 = .ok () →
        Resolved found (migrateOperand tensor_regs b st ind).2 b ind) := by
  unfold migrateOperand
  cases hreg : IndexMap.find st b with
  | none => exact ⟨extends_refl _ _, fun h => Except.noConfusion h⟩
  | some reg =>
    simp only
    by_cases hsome : (reg.getITensor ind).isSome = true
    · rw [if_pos hsome]
      refine ⟨extends_refl _ _, fun _ => ⟨reg, hreg, fun t _ _ hn => ?_⟩⟩
      rw [hn] at hsome
      exact Bool.noConfusion hsome
    · rw [if_neg hsome, hc ind]
      have hnone : reg.getITensor ind = none := by
        cases hg : reg.getITensor ind with
        | none => rfl
        | some t => simp [hg] at hsome
      cases hf : found ind with
      | none =>
        refine ⟨extends_refl _ _, fun _ => ⟨reg, hreg, fun t ht _ => ?_⟩⟩
        rw [hf] at ht
        exact Option.noConfusion ht
      | some tensor =>
        simp only
        by_cases hp : tensor.portable = true
        · rw [if_pos hp]
          unfold PortableTensorRegistryTemplate.setMigrantTensor
          cases hn : IndexMap.find reg._native ind with
          | some x =>
            simp only
            refine ⟨?_, fun h => Except.noConfusion h⟩
            refine { keys := fun b' => ?_, regs := ?_ }
            · rw [IndexMap.find_set]
              by_cases hb : b = b'
              · subst hb
                simp [hreg]
              · simp [hb]
            · intro b' r r' hr hr'
              rw [IndexMap.find_set] at hr'
              by_cases hb : b = b'
              · subst hb
                rw [if_pos rfl] at hr'
                rw [hreg] at hr
                cases hr
                cases hr'
                exact ⟨rfl, fun _ => Or.inl rfl⟩
              · rw [if_neg hb, hr] at hr'
                cases hr'
                exact ⟨rfl, fun _ => Or.inl rfl⟩
          | none =>
            simp only
            refine ⟨?_, fun _ => ⟨_, IndexMap.find_set_self _ _ _, fun t _ _ => ?_⟩⟩
            · refine { keys := fun b' => ?_, regs := ?_ }
              · rw [IndexMap.find_set]
                by_cases hb : b = b'
                · subst hb
                  simp [hreg]
                · simp [hb]
              · intro b' r r' hr hr'
                rw [IndexMap.find_set] at hr'
                by_cases hb : b = b'
                · subst hb
                  rw [if_pos rfl] at hr'
                  rw [hreg] at hr
                  cases hr
                  cases hr'
                  refine ⟨rfl, fun i => ?_⟩
                  show IndexMap.find (IndexMap.set reg._migrant ind (some tensor)) i = _ ∨ _
                  rw [IndexMap.find_set]
                  by_cases hi : ind = i
                  · subst hi
                    rw [if_pos rfl]
                    exact Or.inr ⟨hnone, tensor, hf, hp, rfl⟩
                  · rw [if_neg hi]
                    exact Or.inl rfl
                · rw [if_neg hb, hr] at hr'
                  cases hr'
                  exact ⟨rfl, fun _ => Or.inl rfl⟩
            · have : IndexMap.find
                  ({ reg with _migrant := IndexMap.set reg._migrant ind (some tensor) } :
                    PortableTensorRegistryTemplate)._migrant ind = some (some tensor) :=
                IndexMap.find_set_self _ _ _
              rw [getITensor_of_migrant this]
              exact Option.noConfusion
        · rw [if_neg hp]
          refine ⟨extends_refl _ _, fun _ => ⟨reg, hreg, fun t ht hpt => ?_⟩⟩
          rw [hf] at ht
          cases ht
          exact absurd hpt hp

theorem migrateOperands_spec (tensor_regs : List Backend) (b : Backend)
    (st0 : IndexMap PortableTensorRegistryTemplate) (l : List OperandIndex)
    (st : IndexMap PortableTensorRegistryTemplate)
    (hext : Extends (TensorRegistries.getITensor tensor_regs st0) st0 st) :
    Extends (TensorRegistries.getITensor tensor_regs st0) st
        (migrateOperands tensor_regs b st l).2 ∧
      ((migrateOperands tensor_regs b st l).1 = .ok () →
        ∀ ind ∈ l, Resolved (TensorRegistries.getITensor tensor_regs st0)
          (migrateOperands tensor_regs b st l).2 b ind) := by
  induction l generalizing st with
  | nil => exact ⟨extends_refl _ _, fun _ ind hind => absurd hind (List.not_mem_nil _)⟩
  | cons a t ih =>
    obtain ⟨h1, h2⟩ := migrateOperand_spec tensor_regs b _ st a
      (getITensor_combined_of_extends tensor_regs st0 st hext)
    unfold migrateOperands
    cases hs : migrateOperand tensor_regs b st a with
    | mk r st1 =>
      rw [hs] at h1 h2
      cases r with
      | error msg => exact ⟨h1, fun h => Except.noConfusion h⟩
      | ok u =>
        obtain ⟨g1, g2⟩ := ih st1 (extends_trans hext h1)
        refine ⟨extends_trans h1 g1, fun hok ind hind => ?_⟩
        rcases List.mem_cons.1 hind with h | h
        · subst h
          exact resolved_of_extends g1 (h2 rfl)
        · exact g2 hok ind h

theorem migrateOperation_spec (lgraph : LoweredGraph) (tensor_regs : List Backend)
    (st0 st : IndexMap PortableTensorRegistryTemplate) (e : OperationIndex × Operation)
    (hext : Extends (TensorRegistries.getITensor tensor_regs st0) st0 st) :
    Extends (TensorRegistries.getITensor tensor_regs st0) st
        (migrateOperation lgraph tensor_regs st e).2 ∧
      ((migrateOperation lgraph tensor_regs st e).1 = .ok () →
        ∃ b, assignedBackend lgraph e.1 = some b ∧
          IndexMap.find (migrateOperation lgraph tensor_regs st e).2 b ≠ none ∧
          ∀ ind, e.2.references ind →
            Resolved (TensorRegistries.getITensor tensor_regs st0)
              (migrateOperation lgraph tensor_regs st e).2 b ind) := by
  unfold migrateOperation
  cases h1 : IndexMap.find lgraph.lower_info.operation e.1 with
  | none => exact ⟨extends_refl _ _, fun h => Except.noConfusion h⟩
  | some lower_info =>
    simp only
    cases h2 : IndexMap.find st lower_info.backend with
    | none => exact ⟨extends_refl _ _, fun h => Except.noConfusion h⟩
    | some reg =>
      simp only
      obtain ⟨g1, g2⟩ := migrateOperands_spec tensor_regs lower_info.backend st0
        (removeUndefined (removeDuplicated (e.2.getInputs ++ e.2.getOutputs))) st hext
      refine ⟨g1, fun hok => ⟨lower_info.backend, assignedBackend_eq lgraph e.1 h1, ?_, ?_⟩⟩
      · intro hn
        rw [(g1.keys _).1 hn] at h2
        exact Option.noConfusion h2
      · intro ind href
        exact g2 hok ind ((mem_io_list e.2 ind).2 href)

theorem migrateOperations_spec (lgraph : LoweredGraph) (tensor_regs : List Backend)
    (st0 : IndexMap PortableTensorRegistryTemplate) (l : List (OperationIndex × Operation))
    (st : IndexMap PortableTensorRegistryTemplate)
    (hext : Extends (TensorRegistries.getITensor tensor_regs st0) st0 st) :
    Extends (TensorRegistries.getITensor tensor_regs st0) st
        (migrateOperations lgraph tensor_regs st l).2 ∧
      ((migrateOperations lgraph tensor_regs st l).1 = .ok () →
        ∀ e ∈ l, ∃ b, assignedBackend lgraph e.1 = some b ∧
          IndexMap.find (migrateOperations lgraph tensor_regs st l).2 b ≠ none ∧
          ∀ ind, e.2.references ind →
            Resolved (TensorRegistries.getITensor tensor_regs st0)
              (migrateOperations lgraph tensor_regs st l).2 b ind) := by
  induction l generalizing st with
  | nil => exact ⟨extends_refl _ _, fun _ e he => absurd he (List.not_mem_nil _)⟩
  | cons a t ih =>
    obtain ⟨h1, h2⟩ := migrateOperation_spec lgraph tensor_regs st0 st a hext
    unfold migrateOperations
    cases hs : migrateOperation lgraph tensor_regs st a with
    | mk r st1 =>
      rw [hs] at h1 h2
      cases r with
      | error msg => exact ⟨h1, fun h => Except.noConfusion h⟩
      | ok u =>
        obtain ⟨g1, g2⟩ := ih st1 (extends_trans hext h1)
        refine ⟨extends_trans h1 g1, fun hok e he => ?_⟩
        rcases List.mem_cons.1 he with h | h
        · subst h
          obtain ⟨b, hb, hne, hres⟩ := h2 rfl
          exact ⟨b, hb, fun hn => hne ((g1.keys b).1 hn),
            fun ind href => resolved_of_extends g1 (hres ind href)⟩
        · exact g2 hok e h

/-! ## Properties of `prepareMigrantTensors` -/

/-- C10. Migrant resolution. When `prepareMigrantTensors` completes, then for
every operation of the whole graph, with `reg0` and `reg1` the registry of the
operation's backend before and after the pass, and for every defined operand
among its inputs and outputs for which `reg0` returned no tensor: `reg1` holds
a migrant tensor for the operand exactly when the tensor found for it in the
combined registries is a portable tensor, and `getITensor` on `reg1` then
returns that found tensor. If `reg0` held no null migrant entry for the
operand, the operand is a key of the migrant map of `reg1` exactly in that
case. The tensor found in the combined registries is the same before and
after the pass. -/
theorem prepareMigrantTensors_migrant_resolution (lgraph : LoweredGraph)
    (tensor_regs : List Backend) (backend_contexts : IndexMap PortableTensorRegistryTemplate)
    (h : (prepareMigrantTensors lgraph tensor_regs backend_contexts).1 = .ok ()) :
    (∀ ind,
      TensorRegistries.getITensor tensor_regs
          (prepareMigrantTensors lgraph tensor_regs backend_contexts).2 ind =
        TensorRegistries.getITensor tensor_regs backend_contexts ind) ∧
    ∀ e ∈ lgraph.graph.operations, ∃ b reg0 reg1,
      assignedBackend lgraph e.1 = some b ∧
      IndexMap.find backend_contexts b = some reg0 ∧
      IndexMap.find (prepareMigrantTensors lgraph tensor_regs backend_contexts).2 b =
        some reg1 ∧
      ∀ ind, e.2.references ind → reg0.getITensor ind = none →
        ((∃ t, IndexMap.find reg1._migrant ind = some (some t)) ↔
          ∃ t, TensorRegistries.getITensor tensor_regs backend_contexts ind = some t ∧
            t.portable = true) ∧
        (∀ t, TensorRegistries.getITensor tensor_regs backend_contexts ind = some t →
          t.portable = true → reg1.getITensor ind = some t) ∧
        (IndexMap.find reg0._migrant ind ≠ some none →
          (IndexMap.contains reg1._migrant ind = true ↔
            ∃ t, TensorRegistries.getITensor tensor_regs backend_contexts ind = some t ∧
              t.portable = true)) := by
  unfold prepareMigrantTensors at h ⊢
  obtain ⟨hext, hres⟩ := migrateOperations_spec lgraph tensor_regs backend_contexts
    lgraph.graph.operations backend_contexts (extends_refl _ _)
  refine ⟨getITensor_combined_of_extends tensor_regs _ _ hext, fun e he => ?_⟩
  obtain ⟨b, hb, hne, hr⟩ := hres h e he
  cases hreg1 : IndexMap.find
      (migrateOperations lgraph tensor_regs backend_contexts lgraph.graph.operations).2 b with
  | none => exact absurd hreg1 hne
  | some reg1 =>
    cases hreg0 : IndexMap.find backend_contexts b with
    | none => exact absurd ((hext.keys b).2 hreg0) hne
    | some reg0 =>
      refine ⟨b, reg0, reg1, hb, hreg0, hreg1, fun ind href hnone => ?_⟩
      obtain ⟨reg1', hreg1', hresolved⟩ := hr ind href
      rw [hreg1] at hreg1'
      cases hreg1'
      obtain ⟨hn, hm⟩ := hext.regs b reg0 reg1 hreg0 hreg1
      have hmig : ∀ t, TensorRegistries.getITensor tensor_regs backend_contexts ind = some t →
          t.portable = true → IndexMap.find reg1._migrant ind = some (some t) := by
        intro t ht hp
        rcases hm ind with hsame | ⟨_, t', ht', _, hset⟩
        · exfalso
          apply hresolved t ht hp
          rw [getITensor_congr hn hsame]
          exact hnone
        · rw [ht] at ht'
          cases ht'
          exact hset
      refine ⟨⟨?_, ?_⟩, ?_, ?_⟩
      · rintro ⟨t, ht⟩
        rcases hm ind with hsame | ⟨_, t', ht', hp', _⟩
        · exfalso
          rw [ht] at hsame
          have := getITensor_of_migrant hsame.symm
          rw [hnone] at this
          exact Option.noConfusion this
        · exact ⟨t', ht', hp'⟩
      · rintro ⟨t, ht, hp⟩
        exact ⟨t, hmig t ht hp⟩
      · intro t ht hp
        exact getITensor_of_migrant (hmig t ht hp)
      · intro hnn
        constructor
        · intro hc
          cases hx : IndexMap.find reg1._migrant ind with
          | none => simp [IndexMap.contains, hx] at hc
          | some x =>
            rcases hm ind with hsame | ⟨_, t', ht', hp', _⟩
            · exfalso
              rw [hx] at hsame
              have := getITensor_of_migrant hsame.symm
              rw [hnone] at this
              subst this
              exact hnn hsame.symm
            · exact ⟨t', ht', hp'⟩
        · rintro ⟨t, ht, hp⟩
          simp [IndexMap.contains, hmig t ht hp]

/-- Witness of `prepareMigrantTensors_migrant_resolution` on the lowered
scenario-B graph. -/
theorem prepareMigrantTensors_migrant_resolution_witness :
    (∀ ind,
      TensorRegistries.getITensor [2, 1, 0]
          (prepareMigrantTensors scenarioBLowered [2, 1, 0] scenarioBRegistries).2 ind =
        TensorRegistries.getITensor [2, 1, 0] scenarioBRegistries ind) ∧
    ∀ e ∈ scenarioBLowered.graph.operations, ∃ b reg0 reg1,
      assignedBackend scenarioBLowered e.1 = some b ∧
      IndexMap.find scenarioBRegistries b = some reg0 ∧
      IndexMap.find (prepareMigrantTensors scenarioBLowered [2, 1, 0] scenarioBRegistries).2 b =
        some reg1 ∧
      ∀ ind, e.2.references ind → reg0.getITensor ind = none →
        ((∃ t, IndexMap.find reg1._migrant ind = some (some t)) ↔
          ∃ t, TensorRegistries.getITensor [2, 1, 0] scenarioBRegistries ind = some t ∧
            t.portable = true) ∧
        (∀ t, TensorRegistries.getITensor [2, 1, 0] scenarioBRegistries ind = some t →
          t.portable = true → reg1.getITensor ind = some t) ∧
        (IndexMap.find reg0._migrant ind ≠ some none →
          (IndexMap.contains reg1._migrant ind = true ↔
            ∃ t, TensorRegistries.getITensor [2, 1, 0] scenarioBRegistries ind = some t ∧
              t.portable = true)) :=
  prepareMigrantTensors_migrant_resolution scenarioBLowered [2, 1, 0] scenarioBRegistries rfl

/-! ## Properties of the registry -/

theorem exclusive_empty : Exclusive PortableTensorRegistryTemplate.empty := by
  intro ind h
  simp [PortableTensorRegistryTemplate.empty, IndexMap.contains, IndexMap.find] at h

theorem exclusive_setMigrantTensor (r : PortableTensorRegistryTemplate) (ind : OperandIndex)
    (tensor : Option ITensor) (h : Exclusive r) :
    Exclusive (r.setMigrantTensor ind tensor).2 := by
  unfold PortableTensorRegistryTemplate.setMigrantTensor
  cases hn : IndexMap.find r._native ind with
  | some t => simpa using h
  | none =>
    intro i hi
    simp only [IndexMap.contains_set, Bool.or_eq_true, decide_eq_true_eq] at hi
    rcases hi with ⟨h1, h2 | h2⟩
    · subst h2
      simp [IndexMap.contains, hn] at h1
    · exact h i ⟨h1, h2⟩

theorem exclusive_setNativeTensor (r : PortableTensorRegistryTemplate) (ind : OperandIndex)
    (tensor : Option ITensor) (h : Exclusive r) :
    Exclusive (r.setNativeTensor ind tensor).2 := by
  unfold PortableTensorRegistryTemplate.setNativeTensor
  cases hn : IndexMap.find r._migrant ind with
  | some t => simpa using h
  | none =>
    intro i hi
    simp only [IndexMap.contains_set, Bool.or_eq_true, decide_eq_true_eq] at hi
    rcases hi with ⟨h1 | h1, h2⟩
    · subst h1
      simp [IndexMap.contains, hn] at h2
    · exact h i ⟨h1, h2⟩

theorem exclusive_runRegistryCalls (calls : List RegistryCall)
    (r : PortableTensorRegistryTemplate) (h : Exclusive r) :
    Exclusive (runRegistryCalls r calls) := by
  induction calls generalizing r with
  | nil => simpa [runRegistryCalls] using h
  | cons c cs ih =>
    have hstep : Exclusive (RegistryCall.apply r c) := by
      cases c with
      | setNativeTensor ind tensor => exact exclusive_setNativeTensor r ind tensor h
      | setMigrantTensor ind tensor => exact exclusive_setMigrantTensor r ind tensor h
    simpa [runRegistryCalls] using ih _ hstep

/-- C2. Ownership exclusivity inside one registry: after any sequence of
`setNativeTensor` and `setMigrantTensor` calls on the empty registry, raising
calls included, no operand index is a key of both the native map and the
migrant map. -/
theorem registry_native_migrant_exclusive (calls : List RegistryCall) (ind : OperandIndex) :
    ¬ (IndexMap.contains
          (runRegistryCalls PortableTensorRegistryTemplate.empty calls)._native ind = true ∧
        IndexMap.contains
          (runRegistryCalls PortableTensorRegistryTemplate.empty calls)._migrant ind = true) :=
  exclusive_runRegistryCalls calls _ exclusive_empty ind

/-- C3. Registering the second kind of entry is a fatal error:
`setMigrantTensor` raises exactly when a native entry for the index exists and
`setNativeTensor` raises exactly when a migrant entry exists; a raising call
leaves the registry unchanged; a call that does not raise stores the tensor
under the index, leaves the other map alone, and `setMigrantTensor` returns
`true`. -/
theorem registry_set_second_kind_raises (r : PortableTensorRegistryTemplate)
    (ind : OperandIndex) (tensor : Option ITensor) :
    (raised (r.setMigrantTensor ind tensor).1 = IndexMap.contains r._native ind) ∧
    (raised (r.setNativeTensor ind tensor).1 = IndexMap.contains r._migrant ind) ∧
    (raised (r.setMigrantTensor ind tensor).1 = true →
      (r.setMigrantTensor ind tensor).2 = r) ∧
    (raised (r.setNativeTensor ind tensor).1 = true →
      (r.setNativeTensor ind tensor).2 = r) ∧
    (raised (r.setMigrantTensor ind tensor).1 = false →
      (r.setMigrantTensor ind tensor).1 = .ok true ∧
      IndexMap.find (r.setMigrantTensor ind tensor).2._migrant ind = some tensor ∧
      (r.setMigrantTensor ind tensor).2._native = r._native) ∧
    (raised (r.setNativeTensor ind tensor).1 = false →
      (r.setNativeTensor ind tensor).1 = .ok () ∧
      IndexMap.find (r.setNativeTensor ind tensor).2._native ind = some tensor ∧
      (r.setNativeTensor ind tensor).2._migrant = r._migrant) := by
  unfold PortableTensorRegistryTemplate.setMigrantTensor
    PortableTensorRegistryTemplate.setNativeTensor IndexMap.contains
  cases hn : IndexMap.find r._native ind <;> cases hm : IndexMap.find r._migrant ind <;>
    simp [raised, IndexMap.find_set_self]

/-- C17. Registry lookup semantics: `getITensor` returns the migrant entry of
the index when there is one, otherwise the native entry, otherwise null;
`getNativeITensor` returns the native entry or null, whatever the migrant map
holds; so for an index with a migrant entry `t` and no native entry
`getITensor` returns `t` and `getNativeITensor` returns null. -/
theorem registry_lookup_semantics (r : PortableTensorRegistryTemplate) (ind : OperandIndex) :
    (∀ entry, IndexMap.find r._migrant ind = some entry → r.getITensor ind = entry) ∧
    (IndexMap.find r._migrant ind = none →
      ∀ entry, IndexMap.find r._native ind = some entry → r.getITensor ind = entry) ∧
    (IndexMap.find r._migrant ind = none → IndexMap.find r._native ind = none →
      r.getITensor ind = none) ∧
    (∀ entry, IndexMap.find r._native ind = some entry → r.getNativeITensor ind = entry) ∧
    (IndexMap.find r._native ind = none → r.getNativeITensor ind = none) ∧
    (∀ migrant : IndexMap (Option ITensor),
      ({ r with _migrant := migrant } : PortableTensorRegistryTemplate).getNativeITensor ind =
        r.getNativeITensor ind) ∧
    (∀ t, IndexMap.find r._migrant ind = some (some t) → IndexMap.find r._native ind = none →
      r.getITensor ind = some t ∧ r.getNativeITensor ind = none) := by
  unfold PortableTensorRegistryTemplate.getITensor
    PortableTensorRegistryTemplate.getNativeITensor
    PortableTensorRegistryTemplate.getNativeTensor
  refine ⟨?_, ?_, ?_, ?_, ?_, ?_, ?_⟩
  · intro entry h
    simp [h]
  · intro h entry h'
    simp [h, h']
  · intro h h'
    simp [h, h']
  · intro entry h
    simp [h]
  · intro h
    simp [h]
  · intro migrant
    rfl
  · intro t h h'
    simp [h, h']

/-! ## Properties of the executor factory -/

theorem foldl_adjustOrder (id : Backend → String) (l acc : List (Backend × ContextData)) :
    l.foldl (adjustOrder id) acc =
      (l.filter fun pair => decide (id pair.1 ≠ "builtin")).reverse ++ acc ++
        l.filter fun pair => decide (id pair.1 = "builtin") := by
  induction l generalizing acc with
  | nil => simp
  | cons pair t ih =>
    rw [List.foldl_cons, ih]
    by_cases h : id pair.1 = "builtin"
    · simp [adjustOrder, h]
    · simp [adjustOrder, h]

theorem orderedContexts_eq (id : Backend → String) (backend_contexts : IndexMap ContextData) :
    orderedContexts id backend_contexts =
      (backend_contexts.filter fun pair => decide (id pair.1 ≠ "builtin")).reverse ++
        backend_contexts.filter fun pair => decide (id pair.1 = "builtin") := by
  unfold orderedContexts
  rw [foldl_adjustOrder]
  simp

theorem orderedContexts_perm (id : Backend → String) (backend_contexts : IndexMap ContextData) :
    (orderedContexts id backend_contexts).Perm backend_contexts := by
  rw [orderedContexts_eq]
  have h1 : ((backend_contexts.filter fun pair => decide (id pair.1 ≠ "builtin")).reverse ++
      backend_contexts.filter fun pair => decide (id pair.1 = "builtin")).Perm
      ((backend_contexts.filter fun pair => decide (id pair.1 = "builtin")) ++
        backend_contexts.filter fun pair => !decide (id pair.1 = "builtin")) := by
    refine List.Perm.trans List.perm_append_comm ?_
    refine List.Perm.append_left _ ?_
    have : (fun pair : Backend × ContextData => decide (id pair.1 ≠ "builtin")) =
        fun pair => !decide (id pair.1 = "builtin") := by
      funext pair
      simp
    rw [this]
    exact List.reverse_perm _
  exact h1.trans (List.filter_append_perm _ _)

theorem createLinearExecutor_ok {env : FactoryEnv} {lowered_graph : LoweredGraph}
    {options : CompilerOptions} {exec : Executor}
    (h : createLinearExecutor env lowered_graph options = .ok exec) :
    createBackendContexts env.getAll lowered_graph
        (env.topolSortOperations lowered_graph.graph) (decide (options.executor = "Linear")) =
      .ok exec.backend_contexts ∧
    exec.cls = .LinearExecutor ∧
    exec.ordered_contexts = orderedContexts env.id exec.backend_contexts := by
  unfold createLinearExecutor at h
  cases hc : createBackendContexts env.getAll lowered_graph
      (env.topolSortOperations lowered_graph.graph) (decide (options.executor = "Linear")) with
  | error msg => rw [hc] at h; exact Except.noConfusion h
  | ok backend_contexts =>
    rw [hc] at h
    dsimp only at h
    cases hg : env.generate backend_contexts with
    | error msg => rw [hg] at h; exact Except.noConfusion h
    | ok u =>
      rw [hg] at h
      injection h with h
      subst h
      exact ⟨rfl, rfl, rfl⟩

theorem createDataflowExecutor_ok {env : FactoryEnv} {lowered_graph : LoweredGraph}
    {options : CompilerOptions} {parallel : Bool} {exec : Executor}
    (h : createDataflowExecutor env lowered_graph options parallel = .ok exec) :
    createBackendContexts env.getAll lowered_graph
        (env.topolSortOperations lowered_graph.graph) (decide (options.executor = "Linear")) =
      .ok exec.backend_contexts ∧
    exec.cls = (if parallel then .ParallelExecutor else .DataflowExecutor) ∧
    exec.ordered_contexts = orderedContexts env.id exec.backend_contexts := by
  unfold createDataflowExecutor at h
  cases hc : createBackendContexts env.getAll lowered_graph
      (env.topolSortOperations lowered_graph.graph) (decide (options.executor = "Linear")) with
  | error msg => rw [hc] at h; exact Except.noConfusion h
  | ok backend_contexts =>
    rw [hc] at h
    dsimp only at h
    cases hg : env.generate backend_contexts with
    | error msg => rw [hg] at h; exact Except.noConfusion h
    | ok u =>
      rw [hg] at h
      injection h with h
      subst h
      exact ⟨rfl, rfl, rfl⟩

theorem ordered_contexts_split (id : Backend → String)
    (backend_contexts : IndexMap ContextData) :
    (orderedContexts id backend_contexts).Perm backend_contexts ∧
    ∃ others builtins, orderedContexts id backend_contexts = others ++ builtins ∧
      (∀ pair ∈ others, id pair.1 ≠ "builtin") ∧
      (∀ pair ∈ builtins, id pair.1 = "builtin") := by
  refine ⟨orderedContexts_perm id backend_contexts, _, _, orderedContexts_eq id backend_contexts,
    ?_, ?_⟩
  · intro pair hp
    have := (List.mem_filter.1 (List.mem_reverse.1 hp)).2
    simpa using this
  · intro pair hp
    have := (List.mem_filter.1 hp).2
    simpa using this

/-- The executors created for `scenarioBLowered` generate the kernels of
backend `1`, then of backend `0`, then of the builtin backend `2`. -/
theorem scenarioB_ordered_contexts :
    (createLinearExecutor scenarioBEnv scenarioBLowered { executor := "Linear" }).map
        (fun exec => exec.ordered_contexts.map Prod.fst) = .ok [1, 0, 2] ∧
    (createDataflowExecutor scenarioBEnv scenarioBLowered { executor := "Parallel" } true).map
        (fun exec => exec.ordered_contexts.map Prod.fst) = .ok [1, 0, 2] := by
  constructor <;> rfl

/-- C12. The builtin backend is generated last: the contexts on which
`createLinearExecutor` and `createDataflowExecutor` invoke `genKernels` are
the backend contexts, each one once (a permutation of them), and in the
sequence the contexts of the backends whose id is not "builtin" all come
before the context of a backend whose id is "builtin". -/
theorem genKernels_builtin_last (env : FactoryEnv) (lowered_graph : LoweredGraph)
    (options : CompilerOptions) (parallel : Bool) :
    (∀ exec, createLinearExecutor env lowered_graph options = .ok exec →
      exec.ordered_contexts.Perm exec.backend_contexts ∧
      ∃ others builtins, exec.ordered_contexts = others ++ builtins ∧
        (∀ pair ∈ others, env.id pair.1 ≠ "builtin") ∧
        (∀ pair ∈ builtins, env.id pair.1 = "builtin")) ∧
    (∀ exec, createDataflowExecutor env lowered_graph options parallel = .ok exec →
      exec.ordered_contexts.Perm exec.backend_contexts ∧
      ∃ others builtins, exec.ordered_contexts = others ++ builtins ∧
        (∀ pair ∈ others, env.id pair.1 ≠ "builtin") ∧
        (∀ pair ∈ builtins, env.id pair.1 = "builtin")) := by
  constructor
  · intro exec h
    obtain ⟨_, _, ho⟩ := createLinearExecutor_ok h
    rw [ho]
    exact ordered_contexts_split env.id exec.backend_contexts
  · intro exec h
    obtain ⟨_, _, ho⟩ := createDataflowExecutor_ok h
    rw [ho]
    exact ordered_contexts_split env.id exec.backend_contexts


theorem is_linear_executor_of_contexts {backends : List Backend} {lgraph : LoweredGraph}
    {whole_op_order : List OperationIndex} {linear_executor : Bool}
    {contexts : IndexMap ContextData}
    (h : createBackendContexts backends lgraph whole_op_order linear_executor = .ok contexts) :
    ∀ pair ∈ contexts, pair.2.is_linear_executor = linear_executor := by
  obtain ⟨m, _, hc⟩ := createBackendContexts_spec _ _ _ _ _ h
  intro pair hp
  rw [hc] at hp
  obtain ⟨pair', _, heq⟩ := List.mem_map.1 hp
  rw [← heq]
  rfl

theorem create_of_linear (env : FactoryEnv) (lowered_graph : LoweredGraph)
    (options : CompilerOptions) (h : options.executor = "Linear") :
    ExecutorFactory.create env lowered_graph options =
      createLinearExecutor env lowered_graph options := by
  simp [ExecutorFactory.create, ExecutorFactory._map, List.lookup, h]

theorem create_of_dataflow (env : FactoryEnv) (lowered_graph : LoweredGraph)
    (options : CompilerOptions) (h : options.executor = "Dataflow") :
    ExecutorFactory.create env lowered_graph options =
      createDataflowExecutor env lowered_graph options false := by
  simp [ExecutorFactory.create, ExecutorFactory._map, List.lookup, h]

theorem create_of_parallel (env : FactoryEnv) (lowered_graph : LoweredGraph)
    (options : CompilerOptions) (h : options.executor = "Parallel") :
    ExecutorFactory.create env lowered_graph options =
      createDataflowExecutor env lowered_graph options true := by
  simp [ExecutorFactory.create, ExecutorFactory._map, List.lookup, h]

theorem create_of_other (env : FactoryEnv) (lowered_graph : LoweredGraph)
    (options : CompilerOptions) (h1 : options.executor ≠ "Linear")
    (h2 : options.executor ≠ "Dataflow") (h3 : options.executor ≠ "Parallel") :
    ExecutorFactory.create env lowered_graph options = .error "out_of_range" := by
  have e1 : (options.executor == "Linear") = false := by simpa using h1
  have e2 : (options.executor == "Dataflow") = false := by simpa using h2
  have e3 : (options.executor == "Parallel") = false := by simpa using h3
  simp [ExecutorFactory.create, ExecutorFactory._map, List.lookup, e1, e2, e3]

/-- The factory builds an executor of each class for `scenarioBLowered`, and
fails for the strategy name "Sequential". -/
theorem scenarioB_create :
    (ExecutorFactory.create scenarioBEnv scenarioBLowered { executor := "Linear" }).map
        (fun exec => exec.cls) = .ok .LinearExecutor ∧
    (ExecutorFactory.create scenarioBEnv scenarioBLowered { executor := "Dataflow" }).map
        (fun exec => exec.cls) = .ok .DataflowExecutor ∧
    (ExecutorFactory.create scenarioBEnv scenarioBLowered { executor := "Parallel" }).map
        (fun exec => exec.cls) = .ok .ParallelExecutor ∧
    ExecutorFactory.create scenarioBEnv scenarioBLowered { executor := "Sequential" } =
      .error "out_of_range" := by
  refine ⟨rfl, rfl, rfl, rfl⟩

/-- C18. Strategy selection: `ExecutorFactory::create` runs
`createLinearExecutor` for the name "Linear", `createDataflowExecutor` with
`parallel = false` for "Dataflow" and with `parallel = true` for "Parallel",
and throws for every other name; an executor it returns is a `LinearExecutor`,
a `DataflowExecutor` or a `ParallelExecutor` accordingly, and the flag
`is_linear_executor` of every backend context is true exactly when the name is
"Linear". -/
theorem create_strategy_selection (env : FactoryEnv) (lowered_graph : LoweredGraph)
    (options : CompilerOptions) :
    (options.executor = "Linear" →
      ExecutorFactory.create env lowered_graph options =
        createLinearExecutor env lowered_graph options) ∧
    (options.executor = "Dataflow" →
      ExecutorFactory.create env lowered_graph options =
        createDataflowExecutor env lowered_graph options false) ∧
    (options.executor = "Parallel" →
      ExecutorFactory.create env lowered_graph options =
        createDataflowExecutor env lowered_graph options true) ∧
    (options.executor ≠ "Linear" → options.executor ≠ "Dataflow" →
      options.executor ≠ "Parallel" →
      ExecutorFactory.create env lowered_graph options = .error "out_of_range") ∧
    (∀ exec, ExecutorFactory.create env lowered_graph options = .ok exec →
      (options.executor = "Linear" ∧ exec.cls = .LinearExecutor ∨
        options.executor = "Dataflow" ∧ exec.cls = .DataflowExecutor ∨
        options.executor = "Parallel" ∧ exec.cls = .ParallelExecutor) ∧
      ∀ pair ∈ exec.backend_contexts,
        (pair.2.is_linear_executor = true ↔ options.executor = "Linear")) := by
  refine ⟨create_of_linear env lowered_graph options, create_of_dataflow env lowered_graph options,
    create_of_parallel env lowered_graph options, create_of_other env lowered_graph options, ?_⟩
  intro exec h
  by_cases h1 : options.executor = "Linear"
  · rw [create_of_linear env lowered_graph options h1] at h
    obtain ⟨hc, hcls, _⟩ := createLinearExecutor_ok h
    refine ⟨Or.inl ⟨h1, hcls⟩, ?_⟩
    intro pair hp
    rw [is_linear_executor_of_contexts hc pair hp]
    simp [h1]
  · by_cases h2 : options.executor = "Dataflow"
    · rw [create_of_dataflow env lowered_graph options h2] at h
      obtain ⟨hc, hcls, _⟩ := createDataflowExecutor_ok h
      refine ⟨Or.inr (Or.inl ⟨h2, by simpa using hcls⟩), ?_⟩
      intro pair hp
      rw [is_linear_executor_of_contexts hc pair hp]
      simp
    · by_cases h3 : options.executor = "Parallel"
      · rw [create_of_parallel env lowered_graph options h3] at h
        obtain ⟨hc, hcls, _⟩ := createDataflowExecutor_ok h
        refine ⟨Or.inr (Or.inr ⟨h3, by simpa using hcls⟩), ?_⟩
        intro pair hp
        rw [is_linear_executor_of_contexts hc pair hp]
        simp
      · rw [create_of_other env lowered_graph options h1 h2 h3] at h
        exact Except.noConfusion h


/-! ## Scenario A -/

/-- C16, as stated, fails: in scenario A the output of `OpA` is the graph
output, and `planTensors` issues no first-use notification for it. -/
theorem scenarioA_no_first_use_of_output :
    scenarioAGraph.WellFormed ∧ ListsEachOperationOnce scenarioAGraph [0] ∧
    scenarioAGraph.outputsOf 0 = [1] ∧
    ((planTensors (scenarioAContext { registered := [], calls := [] })
        [0]).2.tensor_builder.calls.count (.notifyFirstUse 1) = 0) := by
  refine ⟨by decide, by decide, rfl, rfl⟩

/-- C16, amended. Scenario A: for the single-backend graph
`Input → OpA → Output` with order `[OpA]`, whatever the tensor builder holds,
`planTensors` completes without any call to the tensor builder: `Input` and
`Output`, the output of `OpA`, are graph input and output and are excluded from
planning, and no remaining-use or pending-def entry is created, so that both
final assertions hold. -/
theorem scenarioA_nothing_planned (tensor_builder : TensorBuilder) :
    model_io scenarioAGraph = [0, 1] ∧
    planTensors (scenarioAContext tensor_builder) [0] =
      (.ok (), { uses_map := [], def_map := [], constants := [],
                 tensor_builder := tensor_builder }) ∧
    usesAllZero (planTensors (scenarioAContext tensor_builder) [0]).2 = true ∧
    defsAllZero (planTensors (scenarioAContext tensor_builder) [0]).2 = true :=
  ⟨rfl, rfl, rfl, rfl⟩


/-! ## Operands for which no registry holds a tensor -/

theorem IndexMap.mem_of_mem_set {α : Type} (m : IndexMap α) (k : Nat) (v : α) (e : Nat × α)
    (h : e ∈ IndexMap.set m k v) : e = (k, v) ∨ e ∈ m := by
  induction m with
  | nil =>
    simp only [IndexMap.set, List.mem_singleton] at h
    exact Or.inl h
  | cons e' t ih =>
    obtain ⟨a, b⟩ := e'
    by_cases hk : a = k
    · simp only [IndexMap.set, hk, if_true, List.mem_cons] at h
      rcases h with h | h
      · exact Or.inl h
      · exact Or.inr (List.mem_cons_of_mem _ h)
    · simp only [IndexMap.set, hk, if_false, List.mem_cons] at h
      rcases h with h | h
      · exact Or.inr (h ▸ List.mem_cons_self _ _)
      · rcases ih h with h' | h'
        · exact Or.inl h'
        · exact Or.inr (List.mem_cons_of_mem _ h')

theorem getITensor_combined_none (tensor_regs : List Backend)
    (st : IndexMap PortableTensorRegistryTemplate) (i : OperandIndex) (h : NoTensor st i) :
    TensorRegistries.getITensor tensor_regs st i = none := by
  unfold TensorRegistries.getITensor
  rw [List.findSome?_eq_none_iff]
  intro b _
  cases hf : IndexMap.find st b with
  | none => rfl
  | some reg => exact h (b, reg) (IndexMap.mem_of_find hf)

/-! ## Properties of `genTensors` -/

theorem foldl_registerOperand (ctx : BackendContext) (l : List (OperandIndex × Operand))
    (tb : TensorBuilder) :
    (l.foldl (registerOperand ctx) tb).registered =
        tb.registered ++
          (l.filter fun e =>
            decide (e.1 ∉ model_io ctx.graph ∧ e.1 ∉ ctx.external_operands)).map Prod.fst ∧
      (l.foldl (registerOperand ctx) tb).calls =
        tb.calls ++
          (l.filter fun e =>
            decide (e.1 ∉ model_io ctx.graph ∧ e.1 ∉ ctx.external_operands)).map
              fun e => BuilderCall.registerTensorInfo e.1 := by
  induction l generalizing tb with
  | nil => simp
  | cons e t ih =>
    rw [List.foldl_cons]
    obtain ⟨ih1, ih2⟩ := ih (registerOperand ctx tb e)
    rw [ih1, ih2]
    unfold registerOperand
    by_cases h1 : e.1 ∈ model_io ctx.graph
    · simp [h1]
    · by_cases h2 : e.1 ∈ ctx.external_operands
      · simp [h1, h2]
      · simp [h1, h2, TensorBuilder.registerTensorInfo]

theorem foldl_notifyRegistered (l : List (OperandIndex × Operand)) (tb : TensorBuilder) :
    (l.foldl notifyRegistered tb).registered = tb.registered ∧
      (l.foldl notifyRegistered tb).calls =
        tb.calls ++
          (l.filter fun e => decide (e.1 ∈ tb.registered)).map
            fun e => BuilderCall.notifyFirstUse e.1 := by
  induction l generalizing tb with
  | nil => simp
  | cons e t ih =>
    rw [List.foldl_cons]
    obtain ⟨ih1, ih2⟩ := ih (notifyRegistered tb e)
    rw [ih1, ih2]
    unfold notifyRegistered
    by_cases h1 : e.1 ∈ tb.registered
    · simp [h1, TensorBuilder.isRegistered, TensorBuilder.notifyFirstUse]
    · simp [h1, TensorBuilder.isRegistered]

theorem count_notifyFirstUse_map (l : List (OperandIndex × Operand)) (ind : OperandIndex) :
    (l.map fun e => BuilderCall.notifyFirstUse e.1).count (.notifyFirstUse ind) =
      (l.map Prod.fst).count ind := by
  induction l with
  | nil => rfl
  | cons e t ih =>
    simp only [List.map_cons, List.count_cons, ih]
    by_cases h : e.1 = ind
    · simp [h]
    · simp [h]

theorem count_filter_keys (l : List (OperandIndex × Operand)) (p : OperandIndex → Bool)
    (ind : OperandIndex) :
    ((l.filter fun e => p e.1).map Prod.fst).count ind =
      if p ind = true then (l.map Prod.fst).count ind else 0 := by
  induction l with
  | nil => simp
  | cons e t ih =>
    by_cases hp : p e.1 = true
    · have hf : (List.filter (fun e => p e.1) (e :: t)) = e :: List.filter (fun e => p e.1) t :=
        List.filter_cons_of_pos hp
      rw [hf]
      simp only [List.map_cons, List.count_cons, ih]
      by_cases h : e.1 = ind
      · subst h
        simp [hp]
      · simp [h]
    · have hf : (List.filter (fun e => p e.1) (e :: t)) = List.filter (fun e => p e.1) t :=
        List.filter_cons_of_neg hp
      rw [hf]
      simp only [List.map_cons, List.count_cons, ih]
      by_cases h : e.1 = ind
      · subst h
        simp [hp]
      · simp [h]

theorem registeredContext_registered (ctx : BackendContext) (ind : OperandIndex) :
    ind ∈ (registeredContext ctx).tensor_builder.registered ↔
      ind ∈ ctx.tensor_builder.registered ∨ Planned ctx ind := by
  unfold registeredContext
  rw [(foldl_registerOperand ctx ctx.graph.operands ctx.tensor_builder).1, List.mem_append]
  refine or_congr Iff.rfl ?_
  unfold Planned IndexMap.keys
  constructor
  · intro h
    obtain ⟨e, he, hfst⟩ := List.mem_map.1 h
    obtain ⟨hmem, hp⟩ := List.mem_filter.1 he
    rw [decide_eq_true_eq] at hp
    subst hfst
    exact ⟨List.mem_map.2 ⟨e, hmem, rfl⟩, hp.1, hp.2⟩
  · rintro ⟨hk, h1, h2⟩
    obtain ⟨e, hmem, hfst⟩ := List.mem_map.1 hk
    subst hfst
    exact List.mem_map.2 ⟨e, List.mem_filter.2 ⟨hmem, by simp [h1, h2]⟩, rfl⟩

theorem genTensors_of_not_linear (ctx : BackendContext) (order : List OperationIndex)
    (executor : String) (h : executor ≠ "Linear") :
    genTensors ctx order executor =
      (.ok (), (ctx.graph.operands.foldl notifyRegistered
        (registeredContext ctx).tensor_builder).allocate) := by
  unfold genTensors
  rw [if_neg h]


theorem count_notifyFirstUse_registrations (l : List (OperandIndex × Operand))
    (ind : OperandIndex) :
    (l.map fun e => BuilderCall.registerTensorInfo e.1).count (.notifyFirstUse ind) = 0 := by
  rw [List.count_eq_zero]
  intro h
  obtain ⟨e, _, he⟩ := List.mem_map.1 h
  exact BuilderCall.noConfusion he

theorem genTensors_issued (ctx : BackendContext) (order : List OperationIndex)
    (executor : String) (h : executor ≠ "Linear") :
    (genTensors ctx order executor).2.registered = (registeredContext ctx).tensor_builder.registered ∧
    (genTensors ctx order executor).2.calls =
      ctx.tensor_builder.calls ++
        (((ctx.graph.operands.filter fun e =>
            decide (e.1 ∉ model_io ctx.graph ∧ e.1 ∉ ctx.external_operands)).map
              fun e => BuilderCall.registerTensorInfo e.1) ++
          ((ctx.graph.operands.filter fun e =>
            decide (e.1 ∈ (registeredContext ctx).tensor_builder.registered)).map
              fun e => BuilderCall.notifyFirstUse e.1) ++ [.allocate]) := by
  rw [genTensors_of_not_linear ctx order executor h]
  obtain ⟨h1, h2⟩ := foldl_notifyRegistered ctx.graph.operands (registeredContext ctx).tensor_builder
  refine ⟨h1, ?_⟩
  show (ctx.graph.operands.foldl notifyRegistered (registeredContext ctx).tensor_builder).calls ++
    [BuilderCall.allocate] = _
  rw [h2]
  have h3 : (registeredContext ctx).tensor_builder.calls = _ :=
    (foldl_registerOperand ctx ctx.graph.operands ctx.tensor_builder).2
  rw [h3]
  simp only [List.append_assoc]

theorem count_issued (ctx : BackendContext) (ind : OperandIndex) :
    List.count (BuilderCall.notifyFirstUse ind)
        (((ctx.graph.operands.filter fun e =>
            decide (e.1 ∉ model_io ctx.graph ∧ e.1 ∉ ctx.external_operands)).map
              fun e => BuilderCall.registerTensorInfo e.1) ++
          ((ctx.graph.operands.filter fun e =>
            decide (e.1 ∈ (registeredContext ctx).tensor_builder.registered)).map
              fun e => BuilderCall.notifyFirstUse e.1) ++ [BuilderCall.allocate]) =
      if ind ∈ (registeredContext ctx).tensor_builder.registered then
        (IndexMap.keys ctx.graph.operands).count ind
      else 0 := by
  rw [List.count_append, List.count_append, count_notifyFirstUse_registrations,
    count_notifyFirstUse_map,
    count_filter_keys ctx.graph.operands
      (fun k => decide (k ∈ (registeredContext ctx).tensor_builder.registered)) ind]
  have h0 : List.count (BuilderCall.notifyFirstUse ind) [BuilderCall.allocate] = 0 := by
    rw [List.count_eq_zero]
    simp
  rw [h0]
  simp only [decide_eq_true_eq, Nat.zero_add, Nat.add_zero]
  rfl

/-- C13. Conservative liveness for non-linear executors: when the configured
executor is not "Linear", `genTensors` completes, the operands registered with
the tensor builder are those registered before and the operands of the graph
that are neither graph input or output nor external, every registered operand
of the graph, and so every such operand, gets exactly one first-use
notification, no other operand gets one, and no last-use notification is
issued; when it is "Linear", the outcome is that of `planTensors` run after the
registrations, and the calls the tensor builder has received are those it has
received at the end of `planTensors`, followed by `allocate` when `planTensors`
returns. -/
theorem genTensors_conservative_liveness (ctx : BackendContext) (order : List OperationIndex)
    (executor : String) (hnd : (IndexMap.keys ctx.graph.operands).Nodup) :
    (executor ≠ "Linear" →
      (genTensors ctx order executor).1 = .ok () ∧
      (∀ ind, ind ∈ (genTensors ctx order executor).2.registered ↔
        ind ∈ ctx.tensor_builder.registered ∨ Planned ctx ind) ∧
      ∃ issued, (genTensors ctx order executor).2.calls = ctx.tensor_builder.calls ++ issued ∧
        (∀ ind, ind ∈ IndexMap.keys ctx.graph.operands →
          ind ∈ (genTensors ctx order executor).2.registered →
          issued.count (.notifyFirstUse ind) = 1) ∧
        (∀ ind, Planned ctx ind → issued.count (.notifyFirstUse ind) = 1) ∧
        (∀ ind, BuilderCall.notifyFirstUse ind ∈ issued →
          ind ∈ IndexMap.keys ctx.graph.operands ∧
            ind ∈ (genTensors ctx order executor).2.registered) ∧
        (∀ ind, BuilderCall.notifyLastUse ind ∉ issued)) ∧
    (executor = "Linear" →
      (genTensors ctx order executor).1 = (planTensors (registeredContext ctx) order).1 ∧
      (genTensors ctx order executor).2.calls =
        (planTensors (registeredContext ctx) order).2.tensor_builder.calls ++
          (if raised (planTensors (registeredContext ctx) order).1 then []
           else [.allocate]) ∧
      (genTensors ctx order executor).2.calls.filter BuilderCall.isNotification =
        (planTensors (registeredContext ctx) order).2.tensor_builder.calls.filter
          BuilderCall.isNotification ∧
      ∃ registrations,
        (registeredContext ctx).tensor_builder.calls =
          ctx.tensor_builder.calls ++ registrations ∧
        ∀ c ∈ registrations, c.isNotification = false) := by
  constructor
  · intro h
    obtain ⟨hreg, hcalls⟩ := genTensors_issued ctx order executor h
    have hcount := count_issued ctx
    refine ⟨by rw [genTensors_of_not_linear ctx order executor h], ?_, _, hcalls, ?_, ?_, ?_, ?_⟩
    · intro ind
      rw [hreg]
      exact registeredContext_registered ctx ind
    · intro ind hk hr
      rw [hreg] at hr
      rw [hcount ind, if_pos hr]
      exact List.count_eq_one_of_mem hnd hk
    · intro ind hp
      have hr : ind ∈ (registeredContext ctx).tensor_builder.registered :=
        (registeredContext_registered ctx ind).2 (Or.inr hp)
      rw [hcount ind, if_pos hr]
      exact List.count_eq_one_of_mem hnd hp.1
    · intro ind hmem
      have hpos : 0 < _ := List.count_pos_iff.2 hmem
      rw [hcount ind] at hpos
      by_cases hr : ind ∈ (registeredContext ctx).tensor_builder.registered
      · rw [if_pos hr] at hpos
        exact ⟨List.count_pos_iff.1 hpos, by rw [hreg]; exact hr⟩
      · rw [if_neg hr] at hpos
        exact absurd hpos (Nat.lt_irrefl 0)
    · intro ind hmem
      simp only [List.mem_append, List.mem_map, List.mem_singleton] at hmem
      rcases hmem with (⟨e, _, he⟩ | ⟨e, _, he⟩) | he
      · exact BuilderCall.noConfusion he
      · exact BuilderCall.noConfusion he
      · exact BuilderCall.noConfusion he
  · intro h
    have hgen : genTensors ctx order executor =
        match planTensors (registeredContext ctx) order with
        | (.ok _, st) => (.ok (), st.tensor_builder.allocate)
        | (.error msg, st) => (.error msg, st.tensor_builder) := by
      unfold genTensors
      rw [if_pos h]
    have hcalls : (genTensors ctx order executor).1 = (planTensors (registeredContext ctx) order).1 ∧
        (genTensors ctx order executor).2.calls =
          (planTensors (registeredContext ctx) order).2.tensor_builder.calls ++
            (if raised (planTensors (registeredContext ctx) order).1 then []
             else [.allocate]) := by
      rw [hgen]
      cases hpl : planTensors (registeredContext ctx) order with
      | mk outcome st =>
        cases outcome with
        | error msg => simp [raised]
        | ok u => simp [raised, TensorBuilder.allocate]
    refine ⟨hcalls.1, hcalls.2, ?_, _,
      (foldl_registerOperand ctx ctx.graph.operands ctx.tensor_builder).2, ?_⟩
    · rw [hcalls.2, List.filter_append]
      by_cases hr : raised (planTensors (registeredContext ctx) order).1 = true
      · simp [hr]
      · simp [hr, BuilderCall.isNotification]
    · intro c hc
      obtain ⟨e, _, he⟩ := List.mem_map.1 hc
      rw [← he]
      rfl

/-- Witness of `genTensors_conservative_liveness` on the scenario-B graph with
the executor "Dataflow". -/
theorem genTensors_conservative_liveness_witness :
    (IndexMap.keys scenarioBContext.graph.operands).Nodup ∧
      (genTensors scenarioBContext [0, 1] "Dataflow").2.calls =
        [.registerTensorInfo 0, .registerTensorInfo 2, .notifyFirstUse 0, .notifyFirstUse 2,
         .allocate] ∧
      (("Dataflow" ≠ "Linear" →
        (genTensors scenarioBContext [0, 1] "Dataflow").1 = .ok () ∧
        (∀ ind, ind ∈ (genTensors scenarioBContext [0, 1] "Dataflow").2.registered ↔
          ind ∈ scenarioBContext.tensor_builder.registered ∨ Planned scenarioBContext ind) ∧
        ∃ issued, (genTensors scenarioBContext [0, 1] "Dataflow").2.calls =
            scenarioBContext.tensor_builder.calls ++ issued ∧
          (∀ ind, ind ∈ IndexMap.keys scenarioBContext.graph.operands →
            ind ∈ (genTensors scenarioBContext [0, 1] "Dataflow").2.registered →
            issued.count (.notifyFirstUse ind) = 1) ∧
          (∀ ind, Planned scenarioBContext ind → issued.count (.notifyFirstUse ind) = 1) ∧
          (∀ ind, BuilderCall.notifyFirstUse ind ∈ issued →
            ind ∈ IndexMap.keys scenarioBContext.graph.operands ∧
              ind ∈ (genTensors scenarioBContext [0, 1] "Dataflow").2.registered) ∧
          (∀ ind, BuilderCall.notifyLastUse ind ∉ issued)) ∧
      ("Dataflow" = "Linear" →
        (genTensors scenarioBContext [0, 1] "Dataflow").1 =
          (planTensors (registeredContext scenarioBContext) [0, 1]).1 ∧
        (genTensors scenarioBContext [0, 1] "Dataflow").2.calls =
          (planTensors (registeredContext scenarioBContext) [0, 1]).2.tensor_builder.calls ++
            (if raised (planTensors (registeredContext scenarioBContext) [0, 1]).1 then []
             else [.allocate]) ∧
        (genTensors scenarioBContext [0, 1] "Dataflow").2.calls.filter
            BuilderCall.isNotification =
          (planTensors (registeredContext scenarioBContext)
            [0, 1]).2.tensor_builder.calls.filter BuilderCall.isNotification ∧
        ∃ registrations,
          (registeredContext scenarioBContext).tensor_builder.calls =
            scenarioBContext.tensor_builder.calls ++ registrations ∧
          ∀ c ∈ registrations, c.isNotification = false)) :=
  ⟨by decide, by decide,
    genTensors_conservative_liveness scenarioBContext [0, 1] "Dataflow" (by decide)⟩


/-! ## The operands that `planTensors` touches -/

theorem within_calls_append {ctx : BackendContext} {calls : List BuilderCall}
    (h : ∃ issued, calls = ctx.tensor_builder.calls ++ issued ∧
      ∀ c ∈ issued, ∀ k ∈ c.operand, Touchable ctx k)
    (extra : List BuilderCall) (he : ∀ c ∈ extra, ∀ k ∈ c.operand, Touchable ctx k) :
    ∃ issued, calls ++ extra = ctx.tensor_builder.calls ++ issued ∧
      ∀ c ∈ issued, ∀ k ∈ c.operand, Touchable ctx k := by
  obtain ⟨issued, h1, h2⟩ := h
  refine ⟨issued ++ extra, by rw [h1, List.append_assoc], ?_⟩
  intro c hc
  rcases List.mem_append.1 hc with hc | hc
  · exact h2 c hc
  · exact he c hc

theorem touchable_of_gate {ctx : BackendContext} {st : PlanState} (h : Within ctx st)
    {k : OperandIndex} (h1 : k ∉ model_io ctx.graph)
    (h2 : ¬ st.tensor_builder.isRegistered k = false) : Touchable ctx k := by
  refine ⟨h1, h.registered k ?_⟩
  simpa [TensorBuilder.isRegistered] using h2

theorem within_prepareOperand (ctx : BackendContext) (st : PlanState)
    (e : OperandIndex × Operand) (he : e.1 ∈ IndexMap.keys ctx.graph.operands)
    (h : Within ctx st) : Within ctx (prepareOperand ctx st e) := by
  unfold prepareOperand
  by_cases h1 : e.1 ∈ model_io ctx.graph
  · rw [if_pos h1]
    exact h
  · rw [if_neg h1]
    by_cases h2 : e.1 ∈ ctx.external_operands
    · rw [if_pos h2]
      exact h
    · rw [if_neg h2]
      have hp : Planned ctx e.1 := ⟨he, h1, h2⟩
      have ht : Touchable ctx e.1 := ⟨h1, Or.inr hp⟩
      refine
        { registered := ?_, uses := ?_, defs := ?_, consts := ?_, calls := ?_ }
      · intro k hk
        by_cases h3 : st.tensor_builder.isRegistered e.1 = true
        · simp only [h3, if_true] at hk
          exact h.registered k hk
        · simp only [h3, Bool.false_eq_true, if_false, TensorBuilder.registerTensorInfo,
            List.mem_append, List.mem_singleton] at hk
          rcases hk with hk | hk
          · exact h.registered k hk
          · exact Or.inr (hk ▸ hp)
      · intro k hk
        rcases (IndexMap.mem_keys_set _ _ _ _).1 hk with hk | hk
        · exact hk ▸ ht
        · exact h.uses k hk
      · intro k hk
        rcases (IndexMap.mem_keys_set _ _ _ _).1 hk with hk | hk
        · exact hk ▸ ht
        · exact h.defs k hk
      · intro k hk
        by_cases h3 : e.2.isConstant = true
        · simp only [h3, if_true, List.mem_append, List.mem_singleton] at hk
          rcases hk with hk | hk
          · exact h.consts k hk
          · exact hk ▸ ht
        · simp only [h3, Bool.false_eq_true, if_false] at hk
          exact h.consts k hk
      · by_cases h3 : st.tensor_builder.isRegistered e.1 = true
        · simp only [h3, if_true]
          exact h.calls
        · simp only [h3, Bool.false_eq_true, if_false, TensorBuilder.registerTensorInfo]
          refine within_calls_append h.calls _ ?_
          intro c hc k hk
          rw [List.mem_singleton] at hc
          subst hc
          cases hk
          exact ht

theorem within_foldl_prepareOperand (ctx : BackendContext) (l : List (OperandIndex × Operand))
    (hl : ∀ e ∈ l, e.1 ∈ IndexMap.keys ctx.graph.operands) (st : PlanState)
    (h : Within ctx st) : Within ctx (l.foldl (prepareOperand ctx) st) := by
  induction l generalizing st with
  | nil => exact h
  | cons e t ih =>
    rw [List.foldl_cons]
    exact ih (fun e' he' => hl e' (List.mem_cons_of_mem _ he')) _
      (within_prepareOperand ctx st e (hl e (List.mem_cons_self _ _)) h)

theorem within_prepareScanning (ctx : BackendContext) : Within ctx (prepareScanning ctx) := by
  unfold prepareScanning
  refine within_foldl_prepareOperand ctx _ ?_ _ ?_
  · intro e he
    exact List.mem_map.2 ⟨e, he, rfl⟩
  · exact
      { registered := fun k hk => Or.inl hk
        uses := fun k hk => absurd hk (List.not_mem_nil _)
        defs := fun k hk => absurd hk (List.not_mem_nil _)
        consts := fun k hk => absurd hk (List.not_mem_nil _)
        calls := ⟨[], by simp, fun c hc => absurd hc (List.not_mem_nil _)⟩ }

theorem within_allocateConstant (ctx : BackendContext) (st : PlanState) (ind : OperandIndex)
    (ht : Touchable ctx ind) (h : Within ctx st) : Within ctx (allocateConstant st ind) := by
  unfold allocateConstant
  refine { registered := h.registered, uses := ?_, defs := h.defs, consts := h.consts, calls := ?_ }
  · intro k hk
    rcases (IndexMap.mem_keys_set _ _ _ _).1 hk with hk | hk
    · exact hk ▸ ht
    · exact h.uses k hk
  · refine within_calls_append h.calls [.notifyFirstUse ind] ?_
    intro c hc k hk
    rw [List.mem_singleton] at hc
    subst hc
    cases hk
    exact ht

theorem within_foldl_allocateConstant (ctx : BackendContext) (l : List OperandIndex)
    (hl : ∀ k ∈ l, Touchable ctx k) (st : PlanState) (h : Within ctx st) :
    Within ctx (l.foldl allocateConstant st) := by
  induction l generalizing st with
  | nil => exact h
  | cons ind t ih =>
    rw [List.foldl_cons]
    exact ih (fun k hk => hl k (List.mem_cons_of_mem _ hk)) _
      (within_allocateConstant ctx st ind (hl ind (List.mem_cons_self _ _)) h)

theorem within_planTensorsStart (ctx : BackendContext) : Within ctx (planTensorsStart ctx) := by
  unfold planTensorsStart
  exact within_foldl_allocateConstant ctx _ (within_prepareScanning ctx).consts _
    (within_prepareScanning ctx)

theorem within_defineOutput (ctx : BackendContext) (st : PlanState) (ind : OperandIndex)
    (h : Within ctx st) : Within ctx (defineOutput ctx st ind) := by
  unfold defineOutput
  by_cases h1 : ind ∈ model_io ctx.graph
  · rw [if_pos h1]
    exact h
  · rw [if_neg h1]
    by_cases h2 : st.tensor_builder.isRegistered ind = false
    · rw [if_pos h2]
      exact h
    · rw [if_neg h2]
      have ht : Touchable ctx ind := touchable_of_gate h h1 h2
      by_cases h3 : IndexMap.get st.def_map ind ≠ 0
      · rw [if_pos h3]
        refine
          { registered := h.registered, uses := h.uses, defs := ?_, consts := h.consts,
            calls := ?_ }
        · intro k hk
          rcases (IndexMap.mem_keys_set _ _ _ _).1 hk with hk | hk
          · exact hk ▸ ht
          · exact h.defs k hk
        · refine within_calls_append h.calls [.notifyFirstUse ind] ?_
          intro c hc k hk
          rw [List.mem_singleton] at hc
          subst hc
          cases hk
          exact ht
      · rw [if_neg h3]
        refine
          { registered := h.registered, uses := h.uses, defs := ?_, consts := h.consts,
            calls := h.calls }
        intro k hk
        rcases (IndexMap.mem_keys_touch _ _ _).1 hk with hk | hk
        · exact hk ▸ ht
        · exact h.defs k hk

theorem within_foldl_defineOutput (ctx : BackendContext) (l : List OperandIndex)
    (st : PlanState) (h : Within ctx st) : Within ctx (l.foldl (defineOutput ctx) st) := by
  induction l generalizing st with
  | nil => exact h
  | cons ind t ih =>
    rw [List.foldl_cons]
    exact ih _ (within_defineOutput ctx st ind h)

theorem within_scanVariable (ctx : BackendContext) (st : PlanState) (ind : OperandIndex)
    (h : Within ctx st) : Within ctx (scanVariable ctx st ind).2 := by
  unfold scanVariable
  by_cases h1 : ind ∈ model_io ctx.graph
  · rw [if_pos h1]
    exact h
  · rw [if_neg h1]
    by_cases h2 : st.tensor_builder.isRegistered ind = false
    · rw [if_pos h2]
      exact h
    · rw [if_neg h2]
      have ht : Touchable ctx ind := touchable_of_gate h h1 h2
      cases hf : IndexMap.find ctx.graph.operands ind with
      | none => exact h
      | some operand =>
        by_cases h3 : operand.isVariable = true
        · simp only [h3, if_true]
          refine
            { registered := h.registered, uses := h.uses, defs := h.defs, consts := h.consts,
              calls := ?_ }
          refine within_calls_append h.calls [.notifyFirstUse ind] ?_
          intro c hc k hk
          rw [List.mem_singleton] at hc
          subst hc
          cases hk
          exact ht
        · simp only [h3, Bool.false_eq_true, if_false]
          exact h

theorem within_scanVariables (ctx : BackendContext) (l : List OperandIndex) (st : PlanState)
    (h : Within ctx st) : Within ctx (scanVariables ctx st l).2 := by
  induction l generalizing st with
  | nil => exact h
  | cons ind t ih =>
    have hstep := within_scanVariable ctx st ind h
    unfold scanVariables
    cases hs : scanVariable ctx st ind with
    | mk outcome st' =>
      rw [hs] at hstep
      cases outcome with
      | error msg => exact hstep
      | ok u => exact ih st' hstep

theorem within_useInput (ctx : BackendContext) (op_ind : OperationIndex) (st : PlanState)
    (ind : OperandIndex) (h : Within ctx st) : Within ctx (useInput ctx op_ind st ind) := by
  unfold useInput
  by_cases h1 : ind ∈ model_io ctx.graph
  · rw [if_pos h1]
    exact h
  · rw [if_neg h1]
    by_cases h2 : st.tensor_builder.isRegistered ind = false
    · rw [if_pos h2]
      exact h
    · rw [if_neg h2]
      have ht : Touchable ctx ind := touchable_of_gate h h1 h2
      have hu : ∀ v, ∀ k ∈ IndexMap.keys (IndexMap.set st.uses_map ind v), Touchable ctx k := by
        intro v k hk
        rcases (IndexMap.mem_keys_set _ _ _ _).1 hk with hk | hk
        · exact hk ▸ ht
        · exact h.uses k hk
      by_cases h3 : uint32_dec (IndexMap.get st.uses_map ind) = 0
      · rw [if_pos h3]
        refine
          { registered := h.registered, uses := hu _, defs := h.defs, consts := h.consts,
            calls := ?_ }
        have := within_calls_append h.calls [.notifyLastUse ind, .planDealloc op_ind ind] (by
          intro c hc k hk
          simp only [List.mem_cons, List.mem_singleton, List.not_mem_nil, or_false] at hc
          rcases hc with hc | hc
          · subst hc
            cases hk
            exact ht
          · subst hc
            cases hk
            exact ht)
        simpa [TensorBuilder.notifyLastUse, TensorBuilder.planDealloc] using this
      · rw [if_neg h3]
        exact
          { registered := h.registered, uses := hu _, defs := h.defs, consts := h.consts,
            calls := h.calls }

theorem within_foldl_useInput (ctx : BackendContext) (op_ind : OperationIndex)
    (l : List OperandIndex) (st : PlanState) (h : Within ctx st) :
    Within ctx (l.foldl (useInput ctx op_ind) st) := by
  induction l generalizing st with
  | nil => exact h
  | cons ind t ih =>
    rw [List.foldl_cons]
    exact ih _ (within_useInput ctx op_ind st ind h)


theorem within_scanOperation (ctx : BackendContext) (st : PlanState) (op_ind : OperationIndex)
    (h : Within ctx st) : Within ctx (scanOperation ctx st op_ind).2 := by
  unfold scanOperation
  cases hf : IndexMap.find ctx.graph.operations op_ind with
  | none => exact h
  | some op =>
    dsimp only
    have hv := within_scanVariables ctx (removeUndefined (removeDuplicated op.getInputs))
      ((removeUndefined (removeDuplicated op.getOutputs)).foldl (defineOutput ctx) st)
      (within_foldl_defineOutput ctx _ st h)
    cases hs : scanVariables ctx
        ((removeUndefined (removeDuplicated op.getOutputs)).foldl (defineOutput ctx) st)
        (removeUndefined (removeDuplicated op.getInputs)) with
    | mk outcome st' =>
      rw [hs] at hv
      cases outcome with
      | error msg => exact hv
      | ok u => exact within_foldl_useInput ctx op_ind _ st' hv

theorem within_scanOperations (ctx : BackendContext) (l : List OperationIndex) (st : PlanState)
    (h : Within ctx st) : Within ctx (scanOperations ctx st l).2 := by
  induction l generalizing st with
  | nil => exact h
  | cons op_ind t ih =>
    have hstep := within_scanOperation ctx st op_ind h
    unfold scanOperations
    cases hs : scanOperation ctx st op_ind with
    | mk outcome st' =>
      rw [hs] at hstep
      cases outcome with
      | error msg => exact hstep
      | ok u => exact ih st' hstep

theorem within_disposeConstant (ctx : BackendContext) (st : PlanState) (ind : OperandIndex)
    (ht : Touchable ctx ind) (h : Within ctx st) : Within ctx (disposeConstant st ind) := by
  unfold disposeConstant
  have hu : ∀ v, ∀ k ∈ IndexMap.keys (IndexMap.set st.uses_map ind v), Touchable ctx k := by
    intro v k hk
    rcases (IndexMap.mem_keys_set _ _ _ _).1 hk with hk | hk
    · exact hk ▸ ht
    · exact h.uses k hk
  by_cases h3 : uint32_dec (IndexMap.get st.uses_map ind) = 0
  · rw [if_pos h3]
    refine
      { registered := h.registered, uses := hu _, defs := h.defs, consts := h.consts,
        calls := ?_ }
    refine within_calls_append h.calls [.notifyLastUse ind] ?_
    intro c hc k hk
    rw [List.mem_singleton] at hc
    subst hc
    cases hk
    exact ht
  · rw [if_neg h3]
    exact
      { registered := h.registered, uses := hu _, defs := h.defs, consts := h.consts,
        calls := h.calls }

theorem within_foldl_disposeConstant (ctx : BackendContext) (l : List OperandIndex)
    (hl : ∀ k ∈ l, Touchable ctx k) (st : PlanState) (h : Within ctx st) :
    Within ctx (l.foldl disposeConstant st) := by
  induction l generalizing st with
  | nil => exact h
  | cons ind t ih =>
    rw [List.foldl_cons]
    exact ih (fun k hk => hl k (List.mem_cons_of_mem _ hk)) _
      (within_disposeConstant ctx st ind (hl ind (List.mem_cons_self _ _)) h)

theorem within_planTensors (ctx : BackendContext) (order : List OperationIndex) :
    Within ctx (planTensors ctx order).2 := by
  have hs := within_scanOperations ctx order (planTensorsStart ctx) (within_planTensorsStart ctx)
  unfold planTensors
  cases hsc : scanOperations ctx (planTensorsStart ctx) order with
  | mk outcome st =>
    rw [hsc] at hs
    cases outcome with
    | error msg => exact hs
    | ok u => exact within_foldl_disposeConstant ctx _ hs.consts st hs

/-- C15. Excluded operands are never planned: when the tensor builder holds
registrations only for operands that are neither graph inputs or outputs nor
external, no call that `planTensors` issues (first-use or last-use
notification, registration, planned deallocation) is about a graph input, a
graph output or an external operand, and where `planTensors` ends the
remaining-use map and the pending-def map have no entry for such an operand. -/
theorem planTensors_excluded_never_planned (ctx : BackendContext)
    (order : List OperationIndex)
    (hreg : ∀ ind ∈ ctx.tensor_builder.registered,
      ind ∉ model_io ctx.graph ∧ ind ∉ ctx.external_operands)
    (ind : OperandIndex) (hex : ind ∈ model_io ctx.graph ∨ ind ∈ ctx.external_operands) :
    (∃ issued,
      (planTensors ctx order).2.tensor_builder.calls = ctx.tensor_builder.calls ++ issued ∧
      BuilderCall.notifyFirstUse ind ∉ issued ∧ BuilderCall.notifyLastUse ind ∉ issued ∧
      BuilderCall.registerTensorInfo ind ∉ issued ∧
      ∀ op_ind, BuilderCall.planDealloc op_ind ind ∉ issued) ∧
    IndexMap.find (planTensors ctx order).2.uses_map ind = none ∧
    IndexMap.find (planTensors ctx order).2.def_map ind = none := by
  have hw := within_planTensors ctx order
  have hnt : ¬ Touchable ctx ind := by
    rintro ⟨h1, h2⟩
    rcases hex with hex | hex
    · exact h1 hex
    · rcases h2 with h2 | h2
      · exact (hreg ind h2).2 hex
      · exact h2.2.2 hex
  obtain ⟨issued, hcalls, hissued⟩ := hw.calls
  refine ⟨⟨issued, hcalls, ?_, ?_, ?_, ?_⟩, ?_, ?_⟩
  · exact fun hc => hnt (hissued _ hc ind rfl)
  · exact fun hc => hnt (hissued _ hc ind rfl)
  · exact fun hc => hnt (hissued _ hc ind rfl)
  · exact fun op_ind hc => hnt (hissued _ hc ind rfl)
  · rw [IndexMap.find_eq_none_iff]
    exact fun hk => hnt (hw.uses ind hk)
  · rw [IndexMap.find_eq_none_iff]
    exact fun hk => hnt (hw.defs ind hk)

/-- Witness of `planTensors_excluded_never_planned`: the graph output of the
scenario-B graph, after the registrations of `genTensors`. -/
theorem planTensors_excluded_never_planned_witness :
    (∀ ind ∈ (registeredContext scenarioBContext).tensor_builder.registered,
      ind ∉ model_io (registeredContext scenarioBContext).graph ∧
        ind ∉ (registeredContext scenarioBContext).external_operands) ∧
    (3 ∈ model_io (registeredContext scenarioBContext).graph ∨
      3 ∈ (registeredContext scenarioBContext).external_operands) ∧
    ((∃ issued,
      (planTensors (registeredContext scenarioBContext) [0, 1]).2.tensor_builder.calls =
        (registeredContext scenarioBContext).tensor_builder.calls ++ issued ∧
      BuilderCall.notifyFirstUse 3 ∉ issued ∧ BuilderCall.notifyLastUse 3 ∉ issued ∧
      BuilderCall.registerTensorInfo 3 ∉ issued ∧
      ∀ op_ind, BuilderCall.planDealloc op_ind 3 ∉ issued) ∧
    IndexMap.find (planTensors (registeredContext scenarioBContext) [0, 1]).2.uses_map 3 =
      none ∧
    IndexMap.find (planTensors (registeredContext scenarioBContext) [0, 1]).2.def_map 3 =
      none) :=
  ⟨by decide, by decide,
    planTensors_excluded_never_planned (registeredContext scenarioBContext) [0, 1]
      (by decide) 3 (by decide)⟩


/-! ## The calls issued for one operation -/

theorem defineOutput_calls_eq (ctx : BackendContext) (st : PlanState) (ind : OperandIndex) :
    (defineOutput ctx st ind).tensor_builder.calls =
      st.tensor_builder.calls ++
        (if Gate ctx.graph st.tensor_builder.registered ind ∧ IndexMap.get st.def_map ind ≠ 0
          then [.notifyFirstUse ind] else []) := by
  unfold defineOutput Gate
  by_cases h1 : ind ∈ model_io ctx.graph
  · simp [h1]
  · by_cases h2 : ind ∈ st.tensor_builder.registered
    · have h2' : ¬ (st.tensor_builder.isRegistered ind = false) := by
        simp [TensorBuilder.isRegistered, h2]
      rw [if_neg h1, if_neg h2']
      by_cases h3 : IndexMap.get st.def_map ind ≠ 0
      · rw [if_pos h3, if_pos ⟨⟨h1, h2⟩, h3⟩]
        rfl
      · rw [if_neg h3, if_neg (fun h => h3 h.2)]
        simp
    · have h2' : st.tensor_builder.isRegistered ind = false := by
        simp [TensorBuilder.isRegistered, h2]
      rw [if_neg h1, if_pos h2']
      simp [h2]

theorem get_defineOutput_of_ne (ctx : BackendContext) (st : PlanState) {ind k : OperandIndex}
    (h : ¬ k = ind) :
    IndexMap.get (defineOutput ctx st ind).def_map k = IndexMap.get st.def_map k := by
  unfold IndexMap.get
  rw [defineOutput_find]
  simp [h]

theorem foldl_defineOutput_calls_eq (ctx : BackendContext) (l : List OperandIndex)
    (hl : l.Nodup) (st : PlanState) :
    (l.foldl (defineOutput ctx) st).tensor_builder.calls =
      st.tensor_builder.calls ++
        (l.filter fun k =>
          decide (Gate ctx.graph st.tensor_builder.registered k ∧
            IndexMap.get st.def_map k ≠ 0)).map BuilderCall.notifyFirstUse := by
  induction l generalizing st with
  | nil => simp
  | cons a t ih =>
    have hat : a ∉ t ∧ t.Nodup := List.nodup_cons.1 hl
    rw [List.foldl_cons, ih hat.2]
    have hfilter : (t.filter fun k =>
          decide (Gate ctx.graph (defineOutput ctx st a).tensor_builder.registered k ∧
            IndexMap.get (defineOutput ctx st a).def_map k ≠ 0)) =
        t.filter fun k =>
          decide (Gate ctx.graph st.tensor_builder.registered k ∧
            IndexMap.get st.def_map k ≠ 0) := by
      apply List.filter_congr
      intro x hx
      have hne : ¬ x = a := by
        intro h
        subst h
        exact hat.1 hx
      rw [defineOutput_registered, get_defineOutput_of_ne ctx st hne]
    rw [hfilter, defineOutput_calls_eq, List.filter_cons]
    by_cases hp : Gate ctx.graph st.tensor_builder.registered a ∧ IndexMap.get st.def_map a ≠ 0
    · rw [if_pos hp, if_pos (decide_eq_true hp)]
      simp
    · rw [if_neg hp, if_neg (by simpa using hp)]
      simp

theorem scanVariable_calls_eq (ctx : BackendContext) (st : PlanState) (ind : OperandIndex) :
    (scanVariable ctx st ind).2.tensor_builder.calls =
      st.tensor_builder.calls ++
        (if Gate ctx.graph st.tensor_builder.registered ind ∧
            variableOperand ctx.graph ind = true
          then [.notifyFirstUse ind] else []) := by
  unfold scanVariable Gate variableOperand
  by_cases h1 : ind ∈ model_io ctx.graph
  · simp [h1]
  · by_cases h2 : ind ∈ st.tensor_builder.registered
    · have h2' : ¬ (st.tensor_builder.isRegistered ind = false) := by
        simp [TensorBuilder.isRegistered, h2]
      rw [if_neg h1, if_neg h2']
      cases hf : IndexMap.find ctx.graph.operands ind with
      | none => simp
      | some operand =>
        by_cases h3 : operand.isVariable = true
        · simp [h1, h2, h3, TensorBuilder.notifyFirstUse]
        · simp [h1, h2, h3]
    · have h2' : st.tensor_builder.isRegistered ind = false := by
        simp [TensorBuilder.isRegistered, h2]
      rw [if_neg h1, if_pos h2']
      simp [h2]

theorem scanVariables_calls_eq (ctx : BackendContext) (l : List OperandIndex) (st : PlanState)
    (st' : PlanState) (h : scanVariables ctx st l = (.ok (), st')) :
    st'.tensor_builder.calls =
      st.tensor_builder.calls ++
        (l.filter fun k =>
          decide (Gate ctx.graph st.tensor_builder.registered k ∧
            variableOperand ctx.graph k = true)).map BuilderCall.notifyFirstUse := by
  induction l generalizing st with
  | nil =>
    simp only [scanVariables, Prod.mk.injEq, true_and] at h
    subst h
    simp
  | cons a t ih =>
    unfold scanVariables at h
    have hcalls := scanVariable_calls_eq ctx st a
    have hframe := scanVariable_frame ctx st a
    cases hs : scanVariable ctx st a with
    | mk outcome st1 =>
      rw [hs] at h hcalls hframe
      cases outcome with
      | error msg =>
        simp only [Prod.mk.injEq] at h
        exact Except.noConfusion h.1
      | ok u =>
        have hreg : st1.tensor_builder.registered = st.tensor_builder.registered :=
          hframe.2.2.2.1
        rw [ih st1 h, hreg]
        have hcalls' : st1.tensor_builder.calls = _ := hcalls
        rw [hcalls', List.filter_cons]
        by_cases hp : Gate ctx.graph st.tensor_builder.registered a ∧
            variableOperand ctx.graph a = true
        · rw [if_pos hp, if_pos (decide_eq_true hp)]
          simp
        · rw [if_neg hp, if_neg (by simpa using hp)]
          simp

theorem lastUseCalls_append (op_ind : OperationIndex) (l l' : List OperandIndex) :
    lastUseCalls op_ind (l ++ l') = lastUseCalls op_ind l ++ lastUseCalls op_ind l' := by
  induction l with
  | nil => rfl
  | cons a t ih => simp [lastUseCalls, ih]

theorem mem_lastUseCalls (op_ind : OperationIndex) (l : List OperandIndex) (c : BuilderCall) :
    c ∈ lastUseCalls op_ind l ↔
      ∃ ind ∈ l, c = .notifyLastUse ind ∨ c = .planDealloc op_ind ind := by
  induction l with
  | nil => simp [lastUseCalls]
  | cons a t ih =>
    simp only [lastUseCalls, List.mem_cons, ih]
    constructor
    · rintro (h | h | ⟨ind, hi, h⟩)
      · exact ⟨a, Or.inl rfl, Or.inl h⟩
      · exact ⟨a, Or.inl rfl, Or.inr h⟩
      · exact ⟨ind, Or.inr hi, h⟩
    · rintro ⟨ind, hi | hi, h⟩
      · subst hi
        rcases h with h | h
        · exact Or.inl h
        · exact Or.inr (Or.inl h)
      · exact Or.inr (Or.inr ⟨ind, hi, h⟩)

theorem foldl_useInput_calls_eq (ctx : BackendContext) (op_ind : OperationIndex)
    (l : List OperandIndex) (hl : l.Nodup) (st : PlanState) :
    (l.foldl (useInput ctx op_ind) st).tensor_builder.calls =
      st.tensor_builder.calls ++
        lastUseCalls op_ind
          (l.filter fun k =>
            decide (Gate ctx.graph st.tensor_builder.registered k ∧
              uint32_dec (IndexMap.get st.uses_map k) = 0)) := by
  induction l generalizing st with
  | nil => simp [lastUseCalls]
  | cons a t ih =>
    have hat : a ∉ t ∧ t.Nodup := List.nodup_cons.1 hl
    rw [List.foldl_cons, ih hat.2]
    have hfilter : (t.filter fun k =>
          decide (Gate ctx.graph (useInput ctx op_ind st a).tensor_builder.registered k ∧
            uint32_dec (IndexMap.get (useInput ctx op_ind st a).uses_map k) = 0)) =
        t.filter fun k =>
          decide (Gate ctx.graph st.tensor_builder.registered k ∧
            uint32_dec (IndexMap.get st.uses_map k) = 0) := by
      apply List.filter_congr
      intro x hx
      have hne : ¬ x = a := by
        intro h
        subst h
        exact hat.1 hx
      rw [useInput_registered, get_useInput_of_ne ctx op_ind st hne]
    rw [hfilter, useInput_calls, List.filter_cons]
    by_cases hp : Gate ctx.graph st.tensor_builder.registered a ∧
        uint32_dec (IndexMap.get st.uses_map a) = 0
    · rw [if_pos hp, if_pos (decide_eq_true hp)]
      simp [lastUseCalls]
    · rw [if_neg hp, if_neg (by simpa using hp)]
      simp


theorem scanOperation_calls (ctx : BackendContext) (st : PlanState) (op_ind : OperationIndex)
    (st' : PlanState) (h : scanOperation ctx st op_ind = (.ok (), st')) :
    st'.tensor_builder.calls =
        st.tensor_builder.calls ++
          (outputCalls ctx st op_ind ++ (variableCalls ctx st op_ind ++
            inputCalls ctx st op_ind)) ∧
      st'.tensor_builder.registered = st.tensor_builder.registered ∧
      st'.constants = st.constants ∧
      (∀ k, IndexMap.find st'.def_map k =
        if k ∈ ctx.graph.outputsOf op_ind ∧ Gate ctx.graph st.tensor_builder.registered k
        then some 0 else IndexMap.find st.def_map k) ∧
      (∀ k, IndexMap.find st'.uses_map k =
        if k ∈ ctx.graph.inputsOf op_ind ∧ Gate ctx.graph st.tensor_builder.registered k
        then some (uint32_dec (IndexMap.get st.uses_map k))
        else IndexMap.find st.uses_map k) := by
  cases hf : IndexMap.find ctx.graph.operations op_ind with
  | none =>
    rw [scanOperation_of_find_none ctx st op_ind hf] at h
    simp only [Prod.mk.injEq, true_and] at h
    subst h
    simp [outputCalls, variableCalls, inputCalls, inputsOf_of_find_none _ _ hf,
      outputsOf_of_find_none _ _ hf, lastUseCalls]
  | some op =>
    rw [scanOperation_of_find_some ctx st op_ind hf] at h
    have hframe := scanVariables_frame ctx (ctx.graph.inputsOf op_ind)
      ((ctx.graph.outputsOf op_ind).foldl (defineOutput ctx) st)
    cases hs : scanVariables ctx ((ctx.graph.outputsOf op_ind).foldl (defineOutput ctx) st)
        (ctx.graph.inputsOf op_ind) with
    | mk outcome st2 =>
      rw [hs] at h hframe
      cases outcome with
      | error msg =>
        simp only [Prod.mk.injEq] at h
        exact Except.noConfusion h.1
      | ok u =>
        simp only [Prod.mk.injEq, true_and] at h
        subst h
        obtain ⟨hu2, hd2, hc2, hr2, _⟩ := hframe
        have hu2' : st2.uses_map = st.uses_map := by
          rw [show st2.uses_map = _ from hu2, foldl_defineOutput_uses_map]
        have hr2' : st2.tensor_builder.registered = st.tensor_builder.registered := by
          rw [show st2.tensor_builder.registered = _ from hr2, foldl_defineOutput_registered]
        refine ⟨?_, ?_, ?_, ?_, ?_⟩
        · rw [foldl_useInput_calls_eq ctx op_ind _ (nodup_inputsOf _ _) st2,
            scanVariables_calls_eq ctx _ _ st2 hs,
            foldl_defineOutput_calls_eq ctx _ (nodup_outputsOf _ _) st,
            foldl_defineOutput_registered, hr2', hu2']
          simp only [outputCalls, variableCalls, inputCalls, List.append_assoc]
        · rw [foldl_useInput_registered, hr2']
        · rw [foldl_useInput_constants, show st2.constants = _ from hc2,
            foldl_defineOutput_constants]
        · intro k
          rw [foldl_useInput_def_map, show st2.def_map = _ from hd2, foldl_defineOutput_find]
        · intro k
          rw [foldl_useInput_find ctx op_ind _ (nodup_inputsOf _ _) st2, hr2', hu2']

theorem scanOperations_append (ctx : BackendContext) (l1 l2 : List OperationIndex)
    (st : PlanState) :
    scanOperations ctx st (l1 ++ l2) =
      match scanOperations ctx st l1 with
      | (.ok _, st1) => scanOperations ctx st1 l2
      | (.error msg, st1) => (.error msg, st1) := by
  induction l1 generalizing st with
  | nil => rfl
  | cons a t ih =>
    simp only [List.cons_append, scanOperations]
    cases hs : scanOperation ctx st a with
    | mk outcome st1 =>
      cases outcome with
      | error msg => rfl
      | ok u => exact ih st1

theorem count_map_notifyFirstUse (l : List OperandIndex) (ind : OperandIndex) :
    (l.map BuilderCall.notifyFirstUse).count (.notifyFirstUse ind) = l.count ind := by
  induction l with
  | nil => rfl
  | cons a t ih =>
    simp only [List.map_cons, List.count_cons, ih]
    by_cases h : a = ind
    · simp [h]
    · simp [h]

theorem count_filter_of_nodup (l : List OperandIndex) (hl : l.Nodup) (p : OperandIndex → Bool)
    (ind : OperandIndex) :
    (l.filter p).count ind = if ind ∈ l ∧ p ind = true then 1 else 0 := by
  by_cases h : ind ∈ l ∧ p ind = true
  · rw [if_pos h]
    exact List.count_eq_one_of_mem (hl.filter p) (List.mem_filter.2 h)
  · rw [if_neg h]
    exact List.count_eq_zero_of_not_mem (fun hm => h (List.mem_filter.1 hm))

theorem count_outputCalls (ctx : BackendContext) (st : PlanState) (op_ind : OperationIndex)
    (ind : OperandIndex) :
    (outputCalls ctx st op_ind).count (.notifyFirstUse ind) =
      if ind ∈ ctx.graph.outputsOf op_ind ∧
          (Gate ctx.graph st.tensor_builder.registered ind ∧ IndexMap.get st.def_map ind ≠ 0)
      then 1 else 0 := by
  unfold outputCalls
  rw [count_map_notifyFirstUse, count_filter_of_nodup _ (nodup_outputsOf _ _)]
  simp only [decide_eq_true_eq]

theorem count_variableCalls (ctx : BackendContext) (st : PlanState) (op_ind : OperationIndex)
    (ind : OperandIndex) :
    (variableCalls ctx st op_ind).count (.notifyFirstUse ind) =
      if ind ∈ ctx.graph.inputsOf op_ind ∧
          (Gate ctx.graph st.tensor_builder.registered ind ∧
            variableOperand ctx.graph ind = true)
      then 1 else 0 := by
  unfold variableCalls
  rw [count_map_notifyFirstUse, count_filter_of_nodup _ (nodup_inputsOf _ _)]
  simp only [decide_eq_true_eq]

theorem count_inputCalls (ctx : BackendContext) (st : PlanState) (op_ind : OperationIndex)
    (ind : OperandIndex) :
    (inputCalls ctx st op_ind).count (.notifyFirstUse ind) = 0 := by
  rw [List.count_eq_zero]
  intro h
  obtain ⟨k, _, hk | hk⟩ := (mem_lastUseCalls _ _ _).1 h
  · exact BuilderCall.noConfusion hk
  · exact BuilderCall.noConfusion hk


/-! ## First use at the producer -/

theorem scanOperation_ok_of_inputsExist (ctx : BackendContext) (hin : ctx.graph.InputsExist)
    (st : PlanState) (op_ind : OperationIndex) :
    ∃ st', scanOperation ctx st op_ind = (.ok (), st') := by
  cases hf : IndexMap.find ctx.graph.operations op_ind with
  | none => exact ⟨st, scanOperation_of_find_none ctx st op_ind hf⟩
  | some op =>
    rw [scanOperation_of_find_some ctx st op_ind hf]
    have hok := scanVariables_ok ctx (ctx.graph.inputsOf op_ind)
      ((ctx.graph.outputsOf op_ind).foldl (defineOutput ctx) st)
      (fun k hk _ => hin op_ind (IndexMap.mem_keys_of_find hf) k hk)
    cases hs : scanVariables ctx ((ctx.graph.outputsOf op_ind).foldl (defineOutput ctx) st)
        (ctx.graph.inputsOf op_ind) with
    | mk outcome st2 =>
      rw [hs] at hok
      cases outcome with
      | error msg => exact Except.noConfusion hok
      | ok u => exact ⟨_, rfl⟩

theorem scanOperations_count_firstUse (ctx : BackendContext) (hin : ctx.graph.InputsExist)
    (ind : OperandIndex) (d : OperationIndex)
    (honly : ∀ op_ind, ind ∈ ctx.graph.outputsOf op_ind → op_ind = d)
    (hout : ind ∈ ctx.graph.outputsOf d) (hvar : variableOperand ctx.graph ind = false)
    (rest : List OperationIndex) (st : PlanState) (v : Nat)
    (hgate : Gate ctx.graph st.tensor_builder.registered ind)
    (hv : IndexMap.find st.def_map ind = some v) :
    ∃ st' extra, scanOperations ctx st rest = (.ok (), st') ∧
      st'.tensor_builder.calls = st.tensor_builder.calls ++ extra ∧
      extra.count (.notifyFirstUse ind) = (if v ≠ 0 ∧ d ∈ rest then 1 else 0) ∧
      st'.constants = st.constants ∧
      st'.tensor_builder.registered = st.tensor_builder.registered ∧
      IndexMap.find st'.def_map ind = some (if d ∈ rest then 0 else v) := by
  induction rest generalizing st v with
  | nil => exact ⟨st, [], rfl, by simp, by simp, rfl, rfl, by simpa using hv⟩
  | cons op t ih =>
    obtain ⟨st1, hs1⟩ := scanOperation_ok_of_inputsExist ctx hin st op
    obtain ⟨hc1, hr1, hk1, hd1, _⟩ := scanOperation_calls ctx st op st1 hs1
    have hgate1 : Gate ctx.graph st1.tensor_builder.registered ind := by
      rw [hr1]
      exact hgate
    have hget : IndexMap.get st.def_map ind = v := IndexMap.get_eq_of_find hv
    have hcv : (variableCalls ctx st op).count (.notifyFirstUse ind) = 0 := by
      rw [count_variableCalls, if_neg]
      rintro ⟨_, _, h⟩
      rw [hvar] at h
      exact Bool.noConfusion h
    by_cases hop : op = d
    · subst hop
      have hv1 : IndexMap.find st1.def_map ind = some 0 := by
        rw [hd1 ind, if_pos ⟨hout, hgate⟩]
      obtain ⟨st', extra, hs', hc', hn', hk', hr', hd'⟩ := ih st1 0 hgate1 hv1
      refine ⟨st', outputCalls ctx st op ++ (variableCalls ctx st op ++ inputCalls ctx st op) ++
        extra, ?_, ?_, ?_, ?_, ?_, ?_⟩
      · simp only [scanOperations, hs1]
        exact hs'
      · rw [hc', hc1, List.append_assoc]
      · rw [List.count_append, List.count_append, List.count_append, hn', hcv,
          count_inputCalls, count_outputCalls, hget]
        by_cases hv0 : v = 0
        · simp [hv0]
        · simp [hv0, hout, hgate]
      · rw [hk', hk1]
      · rw [hr', hr1]
      · rw [hd']
        simp
    · have hnot : ind ∉ ctx.graph.outputsOf op := fun h => hop (honly op h)
      have hv1 : IndexMap.find st1.def_map ind = some v := by
        rw [hd1 ind, if_neg (fun h => hnot h.1)]
        exact hv
      obtain ⟨st', extra, hs', hc', hn', hk', hr', hd'⟩ := ih st1 v hgate1 hv1
      have hmem : d ∈ op :: t ↔ d ∈ t := by
        rw [List.mem_cons]
        constructor
        · rintro (h | h)
          · exact absurd h.symm hop
          · exact h
        · exact Or.inr
      refine ⟨st', outputCalls ctx st op ++ (variableCalls ctx st op ++ inputCalls ctx st op) ++
        extra, ?_, ?_, ?_, ?_, ?_, ?_⟩
      · simp only [scanOperations, hs1]
        exact hs'
      · rw [hc', hc1, List.append_assoc]
      · rw [List.count_append, List.count_append, List.count_append, hn', hcv,
          count_inputCalls, count_outputCalls, if_neg (fun h => hnot h.1)]
        simp only [hmem, Nat.zero_add]
      · rw [hk', hk1]
      · rw [hr', hr1]
      · rw [hd']
        simp only [hmem]


/-- C20. First use at the producer: for a well-formed graph whose operations
read operands of the graph and in which a defined operand is neither a constant
nor a variable, and an order listing each operation once, `planTensors`
completes, and a planned operand `ind` defined by operation `d` gets exactly
one first-use notification among the calls issued; it is issued by the "Define
outputs" loop run for `d` (the calls `outs`, all of them first-use
notifications), hence while `d` is processed and before every last-use
notification issued for the inputs of `d`, which are among `others`. -/
theorem planTensors_first_use_at_producer (ctx : BackendContext)
    (order : List OperationIndex) (hwf : ctx.graph.WellFormed)
    (horder : ListsEachOperationOnce ctx.graph order) (hin : ctx.graph.InputsExist)
    (hmodel : ctx.graph.DefinedAreComputed) (ind : OperandIndex) (d : OperationIndex)
    (obj : Operand) (hp : Planned ctx ind)
    (hfind : IndexMap.find ctx.graph.operands ind = some obj) (hdef : obj.getDef = some d) :
    (planTensors ctx order).1 = .ok () ∧
    ∃ pre post st_pre st_d before outs others after,
      order = pre ++ d :: post ∧
      scanOperations ctx (planTensorsStart ctx) pre = (.ok (), st_pre) ∧
      scanOperation ctx st_pre d = (.ok (), st_d) ∧
      st_pre.tensor_builder.calls = ctx.tensor_builder.calls ++ before ∧
      st_d.tensor_builder.calls = st_pre.tensor_builder.calls ++ (outs ++ others) ∧
      outs = outputCalls ctx st_pre d ∧
      (planTensors ctx order).2.tensor_builder.calls =
        ctx.tensor_builder.calls ++ (before ++ (outs ++ others) ++ after) ∧
      (before ++ (outs ++ others) ++ after).count (.notifyFirstUse ind) = 1 ∧
      BuilderCall.notifyFirstUse ind ∈ outs ∧
      (∀ c ∈ outs, c.isFirstUse = true) := by
  obtain ⟨hnd, _, _, hops⟩ := hwf
  have hmem : (ind, obj) ∈ ctx.graph.operands := IndexMap.mem_of_find hfind
  obtain ⟨_, _, _, hdefout, hdefonly⟩ := hops (ind, obj) hmem
  have hout : ind ∈ ctx.graph.outputsOf d := hdefout d hdef
  have honly : ∀ op_ind, ind ∈ ctx.graph.outputsOf op_ind → op_ind = d := by
    intro op_ind h
    have := hdefonly op_ind (mem_keys_of_mem_outputsOf h) h
    rw [show (ind, obj).2.getDef = obj.getDef from rfl, hdef] at this
    exact (Option.some.inj this).symm
  obtain ⟨hconst, hvariable⟩ := hmodel (ind, obj) hmem (by
    show obj.getDef.isSome = true
    rw [hdef]
    rfl)
  have hvar : variableOperand ctx.graph ind = false := by
    unfold variableOperand
    rw [hfind]
    exact hvariable
  have hd_order : d ∈ order := mem_order_of_mem_keys horder (mem_keys_of_mem_outputsOf hout)
  obtain ⟨pre, post, hsplit⟩ := List.append_of_mem hd_order
  have hcount : order.count d = 1 := horder d (mem_keys_of_mem_outputsOf hout)
  have hpre : d ∉ pre ∧ d ∉ post := by
    rw [hsplit, List.count_append, List.count_cons_self] at hcount
    constructor
    · intro h
      have := List.count_pos_iff.2 h
      omega
    · intro h
      have := List.count_pos_iff.2 h
      omega
  -- the state in which the scan starts
  have hgate0 : Gate ctx.graph (planTensorsStart ctx).tensor_builder.registered ind :=
    ⟨hp.2.1, (planTensorsStart_registered ctx ind).2 (Or.inr hp)⟩
  have hdef0 : IndexMap.find (planTensorsStart ctx).def_map ind = some 1 := by
    unfold planTensorsStart
    rw [(foldl_allocateConstant_frame _ _).1, prepareScanning_find_def ctx hnd ind, hfind]
    simp only [hp.2.1, hp.2.2, not_false_eq_true, and_self, if_true, hdef, Option.isSome_some]
  obtain ⟨prepare, hprep, hprep'⟩ := foldl_prepareOperand_calls ctx ctx.graph.operands
    { uses_map := [], def_map := [], constants := [], tensor_builder := ctx.tensor_builder }
  have hpc : (prepareScanning ctx).tensor_builder.calls =
      ctx.tensor_builder.calls ++ prepare := hprep
  have hstart : (planTensorsStart ctx).tensor_builder.calls =
      ctx.tensor_builder.calls ++ (prepare ++
        (prepareScanning ctx).constants.map BuilderCall.notifyFirstUse) := by
    unfold planTensorsStart
    rw [(foldl_allocateConstant_frame _ _).2.2.2, hpc, List.append_assoc]
  have hnotconst : ind ∉ (prepareScanning ctx).constants := by
    intro h
    obtain ⟨_, obj', hf', hc'⟩ := (mem_prepareScanning_constants ctx hnd ind).1 h
    rw [hfind] at hf'
    cases hf'
    rw [hconst] at hc'
    exact Bool.noConfusion hc'
  have hcount_prepare : prepare.count (.notifyFirstUse ind) = 0 := by
    rw [List.count_eq_zero]
    intro h
    have := hprep' _ h
    exact Bool.noConfusion this
  have hcount_consts :
      ((prepareScanning ctx).constants.map BuilderCall.notifyFirstUse).count
        (.notifyFirstUse ind) = 0 := by
    rw [count_map_notifyFirstUse]
    exact List.count_eq_zero_of_not_mem hnotconst
  -- the operations before `d`, then `d`, then the operations after `d`
  obtain ⟨st_pre, extra_pre, hs_pre, hc_pre, hn_pre, hk_pre, hr_pre, hd_pre⟩ :=
    scanOperations_count_firstUse ctx hin ind d honly hout hvar pre (planTensorsStart ctx) 1
      hgate0 hdef0
  rw [if_neg (fun h => hpre.1 h.2)] at hn_pre
  rw [if_neg hpre.1] at hd_pre
  have hgate_pre : Gate ctx.graph st_pre.tensor_builder.registered ind := by
    rw [hr_pre]
    exact hgate0
  obtain ⟨st_d, hs_d⟩ := scanOperation_ok_of_inputsExist ctx hin st_pre d
  obtain ⟨hc_d, hr_d, hk_d, hd_d, _⟩ := scanOperation_calls ctx st_pre d st_d hs_d
  have hgate_d : Gate ctx.graph st_d.tensor_builder.registered ind := by
    rw [hr_d]
    exact hgate_pre
  have hdef_d : IndexMap.find st_d.def_map ind = some 0 := by
    rw [hd_d ind, if_pos ⟨hout, hgate_pre⟩]
  obtain ⟨st_post, extra_post, hs_post, hc_post, hn_post, hk_post, hr_post, _⟩ :=
    scanOperations_count_firstUse ctx hin ind d honly hout hvar post st_d 0 hgate_d hdef_d
  rw [if_neg (fun h => h.1 rfl)] at hn_post
  have hscan : scanOperations ctx (planTensorsStart ctx) order = (.ok (), st_post) := by
    rw [hsplit, scanOperations_append, hs_pre]
    simp only [scanOperations, hs_d]
    exact hs_post
  have hget_pre : IndexMap.get st_pre.def_map ind = 1 := IndexMap.get_eq_of_find hd_pre
  have hcount_outs : (outputCalls ctx st_pre d).count (.notifyFirstUse ind) = 1 := by
    rw [count_outputCalls, if_pos ⟨hout, hgate_pre, by rw [hget_pre]; decide⟩]
  have hcount_vars : (variableCalls ctx st_pre d).count (.notifyFirstUse ind) = 0 := by
    rw [count_variableCalls, if_neg]
    rintro ⟨_, _, h⟩
    rw [hvar] at h
    exact Bool.noConfusion h
  -- the dispose loop
  have hconsts : st_post.constants = (prepareScanning ctx).constants := by
    rw [hk_post, hk_d, hk_pre, planTensorsStart_constants]
  have hdispose := foldl_disposeConstant_calls st_post.constants
    (by rw [hconsts]; exact nodup_prepareScanning_constants ctx hnd) st_post
  have hplan : planTensors ctx order =
      (.ok (), st_post.constants.foldl disposeConstant st_post) := by
    unfold planTensors
    rw [hscan]
  refine ⟨by rw [hplan], pre, post, st_pre, st_d,
    prepare ++ (prepareScanning ctx).constants.map BuilderCall.notifyFirstUse ++ extra_pre,
    outputCalls ctx st_pre d, variableCalls ctx st_pre d ++ inputCalls ctx st_pre d,
    extra_post ++
      (st_post.constants.filter
        (fun k => decide (uint32_dec (IndexMap.get st_post.uses_map k) = 0))).map
        BuilderCall.notifyLastUse,
    hsplit, hs_pre, hs_d, ?_, hc_d, rfl, ?_, ?_, ?_, ?_⟩
  · rw [hc_pre, hstart]
    simp only [List.append_assoc]
  · rw [hplan]
    show (st_post.constants.foldl disposeConstant st_post).tensor_builder.calls = _
    rw [hdispose, hc_post, hc_d, hc_pre, hstart]
    simp only [List.append_assoc]
  · have hcount_dispose :
        ((st_post.constants.filter
          (fun k => decide (uint32_dec (IndexMap.get st_post.uses_map k) = 0))).map
          BuilderCall.notifyLastUse).count (.notifyFirstUse ind) = 0 := by
      rw [List.count_eq_zero]
      intro h
      obtain ⟨k, _, hk⟩ := List.mem_map.1 h
      exact BuilderCall.noConfusion hk
    simp only [List.count_append, hcount_prepare, hcount_consts, hn_pre, hcount_outs,
      hcount_vars, count_inputCalls, hn_post, hcount_dispose]
  · exact List.count_pos_iff.1 (by rw [hcount_outs]; exact Nat.one_pos)
  · intro c hc
    obtain ⟨k, _, hk⟩ := List.mem_map.1 hc
    rw [← hk]
    rfl

/-- Witness of `planTensors_first_use_at_producer`: operand `T` of the
scenario-B graph, defined by `OpA`. -/
theorem planTensors_first_use_at_producer_witness :
    scenarioBContext.graph.WellFormed ∧ ListsEachOperationOnce scenarioBContext.graph [0, 1] ∧
    scenarioBContext.graph.InputsExist ∧ scenarioBContext.graph.DefinedAreComputed ∧
    Planned scenarioBContext 2 ∧
    IndexMap.find scenarioBContext.graph.operands 2 = some (exampleOperand false false [1] (some 0)) ∧
    ((planTensors scenarioBContext [0, 1]).1 = .ok () ∧
    ∃ pre post st_pre st_d before outs others after,
      [0, 1] = pre ++ 0 :: post ∧
      scanOperations scenarioBContext (planTensorsStart scenarioBContext) pre = (.ok (), st_pre) ∧
      scanOperation scenarioBContext st_pre 0 = (.ok (), st_d) ∧
      st_pre.tensor_builder.calls = scenarioBContext.tensor_builder.calls ++ before ∧
      st_d.tensor_builder.calls = st_pre.tensor_builder.calls ++ (outs ++ others) ∧
      outs = outputCalls scenarioBContext st_pre 0 ∧
      (planTensors scenarioBContext [0, 1]).2.tensor_builder.calls =
        scenarioBContext.tensor_builder.calls ++ (before ++ (outs ++ others) ++ after) ∧
      (before ++ (outs ++ others) ++ after).count (.notifyFirstUse 2) = 1 ∧
      BuilderCall.notifyFirstUse 2 ∈ outs ∧
      (∀ c ∈ outs, c.isFirstUse = true)) :=
  ⟨by decide, by decide, by decide, by decide, by decide, rfl,
    planTensors_first_use_at_producer scenarioBContext [0, 1] (by decide) (by decide)
      (by decide) (by decide) 2 0 (exampleOperand false false [1] (some 0)) (by decide) rfl
      rfl⟩


/-! ## Graph inputs and outputs of the partial graphs -/

theorem mem_model_io (graph : Graph) (ind : OperandIndex) :
    ind ∈ model_io graph ↔ some ind ∈ graph.getInputs ∨ some ind ∈ graph.getOutputs := by
  unfold model_io
  rw [mem_removeDuplicated, mem_removeUndefined, List.mem_append]

theorem subgraphInv_empty (lgraph : LoweredGraph) :
    SubgraphInv lgraph (emptyContextData lgraph) :=
  { inputs := by simp [emptyContextData, IndexMap.keys]
    outputs := by simp [emptyContextData, IndexMap.keys]
    def_side := by simp [emptyContextData, IndexMap.keys] }

theorem copyOperand_subgraph (lgraph : LoweredGraph) (b : Backend) (data data' : ContextData)
    (ind : OperandIndex) (h : copyOperand lgraph b data ind = .ok data')
    (inv : SubgraphInv lgraph data) : SubgraphInv lgraph data' := by
  unfold copyOperand at h
  cases h1 : IndexMap.find lgraph.graph.operands ind with
  | none =>
    rw [h1] at h
    exact Except.noConfusion h
  | some operand =>
    rw [h1] at h
    simp only at h
    by_cases hc : IndexMap.contains data.graph.operands ind = true
    · simp only [Graph.addOperand, hc, if_true] at h
      cases h
      exact inv
    · simp only [Graph.addOperand, hc, Bool.false_eq_true, if_false] at h
      cases h2 : IndexMap.find lgraph.lower_info.operand ind with
      | none =>
        rw [h2] at h
        exact Except.noConfusion h
      | some operand_li =>
        rw [h2] at h
        simp only at h
        cases h3 : operand_li.def_factors with
        | nil =>
          rw [h3] at h
          exact Except.noConfusion h
        | cons permute_factor rest =>
          rw [h3] at h
          simp only at h
          cases h
          have hkeys : ∀ k, k ∈ IndexMap.keys
              (data.graph.operands ++
                [(ind, ({ operand with getUses := [], getDef := none } : Operand))]) ↔
              k ∈ IndexMap.keys data.graph.operands ∨ k = ind := by
            intro k
            rw [IndexMap.keys_append]
            simp [IndexMap.keys]
          have hds : ∀ k, k ∈ IndexMap.keys data.graph.operands ∨ k = ind →
              (defBackend lgraph k).isSome = true := by
            rintro k (hk | hk)
            · exact inv.def_side k hk
            · rw [hk, defBackend_eq lgraph ind h2 h3]
              rfl
          by_cases hi : some ind ∈ lgraph.graph.getInputs
          · by_cases ho : some ind ∈ lgraph.graph.getOutputs
            · simp only [hi, ho, if_true, Graph.addInput, Graph.addOutput]
              refine { inputs := ?_, outputs := ?_, def_side := fun k hk => hds k ((hkeys k).1 hk) }
              · intro x
                simp only [List.mem_append, List.mem_singleton, inv.inputs x, hkeys]
                constructor
                · rintro (⟨k, hx, hk, hw⟩ | hx)
                  · exact ⟨k, hx, Or.inl hk, hw⟩
                  · exact ⟨ind, hx, Or.inr rfl, hi⟩
                · rintro ⟨k, hx, hk | hk, hw⟩
                  · exact Or.inl ⟨k, hx, hk, hw⟩
                  · exact Or.inr (hk ▸ hx)
              · intro x
                simp only [List.mem_append, List.mem_singleton, inv.outputs x, hkeys]
                constructor
                · rintro (⟨k, hx, hk, hw⟩ | hx)
                  · exact ⟨k, hx, Or.inl hk, hw⟩
                  · exact ⟨ind, hx, Or.inr rfl, ho⟩
                · rintro ⟨k, hx, hk | hk, hw⟩
                  · exact Or.inl ⟨k, hx, hk, hw⟩
                  · exact Or.inr (hk ▸ hx)
            · simp only [hi, ho, if_true, if_false, Graph.addInput]
              refine { inputs := ?_, outputs := ?_, def_side := fun k hk => hds k ((hkeys k).1 hk) }
              · intro x
                simp only [List.mem_append, List.mem_singleton, inv.inputs x, hkeys]
                constructor
                · rintro (⟨k, hx, hk, hw⟩ | hx)
                  · exact ⟨k, hx, Or.inl hk, hw⟩
                  · exact ⟨ind, hx, Or.inr rfl, hi⟩
                · rintro ⟨k, hx, hk | hk, hw⟩
                  · exact Or.inl ⟨k, hx, hk, hw⟩
                  · exact Or.inr (hk ▸ hx)
              · intro x
                simp only [inv.outputs x, hkeys]
                constructor
                · rintro ⟨k, hx, hk, hw⟩
                  exact ⟨k, hx, Or.inl hk, hw⟩
                · rintro ⟨k, hx, hk | hk, hw⟩
                  · exact ⟨k, hx, hk, hw⟩
                  · exact absurd (hk ▸ hw) ho
          · by_cases ho : some ind ∈ lgraph.graph.getOutputs
            · simp only [hi, ho, if_true, if_false, Graph.addOutput]
              refine { inputs := ?_, outputs := ?_, def_side := fun k hk => hds k ((hkeys k).1 hk) }
              · intro x
                simp only [inv.inputs x, hkeys]
                constructor
                · rintro ⟨k, hx, hk, hw⟩
                  exact ⟨k, hx, Or.inl hk, hw⟩
                · rintro ⟨k, hx, hk | hk, hw⟩
                  · exact ⟨k, hx, hk, hw⟩
                  · exact absurd (hk ▸ hw) hi
              · intro x
                simp only [List.mem_append, List.mem_singleton, inv.outputs x, hkeys]
                constructor
                · rintro (⟨k, hx, hk, hw⟩ | hx)
                  · exact ⟨k, hx, Or.inl hk, hw⟩
                  · exact ⟨ind, hx, Or.inr rfl, ho⟩
                · rintro ⟨k, hx, hk | hk, hw⟩
                  · exact Or.inl ⟨k, hx, hk, hw⟩
                  · exact Or.inr (hk ▸ hx)
            · simp only [hi, ho, if_false]
              refine { inputs := ?_, outputs := ?_, def_side := fun k hk => hds k ((hkeys k).1 hk) }
              · intro x
                simp only [inv.inputs x, hkeys]
                constructor
                · rintro ⟨k, hx, hk, hw⟩
                  exact ⟨k, hx, Or.inl hk, hw⟩
                · rintro ⟨k, hx, hk | hk, hw⟩
                  · exact ⟨k, hx, hk, hw⟩
                  · exact absurd (hk ▸ hw) hi
              · intro x
                simp only [inv.outputs x, hkeys]
                constructor
                · rintro ⟨k, hx, hk, hw⟩
                  exact ⟨k, hx, Or.inl hk, hw⟩
                · rintro ⟨k, hx, hk | hk, hw⟩
                  · exact ⟨k, hx, hk, hw⟩
                  · exact absurd (hk ▸ hw) ho

theorem copyOperands_subgraph (lgraph : LoweredGraph) (b : Backend) (l : List OperandIndex)
    (data data' : ContextData) (h : copyOperands lgraph b data l = .ok data')
    (inv : SubgraphInv lgraph data) : SubgraphInv lgraph data' := by
  induction l generalizing data with
  | nil =>
    unfold copyOperands at h
    cases h
    exact inv
  | cons a t ih =>
    unfold copyOperands at h
    cases h1 : copyOperand lgraph b data a with
    | error msg =>
      rw [h1] at h
      exact Except.noConfusion h
    | ok data1 =>
      rw [h1] at h
      exact ih data1 h (copyOperand_subgraph lgraph b data data1 a h1 inv)


theorem partitionOperation_subgraph (lgraph : LoweredGraph) (m m' : IndexMap ContextData)
    (e : OperationIndex × Operation) (h : partitionOperation lgraph m e = .ok m')
    (inv : ∀ b data, IndexMap.find m b = some data → SubgraphInv lgraph data) :
    ∀ b data, IndexMap.find m' b = some data → SubgraphInv lgraph data := by
  unfold partitionOperation at h
  cases h1 : IndexMap.find lgraph.lower_info.operation e.1 with
  | none =>
    rw [h1] at h
    exact Except.noConfusion h
  | some op_li =>
    rw [h1] at h
    simp only at h
    cases h2 : IndexMap.find m op_li.backend with
    | none =>
      rw [h2] at h
      exact Except.noConfusion h
    | some data =>
      rw [h2] at h
      simp only at h
      cases h3 : copyOperands lgraph op_li.backend data
          (removeUndefined (removeDuplicated (e.2.getInputs ++ e.2.getOutputs))) with
      | error msg =>
        rw [h3] at h
        exact Except.noConfusion h
      | ok data1 =>
        rw [h3] at h
        simp only at h
        have inv1 := copyOperands_subgraph lgraph _ _ data data1 h3 (inv _ _ h2)
        by_cases hc : IndexMap.contains data1.graph.operations e.1 = true
        · simp only [Graph.addOperation, hc, if_true] at h
          exact Except.noConfusion h
        · simp only [Graph.addOperation, hc, Bool.false_eq_true, if_false, h1] at h
          cases h
          intro b d hd
          rw [IndexMap.find_set] at hd
          by_cases hb : op_li.backend = b
          · rw [if_pos hb] at hd
            cases hd
            exact { inputs := inv1.inputs, outputs := inv1.outputs, def_side := inv1.def_side }
          · rw [if_neg hb] at hd
            exact inv b d hd

theorem partitionOperations_subgraph (lgraph : LoweredGraph)
    (rest : List (OperationIndex × Operation)) (m m' : IndexMap ContextData)
    (h : partitionOperations lgraph m rest = .ok m')
    (inv : ∀ b data, IndexMap.find m b = some data → SubgraphInv lgraph data) :
    ∀ b data, IndexMap.find m' b = some data → SubgraphInv lgraph data := by
  induction rest generalizing m with
  | nil =>
    unfold partitionOperations at h
    cases h
    exact inv
  | cons e t ih =>
    unfold partitionOperations at h
    cases h1 : partitionOperation lgraph m e with
    | error msg =>
      rw [h1] at h
      exact Except.noConfusion h
    | ok m1 =>
      rw [h1] at h
      exact ih m1 h (partitionOperation_subgraph lgraph m m1 e h1 inv)

/-- What `createBackendContexts` establishes for the context data of backend
`b`: the operands of the partial graph are those referenced by an operation
assigned to `b`, an operand of the partial graph is a graph input or output of
the partial graph exactly when it is one of the whole graph, and it is external
exactly when its def-side backend is another backend. -/
theorem createBackendContexts_partition (backends : List Backend) (lgraph : LoweredGraph)
    (whole_op_order : List OperationIndex) (linear_executor : Bool)
    (contexts : IndexMap ContextData)
    (h : createBackendContexts backends lgraph whole_op_order linear_executor = .ok contexts) :
    (IndexMap.keys contexts).Nodup ∧
    (∀ b, b ∈ IndexMap.keys contexts ↔ b ∈ backends) ∧
    (∀ e ∈ lgraph.graph.operations, ∃ b, assignedBackend lgraph e.1 = some b ∧
      b ∈ IndexMap.keys contexts) ∧
    ∀ b data, (b, data) ∈ contexts →
      (IndexMap.keys data.graph.operands).Nodup ∧
      (∀ ind, ind ∈ IndexMap.keys data.graph.operands ↔
        ∃ e ∈ lgraph.graph.operations, assignedBackend lgraph e.1 = some b ∧
          e.2.references ind) ∧
      (∀ ind, ind ∈ model_io data.graph ↔
        ind ∈ IndexMap.keys data.graph.operands ∧ ind ∈ model_io lgraph.graph) ∧
      (∀ ind, ind ∈ data.external_operands ↔
        ind ∈ IndexMap.keys data.graph.operands ∧
          ∃ pb, defBackend lgraph ind = some pb ∧ pb ≠ b) ∧
      (∀ ind ∈ IndexMap.keys data.graph.operands, (defBackend lgraph ind).isSome = true) := by
  unfold createBackendContexts at h
  cases h1 : partitionOperations lgraph (backends.foldl (initContextData lgraph) [])
      lgraph.graph.operations with
  | error msg =>
    rw [h1] at h
    exact Except.noConfusion h
  | ok m =>
    rw [h1] at h
    simp only at h
    cases h
    have minv : MapInv lgraph backends m lgraph.graph.operations := by
      have := partitionOperations_spec lgraph backends _ _ m [] h1 (mapInv_init lgraph backends)
      simpa using this
    have hsub : ∀ b data, IndexMap.find m b = some data → SubgraphInv lgraph data := by
      refine partitionOperations_subgraph lgraph _ _ m h1 ?_
      intro b data hf
      have := (foldl_initContextData lgraph backends [] (by simp [IndexMap.keys])
        (by intro b' data' hf'; simp [IndexMap.find] at hf')).2.2 b data hf
      rw [this]
      exact subgraphInv_empty lgraph
    have hkeys : IndexMap.keys (m.map fun pair =>
        (pair.1, finishContextData whole_op_order linear_executor pair.2)) = IndexMap.keys m :=
      IndexMap.keys_map_val m (fun _ d => finishContextData whole_op_order linear_executor d)
    refine ⟨?_, ?_, ?_, ?_⟩
    · rw [hkeys]
      exact minv.keys_nodup
    · intro b
      rw [hkeys]
      exact minv.keys b
    · intro e he
      rw [hkeys]
      exact minv.assigned e he
    · intro b data hmem
      obtain ⟨d, hd, hdata⟩ := mem_contexts whole_op_order linear_executor m minv.keys_nodup
        b data hmem
      obtain ⟨dinv, _, hops⟩ := minv.data b d hd
      have sinv := hsub b d hd
      have hk : IndexMap.keys data.graph.operands = IndexMap.keys d.graph.operands := by
        rw [hdata]
        exact finishBuilding_keys d.graph
      have hio : model_io data.graph = model_io d.graph := by
        rw [hdata]
        rfl
      have hext : data.external_operands = d.external_operands := by
        rw [hdata]
        rfl
      refine ⟨?_, ?_, ?_, ?_, ?_⟩
      · rw [hk]
        exact dinv.nodup
      · intro ind
        rw [hk]
        exact hops ind
      · intro ind
        rw [hio, hk, mem_model_io, mem_model_io]
        constructor
        · rintro (hx | hx)
          · obtain ⟨k, hk1, hk2, hk3⟩ := (sinv.inputs (some ind)).1 hx
            cases hk1
            exact ⟨hk2, Or.inl hk3⟩
          · obtain ⟨k, hk1, hk2, hk3⟩ := (sinv.outputs (some ind)).1 hx
            cases hk1
            exact ⟨hk2, Or.inr hk3⟩
        · rintro ⟨hk2, hx | hx⟩
          · exact Or.inl ((sinv.inputs (some ind)).2 ⟨ind, rfl, hk2, hx⟩)
          · exact Or.inr ((sinv.outputs (some ind)).2 ⟨ind, rfl, hk2, hx⟩)
      · intro ind
        rw [hext, hk]
        exact dinv.external ind
      · intro ind hind
        rw [hk] at hind
        exact sinv.def_side ind hind


/-! ## The operands registered by `genTensors` -/

theorem scanOperation_registered (ctx : BackendContext) (st : PlanState)
    (op_ind : OperationIndex) :
    (scanOperation ctx st op_ind).2.tensor_builder.registered =
      st.tensor_builder.registered := by
  cases hf : IndexMap.find ctx.graph.operations op_ind with
  | none => rw [scanOperation_of_find_none ctx st op_ind hf]
  | some op =>
    rw [scanOperation_of_find_some ctx st op_ind hf]
    have hframe := scanVariables_frame ctx (ctx.graph.inputsOf op_ind)
      ((ctx.graph.outputsOf op_ind).foldl (defineOutput ctx) st)
    cases hs : scanVariables ctx ((ctx.graph.outputsOf op_ind).foldl (defineOutput ctx) st)
        (ctx.graph.inputsOf op_ind) with
    | mk outcome st2 =>
      rw [hs] at hframe
      have hr2 : st2.tensor_builder.registered = st.tensor_builder.registered := by
        rw [show st2.tensor_builder.registered = _ from hframe.2.2.2.1,
          foldl_defineOutput_registered]
      cases outcome with
      | error msg => exact hr2
      | ok u =>
        show ((ctx.graph.inputsOf op_ind).foldl (useInput ctx op_ind) st2).tensor_builder.registered
          = _
        rw [foldl_useInput_registered, hr2]

theorem scanOperations_registered (ctx : BackendContext) (l : List OperationIndex)
    (st : PlanState) :
    (scanOperations ctx st l).2.tensor_builder.registered = st.tensor_builder.registered := by
  induction l generalizing st with
  | nil => rfl
  | cons op_ind t ih =>
    have hstep := scanOperation_registered ctx st op_ind
    unfold scanOperations
    cases hs : scanOperation ctx st op_ind with
    | mk outcome st' =>
      rw [hs] at hstep
      cases outcome with
      | error msg => exact hstep
      | ok u =>
        show (scanOperations ctx st' t).2.tensor_builder.registered = _
        rw [ih st']
        exact hstep

theorem planTensors_registered (ctx : BackendContext) (order : List OperationIndex)
    (k : OperandIndex) :
    k ∈ (planTensors ctx order).2.tensor_builder.registered ↔
      k ∈ ctx.tensor_builder.registered ∨ Planned ctx k := by
  rw [← planTensorsStart_registered ctx k]
  have hs := scanOperations_registered ctx order (planTensorsStart ctx)
  unfold planTensors
  cases hsc : scanOperations ctx (planTensorsStart ctx) order with
  | mk outcome st =>
    rw [hsc] at hs
    cases outcome with
    | error msg =>
      show k ∈ st.tensor_builder.registered ↔ _
      rw [show st.tensor_builder.registered = _ from hs]
    | ok u =>
      show k ∈ (st.constants.foldl disposeConstant st).tensor_builder.registered ↔ _
      rw [(foldl_disposeConstant_frame _ _).2.2, show st.tensor_builder.registered = _ from hs]

theorem genTensors_registered (ctx : BackendContext) (order : List OperationIndex)
    (executor : String) (k : OperandIndex) :
    k ∈ (genTensors ctx order executor).2.registered ↔
      k ∈ ctx.tensor_builder.registered ∨ Planned ctx k := by
  by_cases h : executor = "Linear"
  · have hlin : k ∈ (genTensors ctx order executor).2.registered ↔
        k ∈ (planTensors (registeredContext ctx) order).2.tensor_builder.registered := by
      unfold genTensors
      rw [if_pos h]
      cases hpl : planTensors (registeredContext ctx) order with
      | mk outcome st =>
        cases outcome with
        | error msg => exact Iff.rfl
        | ok u => exact Iff.rfl
    rw [hlin, planTensors_registered, registeredContext_registered]
    have hp : Planned (registeredContext ctx) k ↔ Planned ctx k := Iff.rfl
    rw [hp]
    tauto
  · rw [(genTensors_issued ctx order executor h).1]
    exact registeredContext_registered ctx k

theorem genTensorsAll_spec (executor : String) (l : List (Backend × ContextData))
    (done : IndexMap (List OperandIndex)) (h : genTensorsAll executor l = .ok done) :
    (∀ b registered, (b, registered) ∈ done →
      ∃ data, (b, data) ∈ l ∧ ∀ k, k ∈ registered ↔ Planned (newContext data) k) ∧
    ∀ b data, (b, data) ∈ l →
      ∃ registered, (b, registered) ∈ done ∧ ∀ k, k ∈ registered ↔ Planned (newContext data) k := by
  induction l generalizing done with
  | nil =>
    unfold genTensorsAll at h
    cases h
    exact ⟨fun _ _ hm => absurd hm (List.not_mem_nil _),
      fun _ _ hm => absurd hm (List.not_mem_nil _)⟩
  | cons pair rest ih =>
    unfold genTensorsAll at h
    have hreg := genTensors_registered (newContext pair.2) pair.2.op_order executor
    cases hg : genTensors (newContext pair.2) pair.2.op_order executor with
    | mk outcome tb =>
      rw [hg] at h hreg
      cases outcome with
      | error msg => exact Except.noConfusion h
      | ok u =>
        simp only at h
        cases hr : genTensorsAll executor rest with
        | error msg =>
          rw [hr] at h
          exact Except.noConfusion h
        | ok done' =>
          rw [hr] at h
          simp only at h
          cases h
          obtain ⟨ih1, ih2⟩ := ih done' hr
          have hthis : ∀ k, k ∈ tb.registered ↔ Planned (newContext pair.2) k := by
            intro k
            rw [hreg k]
            constructor
            · rintro (hk | hk)
              · exact absurd hk (List.not_mem_nil _)
              · exact hk
            · exact Or.inr
          constructor
          · intro b registered hm
            rcases List.mem_cons.1 hm with hm | hm
            · cases hm
              exact ⟨pair.2, List.mem_cons_self _ _, hthis⟩
            · obtain ⟨data, hd, hk⟩ := ih1 b registered hm
              exact ⟨data, List.mem_cons_of_mem _ hd, hk⟩
          · intro b data hm
            rcases List.mem_cons.1 hm with hm | hm
            · subst hm
              exact ⟨tb.registered, List.mem_cons_self _ _, hthis⟩
            · obtain ⟨registered, hd, hk⟩ := ih2 b data hm
              exact ⟨registered, List.mem_cons_of_mem _ hd, hk⟩

theorem findBuiltin_aux (id : Backend → String) (l : List (Backend × ContextData))
    (acc : Option Backend) (b : Backend)
    (h : l.foldl (fun builtin_tensor_reg e =>
      if id e.1 = "builtin" then some e.1 else builtin_tensor_reg) acc = some b) :
    acc = some b ∨ (id b = "builtin" ∧ b ∈ IndexMap.keys l) := by
  induction l generalizing acc with
  | nil => exact Or.inl h
  | cons e t ih =>
    rw [List.foldl_cons] at h
    rcases ih _ h with h' | h'
    · by_cases he : id e.1 = "builtin"
      · rw [if_pos he] at h'
        have : e.1 = b := Option.some.inj h'
        exact Or.inr ⟨this ▸ he, by rw [← this]; simp [IndexMap.keys]⟩
      · rw [if_neg he] at h'
        exact Or.inl h'
    · exact Or.inr ⟨h'.1, by
        have := h'.2
        simp only [IndexMap.keys, List.map_cons, List.mem_cons] at this ⊢
        exact Or.inr this⟩

theorem findBuiltin_spec (id : Backend → String) (backend_contexts : IndexMap ContextData)
    (b : Backend) (h : findBuiltin id backend_contexts = some b) :
    id b = "builtin" ∧ b ∈ IndexMap.keys backend_contexts := by
  rcases findBuiltin_aux id backend_contexts none b h with h' | h'
  · exact Option.noConfusion h'
  · exact h'

theorem setNativeIOTensors_spec (lowered_graph : LoweredGraph)
    (builtin_tensor_reg : Option Backend) (indices : List OperandIndex)
    (done : IndexMap IOTensor)
    (h : setNativeIOTensors lowered_graph builtin_tensor_reg indices = .ok done) :
    IndexMap.keys done = indices ∧ (indices ≠ [] → builtin_tensor_reg.isSome = true) ∧
      ∀ ind ∈ indices, ∃ operand,
        IndexMap.find lowered_graph.graph.operands ind = some operand ∧
        IndexMap.find done ind = some { info := operand.info, layout := Layout.NHWC } := by
  induction indices generalizing done with
  | nil =>
    unfold setNativeIOTensors at h
    cases h
    exact ⟨rfl, fun hh => absurd rfl hh, fun ind hi => absurd hi (List.not_mem_nil _)⟩
  | cons ind rest ih =>
    unfold setNativeIOTensors at h
    cases hf : IndexMap.find lowered_graph.graph.operands ind with
    | none =>
      rw [hf] at h
      exact Except.noConfusion h
    | some operand =>
      rw [hf] at h
      dsimp only at h
      by_cases hb : builtin_tensor_reg.isSome = false
      · rw [if_pos hb] at h
        exact Except.noConfusion h
      · rw [if_neg hb] at h
        cases hr : setNativeIOTensors lowered_graph builtin_tensor_reg rest with
        | error msg =>
          rw [hr] at h
          exact Except.noConfusion h
        | ok done' =>
          rw [hr] at h
          simp only at h
          cases h
          obtain ⟨ih1, -, ih3⟩ := ih done' hr
          refine ⟨by simp [IndexMap.keys] at ih1 ⊢; exact ih1, fun _ => ?_, ?_⟩
          · cases builtin_tensor_reg with
            | none => exact absurd rfl hb
            | some b => rfl
          · intro k hk
            by_cases hki : ind = k
            · subst hki
              exact ⟨operand, hf, by simp [IndexMap.find]⟩
            · rcases List.mem_cons.1 hk with hk | hk
              · exact absurd hk.symm hki
              · obtain ⟨operand', h1, h2⟩ := ih3 k hk
                refine ⟨operand', h1, ?_⟩
                simp only [IndexMap.find]
                rw [if_neg hki]
                exact h2


/-! ## Native owners -/

theorem mem_subgraph_indices (graph : Graph) (ind : OperandIndex) :
    ind ∈ removeUndefined (removeDuplicated (graph.getInputs ++ graph.getOutputs)) ↔
      ind ∈ model_io graph := by
  rw [mem_removeUndefined, mem_removeDuplicated, mem_model_io, List.mem_append]

theorem generateTensors_spec (id : Backend → String) (executor : String)
    (lgraph : LoweredGraph) (contexts : IndexMap ContextData) (regs : IndexMap NativeTensors)
    (hg : generateTensors id executor lgraph contexts = .ok regs) :
    (∀ b r, (b, r) ∈ regs →
      ∃ data, (b, data) ∈ contexts ∧ (∀ k, k ∈ r.native ↔ Planned (newContext data) k) ∧
        (∀ k, k ∈ r.native_io ↔ k ∈ model_io lgraph.graph ∧ findBuiltin id contexts = some b)) ∧
    (∀ b data, (b, data) ∈ contexts → ∃ r, (b, r) ∈ regs) ∧
    ((model_io lgraph.graph ≠ []) → (findBuiltin id contexts).isSome = true) := by
  unfold generateTensors initializeSubgraphIOTensors at hg
  cases hs : setNativeIOTensors lgraph (findBuiltin id contexts)
      (removeUndefined (removeDuplicated (lgraph.graph.getInputs ++ lgraph.graph.getOutputs))) with
  | error msg =>
    rw [hs] at hg
    exact Except.noConfusion hg
  | ok done =>
    rw [hs] at hg
    simp only at hg
    obtain ⟨hdone, hsome, -⟩ := setNativeIOTensors_spec _ _ _ _ hs
    cases ha : genTensorsAll executor contexts with
    | error msg =>
      rw [ha] at hg
      exact Except.noConfusion hg
    | ok registered =>
      rw [ha] at hg
      simp only at hg
      cases hg
      obtain ⟨h1, h2⟩ := genTensorsAll_spec executor contexts registered ha
      refine ⟨?_, ?_, ?_⟩
      · intro b r hm
        obtain ⟨pair, hp, heq⟩ := List.mem_map.1 hm
        cases heq
        obtain ⟨data, hd, hk⟩ := h1 pair.1 pair.2 hp
        refine ⟨data, hd, hk, ?_⟩
        intro k
        show k ∈ (if findBuiltin id contexts = some pair.1 then IndexMap.keys done else []) ↔ _
        by_cases hb : findBuiltin id contexts = some pair.1
        · rw [if_pos hb, hdone, mem_subgraph_indices]
          exact ⟨fun h => ⟨h, hb⟩, fun h => h.1⟩
        · rw [if_neg hb]
          exact ⟨fun h => absurd h (List.not_mem_nil _), fun h => absurd h.2 hb⟩
      · intro b data hm
        obtain ⟨registered_b, hr, _⟩ := h2 b data hm
        exact ⟨_, List.mem_map.2 ⟨(b, registered_b), hr, rfl⟩⟩
      · intro hne
        apply hsome
        intro hnil
        apply hne
        apply List.eq_nil_iff_forall_not_mem.2
        intro k hk
        have := (mem_subgraph_indices lgraph.graph k).2 hk
        rw [hnil] at this
        exact absurd this (List.not_mem_nil _)

theorem exists_context_of_mem_keys {contexts : IndexMap ContextData} {b : Backend}
    (h : b ∈ IndexMap.keys contexts) : ∃ data, (b, data) ∈ contexts := by
  obtain ⟨pair, hp, hfst⟩ := List.mem_map.1 h
  exact ⟨pair.2, by rw [← hfst]; exact hp⟩


theorem native_holds_iff (backends : List Backend) (id : Backend → String) (executor : String)
    (lgraph : LoweredGraph) (whole_op_order : List OperationIndex) (linear_executor : Bool)
    (contexts : IndexMap ContextData) (regs : IndexMap NativeTensors)
    (hc : createBackendContexts backends lgraph whole_op_order linear_executor = .ok contexts)
    (hg : generateTensors id executor lgraph contexts = .ok regs) (ind : OperandIndex)
    (b : Backend) (r : NativeTensors) (hm : (b, r) ∈ regs) :
    r.holds ind ↔
      (ind ∈ model_io lgraph.graph ∧ findBuiltin id contexts = some b) ∨
      (ind ∉ model_io lgraph.graph ∧ defBackend lgraph ind = some b ∧
        ∃ e ∈ lgraph.graph.operations, assignedBackend lgraph e.1 = some b ∧
          e.2.references ind) := by
  obtain ⟨_, _, _, hpart⟩ := createBackendContexts_partition _ _ _ _ _ hc
  obtain ⟨hregs, _, _⟩ := generateTensors_spec id executor lgraph contexts regs hg
  obtain ⟨data, hd, hnative, hio⟩ := hregs b r hm
  obtain ⟨_, hkeys, hmio, hext, hds⟩ := hpart b data hd
  have hplanned : Planned (newContext data) ind ↔
      ind ∈ IndexMap.keys data.graph.operands ∧ ind ∉ model_io data.graph ∧
        ind ∉ data.external_operands := Iff.rfl
  unfold NativeTensors.holds
  rw [hnative ind, hio ind, hplanned, hmio ind, hext ind, hkeys ind]
  constructor
  · rintro (⟨hk, hn, hx⟩ | h)
    · refine Or.inr ⟨fun h => hn ⟨hk, h⟩, ?_, hk⟩
      have hsome := hds ind ((hkeys ind).2 hk)
      cases hdb : defBackend lgraph ind with
      | none =>
        rw [hdb] at hsome
        exact Bool.noConfusion hsome
      | some pb =>
        by_cases hpb : pb = b
        · rw [hpb]
        · exact absurd ⟨hk, pb, hdb, hpb⟩ hx
    · exact Or.inl h
  · rintro (h | ⟨hn, hdb, hk⟩)
    · exact Or.inr h
    · refine Or.inl ⟨hk, fun h => hn h.2, ?_⟩
      rintro ⟨_, pb, hpb, hne⟩
      rw [hdb] at hpb
      exact hne (Option.some.inj hpb).symm

/-- The native owners of an operand after `createBackendContexts`,
`initializeSubgraphIOTensors` and `genTensors` on every backend: a graph input
or output has a native tensor in the registry of exactly one backend, whose id
is "builtin"; any other operand has a native tensor in the registry of a
backend exactly when that backend is the operand's def-side backend and some
operation assigned to it references the operand, so it has at most one native
owner, and it has one when an operation that references it is assigned to its
def-side backend. -/
theorem native_owners (backends : List Backend) (id : Backend → String)
    (executor : String) (lgraph : LoweredGraph) (whole_op_order : List OperationIndex)
    (linear_executor : Bool) (contexts : IndexMap ContextData)
    (regs : IndexMap NativeTensors)
    (hc : createBackendContexts backends lgraph whole_op_order linear_executor = .ok contexts)
    (hg : generateTensors id executor lgraph contexts = .ok regs) (ind : OperandIndex) :
    (ind ∈ model_io lgraph.graph →
      ∃ b r, (b, r) ∈ regs ∧ r.holds ind ∧ id b = "builtin" ∧
        ∀ b' r', (b', r') ∈ regs → r'.holds ind → b' = b) ∧
    (ind ∉ model_io lgraph.graph →
      (∀ b r, (b, r) ∈ regs →
        (r.holds ind ↔
          defBackend lgraph ind = some b ∧
            ∃ e ∈ lgraph.graph.operations, assignedBackend lgraph e.1 = some b ∧
              e.2.references ind)) ∧
      (∀ b r b' r', (b, r) ∈ regs → (b', r') ∈ regs → r.holds ind → r'.holds ind → b' = b) ∧
      (∀ e ∈ lgraph.graph.operations, e.2.references ind →
        assignedBackend lgraph e.1 = defBackend lgraph ind →
        ∃ b r, (b, r) ∈ regs ∧ r.holds ind ∧ defBackend lgraph ind = some b ∧
          ∀ b' r', (b', r') ∈ regs → r'.holds ind → b' = b)) := by
  have hiff := native_holds_iff backends id executor lgraph whole_op_order linear_executor
    contexts regs hc hg ind
  obtain ⟨_, _, hassigned, _⟩ := createBackendContexts_partition _ _ _ _ _ hc
  obtain ⟨_, hall, hbuiltin⟩ := generateTensors_spec id executor lgraph contexts regs hg
  constructor
  · intro hio
    have hne : model_io lgraph.graph ≠ [] := fun h => by
      rw [h] at hio
      exact absurd hio (List.not_mem_nil _)
    cases hfb : findBuiltin id contexts with
    | none =>
      have := hbuiltin hne
      rw [hfb] at this
      exact Bool.noConfusion this
    | some b0 =>
      obtain ⟨hid, hk⟩ := findBuiltin_spec id contexts b0 hfb
      obtain ⟨data0, hd0⟩ := exists_context_of_mem_keys hk
      obtain ⟨r0, hr0⟩ := hall b0 data0 hd0
      refine ⟨b0, r0, hr0, (hiff b0 r0 hr0).2 (Or.inl ⟨hio, hfb⟩), hid, ?_⟩
      intro b' r' hm' hh'
      rcases (hiff b' r' hm').1 hh' with ⟨_, hb'⟩ | ⟨hn, _⟩
      · rw [hfb] at hb'
        exact (Option.some.inj hb').symm
      · exact absurd hio hn
  · intro hn
    have hiff' : ∀ b r, (b, r) ∈ regs →
        (r.holds ind ↔
          defBackend lgraph ind = some b ∧
            ∃ e ∈ lgraph.graph.operations, assignedBackend lgraph e.1 = some b ∧
              e.2.references ind) := by
      intro b r hm
      rw [hiff b r hm]
      constructor
      · rintro (⟨hio, _⟩ | ⟨_, h⟩)
        · exact absurd hio hn
        · exact h
      · exact fun h => Or.inr ⟨hn, h⟩
    have huniq : ∀ b r b' r', (b, r) ∈ regs → (b', r') ∈ regs → r.holds ind → r'.holds ind →
        b' = b := by
      intro b r b' r' hm hm' hh hh'
      have h1 := ((hiff' b r hm).1 hh).1
      have h2 := ((hiff' b' r' hm').1 hh').1
      rw [h1] at h2
      exact (Option.some.inj h2).symm
    refine ⟨hiff', huniq, ?_⟩
    intro e he href hsame
    obtain ⟨b, hab, hbk⟩ := hassigned e he
    obtain ⟨data, hd⟩ := exists_context_of_mem_keys hbk
    obtain ⟨r, hr⟩ := hall b data hd
    have hdb : defBackend lgraph ind = some b := by rw [← hsame, hab]
    have hh : r.holds ind := (hiff' b r hr).2 ⟨hdb, e, he, hab, href⟩
    exact ⟨b, r, hr, hh, hdb, fun b' r' hm' hh' => huniq b r b' r' hr hm' hh hh'⟩


/-! ## The permutation insertion pass -/

theorem IndexMap.find_append_of_find {α : Type} {m : IndexMap α} (m' : IndexMap α) {k : Nat}
    {v : α} (h : IndexMap.find m k = some v) : IndexMap.find (m ++ m') k = some v := by
  induction m with
  | nil => simp [IndexMap.find] at h
  | cons e t ih =>
    obtain ⟨a, b⟩ := e
    by_cases hk : a = k
    · simp only [IndexMap.find, hk, if_true, List.cons_append] at h ⊢
      exact h
    · simp only [IndexMap.find, hk, if_false, List.cons_append] at h ⊢
      exact ih h

theorem IndexMap.find_append_of_not_mem {α : Type} {m : IndexMap α} (m' : IndexMap α) {k : Nat}
    (h : k ∉ IndexMap.keys m) : IndexMap.find (m ++ m') k = IndexMap.find m' k := by
  induction m with
  | nil => rfl
  | cons e t ih =>
    obtain ⟨a, b⟩ := e
    have h' : ¬ a = k ∧ k ∉ IndexMap.keys t := by
      simp only [IndexMap.keys, List.map_cons, List.mem_cons, not_or] at h
      exact ⟨fun hh => h.1 hh.symm, h.2⟩
    simp only [IndexMap.find, h'.1, if_false, List.cons_append]
    exact ih h'.2

theorem le_foldl_max (l : List Nat) (acc : Nat) :
    acc ≤ l.foldl max acc ∧ ∀ k ∈ l, k ≤ l.foldl max acc := by
  induction l generalizing acc with
  | nil => exact ⟨Nat.le_refl _, fun k hk => absurd hk (List.not_mem_nil _)⟩
  | cons a t ih =>
    obtain ⟨h1, h2⟩ := ih (max acc a)
    rw [List.foldl_cons]
    refine ⟨Nat.le_trans (Nat.le_max_left _ _) h1, ?_⟩
    intro k hk
    rcases List.mem_cons.1 hk with hk | hk
    · rw [hk]
      exact Nat.le_trans (Nat.le_max_right _ _) h1
    · exact h2 k hk

theorem lt_freshIndex {l : List Nat} {k : Nat} (h : k ∈ l) : k < freshIndex l :=
  Nat.lt_succ_of_le ((le_foldl_max l 0).2 k h)

theorem numberPermutes_pairs (p y : Nat) (required : List (OperandIndex × PermuteFactor)) :
    (numberPermutes p y required).map (fun c => (c.operand, c.factor)) = required := by
  induction required generalizing p y with
  | nil => rfl
  | cons r t ih => simp [numberPermutes, ih]

theorem numberPermutes_ge (p y : Nat) (required : List (OperandIndex × PermuteFactor)) :
    ∀ c ∈ numberPermutes p y required, p ≤ c.operation ∧ y ≤ c.output := by
  induction required generalizing p y with
  | nil => exact fun c hc => absurd hc (List.not_mem_nil _)
  | cons r t ih =>
    intro c hc
    simp only [numberPermutes, List.mem_cons] at hc
    rcases hc with hc | hc
    · rw [hc]
      exact ⟨Nat.le_refl _, Nat.le_refl _⟩
    · obtain ⟨h1, h2⟩ := ih (p + 1) (y + 1) c hc
      exact ⟨by omega, by omega⟩

theorem numberPermutes_nodup (p y : Nat) (required : List (OperandIndex × PermuteFactor)) :
    ((numberPermutes p y required).map fun c => c.operation).Nodup ∧
      ((numberPermutes p y required).map fun c => c.output).Nodup := by
  induction required generalizing p y with
  | nil => exact ⟨List.nodup_nil, List.nodup_nil⟩
  | cons r t ih =>
    obtain ⟨h1, h2⟩ := ih (p + 1) (y + 1)
    simp only [numberPermutes, List.map_cons, List.nodup_cons]
    refine ⟨⟨?_, h1⟩, ⟨?_, h2⟩⟩
    · intro hm
      obtain ⟨c, hc, hp⟩ := List.mem_map.1 hm
      have hp' : c.operation = p := hp
      have := (numberPermutes_ge (p + 1) (y + 1) t c hc).1
      rw [hp'] at this
      exact Nat.not_succ_le_self p this
    · intro hm
      obtain ⟨c, hc, hp⟩ := List.mem_map.1 hm
      have hp' : c.output = y := hp
      have := (numberPermutes_ge (p + 1) (y + 1) t c hc).2
      rw [hp'] at this
      exact Nat.not_succ_le_self y this

theorem mem_useFactors (lgraph : LoweredGraph) (index : OperandIndex) (factor : PermuteFactor) :
    factor ∈ useFactors lgraph index ↔
      ∃ u ∈ lgraph.graph.operations, some index ∈ u.2.getInputs ∧
        requestedFactor lgraph u.1 = some factor := by
  unfold useFactors
  rw [mem_removeDuplicated, List.mem_filterMap]
  constructor
  · rintro ⟨u, hu, hf⟩
    obtain ⟨hmem, hin⟩ := List.mem_filter.1 hu
    exact ⟨u, hmem, by simpa using hin, hf⟩
  · rintro ⟨u, hmem, hin, hf⟩
    exact ⟨u, List.mem_filter.2 ⟨hmem, by simpa using hin⟩, hf⟩

theorem mem_insertSet (lgraph : LoweredGraph) (index : OperandIndex) (factor : PermuteFactor) :
    factor ∈ insertSet lgraph index ↔
      ∃ d, defFactor lgraph index = some d ∧ factor ∈ useFactors lgraph index ∧ factor ≠ d := by
  unfold insertSet
  cases hd : defFactor lgraph index with
  | none => simp
  | some d =>
    simp only [List.mem_filter, decide_eq_true_eq, Option.some.injEq, exists_eq_left']

theorem nodup_insertSet (lgraph : LoweredGraph) (index : OperandIndex) :
    (insertSet lgraph index).Nodup := by
  unfold insertSet
  cases hd : defFactor lgraph index with
  | none => exact List.nodup_nil
  | some d => exact (nodup_removeDuplicated _).filter _

theorem mem_permutesOf (lgraph : LoweredGraph) (indices : List OperandIndex)
    (required : OperandIndex × PermuteFactor) :
    required ∈ permutesOf lgraph indices ↔
      required.1 ∈ indices ∧ required.2 ∈ insertSet lgraph required.1 := by
  induction indices with
  | nil => simp [permutesOf]
  | cons index rest ih =>
    simp only [permutesOf, List.mem_append, List.mem_map, ih, List.mem_cons]
    constructor
    · rintro (⟨factor, hf, heq⟩ | ⟨h1, h2⟩)
      · rw [← heq]
        exact ⟨Or.inl rfl, hf⟩
      · exact ⟨Or.inr h1, h2⟩
    · rintro ⟨h1 | h1, h2⟩
      · refine Or.inl ⟨required.2, ?_, ?_⟩
        · rw [← h1]
          exact h2
        · rw [← h1]
      · exact Or.inr ⟨h1, h2⟩

theorem nodup_permutesOf (lgraph : LoweredGraph) (indices : List OperandIndex)
    (h : indices.Nodup) : (permutesOf lgraph indices).Nodup := by
  induction indices with
  | nil => exact List.nodup_nil
  | cons index rest ih =>
    have h' : index ∉ rest ∧ rest.Nodup := List.nodup_cons.1 h
    simp only [permutesOf]
    rw [List.nodup_append]
    refine ⟨?_, ih h'.2, ?_⟩
    · exact (nodup_insertSet lgraph index).map (fun a b hab => (Prod.mk.inj hab).2)
    · intro required h1 h2
      obtain ⟨factor, _, heq⟩ := List.mem_map.1 h1
      have := ((mem_permutesOf lgraph rest required).1 h2).1
      rw [← heq] at this
      exact h'.1 this


theorem mem_insertedPermutes (lgraph : LoweredGraph) (c : InsertedPermute)
    (h : c ∈ insertedPermutes lgraph) :
    c.operand ∈ IndexMap.keys lgraph.graph.operands ∧ c.factor ∈ insertSet lgraph c.operand ∧
      c.operation ∉ IndexMap.keys lgraph.graph.operations ∧
      c.output ∉ IndexMap.keys lgraph.graph.operands := by
  unfold insertedPermutes at h
  have hpair : (c.operand, c.factor) ∈ permutesOf lgraph (IndexMap.keys lgraph.graph.operands) := by
    have := List.mem_map_of_mem (fun c : InsertedPermute => (c.operand, c.factor)) h
    rw [numberPermutes_pairs] at this
    exact this
  obtain ⟨h1, h2⟩ := (mem_permutesOf lgraph _ _).1 hpair
  obtain ⟨h3, h4⟩ := numberPermutes_ge _ _ _ c h
  refine ⟨h1, h2, ?_, ?_⟩
  · intro hk
    exact absurd (lt_freshIndex hk) (Nat.not_lt.2 h3)
  · intro hk
    exact absurd (lt_freshIndex hk) (Nat.not_lt.2 h4)

theorem exists_insertedPermute (lgraph : LoweredGraph) (index : OperandIndex)
    (factor : PermuteFactor) (h1 : index ∈ IndexMap.keys lgraph.graph.operands)
    (h2 : factor ∈ insertSet lgraph index) :
    ∃ c ∈ insertedPermutes lgraph, c.operand = index ∧ c.factor = factor := by
  have hpair : (index, factor) ∈ permutesOf lgraph (IndexMap.keys lgraph.graph.operands) :=
    (mem_permutesOf lgraph _ _).2 ⟨h1, h2⟩
  rw [← numberPermutes_pairs (freshIndex (IndexMap.keys lgraph.graph.operations))
    (freshIndex (IndexMap.keys lgraph.graph.operands))
    (permutesOf lgraph (IndexMap.keys lgraph.graph.operands))] at hpair
  obtain ⟨c, hc, heq⟩ := List.mem_map.1 hpair
  exact ⟨c, hc, (Prod.mk.inj heq).1, (Prod.mk.inj heq).2⟩

theorem insertedPermutes_unique (lgraph : LoweredGraph)
    (hnd : (IndexMap.keys lgraph.graph.operands).Nodup) (c c' : InsertedPermute)
    (hc : c ∈ insertedPermutes lgraph) (hc' : c' ∈ insertedPermutes lgraph)
    (h1 : c.operand = c'.operand) (h2 : c.factor = c'.factor) : c = c' := by
  have hn : ((insertedPermutes lgraph).map fun c => (c.operand, c.factor)).Nodup := by
    unfold insertedPermutes
    rw [numberPermutes_pairs]
    exact nodup_permutesOf lgraph _ hnd
  exact List.inj_on_of_nodup_map hn hc hc' (by rw [h1, h2])

theorem insertedPermutes_operation_inj (lgraph : LoweredGraph) (c c' : InsertedPermute)
    (hc : c ∈ insertedPermutes lgraph) (hc' : c' ∈ insertedPermutes lgraph)
    (h : c.operation = c'.operation) : c = c' :=
  List.inj_on_of_nodup_map (numberPermutes_nodup _ _ _).1 hc hc' h

theorem insertedPermutes_output_inj (lgraph : LoweredGraph) (c c' : InsertedPermute)
    (hc : c ∈ insertedPermutes lgraph) (hc' : c' ∈ insertedPermutes lgraph)
    (h : c.output = c'.output) : c = c' :=
  List.inj_on_of_nodup_map (numberPermutes_nodup _ _ _).2 hc hc' h

theorem permutedOperand_spec (inserted : List InsertedPermute) (index : OperandIndex)
    (factor : PermuteFactor) :
    (∃ c ∈ inserted, c.operand = index ∧ c.factor = factor ∧
        permutedOperand inserted index factor = c.output) ∨
      ((∀ c ∈ inserted, ¬ (c.operand = index ∧ c.factor = factor)) ∧
        permutedOperand inserted index factor = index) := by
  induction inserted with
  | nil => exact Or.inr ⟨fun c hc => absurd hc (List.not_mem_nil _), rfl⟩
  | cons c t ih =>
    by_cases h : c.operand = index ∧ c.factor = factor
    · refine Or.inl ⟨c, List.mem_cons_self _ _, h.1, h.2, ?_⟩
      simp only [permutedOperand, h, and_self, if_true]
    · have hstep : permutedOperand (c :: t) index factor = permutedOperand t index factor := by
        simp only [permutedOperand, h, if_false]
      rw [hstep]
      rcases ih with ⟨c', hc', h1, h2, h3⟩ | ⟨h1, h2⟩
      · exact Or.inl ⟨c', List.mem_cons_of_mem _ hc', h1, h2, h3⟩
      · refine Or.inr ⟨?_, h2⟩
        intro c' hc'
        rcases List.mem_cons.1 hc' with hc' | hc'
        · rw [hc']
          exact h
        · exact h1 c' hc'

theorem run_operations (builtin : Backend) (lgraph : LoweredGraph) :
    (PermutationInsertionPass.run builtin lgraph).graph.operations =
      (lgraph.graph.operations.map fun e =>
        (e.1, rewireInputs lgraph (insertedPermutes lgraph) e.1 e.2)) ++
      (insertedPermutes lgraph).map fun permute => (permute.operation, permute.toOperation) :=
  rfl

theorem run_find_operation (builtin : Backend) (lgraph : LoweredGraph) (k : OperationIndex)
    (op : Operation) (h : IndexMap.find lgraph.graph.operations k = some op) :
    IndexMap.find (PermutationInsertionPass.run builtin lgraph).graph.operations k =
      some (rewireInputs lgraph (insertedPermutes lgraph) k op) := by
  rw [run_operations]
  apply IndexMap.find_append_of_find
  rw [IndexMap.find_map_val lgraph.graph.operations
    (fun k op => rewireInputs lgraph (insertedPermutes lgraph) k op) k, h]
  rfl

theorem run_find_permute (builtin : Backend) (lgraph : LoweredGraph) (c : InsertedPermute)
    (hc : c ∈ insertedPermutes lgraph) :
    IndexMap.find (PermutationInsertionPass.run builtin lgraph).graph.operations c.operation =
      some c.toOperation := by
  rw [run_operations, IndexMap.find_append_of_not_mem]
  · apply IndexMap.find_of_mem
    · have : IndexMap.keys ((insertedPermutes lgraph).map fun permute =>
          (permute.operation, permute.toOperation)) =
          (insertedPermutes lgraph).map fun c => c.operation := by
        simp [IndexMap.keys, Function.comp_def]
      rw [this]
      exact (numberPermutes_nodup _ _ _).1
    · exact List.mem_map.2 ⟨c, hc, rfl⟩
  · rw [IndexMap.keys_map_val lgraph.graph.operations
      (fun k op => rewireInputs lgraph (insertedPermutes lgraph) k op)]
    exact (mem_insertedPermutes lgraph c hc).2.2.1

theorem run_new_operation (builtin : Backend) (lgraph : LoweredGraph) (k : OperationIndex)
    (op : Operation) (hk : k ∉ IndexMap.keys lgraph.graph.operations)
    (h : IndexMap.find (PermutationInsertionPass.run builtin lgraph).graph.operations k =
      some op) :
    ∃ c ∈ insertedPermutes lgraph, c.operation = k ∧ op = c.toOperation := by
  rw [run_operations, IndexMap.find_append_of_not_mem] at h
  · obtain ⟨c, hc, heq⟩ := List.mem_map.1 (IndexMap.mem_of_find h)
    exact ⟨c, hc, (Prod.mk.inj heq).1, (Prod.mk.inj heq).2.symm⟩
  · rw [IndexMap.keys_map_val lgraph.graph.operations
      (fun k op => rewireInputs lgraph (insertedPermutes lgraph) k op)]
    exact hk

theorem run_defFactor (builtin : Backend) (lgraph : LoweredGraph) (c : InsertedPermute)
    (hc : c ∈ insertedPermutes lgraph) :
    defFactor (PermutationInsertionPass.run builtin lgraph) c.output = some c.factor := by
  have hfind : IndexMap.find (PermutationInsertionPass.run builtin lgraph).lower_info.operand
      c.output = some { def_factors := [c.factor] } := by
    show IndexMap.find (((insertedPermutes lgraph).map fun permute =>
      (permute.output, ({ def_factors := [permute.factor] } : OperandLowerInfo))) ++
      lgraph.lower_info.operand) c.output = _
    apply IndexMap.find_append_of_find
    apply IndexMap.find_of_mem
    · have : IndexMap.keys ((insertedPermutes lgraph).map fun permute =>
          (permute.output, ({ def_factors := [permute.factor] } : OperandLowerInfo))) =
          (insertedPermutes lgraph).map fun c => c.output := by
        simp [IndexMap.keys, Function.comp_def]
      rw [this]
      exact (numberPermutes_nodup _ _ _).2
    · exact List.mem_map.2 ⟨c, hc, rfl⟩
  unfold defFactor
  rw [hfind]
  rfl


theorem rewireInputs_of_factor (lgraph : LoweredGraph) (inserted : List InsertedPermute)
    (op_ind : OperationIndex) (op : Operation) (factor : PermuteFactor)
    (h : requestedFactor lgraph op_ind = some factor) :
    (rewireInputs lgraph inserted op_ind op).getInputs =
      op.getInputs.map fun input =>
        input.map fun index => permutedOperand inserted index factor := by
  unfold rewireInputs
  rw [h]

theorem permutedOperand_of_inserted (lgraph : LoweredGraph)
    (hnd : (IndexMap.keys lgraph.graph.operands).Nodup) (c : InsertedPermute)
    (hc : c ∈ insertedPermutes lgraph) :
    permutedOperand (insertedPermutes lgraph) c.operand c.factor = c.output := by
  rcases permutedOperand_spec (insertedPermutes lgraph) c.operand c.factor with
    ⟨c', hc', h1, h2, h3⟩ | ⟨h1, _⟩
  · rw [h3, insertedPermutes_unique lgraph hnd c' c hc' hc h1 h2]
  · exact absurd ⟨rfl, rfl⟩ (h1 c hc)

theorem permutedOperand_ne (lgraph : LoweredGraph) (c : InsertedPermute)
    (hc : c ∈ insertedPermutes lgraph) (z : OperandIndex) :
    permutedOperand (insertedPermutes lgraph) z c.factor ≠ c.operand := by
  intro h
  rcases permutedOperand_spec (insertedPermutes lgraph) z c.factor with
    ⟨c', hc', h1, h2, h3⟩ | ⟨h1, h2⟩
  · rw [h3] at h
    have := (mem_insertedPermutes lgraph c' hc').2.2.2
    rw [h] at this
    exact this (mem_insertedPermutes lgraph c hc).1
  · rw [h2] at h
    exact h1 c hc ⟨h.symm, rfl⟩

theorem permutedOperand_of_def (lgraph : LoweredGraph) (index : OperandIndex)
    (d : PermuteFactor) (hd : defFactor lgraph index = some d) :
    permutedOperand (insertedPermutes lgraph) index d = index := by
  rcases permutedOperand_spec (insertedPermutes lgraph) index d with
    ⟨c, hc, h1, h2, _⟩ | ⟨_, h2⟩
  · have hins := (mem_insertedPermutes lgraph c hc).2.1
    rw [h1, h2] at hins
    obtain ⟨d', hd', _, hne⟩ := (mem_insertSet lgraph index d).1 hins
    rw [hd] at hd'
    exact absurd (Option.some.inj hd') hne
  · exact h2

/-- C19. No silent boundary crossing: after the permutation insertion pass,
for an operand `index` with def-side factor `d` and every distinct use-side
factor `factor` other than `d`, exactly one inserted operation is a `Permute`
that reads `index` and writes an operand carrying `factor`; every use of
`index` that requested `factor` reads the output of that one `Permute` and no
longer reads `index` (so two uses requesting the same factor share it); a use
that requested `d` still reads `index` at the same input positions; and every
inserted operation that reads `index` is the `Permute` of one of these
factors. -/
theorem permutationInsertion_no_silent_crossing (builtin : Backend) (lgraph : LoweredGraph)
    (hnd : (IndexMap.keys lgraph.graph.operands).Nodup)
    (hndo : (IndexMap.keys lgraph.graph.operations).Nodup)
    (index : OperandIndex) (d : PermuteFactor)
    (hindex : index ∈ IndexMap.keys lgraph.graph.operands)
    (hd : defFactor lgraph index = some d) :
    (∀ factor ∈ useFactors lgraph index, factor ≠ d →
      ∃ permute_index output,
        permute_index ∉ IndexMap.keys lgraph.graph.operations ∧
        output ∉ IndexMap.keys lgraph.graph.operands ∧
        IndexMap.find (PermutationInsertionPass.run builtin lgraph).graph.operations
            permute_index =
          some { opcode := 65535, getInputs := [some index], getOutputs := [some output] } ∧
        defFactor (PermutationInsertionPass.run builtin lgraph) output = some factor ∧
        (∀ p op y, p ∉ IndexMap.keys lgraph.graph.operations →
          IndexMap.find (PermutationInsertionPass.run builtin lgraph).graph.operations p =
            some op →
          some index ∈ op.getInputs → op.getOutputs = [some y] →
          defFactor (PermutationInsertionPass.run builtin lgraph) y = some factor →
          p = permute_index) ∧
        ∀ u ∈ lgraph.graph.operations, some index ∈ u.2.getInputs →
          requestedFactor lgraph u.1 = some factor →
          ∃ u', IndexMap.find (PermutationInsertionPass.run builtin lgraph).graph.operations
              u.1 = some u' ∧
            some output ∈ u'.getInputs ∧ some index ∉ u'.getInputs) ∧
    (∀ u ∈ lgraph.graph.operations, some index ∈ u.2.getInputs →
      requestedFactor lgraph u.1 = some d →
      ∃ u', IndexMap.find (PermutationInsertionPass.run builtin lgraph).graph.operations u.1 =
          some u' ∧
        u'.getInputs.length = u.2.getInputs.length ∧
        ∀ i : Nat, u.2.getInputs[i]? = some (some index) →
          u'.getInputs[i]? = some (some index)) ∧
    (∀ p op, p ∉ IndexMap.keys lgraph.graph.operations →
      IndexMap.find (PermutationInsertionPass.run builtin lgraph).graph.operations p = some op →
      some index ∈ op.getInputs →
      ∃ factor ∈ useFactors lgraph index, factor ≠ d ∧
        ∃ y, op = { opcode := 65535, getInputs := [some index], getOutputs := [some y] } ∧
          defFactor (PermutationInsertionPass.run builtin lgraph) y = some factor) := by
  refine ⟨?_, ?_, ?_⟩
  · intro factor hf hne
    obtain ⟨c, hc, hc1, hc2⟩ := exists_insertedPermute lgraph index factor hindex
      ((mem_insertSet lgraph index factor).2 ⟨d, hd, hf, hne⟩)
    obtain ⟨_, _, hnew_op, hnew_out⟩ := mem_insertedPermutes lgraph c hc
    refine ⟨c.operation, c.output, hnew_op, hnew_out, ?_, ?_, ?_, ?_⟩
    · rw [run_find_permute builtin lgraph c hc]
      unfold InsertedPermute.toOperation
      rw [hc1]
    · rw [run_defFactor builtin lgraph c hc, hc2]
    · intro p op y hp hfind hin hout hfy
      obtain ⟨c', hc', hp', hop⟩ := run_new_operation builtin lgraph p op hp hfind
      rw [hop] at hin hout
      have h1 : c'.operand = index := by
        have : some index = some c'.operand := by
          simpa [InsertedPermute.toOperation] using hin
        exact (Option.some.inj this).symm
      have h2 : c'.output = y := by
        have : [some c'.output] = [some y] := hout
        simpa using this
      have h3 : c'.factor = factor := by
        have := run_defFactor builtin lgraph c' hc'
        rw [h2, hfy] at this
        exact (Option.some.inj this).symm
      rw [← hp', insertedPermutes_unique lgraph hnd c' c hc' hc (by rw [h1, hc1])
        (by rw [h3, hc2])]
    · intro u hu hin hreq
      have hfu : IndexMap.find lgraph.graph.operations u.1 = some u.2 :=
        IndexMap.find_of_mem hndo hu
      refine ⟨_, run_find_operation builtin lgraph u.1 u.2 hfu, ?_, ?_⟩
      · rw [rewireInputs_of_factor lgraph _ u.1 u.2 factor hreq]
        refine List.mem_map.2 ⟨some index, hin, ?_⟩
        have := permutedOperand_of_inserted lgraph hnd c hc
        rw [hc1, hc2] at this
        simp only [Option.map_some', this]
      · rw [rewireInputs_of_factor lgraph _ u.1 u.2 factor hreq]
        intro hmem
        obtain ⟨input, _, heq⟩ := List.mem_map.1 hmem
        cases input with
        | none => exact Option.noConfusion heq
        | some z =>
          simp only [Option.map_some', Option.some.injEq] at heq
          have := permutedOperand_ne lgraph c hc z
          rw [hc1, hc2] at this
          exact this heq
  · intro u hu hin hreq
    have hfu : IndexMap.find lgraph.graph.operations u.1 = some u.2 :=
      IndexMap.find_of_mem hndo hu
    refine ⟨_, run_find_operation builtin lgraph u.1 u.2 hfu, ?_, ?_⟩
    · rw [rewireInputs_of_factor lgraph _ u.1 u.2 d hreq, List.length_map]
    · intro i hi
      rw [rewireInputs_of_factor lgraph _ u.1 u.2 d hreq, List.getElem?_map, hi]
      simp only [Option.map_some', permutedOperand_of_def lgraph index d hd]
  · intro p op hp hfind hin
    obtain ⟨c, hc, _, hop⟩ := run_new_operation builtin lgraph p op hp hfind
    rw [hop] at hin
    have h1 : c.operand = index := by
      have : some index = some c.operand := by
        simpa [InsertedPermute.toOperation] using hin
      exact (Option.some.inj this).symm
    have hins := (mem_insertedPermutes lgraph c hc).2.1
    rw [h1] at hins
    obtain ⟨d', hd', hf, hne⟩ := (mem_insertSet lgraph index c.factor).1 hins
    rw [hd] at hd'
    cases hd'
    refine ⟨c.factor, hf, hne, c.output, ?_, run_defFactor builtin lgraph c hc⟩
    rw [hop]
    unfold InsertedPermute.toOperation
    rw [h1]


/-- Scenario D: the pass inserts exactly one conversion of `Y`, the operation
`3` from `Y(1)` to the new operand `4`, and both consumers read operand `4`. -/
theorem scenarioD_shared_permute :
    (PermutationInsertionPass.run 2 scenarioDLowered).graph.operations =
      [(0, { opcode := 0, getInputs := [some 0], getOutputs := [some 1] }),
       (1, { opcode := 1, getInputs := [some 4], getOutputs := [some 2] }),
       (2, { opcode := 1, getInputs := [some 4], getOutputs := [some 3] }),
       (3, { opcode := 65535, getInputs := [some 1], getOutputs := [some 4] })] ∧
    defFactor (PermutationInsertionPass.run 2 scenarioDLowered) 4 =
      some { backend := 1, layout := .NHWC } := by
  constructor <;> rfl

/-- Witness of `permutationInsertion_no_silent_crossing`: operand `Y` of
scenario D. -/
theorem permutationInsertion_no_silent_crossing_witness :
    (IndexMap.keys scenarioDLowered.graph.operands).Nodup ∧
    (IndexMap.keys scenarioDLowered.graph.operations).Nodup ∧
    1 ∈ IndexMap.keys scenarioDLowered.graph.operands ∧
    defFactor scenarioDLowered 1 = some { backend := 0, layout := .NHWC } ∧
    useFactors scenarioDLowered 1 = [{ backend := 1, layout := .NHWC }] ∧
    ((∀ factor ∈ useFactors scenarioDLowered 1,
      factor ≠ ({ backend := 0, layout := .NHWC } : PermuteFactor) →
      ∃ permute_index output,
        permute_index ∉ IndexMap.keys scenarioDLowered.graph.operations ∧
        output ∉ IndexMap.keys scenarioDLowered.graph.operands ∧
        IndexMap.find (PermutationInsertionPass.run 2 scenarioDLowered).graph.operations
            permute_index =
          some { opcode := 65535, getInputs := [some 1], getOutputs := [some output] } ∧
        defFactor (PermutationInsertionPass.run 2 scenarioDLowered) output = some factor ∧
        (∀ p op y, p ∉ IndexMap.keys scenarioDLowered.graph.operations →
          IndexMap.find (PermutationInsertionPass.run 2 scenarioDLowered).graph.operations p =
            some op →
          some 1 ∈ op.getInputs → op.getOutputs = [some y] →
          defFactor (PermutationInsertionPass.run 2 scenarioDLowered) y = some factor →
          p = permute_index) ∧
        ∀ u ∈ scenarioDLowered.graph.operations, some 1 ∈ u.2.getInputs →
          requestedFactor scenarioDLowered u.1 = some factor →
          ∃ u', IndexMap.find (PermutationInsertionPass.run 2 scenarioDLowered).graph.operations
              u.1 = some u' ∧
            some output ∈ u'.getInputs ∧ some 1 ∉ u'.getInputs) ∧
    (∀ u ∈ scenarioDLowered.graph.operations, some 1 ∈ u.2.getInputs →
      requestedFactor scenarioDLowered u.1 = some { backend := 0, layout := .NHWC } →
      ∃ u', IndexMap.find (PermutationInsertionPass.run 2 scenarioDLowered).graph.operations
          u.1 = some u' ∧
        u'.getInputs.length = u.2.getInputs.length ∧
        ∀ i : Nat, u.2.getInputs[i]? = some (some 1) → u'.getInputs[i]? = some (some 1)) ∧
    (∀ p op, p ∉ IndexMap.keys scenarioDLowered.graph.operations →
      IndexMap.find (PermutationInsertionPass.run 2 scenarioDLowered).graph.operations p =
        some op →
      some 1 ∈ op.getInputs →
      ∃ factor ∈ useFactors scenarioDLowered 1,
        factor ≠ ({ backend := 0, layout := .NHWC } : PermuteFactor) ∧
        ∃ y, op = { opcode := 65535, getInputs := [some 1], getOutputs := [some y] } ∧
          defFactor (PermutationInsertionPass.run 2 scenarioDLowered) y = some factor)) :=
  ⟨by decide, by decide, by decide, rfl, rfl,
    permutationInsertion_no_silent_crossing 2 scenarioDLowered (by decide) (by decide) 1
      { backend := 0, layout := .NHWC } (by decide) rfl⟩

/-! ## Registries without null entries -/

theorem nonNull_empty : NonNull PortableTensorRegistryTemplate.empty := by
  intro ind
  simp [PortableTensorRegistryTemplate.empty, IndexMap.find]

theorem nonNull_setMigrantTensor (r : PortableTensorRegistryTemplate) (ind : OperandIndex)
    (tensor : ITensor) (h : NonNull r) : NonNull (r.setMigrantTensor ind (some tensor)).2 := by
  unfold PortableTensorRegistryTemplate.setMigrantTensor
  cases hn : IndexMap.find r._native ind with
  | some t => exact h
  | none =>
    intro i
    refine ⟨(h i).1, ?_⟩
    show IndexMap.find (IndexMap.set r._migrant ind (some tensor)) i ≠ some none
    rw [IndexMap.find_set]
    by_cases hi : ind = i
    · rw [if_pos hi]
      intro hc
      cases hc
    · rw [if_neg hi]
      exact (h i).2

theorem nonNull_setNativeTensor (r : PortableTensorRegistryTemplate) (ind : OperandIndex)
    (tensor : ITensor) (h : NonNull r) : NonNull (r.setNativeTensor ind (some tensor)).2 := by
  unfold PortableTensorRegistryTemplate.setNativeTensor
  cases hn : IndexMap.find r._migrant ind with
  | some t => exact h
  | none =>
    intro i
    refine ⟨?_, (h i).2⟩
    show IndexMap.find (IndexMap.set r._native ind (some tensor)) i ≠ some none
    rw [IndexMap.find_set]
    by_cases hi : ind = i
    · rw [if_pos hi]
      intro hc
      cases hc
    · rw [if_neg hi]
      exact (h i).1

theorem nonNull_runRegistryCalls (calls : List RegistryCall)
    (r : PortableTensorRegistryTemplate) (h : NonNull r) (hcalls : ∀ c ∈ calls, c.NonNull) :
    NonNull (runRegistryCalls r calls) := by
  induction calls generalizing r with
  | nil => simpa [runRegistryCalls] using h
  | cons c cs ih =>
    have hc : c.NonNull := hcalls c (List.mem_cons_self _ _)
    have hstep : NonNull (RegistryCall.apply r c) := by
      cases c with
      | setNativeTensor ind tensor =>
        cases tensor with
        | none => simp [RegistryCall.NonNull] at hc
        | some t => exact nonNull_setNativeTensor r ind t h
      | setMigrantTensor ind tensor =>
        cases tensor with
        | none => simp [RegistryCall.NonNull] at hc
        | some t => exact nonNull_setMigrantTensor r ind t h
    simpa [runRegistryCalls] using
      ih _ hstep (fun c' hc' => hcalls c' (List.mem_cons_of_mem _ hc'))

theorem getPortableTensor_of_nonNull (r : PortableTensorRegistryTemplate) (h : NonNull r)
    (ind : OperandIndex) : r.getPortableTensor ind = r.getITensor ind := by
  unfold PortableTensorRegistryTemplate.getPortableTensor
    PortableTensorRegistryTemplate.getITensor
  cases hm : IndexMap.find r._migrant ind with
  | none => rfl
  | some t =>
    cases t with
    | none => exact absurd hm (h ind).2
    | some t => rfl

/-- In a registry with no null entry a lookup that returns no tensor finds no
entry in either map. -/
theorem find_none_of_getITensor_none (r : PortableTensorRegistryTemplate) (h : NonNull r)
    (ind : OperandIndex) (hg : r.getITensor ind = none) :
    IndexMap.find r._native ind = none ∧ IndexMap.find r._migrant ind = none := by
  unfold PortableTensorRegistryTemplate.getITensor
    PortableTensorRegistryTemplate.getNativeTensor at hg
  cases hm : IndexMap.find r._migrant ind with
  | some t =>
    rw [hm] at hg
    dsimp only at hg
    rw [hg] at hm
    exact absurd hm (h ind).2
  | none =>
    rw [hm] at hg
    dsimp only at hg
    cases hn : IndexMap.find r._native ind with
    | none => exact ⟨rfl, rfl⟩
    | some t =>
      rw [hn] at hg
      dsimp only at hg
      rw [hg] at hn
      exact absurd hn (h ind).1

/-- C29. `getPortableTensor` agrees with `getITensor`: in every registry
reached from the empty registry by `setNativeTensor` and `setMigrantTensor`
calls whose tensor argument is not null, raising calls included, the two
lookups return the same tensor, or both return null, for every operand
index. -/
theorem registry_portable_agrees_with_itensor (calls : List RegistryCall)
    (hcalls : ∀ c ∈ calls, c.NonNull) (ind : OperandIndex) :
    (runRegistryCalls PortableTensorRegistryTemplate.empty calls).getPortableTensor ind =
      (runRegistryCalls PortableTensorRegistryTemplate.empty calls).getITensor ind :=
  getPortableTensor_of_nonNull _
    (nonNull_runRegistryCalls calls _ nonNull_empty hcalls) ind

theorem registry_portable_agrees_with_itensor_witness :
    (∀ c ∈ [RegistryCall.setNativeTensor 0 (some ⟨10, true⟩),
        RegistryCall.setMigrantTensor 1 (some ⟨11, true⟩),
        RegistryCall.setMigrantTensor 0 (some ⟨12, true⟩)], c.NonNull) ∧
    (runRegistryCalls PortableTensorRegistryTemplate.empty
        [RegistryCall.setNativeTensor 0 (some ⟨10, true⟩),
          RegistryCall.setMigrantTensor 1 (some ⟨11, true⟩),
          RegistryCall.setMigrantTensor 0 (some ⟨12, true⟩)]).getPortableTensor 1 =
      (runRegistryCalls PortableTensorRegistryTemplate.empty
        [RegistryCall.setNativeTensor 0 (some ⟨10, true⟩),
          RegistryCall.setMigrantTensor 1 (some ⟨11, true⟩),
          RegistryCall.setMigrantTensor 0 (some ⟨12, true⟩)]).getITensor 1 :=
  ⟨by decide, registry_portable_agrees_with_itensor _ (by decide) 1⟩

/-! ## The registration branch of `planTensors` after `genTensors` -/

theorem prepareOperand_builder (ctx : BackendContext) (st : PlanState)
    (e : OperandIndex × Operand)
    (h : e.1 ∉ model_io ctx.graph → e.1 ∉ ctx.external_operands →
      e.1 ∈ st.tensor_builder.registered) :
    (prepareOperand ctx st e).tensor_builder = st.tensor_builder := by
  unfold prepareOperand
  by_cases h1 : e.1 ∈ model_io ctx.graph
  · rw [if_pos h1]
  · rw [if_neg h1]
    by_cases h2 : e.1 ∈ ctx.external_operands
    · rw [if_pos h2]
    · rw [if_neg h2]
      have h3 : st.tensor_builder.isRegistered e.1 = true := by
        simpa [TensorBuilder.isRegistered] using h h1 h2
      show (if st.tensor_builder.isRegistered e.1 = true then st.tensor_builder
        else st.tensor_builder.registerTensorInfo e.1) = st.tensor_builder
      rw [if_pos h3]

theorem foldl_prepareOperand_builder (ctx : BackendContext)
    (es : List (OperandIndex × Operand)) (st : PlanState)
    (h : ∀ e ∈ es, e.1 ∉ model_io ctx.graph → e.1 ∉ ctx.external_operands →
      e.1 ∈ st.tensor_builder.registered) :
    (es.foldl (prepareOperand ctx) st).tensor_builder = st.tensor_builder := by
  induction es generalizing st with
  | nil => rfl
  | cons e t ih =>
    have hstep := prepareOperand_builder ctx st e (h e (List.mem_cons_self _ _))
    rw [List.foldl_cons, ih, hstep]
    intro e' he' h1 h2
    rw [hstep]
    exact h e' (List.mem_cons_of_mem _ he') h1 h2

theorem prepareScanning_registeredContext (ctx : BackendContext) :
    (prepareScanning (registeredContext ctx)).tensor_builder =
      (registeredContext ctx).tensor_builder := by
  unfold prepareScanning
  apply foldl_prepareOperand_builder
  intro e he h1 h2
  refine (registeredContext_registered ctx e.1).2 (Or.inr ⟨?_, h1, h2⟩)
  exact List.mem_map_of_mem Prod.fst he

theorem scanOperation_no_register (ctx : BackendContext) (st : PlanState)
    (op_ind : OperationIndex) :
    ∃ extra, (scanOperation ctx st op_ind).2.tensor_builder.calls =
        st.tensor_builder.calls ++ extra ∧ ∀ c ∈ extra, c.isRegister = false := by
  cases hf : IndexMap.find ctx.graph.operations op_ind with
  | none =>
    rw [scanOperation_of_find_none ctx st op_ind hf]
    exact ⟨[], by simp, by simp⟩
  | some op =>
    rw [scanOperation_of_find_some ctx st op_ind hf]
    obtain ⟨e1, he1, hc1⟩ := foldl_defineOutput_calls ctx (ctx.graph.outputsOf op_ind) st
    have hframe := scanVariables_frame ctx (ctx.graph.inputsOf op_ind)
      ((ctx.graph.outputsOf op_ind).foldl (defineOutput ctx) st)
    cases hs : scanVariables ctx ((ctx.graph.outputsOf op_ind).foldl (defineOutput ctx) st)
        (ctx.graph.inputsOf op_ind) with
    | mk outcome st2 =>
      rw [hs] at hframe
      obtain ⟨e2, he2, hc2⟩ := hframe.2.2.2.2
      have h12 : ∀ c ∈ e1 ++ e2, c.isRegister = false := by
        intro c hc
        rcases List.mem_append.1 hc with hc | hc
        · have := hc1 c hc
          cases c <;> simp_all [BuilderCall.isFirstUse, BuilderCall.isRegister]
        · have := hc2 c hc
          cases c <;> simp_all [BuilderCall.isFirstUse, BuilderCall.isRegister]
      have hst2 : st2.tensor_builder.calls = st.tensor_builder.calls ++ (e1 ++ e2) := by
        rw [show st2.tensor_builder.calls = _ from he2, he1, List.append_assoc]
      cases outcome with
      | error msg => exact ⟨e1 ++ e2, hst2, h12⟩
      | ok u =>
        obtain ⟨e3, he3, hc3⟩ := foldl_useInput_calls ctx op_ind (ctx.graph.inputsOf op_ind)
          (nodup_inputsOf _ _) st2
        refine ⟨(e1 ++ e2) ++ e3, ?_, ?_⟩
        · show ((ctx.graph.inputsOf op_ind).foldl (useInput ctx op_ind) st2).tensor_builder.calls
            = _
          rw [he3, hst2, List.append_assoc]
        · intro c hc
          rcases List.mem_append.1 hc with hc | hc
          · exact h12 c hc
          · obtain ⟨ind, -, hcc, -⟩ := hc3 c hc
            rcases hcc with hcc | hcc <;> (rw [hcc]; rfl)

theorem scanOperations_no_register (ctx : BackendContext) (l : List OperationIndex)
    (st : PlanState) :
    ∃ extra, (scanOperations ctx st l).2.tensor_builder.calls =
        st.tensor_builder.calls ++ extra ∧ ∀ c ∈ extra, c.isRegister = false := by
  induction l generalizing st with
  | nil => exact ⟨[], by simp [scanOperations], by simp⟩
  | cons op_ind t ih =>
    obtain ⟨e1, he1, hc1⟩ := scanOperation_no_register ctx st op_ind
    unfold scanOperations
    cases hs : scanOperation ctx st op_ind with
    | mk outcome st' =>
      rw [hs] at he1
      cases outcome with
      | error msg => exact ⟨e1, he1, hc1⟩
      | ok u =>
        obtain ⟨e2, he2, hc2⟩ := ih st'
        refine ⟨e1 ++ e2, ?_, ?_⟩
        · show (scanOperations ctx st' t).2.tensor_builder.calls = _
          rw [he2, show st'.tensor_builder.calls = _ from he1, List.append_assoc]
        · intro c hc
          rcases List.mem_append.1 hc with hc | hc
          · exact hc1 c hc
          · exact hc2 c hc

theorem foldl_disposeConstant_no_register (l : List OperandIndex) (st : PlanState) :
    ∃ extra, (l.foldl disposeConstant st).tensor_builder.calls =
        st.tensor_builder.calls ++ extra ∧ ∀ c ∈ extra, c.isRegister = false := by
  induction l generalizing st with
  | nil => exact ⟨[], by simp, by simp⟩
  | cons ind t ih =>
    obtain ⟨e2, he2, hc2⟩ := ih (disposeConstant st ind)
    rw [List.foldl_cons, he2]
    unfold disposeConstant
    by_cases h : uint32_dec (IndexMap.get st.uses_map ind) = 0
    · rw [if_pos h]
      refine ⟨BuilderCall.notifyLastUse ind :: e2, ?_, ?_⟩
      · simp [TensorBuilder.notifyLastUse]
      · intro c hc
        rcases List.mem_cons.1 hc with hc | hc
        · rw [hc]
          rfl
        · exact hc2 c hc
    · rw [if_neg h]
      exact ⟨e2, rfl, hc2⟩

/-- C30. Dead fallback registration: in the backend context in which
`genTensors` enters `planTensors`, every operand of the graph that is neither
a graph input or output nor external is registered with the tensor builder;
"Prepare scanning" leaves the tensor builder as it found it (the
`registerTensorInfo` branch is not taken); and where `planTensors` ends,
returning or not, the registered operands are those at entry and none of the
calls it issued is a registration. -/
theorem genTensors_fallback_registration_dead (ctx : BackendContext)
    (order : List OperationIndex) :
    (∀ ind, Planned ctx ind →
      (registeredContext ctx).tensor_builder.isRegistered ind = true) ∧
    (prepareScanning (registeredContext ctx)).tensor_builder =
      (registeredContext ctx).tensor_builder ∧
    (planTensors (registeredContext ctx) order).2.tensor_builder.registered =
      (registeredContext ctx).tensor_builder.registered ∧
    ∃ issued, (planTensors (registeredContext ctx) order).2.tensor_builder.calls =
        (registeredContext ctx).tensor_builder.calls ++ issued ∧
      ∀ c ∈ issued, c.isRegister = false := by
  have hprep := prepareScanning_registeredContext ctx
  have hstart := foldl_allocateConstant_frame (prepareScanning (registeredContext ctx)).constants
    (prepareScanning (registeredContext ctx))
  have hsreg : (planTensorsStart (registeredContext ctx)).tensor_builder.registered =
      (registeredContext ctx).tensor_builder.registered := by
    rw [← hprep]
    exact hstart.2.2.1
  have hscalls : (planTensorsStart (registeredContext ctx)).tensor_builder.calls =
      (registeredContext ctx).tensor_builder.calls ++
        (prepareScanning (registeredContext ctx)).constants.map BuilderCall.notifyFirstUse := by
    rw [show (planTensorsStart (registeredContext ctx)).tensor_builder.calls = _ from
      hstart.2.2.2, hprep]
  have hreg := scanOperations_registered (registeredContext ctx) order
    (planTensorsStart (registeredContext ctx))
  obtain ⟨e1, he1, hc1⟩ := scanOperations_no_register (registeredContext ctx) order
    (planTensorsStart (registeredContext ctx))
  have hfirst : ∀ c ∈ (prepareScanning (registeredContext ctx)).constants.map
      BuilderCall.notifyFirstUse, c.isRegister = false := by
    intro c hc
    obtain ⟨k, -, hk⟩ := List.mem_map.1 hc
    rw [← hk]
    rfl
  refine ⟨?_, hprep, ?_, ?_⟩
  · intro ind hp
    have := (registeredContext_registered ctx ind).2 (Or.inr hp)
    simpa [TensorBuilder.isRegistered] using this
  · unfold planTensors
    cases hsc : scanOperations (registeredContext ctx) (planTensorsStart (registeredContext ctx))
        order with
    | mk outcome st =>
      rw [hsc] at hreg
      cases outcome with
      | error msg =>
        show st.tensor_builder.registered = _
        rw [show st.tensor_builder.registered = _ from hreg, hsreg]
      | ok u =>
        show (st.constants.foldl disposeConstant st).tensor_builder.registered = _
        rw [(foldl_disposeConstant_frame _ _).2.2, show st.tensor_builder.registered = _ from hreg,
          hsreg]
  · unfold planTensors
    cases hsc : scanOperations (registeredContext ctx) (planTensorsStart (registeredContext ctx))
        order with
    | mk outcome st =>
      rw [hsc] at he1
      have hst : st.tensor_builder.calls = (registeredContext ctx).tensor_builder.calls ++
          ((prepareScanning (registeredContext ctx)).constants.map BuilderCall.notifyFirstUse
            ++ e1) := by
        rw [show st.tensor_builder.calls = _ from he1, hscalls, List.append_assoc]
      have h01 : ∀ c ∈ (prepareScanning (registeredContext ctx)).constants.map
          BuilderCall.notifyFirstUse ++ e1, c.isRegister = false := by
        intro c hc
        rcases List.mem_append.1 hc with hc | hc
        · exact hfirst c hc
        · exact hc1 c hc
      cases outcome with
      | error msg => exact ⟨_, hst, h01⟩
      | ok u =>
        obtain ⟨e2, he2, hc2⟩ := foldl_disposeConstant_no_register st.constants st
        refine ⟨((prepareScanning (registeredContext ctx)).constants.map
          BuilderCall.notifyFirstUse ++ e1) ++ e2, ?_, ?_⟩
        · show (st.constants.foldl disposeConstant st).tensor_builder.calls = _
          rw [he2, hst, List.append_assoc]
        · intro c hc
          rcases List.mem_append.1 hc with hc | hc
          · exact h01 c hc
          · exact hc2 c hc

/-! ## IO tensors of the graph inputs and outputs -/

theorem findBuiltin_foldl_some (id : Backend → String) (l : List (Backend × ContextData))
    (acc : Option Backend) (h : acc.isSome = true ∨ ∃ e ∈ l, id e.1 = "builtin") :
    (l.foldl (fun builtin_tensor_reg e =>
      if id e.1 = "builtin" then some e.1 else builtin_tensor_reg) acc).isSome = true := by
  induction l generalizing acc with
  | nil =>
    rcases h with h | ⟨e, he, -⟩
    · exact h
    · exact absurd he (List.not_mem_nil _)
  | cons a t ih =>
    rw [List.foldl_cons]
    apply ih
    by_cases ha : id a.1 = "builtin"
    · rw [if_pos ha]
      exact Or.inl rfl
    · rw [if_neg ha]
      rcases h with h | ⟨e, he, hid⟩
      · exact Or.inl h
      · rcases List.mem_cons.1 he with he | he
        · rw [he] at hid
          exact absurd hid ha
        · exact Or.inr ⟨e, he, hid⟩

theorem setNativeIOTensors_ok (lowered_graph : LoweredGraph) (b : Backend)
    (indices : List OperandIndex)
    (h : ∀ ind ∈ indices, ind ∈ IndexMap.keys lowered_graph.graph.operands) :
    ∃ done, setNativeIOTensors lowered_graph (some b) indices = .ok done := by
  induction indices with
  | nil => exact ⟨[], by unfold setNativeIOTensors; rfl⟩
  | cons ind rest ih =>
    obtain ⟨done, hdone⟩ := ih (fun k hk => h k (List.mem_cons_of_mem _ hk))
    obtain ⟨operand, hop⟩ := IndexMap.exists_find_of_mem_keys (h ind (List.mem_cons_self _ _))
    refine ⟨(ind, { info := operand.info, layout := Layout.NHWC }) :: done, ?_⟩
    unfold setNativeIOTensors
    rw [hop]
    dsimp only
    rw [hdone]
    rfl

/-- C25. Graph inputs and outputs always get an IO tensor: when a backend
context of the builtin backend exists and the graph inputs and outputs are
operands of the graph, `initializeSubgraphIOTensors`, called with the inputs
and outputs of the whole graph, returns, and the registry it has written to is
that of a backend with id "builtin" and holds, for every graph input and
output, a native IO tensor built from the info of that operand. Nothing is
asked of the operations: an operand that no operation references is
included. -/
theorem initializeSubgraphIOTensors_covers_io (id : Backend → String)
    (lowered_graph : LoweredGraph) (backend_contexts : IndexMap ContextData)
    (hbuiltin : ∃ e ∈ backend_contexts, id e.1 = "builtin")
    (hio : ∀ ind ∈ model_io lowered_graph.graph,
      ind ∈ IndexMap.keys lowered_graph.graph.operands) :
    ∃ b tensors,
      initializeSubgraphIOTensors id lowered_graph backend_contexts
        (removeUndefined (removeDuplicated
          (lowered_graph.graph.getInputs ++ lowered_graph.graph.getOutputs))) =
        .ok (some b, tensors) ∧
      id b = "builtin" ∧ b ∈ IndexMap.keys backend_contexts ∧
      (∀ ind, ind ∈ IndexMap.keys tensors ↔ ind ∈ model_io lowered_graph.graph) ∧
      ∀ ind ∈ model_io lowered_graph.graph, ∃ operand,
        IndexMap.find lowered_graph.graph.operands ind = some operand ∧
        IndexMap.find tensors ind = some { info := operand.info, layout := Layout.NHWC } := by
  have hsome : (findBuiltin id backend_contexts).isSome = true :=
    findBuiltin_foldl_some id backend_contexts none (Or.inr hbuiltin)
  cases hb : findBuiltin id backend_contexts with
  | none =>
    rw [hb] at hsome
    exact Bool.noConfusion hsome
  | some b =>
    obtain ⟨hid, hkeys⟩ := findBuiltin_spec id backend_contexts b hb
    obtain ⟨done, hdone⟩ := setNativeIOTensors_ok lowered_graph b
      (removeUndefined (removeDuplicated
        (lowered_graph.graph.getInputs ++ lowered_graph.graph.getOutputs)))
      (fun ind hind => hio ind ((mem_subgraph_indices _ ind).1 hind))
    obtain ⟨h1, -, h3⟩ := setNativeIOTensors_spec _ _ _ _ hdone
    refine ⟨b, done, ?_, hid, hkeys, ?_, ?_⟩
    · unfold initializeSubgraphIOTensors
      rw [hb, hdone]
    · intro ind
      rw [h1]
      exact mem_subgraph_indices _ ind
    · intro ind hind
      exact h3 ind ((mem_subgraph_indices _ ind).2 hind)

theorem initializeSubgraphIOTensors_covers_io_witness :
    (∃ e ∈ unusedConstOutputContexts, scenarioBEnv.id e.1 = "builtin") ∧
    (∀ ind ∈ model_io unusedConstOutputLowered.graph,
      ind ∈ IndexMap.keys unusedConstOutputLowered.graph.operands) ∧
    ∃ b tensors,
      initializeSubgraphIOTensors scenarioBEnv.id unusedConstOutputLowered
        unusedConstOutputContexts
        (removeUndefined (removeDuplicated
          (unusedConstOutputLowered.graph.getInputs ++
            unusedConstOutputLowered.graph.getOutputs))) =
        .ok (some b, tensors) ∧
      scenarioBEnv.id b = "builtin" ∧ b ∈ IndexMap.keys unusedConstOutputContexts ∧
      (∀ ind, ind ∈ IndexMap.keys tensors ↔ ind ∈ model_io unusedConstOutputLowered.graph) ∧
      ∀ ind ∈ model_io unusedConstOutputLowered.graph, ∃ operand,
        IndexMap.find unusedConstOutputLowered.graph.operands ind = some operand ∧
        IndexMap.find tensors ind = some { info := operand.info, layout := Layout.NHWC } :=
  ⟨by decide, by decide,
    initializeSubgraphIOTensors_covers_io scenarioBEnv.id unusedConstOutputLowered
      unusedConstOutputContexts (by decide) (by decide)⟩

/-- The test `UnusedConstOutputOnly`, evaluated: the graph has no operations,
its only operand is a constant that is the graph output, and the registry of
the builtin backend gets the IO tensor of that operand. -/
theorem unusedConstOutputOnly_io_tensor :
    unusedConstOutputLowered.graph.operations = [] ∧
    initializeSubgraphIOTensors scenarioBEnv.id unusedConstOutputLowered
        unusedConstOutputContexts
        (removeUndefined (removeDuplicated
          (unusedConstOutputLowered.graph.getInputs ++
            unusedConstOutputLowered.graph.getOutputs))) =
      .ok (some 2,
        [(0, { info := { shape := [1, 2, 2, 1], typeInfo := 0, isConstant := true,
                         isVariable := false },
               layout := Layout.NHWC })]) :=
  ⟨rfl, rfl⟩

/-! ## Local orders -/

theorem find_filter_key {α : Type} (m : IndexMap α) (q : Nat → Bool) (k : Nat) :
    IndexMap.find (m.filter fun e => q e.1) k = if q k = true then IndexMap.find m k else none := by
  induction m with
  | nil => simp [IndexMap.find]
  | cons e t ih =>
    obtain ⟨a, v⟩ := e
    by_cases hq : q a = true
    · have hf : List.filter (fun e : Nat × α => q e.1) ((a, v) :: t) =
          (a, v) :: List.filter (fun e : Nat × α => q e.1) t := List.filter_cons_of_pos hq
      rw [hf]
      simp only [IndexMap.find]
      by_cases hak : a = k
      · rw [if_pos hak, if_pos hak]
        rw [hak] at hq
        rw [if_pos hq]
      · rw [if_neg hak, if_neg hak]
        exact ih
    · have hf : List.filter (fun e : Nat × α => q e.1) ((a, v) :: t) =
          List.filter (fun e : Nat × α => q e.1) t := List.filter_cons_of_neg hq
      rw [hf, ih]
      simp only [IndexMap.find]
      by_cases hak : a = k
      · rw [hak] at hq
        rw [if_neg hq, if_neg hq]
      · rw [if_neg hak]

theorem takeWhile_filter_ne (l : List OperationIndex) (q : OperationIndex → Bool)
    (c : OperationIndex) (hc : q c = true) :
    (l.filter q).takeWhile (fun op_ind => decide (op_ind ≠ c)) =
      (l.takeWhile fun op_ind => decide (op_ind ≠ c)).filter q := by
  induction l with
  | nil => rfl
  | cons x t ih =>
    by_cases hx : x = c
    · subst hx
      rw [List.filter_cons_of_pos hc]
      simp [List.takeWhile]
    · have hne : decide (x ≠ c) = true := by simpa using hx
      by_cases hq : q x = true
      · rw [List.filter_cons_of_pos hq]
        simp only [List.takeWhile_cons, hne, if_true]
        rw [List.filter_cons_of_pos hq, ih]
      · rw [List.filter_cons_of_neg hq]
        simp only [List.takeWhile_cons, hne, if_true]
        rw [List.filter_cons_of_neg hq, ih]

theorem listedBefore_filter (order : List OperationIndex) (q : OperationIndex → Bool)
    (p c : OperationIndex) (hp : q p = true) (hc : q c = true)
    (h : ListedBefore order p c) : ListedBefore (order.filter q) p c := by
  refine ⟨List.mem_filter.2 ⟨h.1, hc⟩, ?_⟩
  rw [takeWhile_filter_ne order q c hc]
  exact List.mem_filter.2 ⟨h.2, hp⟩

/-- C28. Local orders stay topological: if the order of the whole graph is a
topological order, the `op_order` of every partition that
`createBackendContexts` returns is a topological order of the graph of that
partition: whenever an operation of the partition produces an operand that an
operation of the partition consumes, the producer is listed in `op_order`
before the consumer. -/
theorem createBackendContexts_local_order_topological (backends : List Backend)
    (lgraph : LoweredGraph) (whole_op_order : List OperationIndex) (linear_executor : Bool)
    (contexts : IndexMap ContextData)
    (h : createBackendContexts backends lgraph whole_op_order linear_executor = .ok contexts)
    (htopo : TopologicalOrder lgraph.graph whole_op_order) :
    ∀ b data, (b, data) ∈ contexts → TopologicalOrder data.graph data.op_order := by
  obtain ⟨m, inv, rfl⟩ := createBackendContexts_spec _ _ _ _ _ h
  intro b data hmem
  obtain ⟨d, hd, rfl⟩ := mem_contexts _ _ m inv.keys_nodup b data hmem
  obtain ⟨dinv, hops, _⟩ := inv.data b d hd
  have horder : (finishContextData whole_op_order linear_executor d).op_order =
      whole_op_order.filter (fun ind =>
        IndexMap.contains (finishContextData whole_op_order linear_executor d).graph.operations
          ind) := by
    show d.op_order ++ _ = _
    rw [dinv.op_order]
    rfl
  have hgops : (finishContextData whole_op_order linear_executor d).graph.operations =
      lgraph.graph.operations.filter
        (fun e => (fun k => decide (assignedBackend lgraph k = some b)) e.1) := hops
  have hfind : ∀ k, k ∈ IndexMap.keys
        (finishContextData whole_op_order linear_executor d).graph.operations →
      IndexMap.find (finishContextData whole_op_order linear_executor d).graph.operations k =
        IndexMap.find lgraph.graph.operations k ∧ k ∈ IndexMap.keys lgraph.graph.operations := by
    intro k hk
    rw [hgops] at hk ⊢
    obtain ⟨e, he, hek⟩ := List.mem_map.1 hk
    obtain ⟨he1, he2⟩ := List.mem_filter.1 he
    rw [hek] at he2
    exact ⟨(find_filter_key lgraph.graph.operations
        (fun k => decide (assignedBackend lgraph k = some b)) k).trans (if_pos he2),
      by rw [← hek]; exact List.mem_map_of_mem Prod.fst he1⟩
  intro p hp c hc ind hout hin
  have hout' : ind ∈ lgraph.graph.outputsOf p := by
    unfold Graph.outputsOf at hout ⊢
    rw [(hfind p hp).1] at hout
    exact hout
  have hin' : ind ∈ lgraph.graph.inputsOf c := by
    unfold Graph.inputsOf at hin ⊢
    rw [(hfind c hc).1] at hin
    exact hin
  rw [horder]
  exact listedBefore_filter whole_op_order _ p c
    ((IndexMap.contains_iff_mem_keys _ _).2 hp) ((IndexMap.contains_iff_mem_keys _ _).2 hc)
    (htopo p (hfind p hp).2 c (hfind c hc).2 ind hout' hin')

theorem chainContexts_eq :
    createBackendContexts [0, 1, 2] chainLowered [0, 1] true = .ok chainContexts := by
  rfl

/-- Witness of `createBackendContexts_local_order_topological`: the partition
of backend `0` of `chainLowered`, which holds both operations of the
scenario-B graph. -/
theorem createBackendContexts_local_order_topological_witness :
    TopologicalOrder chainLowered.graph [0, 1] ∧
    IndexMap.keys chainPartition0.graph.operations = [0, 1] ∧
    TopologicalOrder chainPartition0.graph chainPartition0.op_order :=
  ⟨by decide, by decide,
    createBackendContexts_local_order_topological [0, 1, 2] chainLowered [0, 1] true
      chainContexts chainContexts_eq (by decide) 0 chainPartition0 (by decide)⟩

/-! ## One operand through the loop over the order -/

theorem count_lastUseCalls (op_ind : OperationIndex) (l : List OperandIndex)
    (ind : OperandIndex) :
    (lastUseCalls op_ind l).count (.notifyLastUse ind) = l.count ind := by
  induction l with
  | nil => rfl
  | cons k t ih =>
    unfold lastUseCalls
    rw [List.count_cons, List.count_cons, ih, List.count_cons]
    by_cases hk : k = ind
    · subst hk
      simp
    · have h1 : (BuilderCall.notifyLastUse k == BuilderCall.notifyLastUse ind) = false := by
        simpa using hk
      have h2 : (BuilderCall.planDealloc op_ind k == BuilderCall.notifyLastUse ind) = false := by
        simp
      have h3 : (k == ind) = false := by simpa using hk
      simp [h1, h2, h3]

theorem count_lastUse_inputCalls (ctx : BackendContext) (st : PlanState)
    (op_ind : OperationIndex) (ind : OperandIndex) :
    (inputCalls ctx st op_ind).count (.notifyLastUse ind) =
      if ind ∈ ctx.graph.inputsOf op_ind ∧
          (Gate ctx.graph st.tensor_builder.registered ind ∧
            uint32_dec (IndexMap.get st.uses_map ind) = 0)
      then 1 else 0 := by
  unfold inputCalls
  rw [count_lastUseCalls, count_filter_of_nodup _ (nodup_inputsOf _ _)]
  simp only [decide_eq_true_eq]

theorem count_lastUse_outputCalls (ctx : BackendContext) (st : PlanState)
    (op_ind : OperationIndex) (ind : OperandIndex) :
    (outputCalls ctx st op_ind).count (.notifyLastUse ind) = 0 := by
  rw [List.count_eq_zero]
  intro h
  obtain ⟨k, _, hk⟩ := List.mem_map.1 h
  exact BuilderCall.noConfusion hk

theorem count_lastUse_variableCalls (ctx : BackendContext) (st : PlanState)
    (op_ind : OperationIndex) (ind : OperandIndex) :
    (variableCalls ctx st op_ind).count (.notifyLastUse ind) = 0 := by
  rw [List.count_eq_zero]
  intro h
  obtain ⟨k, _, hk⟩ := List.mem_map.1 h
  exact BuilderCall.noConfusion hk

theorem scanOperations_returns (ctx : BackendContext) (hin : ctx.graph.InputsExist)
    (l : List OperationIndex) (st : PlanState) :
    ∃ st', scanOperations ctx st l = (.ok (), st') := by
  induction l generalizing st with
  | nil => exact ⟨st, rfl⟩
  | cons op t ih =>
    obtain ⟨st1, hs1⟩ := scanOperation_ok_of_inputsExist ctx hin st op
    obtain ⟨st', hs'⟩ := ih st1
    refine ⟨st', ?_⟩
    simp only [scanOperations, hs1]
    exact hs'

theorem scanOperations_cons_ok (ctx : BackendContext) (st st' : PlanState)
    (op : OperationIndex) (t : List OperationIndex)
    (h : scanOperations ctx st (op :: t) = (.ok (), st')) :
    ∃ st1, scanOperation ctx st op = (.ok (), st1) ∧
      scanOperations ctx st1 t = (.ok (), st') := by
  unfold scanOperations at h
  cases hs1 : scanOperation ctx st op with
  | mk outcome st1 =>
    rw [hs1] at h
    cases outcome with
    | error msg =>
      dsimp only at h
      exact Except.noConfusion (Prod.mk.inj h).1
    | ok u =>
      dsimp only at h
      exact ⟨st1, rfl, h⟩

theorem scanOperations_append_ok (ctx : BackendContext) (l1 l2 : List OperationIndex)
    (st st' : PlanState) (h : scanOperations ctx st (l1 ++ l2) = (.ok (), st')) :
    ∃ st1, scanOperations ctx st l1 = (.ok (), st1) ∧
      scanOperations ctx st1 l2 = (.ok (), st') := by
  rw [scanOperations_append] at h
  cases hs1 : scanOperations ctx st l1 with
  | mk outcome st1 =>
    rw [hs1] at h
    cases outcome with
    | error msg =>
      dsimp only at h
      exact Except.noConfusion (Prod.mk.inj h).1
    | ok u =>
      dsimp only at h
      exact ⟨st1, rfl, h⟩

/-- The calls issued by a scan that returns, and what it leaves alone. -/
theorem scanOperations_frame_ok (ctx : BackendContext) (l : List OperationIndex)
    (st st' : PlanState) (h : scanOperations ctx st l = (.ok (), st')) :
    (∃ extra, st'.tensor_builder.calls = st.tensor_builder.calls ++ extra) ∧
    st'.constants = st.constants ∧
    st'.tensor_builder.registered = st.tensor_builder.registered := by
  induction l generalizing st with
  | nil =>
    cases h
    exact ⟨⟨[], by simp⟩, rfl, rfl⟩
  | cons op t ih =>
    obtain ⟨st1, hs1, hst⟩ := scanOperations_cons_ok ctx st st' op t h
    obtain ⟨hc1, hr1, hk1, -, -⟩ := scanOperation_calls ctx st op st1 hs1
    obtain ⟨⟨extra, he⟩, hk, hr⟩ := ih st1 hst
    exact ⟨⟨_, by rw [he, hc1, List.append_assoc]⟩, by rw [hk, hk1], by rw [hr, hr1]⟩

/-- The remaining-use count of an operand that passes the guard, through the
scan of `rest`: it starts as the number of readers in `rest` plus `c`, ends
as `c`, and a last-use notification is issued, once, exactly when `c` is zero
and `rest` has a reader. -/
theorem scanOperations_uses (ctx : BackendContext) (ind : OperandIndex)
    (rest : List OperationIndex) (st st' : PlanState) (extra : List BuilderCall) (c : Nat)
    (hs : scanOperations ctx st rest = (.ok (), st'))
    (hc : st'.tensor_builder.calls = st.tensor_builder.calls ++ extra)
    (hgate : Gate ctx.graph st.tensor_builder.registered ind)
    (hu : IndexMap.find st.uses_map ind =
      some ((remainingUses ctx.graph ind rest + c) % 4294967296))
    (hb : remainingUses ctx.graph ind rest + c ≤ 4294967296) :
    IndexMap.find st'.uses_map ind = some (c % 4294967296) ∧
    extra.count (.notifyLastUse ind) =
      if c = 0 ∧ 0 < remainingUses ctx.graph ind rest then 1 else 0 := by
  induction rest generalizing st extra with
  | nil =>
    cases hs
    have he : extra = [] := by
      have := hc
      simpa using this
    subst he
    rw [remainingUses_nil, Nat.zero_add] at hu
    exact ⟨hu, by simp [remainingUses_nil]⟩
  | cons op t ih =>
    obtain ⟨st1, hs1, hst⟩ := scanOperations_cons_ok ctx st st' op t hs
    obtain ⟨hc1, hr1, -, -, hu1⟩ := scanOperation_calls ctx st op st1 hs1
    obtain ⟨⟨extra_t, het⟩, -, -⟩ := scanOperations_frame_ok ctx t st1 st' hst
    have hextra : extra = outputCalls ctx st op ++ (variableCalls ctx st op ++
        inputCalls ctx st op) ++ extra_t := by
      have h1 : st.tensor_builder.calls ++ extra = st.tensor_builder.calls ++
          (outputCalls ctx st op ++ (variableCalls ctx st op ++ inputCalls ctx st op) ++
            extra_t) := by
        rw [← hc, het, hc1, List.append_assoc]
      exact List.append_cancel_left h1
    have hgate1 : Gate ctx.graph st1.tensor_builder.registered ind := by
      rw [hr1]
      exact hgate
    rw [remainingUses_cons] at hu hb
    by_cases hop : ind ∈ ctx.graph.inputsOf op
    · rw [if_pos hop] at hu hb
      have hget : IndexMap.get st.uses_map ind =
          (remainingUses ctx.graph ind t + 1 + c) % 4294967296 := IndexMap.get_eq_of_find hu
      have hdec : uint32_dec (IndexMap.get st.uses_map ind) =
          (remainingUses ctx.graph ind t + c) % 4294967296 := by
        rw [hget, uint32_dec_succ]
      have hlt : (remainingUses ctx.graph ind t + c) % 4294967296 =
          remainingUses ctx.graph ind t + c := Nat.mod_eq_of_lt (by omega)
      have hu_t : IndexMap.find st1.uses_map ind =
          some ((remainingUses ctx.graph ind t + c) % 4294967296) := by
        rw [hu1 ind, if_pos ⟨hop, hgate⟩, hdec]
      obtain ⟨hfin, hcount⟩ := ih st1 extra_t hst het hgate1 hu_t (by omega)
      refine ⟨hfin, ?_⟩
      rw [hextra, List.count_append, List.count_append, List.count_append, hcount,
        count_lastUse_outputCalls, count_lastUse_variableCalls, count_lastUse_inputCalls,
        hdec, hlt, remainingUses_cons, if_pos hop]
      by_cases hc0 : c = 0
      · by_cases hr0 : remainingUses ctx.graph ind t = 0
        · simp [hc0, hr0, hop, hgate]
        · have : 0 < remainingUses ctx.graph ind t := Nat.pos_of_ne_zero hr0
          simp [hc0, hr0, this]
      · simp [hc0]
    · rw [if_neg hop, Nat.add_zero] at hu hb
      have hu_t : IndexMap.find st1.uses_map ind =
          some ((remainingUses ctx.graph ind t + c) % 4294967296) := by
        rw [hu1 ind, if_neg (fun h => hop h.1), hu]
      obtain ⟨hfin, hcount⟩ := ih st1 extra_t hst het hgate1 hu_t hb
      refine ⟨hfin, ?_⟩
      rw [hextra, List.count_append, List.count_append, List.count_append, hcount,
        count_lastUse_outputCalls, count_lastUse_variableCalls, count_lastUse_inputCalls,
        remainingUses_cons, if_neg hop, if_neg (fun h => hop h.1)]
      simp

/-- The pending def of an operand that passes the guard, through the scan of
operations that do not write it: it is left alone, and the first-use
notifications issued for the operand are those of the "Scan variable
tensors" loop, one for each reader when it is a variable. -/
theorem scanOperations_defs (ctx : BackendContext) (ind : OperandIndex)
    (rest : List OperationIndex) (st st' : PlanState) (extra : List BuilderCall)
    (hs : scanOperations ctx st rest = (.ok (), st'))
    (hc : st'.tensor_builder.calls = st.tensor_builder.calls ++ extra)
    (hgate : Gate ctx.graph st.tensor_builder.registered ind)
    (hno : ∀ op ∈ rest, ind ∉ ctx.graph.outputsOf op) :
    IndexMap.find st'.def_map ind = IndexMap.find st.def_map ind ∧
    extra.count (.notifyFirstUse ind) =
      if variableOperand ctx.graph ind = true then remainingUses ctx.graph ind rest else 0 := by
  induction rest generalizing st extra with
  | nil =>
    cases hs
    have he : extra = [] := by
      have := hc
      simpa using this
    subst he
    exact ⟨rfl, by simp [remainingUses_nil]⟩
  | cons op t ih =>
    obtain ⟨st1, hs1, hst⟩ := scanOperations_cons_ok ctx st st' op t hs
    obtain ⟨hc1, hr1, -, hd1, -⟩ := scanOperation_calls ctx st op st1 hs1
    obtain ⟨⟨extra_t, het⟩, -, -⟩ := scanOperations_frame_ok ctx t st1 st' hst
    have hextra : extra = outputCalls ctx st op ++ (variableCalls ctx st op ++
        inputCalls ctx st op) ++ extra_t := by
      have h1 : st.tensor_builder.calls ++ extra = st.tensor_builder.calls ++
          (outputCalls ctx st op ++ (variableCalls ctx st op ++ inputCalls ctx st op) ++
            extra_t) := by
        rw [← hc, het, hc1, List.append_assoc]
      exact List.append_cancel_left h1
    have hgate1 : Gate ctx.graph st1.tensor_builder.registered ind := by
      rw [hr1]
      exact hgate
    have hnop : ind ∉ ctx.graph.outputsOf op := hno op (List.mem_cons_self _ _)
    obtain ⟨hfin, hcount⟩ := ih st1 extra_t hst het hgate1
      (fun op' h => hno op' (List.mem_cons_of_mem _ h))
    refine ⟨by rw [hfin, hd1 ind, if_neg (fun h => hnop h.1)], ?_⟩
    rw [hextra, List.count_append, List.count_append, List.count_append, hcount,
      count_outputCalls, count_variableCalls, count_inputCalls, remainingUses_cons,
      if_neg (fun h => hnop h.1)]
    by_cases hv : variableOperand ctx.graph ind = true
    · by_cases hop : ind ∈ ctx.graph.inputsOf op
      · simp [hv, hop, hgate]
        omega
      · simp [hv, hop]
    · simp [hv]

/-! ## The call log of `planTensors`, split at one operation -/

theorem remainingUses_append (graph : Graph) (ind : OperandIndex)
    (l1 l2 : List OperationIndex) :
    remainingUses graph ind (l1 ++ l2) = remainingUses graph ind l1 + remainingUses graph ind l2 := by
  unfold remainingUses
  exact List.countP_append _ _ _

theorem remainingUses_eq_zero_iff (graph : Graph) (ind : OperandIndex)
    (l : List OperationIndex) :
    remainingUses graph ind l = 0 ↔ ∀ op ∈ l, ind ∉ graph.inputsOf op := by
  unfold remainingUses
  rw [List.countP_eq_zero]
  simp only [decide_eq_true_eq]

/-- The calls issued before the scan starts: registrations, then the first
uses of the constants. -/
theorem planTensorsStart_calls (ctx : BackendContext) :
    ∃ prepare, (planTensorsStart ctx).tensor_builder.calls =
        ctx.tensor_builder.calls ++
          (prepare ++ (prepareScanning ctx).constants.map BuilderCall.notifyFirstUse) ∧
      ∀ c ∈ prepare, c.isRegister = true := by
  obtain ⟨prepare, hprep, hprep'⟩ := foldl_prepareOperand_calls ctx ctx.graph.operands
    { uses_map := [], def_map := [], constants := [], tensor_builder := ctx.tensor_builder }
  have hpc : (prepareScanning ctx).tensor_builder.calls =
      ctx.tensor_builder.calls ++ prepare := hprep
  refine ⟨prepare, ?_, hprep'⟩
  unfold planTensorsStart
  rw [(foldl_allocateConstant_frame _ _).2.2.2, hpc, List.append_assoc]

/-- The entries of a planned operand when the scan starts. -/
theorem planTensorsStart_entries (ctx : BackendContext) (order : List OperationIndex)
    (hwf : ctx.graph.WellFormed) (horder : ListsEachOperationOnce ctx.graph order)
    (ind : OperandIndex) (obj : Operand) (hp : Planned ctx ind)
    (hfind : IndexMap.find ctx.graph.operands ind = some obj) :
    Gate ctx.graph (planTensorsStart ctx).tensor_builder.registered ind ∧
    (ind ∈ (prepareScanning ctx).constants ↔ obj.isConstant = true) ∧
    remainingUses ctx.graph ind order = obj.getUses.length ∧
    obj.getUses.length < 4294967296 ∧
    IndexMap.find (planTensorsStart ctx).uses_map ind =
      some ((remainingUses ctx.graph ind order + if obj.isConstant = true then 1 else 0)
        % 4294967296) ∧
    IndexMap.find (planTensorsStart ctx).def_map ind =
      some (if obj.getDef.isSome = true then 1 else 0) := by
  have hnd : (IndexMap.keys ctx.graph.operands).Nodup := hwf.1
  have hmem : (ind, obj) ∈ ctx.graph.operands := IndexMap.mem_of_find hfind
  have hconst : ind ∈ (prepareScanning ctx).constants ↔ obj.isConstant = true := by
    rw [mem_prepareScanning_constants ctx hnd ind]
    constructor
    · rintro ⟨_, obj', hf', hc'⟩
      rw [hfind] at hf'
      cases hf'
      exact hc'
    · intro h
      exact ⟨hp, obj, hfind, h⟩
  have hlen := remainingUses_eq_length hwf horder hmem
  have hfu : IndexMap.find (prepareScanning ctx).uses_map ind =
      some (obj.getUses.length % 4294967296) := by
    rw [prepareScanning_find_uses ctx hnd, hfind]
    simp [hp.2.1, hp.2.2]
  refine ⟨⟨hp.2.1, (planTensorsStart_registered ctx ind).2 (Or.inr hp)⟩, hconst, hlen,
    getUses_length_lt hwf hmem, ?_, ?_⟩
  · unfold planTensorsStart
    rw [foldl_allocateConstant_find _ (nodup_prepareScanning_constants ctx hnd), hlen]
    by_cases hc : obj.isConstant = true
    · rw [if_pos (hconst.2 hc), if_pos hc, IndexMap.get_eq_of_find hfu, uint32_inc_mod]
    · rw [if_neg (fun h => hc (hconst.1 h)), if_neg hc, hfu, Nat.add_zero]
  · unfold planTensorsStart
    rw [(foldl_allocateConstant_frame _ _).1, prepareScanning_find_def ctx hnd ind, hfind]
    simp [hp.2.1, hp.2.2]

/-- The run of `planTensors` over `pre ++ op :: post`, in full: the states
before and after `op`, and the call log as the calls issued before `op`, the
three phases of `op`, and the calls issued after `op`. -/
theorem planTensors_split (ctx : BackendContext) (hin : ctx.graph.InputsExist)
    (hnd : (IndexMap.keys ctx.graph.operands).Nodup)
    (pre : List OperationIndex) (op : OperationIndex) (post : List OperationIndex) :
    ∃ st_pre st_op st_end prepare extra_pre extra_post,
      scanOperations ctx (planTensorsStart ctx) pre = (.ok (), st_pre) ∧
      scanOperation ctx st_pre op = (.ok (), st_op) ∧
      scanOperations ctx st_op post = (.ok (), st_end) ∧
      (∀ c ∈ prepare, c.isRegister = true) ∧
      (planTensorsStart ctx).tensor_builder.calls =
        ctx.tensor_builder.calls ++
          (prepare ++ (prepareScanning ctx).constants.map BuilderCall.notifyFirstUse) ∧
      st_pre.tensor_builder.calls = (planTensorsStart ctx).tensor_builder.calls ++ extra_pre ∧
      st_end.tensor_builder.calls = st_op.tensor_builder.calls ++ extra_post ∧
      st_pre.tensor_builder.registered = (planTensorsStart ctx).tensor_builder.registered ∧
      st_op.tensor_builder.registered = (planTensorsStart ctx).tensor_builder.registered ∧
      st_end.constants = (prepareScanning ctx).constants ∧
      planTensors ctx (pre ++ op :: post) =
        (.ok (), st_end.constants.foldl disposeConstant st_end) ∧
      (planTensors ctx (pre ++ op :: post)).2.tensor_builder.calls =
        ctx.tensor_builder.calls ++
          ((prepare ++ (prepareScanning ctx).constants.map BuilderCall.notifyFirstUse ++
              extra_pre) ++
            (outputCalls ctx st_pre op ++ (variableCalls ctx st_pre op ++
              inputCalls ctx st_pre op)) ++
            (extra_post ++ disposeCalls st_end)) := by
  obtain ⟨prepare, hstart, hprep⟩ := planTensorsStart_calls ctx
  obtain ⟨st_pre, hs_pre⟩ := scanOperations_returns ctx hin pre (planTensorsStart ctx)
  obtain ⟨st_op, hs_op⟩ := scanOperation_ok_of_inputsExist ctx hin st_pre op
  obtain ⟨st_end, hs_post⟩ := scanOperations_returns ctx hin post st_op
  obtain ⟨⟨extra_pre, hc_pre⟩, hk_pre, hr_pre⟩ := scanOperations_frame_ok ctx pre _ _ hs_pre
  obtain ⟨hc_op, hr_op, hk_op, -, -⟩ := scanOperation_calls ctx st_pre op st_op hs_op
  obtain ⟨⟨extra_post, hc_post⟩, hk_post, hr_post⟩ := scanOperations_frame_ok ctx post _ _ hs_post
  have hscan : scanOperations ctx (planTensorsStart ctx) (pre ++ op :: post) =
      (.ok (), st_end) := by
    rw [scanOperations_append, hs_pre]
    simp only [scanOperations, hs_op]
    exact hs_post
  have hconsts : st_end.constants = (prepareScanning ctx).constants := by
    rw [hk_post, hk_op, hk_pre, planTensorsStart_constants]
  have hplan : planTensors ctx (pre ++ op :: post) =
      (.ok (), st_end.constants.foldl disposeConstant st_end) := by
    unfold planTensors
    rw [hscan]
  have hdispose := foldl_disposeConstant_calls st_end.constants
    (by rw [hconsts]; exact nodup_prepareScanning_constants ctx hnd) st_end
  refine ⟨st_pre, st_op, st_end, prepare, extra_pre, extra_post, hs_pre, hs_op, hs_post, hprep,
    hstart, hc_pre, hc_post, hr_pre, by rw [hr_op, hr_pre], hconsts, hplan, ?_⟩
  rw [hplan]
  show (st_end.constants.foldl disposeConstant st_end).tensor_builder.calls = _
  rw [hdispose, hc_post, hc_op, hc_pre, hstart]
  unfold disposeCalls
  simp only [List.append_assoc]

theorem exists_last_reader (graph : Graph) (ind : OperandIndex) (order : List OperationIndex)
    (h : 0 < remainingUses graph ind order) :
    ∃ pre l post, order = pre ++ l :: post ∧ ind ∈ graph.inputsOf l ∧
      remainingUses graph ind post = 0 := by
  induction order with
  | nil => simp [remainingUses_nil] at h
  | cons x t ih =>
    by_cases ht : 0 < remainingUses graph ind t
    · obtain ⟨pre, l, post, hsplit, hl, hpost⟩ := ih ht
      exact ⟨x :: pre, l, post, by rw [hsplit]; rfl, hl, hpost⟩
    · have ht0 : remainingUses graph ind t = 0 := by omega
      rw [remainingUses_cons, ht0, Nat.zero_add] at h
      by_cases hx : ind ∈ graph.inputsOf x
      · exact ⟨[], x, t, rfl, hx, ht0⟩
      · rw [if_neg hx] at h
        exact absurd h (Nat.lt_irrefl 0)

theorem lastUseCalls_split (op_ind : OperationIndex) (l : List OperandIndex)
    (ind : OperandIndex) (h : ind ∈ l) :
    ∃ a b, lastUseCalls op_ind l =
      a ++ BuilderCall.notifyLastUse ind :: BuilderCall.planDealloc op_ind ind :: b := by
  obtain ⟨l1, l2, hl⟩ := List.append_of_mem h
  refine ⟨lastUseCalls op_ind l1, lastUseCalls op_ind l2, ?_⟩
  rw [hl, lastUseCalls_append]
  rfl

theorem count_lastUse_prepare (prepare : List BuilderCall)
    (h : ∀ c ∈ prepare, c.isRegister = true) (ind : OperandIndex) :
    prepare.count (.notifyLastUse ind) = 0 := by
  rw [List.count_eq_zero]
  intro hm
  exact Bool.noConfusion (h _ hm)

theorem count_firstUse_prepare (prepare : List BuilderCall)
    (h : ∀ c ∈ prepare, c.isRegister = true) (ind : OperandIndex) :
    prepare.count (.notifyFirstUse ind) = 0 := by
  rw [List.count_eq_zero]
  intro hm
  exact Bool.noConfusion (h _ hm)

theorem count_lastUse_map_firstUse (l : List OperandIndex) (ind : OperandIndex) :
    (l.map BuilderCall.notifyFirstUse).count (.notifyLastUse ind) = 0 := by
  rw [List.count_eq_zero]
  intro h
  obtain ⟨k, _, hk⟩ := List.mem_map.1 h
  exact BuilderCall.noConfusion hk

theorem count_map_notifyLastUse (l : List OperandIndex) (ind : OperandIndex) :
    (l.map BuilderCall.notifyLastUse).count (.notifyLastUse ind) = l.count ind := by
  induction l with
  | nil => rfl
  | cons k t ih =>
    rw [List.map_cons, List.count_cons, List.count_cons, ih]
    by_cases hk : k = ind
    · subst hk
      simp
    · have h1 : (BuilderCall.notifyLastUse k == BuilderCall.notifyLastUse ind) = false := by
        simpa using hk
      have h3 : (k == ind) = false := by simpa using hk
      simp [h1, h3]

theorem count_firstUse_disposeCalls (st : PlanState) (ind : OperandIndex) :
    (disposeCalls st).count (.notifyFirstUse ind) = 0 := by
  rw [List.count_eq_zero]
  intro h
  obtain ⟨k, _, hk⟩ := List.mem_map.1 h
  exact BuilderCall.noConfusion hk

theorem count_lastUse_disposeCalls (st : PlanState) (hnd : st.constants.Nodup)
    (ind : OperandIndex) :
    (disposeCalls st).count (.notifyLastUse ind) =
      if ind ∈ st.constants ∧ uint32_dec (IndexMap.get st.uses_map ind) = 0 then 1 else 0 := by
  unfold disposeCalls
  rw [count_map_notifyLastUse, count_filter_of_nodup _ hnd]
  simp only [decide_eq_true_eq]

/-! ## Last use at the last consumer -/

theorem uint32_dec_one : uint32_dec 1 = 0 := by
  unfold uint32_dec
  omega

/-- C21. Last use at the last consumer: for a well-formed graph whose
operations read operands of the graph, and an order listing each operation
once, `planTensors` completes, and a planned operand `ind` that is not a
constant and has a using operation gets exactly one last-use notification
among the calls issued. It is issued by the loop over the inputs of `l`, the
last operation of the order that has `ind` among its inputs (no operation of
`post` reads `ind`), and the call that follows it is `planDealloc` with the
index `l`. -/
theorem planTensors_last_use_at_last_consumer (ctx : BackendContext)
    (order : List OperationIndex) (hwf : ctx.graph.WellFormed)
    (horder : ListsEachOperationOnce ctx.graph order) (hin : ctx.graph.InputsExist)
    (ind : OperandIndex) (obj : Operand) (hp : Planned ctx ind)
    (hfind : IndexMap.find ctx.graph.operands ind = some obj)
    (hconst : obj.isConstant = false) (huses : obj.getUses ≠ []) :
    (planTensors ctx order).1 = .ok () ∧
    ∃ pre l post st_pre st_l before phases ins_before ins_after after,
      order = pre ++ l :: post ∧
      ind ∈ ctx.graph.inputsOf l ∧ (∀ op ∈ post, ind ∉ ctx.graph.inputsOf op) ∧
      scanOperations ctx (planTensorsStart ctx) pre = (.ok (), st_pre) ∧
      scanOperation ctx st_pre l = (.ok (), st_l) ∧
      st_pre.tensor_builder.calls = ctx.tensor_builder.calls ++ before ∧
      phases = outputCalls ctx st_pre l ++ variableCalls ctx st_pre l ∧
      inputCalls ctx st_pre l =
        ins_before ++ BuilderCall.notifyLastUse ind :: BuilderCall.planDealloc l ind ::
          ins_after ∧
      st_l.tensor_builder.calls =
        st_pre.tensor_builder.calls ++ (phases ++ inputCalls ctx st_pre l) ∧
      (planTensors ctx order).2.tensor_builder.calls =
        ctx.tensor_builder.calls ++ (before ++ (phases ++ inputCalls ctx st_pre l) ++ after) ∧
      (before ++ (phases ++ inputCalls ctx st_pre l) ++ after).count (.notifyLastUse ind) = 1 ∧
      (inputCalls ctx st_pre l).count (.notifyLastUse ind) = 1 := by
  have hnd : (IndexMap.keys ctx.graph.operands).Nodup := hwf.1
  obtain ⟨hgate0, hcmem, hlen, hlt, hu0, -⟩ :=
    planTensorsStart_entries ctx order hwf horder ind obj hp hfind
  have hnc : ¬ obj.isConstant = true := by
    rw [hconst]
    exact Bool.noConfusion
  have hpos : 0 < remainingUses ctx.graph ind order := by
    rw [hlen]
    exact List.length_pos.2 huses
  obtain ⟨pre, l, post, hsplit, hl, hpost⟩ := exists_last_reader ctx.graph ind order hpos
  subst hsplit
  obtain ⟨st_pre, st_l, st_end, prepare, extra_pre, extra_post, hs_pre, hs_l, hs_post, hprep,
    hstart, hc_pre, hc_post, hr_pre, hr_l, hconsts, hplan, hcalls⟩ :=
    planTensors_split ctx hin hnd pre l post
  have hrem : remainingUses ctx.graph ind (pre ++ l :: post) =
      remainingUses ctx.graph ind pre + 1 := by
    rw [remainingUses_append, remainingUses_cons, hpost, if_pos hl]
  -- the operations before `l`
  have hu_pre : IndexMap.find (planTensorsStart ctx).uses_map ind =
      some ((remainingUses ctx.graph ind pre + 1) % 4294967296) := by
    rw [hu0, if_neg hnc, hrem, Nat.add_zero]
  obtain ⟨hfin_pre, hcount_pre⟩ := scanOperations_uses ctx ind pre _ st_pre extra_pre 1
    hs_pre hc_pre hgate0 hu_pre (by omega)
  rw [if_neg (fun h => absurd h.1 Nat.one_ne_zero)] at hcount_pre
  have hget_pre : IndexMap.get st_pre.uses_map ind = 1 := by
    rw [IndexMap.get_eq_of_find hfin_pre]
  have hdec : uint32_dec (IndexMap.get st_pre.uses_map ind) = 0 := by
    rw [hget_pre, uint32_dec_one]
  have hgate_pre : Gate ctx.graph st_pre.tensor_builder.registered ind := by
    rw [hr_pre]
    exact hgate0
  -- the operation `l`
  obtain ⟨hc_l, -, -, -, hu_l⟩ := scanOperation_calls ctx st_pre l st_l hs_l
  have hcount_l : (inputCalls ctx st_pre l).count (.notifyLastUse ind) = 1 := by
    rw [count_lastUse_inputCalls, if_pos ⟨hl, hgate_pre, hdec⟩]
  have hmem_filter : ind ∈ (ctx.graph.inputsOf l).filter fun k =>
      decide (Gate ctx.graph st_pre.tensor_builder.registered k ∧
        uint32_dec (IndexMap.get st_pre.uses_map k) = 0) :=
    List.mem_filter.2 ⟨hl, decide_eq_true ⟨hgate_pre, hdec⟩⟩
  obtain ⟨ins_before, ins_after, hins⟩ := lastUseCalls_split l _ ind hmem_filter
  -- the operations after `l`
  have hgate_l : Gate ctx.graph st_l.tensor_builder.registered ind := by
    rw [hr_l]
    exact hgate0
  have hu_post : IndexMap.find st_l.uses_map ind =
      some ((remainingUses ctx.graph ind post + 0) % 4294967296) := by
    rw [hu_l ind, if_pos ⟨hl, hgate_pre⟩, hdec, hpost]
  obtain ⟨-, hcount_post⟩ := scanOperations_uses ctx ind post st_l st_end extra_post 0
    hs_post hc_post hgate_l hu_post (by omega)
  rw [if_neg (fun h => absurd h.2 (by rw [hpost]; exact Nat.lt_irrefl 0))] at hcount_post
  -- the dispose loop
  have hcount_dispose : (disposeCalls st_end).count (.notifyLastUse ind) = 0 := by
    rw [count_lastUse_disposeCalls st_end
      (by rw [hconsts]; exact nodup_prepareScanning_constants ctx hnd), if_neg]
    rintro ⟨h, -⟩
    rw [hconsts] at h
    exact hnc (hcmem.1 h)
  refine ⟨by rw [hplan], pre, l, post, st_pre, st_l,
    prepare ++ (prepareScanning ctx).constants.map BuilderCall.notifyFirstUse ++ extra_pre,
    outputCalls ctx st_pre l ++ variableCalls ctx st_pre l, ins_before, ins_after,
    extra_post ++ disposeCalls st_end, rfl, hl,
    (remainingUses_eq_zero_iff _ _ _).1 hpost, hs_pre, hs_l, ?_, rfl, hins, ?_, ?_, ?_, hcount_l⟩
  · rw [hc_pre, hstart, List.append_assoc]
  · rw [hc_l, List.append_assoc]
  · rw [hcalls]
    simp only [List.append_assoc]
  · simp only [List.count_append, count_lastUse_prepare prepare hprep, count_lastUse_map_firstUse,
      hcount_pre, count_lastUse_outputCalls, count_lastUse_variableCalls, hcount_l, hcount_post,
      hcount_dispose]

/-- Witness of `planTensors_last_use_at_last_consumer`: operand `T` of the
scenario-B graph, read by `OpB` only. -/
theorem planTensors_last_use_at_last_consumer_witness :
    scenarioBContext.graph.WellFormed ∧ ListsEachOperationOnce scenarioBContext.graph [0, 1] ∧
    scenarioBContext.graph.InputsExist ∧ Planned scenarioBContext 2 ∧
    IndexMap.find scenarioBContext.graph.operands 2 =
      some (exampleOperand false false [1] (some 0)) ∧
    ((planTensors scenarioBContext [0, 1]).1 = .ok () ∧
    ∃ pre l post st_pre st_l before phases ins_before ins_after after,
      [0, 1] = pre ++ l :: post ∧
      2 ∈ scenarioBContext.graph.inputsOf l ∧
      (∀ op ∈ post, 2 ∉ scenarioBContext.graph.inputsOf op) ∧
      scanOperations scenarioBContext (planTensorsStart scenarioBContext) pre = (.ok (), st_pre) ∧
      scanOperation scenarioBContext st_pre l = (.ok (), st_l) ∧
      st_pre.tensor_builder.calls = scenarioBContext.tensor_builder.calls ++ before ∧
      phases = outputCalls scenarioBContext st_pre l ++ variableCalls scenarioBContext st_pre l ∧
      inputCalls scenarioBContext st_pre l =
        ins_before ++ BuilderCall.notifyLastUse 2 :: BuilderCall.planDealloc l 2 ::
          ins_after ∧
      st_l.tensor_builder.calls =
        st_pre.tensor_builder.calls ++ (phases ++ inputCalls scenarioBContext st_pre l) ∧
      (planTensors scenarioBContext [0, 1]).2.tensor_builder.calls =
        scenarioBContext.tensor_builder.calls ++
          (before ++ (phases ++ inputCalls scenarioBContext st_pre l) ++ after) ∧
      (before ++ (phases ++ inputCalls scenarioBContext st_pre l) ++ after).count
        (.notifyLastUse 2) = 1 ∧
      (inputCalls scenarioBContext st_pre l).count (.notifyLastUse 2) = 1) :=
  ⟨by decide, by decide, by decide, by decide, rfl,
    planTensors_last_use_at_last_consumer scenarioBContext [0, 1] (by decide) (by decide)
      (by decide) 2 (exampleOperand false false [1] (some 0)) (by decide) rfl rfl
      (by decide)⟩

/-! ## Variable operands -/

/-- C22. Variable operands: for a well-formed graph whose operations read
operands of the graph, and an order listing each operation once, `planTensors`
completes, and a planned variable operand `ind` (its only use is `u`, it has
no def, and it is not a constant, so it holds no data) gets exactly one
first-use notification among the calls issued. It is issued by the "Scan
variable tensors" loop run for `u`, whose calls come before those of the loop
over the inputs of `u`, in which the last-use notification of `ind` is
issued. -/
theorem planTensors_variable_first_use (ctx : BackendContext)
    (order : List OperationIndex) (hwf : ctx.graph.WellFormed)
    (horder : ListsEachOperationOnce ctx.graph order) (hin : ctx.graph.InputsExist)
    (ind : OperandIndex) (obj : Operand) (u : OperationIndex) (hp : Planned ctx ind)
    (hfind : IndexMap.find ctx.graph.operands ind = some obj)
    (hvariable : obj.isVariable = true) (huses : obj.getUses = [u])
    (hdef : obj.getDef = none) (hconst : obj.isConstant = false) :
    (planTensors ctx order).1 = .ok () ∧
    ∃ pre post st_pre st_u before vars_before vars_after ins_before ins_after after,
      order = pre ++ u :: post ∧
      scanOperations ctx (planTensorsStart ctx) pre = (.ok (), st_pre) ∧
      scanOperation ctx st_pre u = (.ok (), st_u) ∧
      st_pre.tensor_builder.calls = ctx.tensor_builder.calls ++ before ∧
      variableCalls ctx st_pre u =
        vars_before ++ BuilderCall.notifyFirstUse ind :: vars_after ∧
      inputCalls ctx st_pre u =
        ins_before ++ BuilderCall.notifyLastUse ind :: BuilderCall.planDealloc u ind ::
          ins_after ∧
      st_u.tensor_builder.calls =
        st_pre.tensor_builder.calls ++
          (outputCalls ctx st_pre u ++ (variableCalls ctx st_pre u ++ inputCalls ctx st_pre u)) ∧
      (planTensors ctx order).2.tensor_builder.calls =
        ctx.tensor_builder.calls ++
          (before ++
            (outputCalls ctx st_pre u ++ (variableCalls ctx st_pre u ++ inputCalls ctx st_pre u))
            ++ after) ∧
      (before ++
        (outputCalls ctx st_pre u ++ (variableCalls ctx st_pre u ++ inputCalls ctx st_pre u))
        ++ after).count (.notifyFirstUse ind) = 1 ∧
      (variableCalls ctx st_pre u).count (.notifyFirstUse ind) = 1 := by
  have hnd : (IndexMap.keys ctx.graph.operands).Nodup := hwf.1
  have hmem : (ind, obj) ∈ ctx.graph.operands := IndexMap.mem_of_find hfind
  obtain ⟨-, huse1, huse2, -, hdefonly⟩ := hwf.2.2.2 (ind, obj) hmem
  have hu : ind ∈ ctx.graph.inputsOf u := huse1 u (by
    show u ∈ obj.getUses
    rw [huses]
    exact List.mem_singleton_self u)
  have hreaders : ∀ op, ind ∈ ctx.graph.inputsOf op → op = u := by
    intro op h
    have := huse2 op (mem_keys_of_mem_inputsOf h) h
    rw [show (ind, obj).2.getUses = obj.getUses from rfl, huses] at this
    exact List.mem_singleton.1 this
  have hno : ∀ op, ind ∉ ctx.graph.outputsOf op := by
    intro op h
    have := hdefonly op (mem_keys_of_mem_outputsOf h) h
    rw [show (ind, obj).2.getDef = obj.getDef from rfl, hdef] at this
    exact Option.noConfusion this
  have hvar : variableOperand ctx.graph ind = true := by
    unfold variableOperand
    rw [hfind]
    exact hvariable
  have hnc : ¬ obj.isConstant = true := by
    rw [hconst]
    exact Bool.noConfusion
  obtain ⟨hgate0, hcmem, hlen, hlt, hu0, -⟩ :=
    planTensorsStart_entries ctx order hwf horder ind obj hp hfind
  have hu_order : u ∈ order := mem_order_of_mem_keys horder (mem_keys_of_mem_inputsOf hu)
  have hcount : order.count u = 1 := horder u (mem_keys_of_mem_inputsOf hu)
  obtain ⟨pre, post, hsplit⟩ := List.append_of_mem hu_order
  subst hsplit
  have hnot : u ∉ pre ∧ u ∉ post := by
    rw [List.count_append, List.count_cons_self] at hcount
    constructor
    · intro h
      have := List.count_pos_iff.2 h
      omega
    · intro h
      have := List.count_pos_iff.2 h
      omega
  have hpre0 : remainingUses ctx.graph ind pre = 0 :=
    (remainingUses_eq_zero_iff _ _ _).2 fun op hop h => hnot.1 (hreaders op h ▸ hop)
  have hpost0 : remainingUses ctx.graph ind post = 0 :=
    (remainingUses_eq_zero_iff _ _ _).2 fun op hop h => hnot.2 (hreaders op h ▸ hop)
  obtain ⟨st_pre, st_u, st_end, prepare, extra_pre, extra_post, hs_pre, hs_u, hs_post, hprep,
    hstart, hc_pre, hc_post, hr_pre, hr_u, hconsts, hplan, hcalls⟩ :=
    planTensors_split ctx hin hnd pre u post
  have hrem : remainingUses ctx.graph ind (pre ++ u :: post) =
      remainingUses ctx.graph ind pre + 1 := by
    rw [remainingUses_append, remainingUses_cons, hpost0, if_pos hu]
  -- the operations before `u`
  have hu_pre : IndexMap.find (planTensorsStart ctx).uses_map ind =
      some ((remainingUses ctx.graph ind pre + 1) % 4294967296) := by
    rw [hu0, if_neg hnc, hrem, Nat.add_zero]
  obtain ⟨hfin_pre, -⟩ := scanOperations_uses ctx ind pre _ st_pre extra_pre 1
    hs_pre hc_pre hgate0 hu_pre (by omega)
  obtain ⟨-, hfirst_pre⟩ := scanOperations_defs ctx ind pre _ st_pre extra_pre hs_pre hc_pre
    hgate0 (fun op _ => hno op)
  rw [if_pos hvar, hpre0] at hfirst_pre
  have hget_pre : IndexMap.get st_pre.uses_map ind = 1 := by
    rw [IndexMap.get_eq_of_find hfin_pre]
  have hdec : uint32_dec (IndexMap.get st_pre.uses_map ind) = 0 := by
    rw [hget_pre, uint32_dec_one]
  have hgate_pre : Gate ctx.graph st_pre.tensor_builder.registered ind := by
    rw [hr_pre]
    exact hgate0
  -- the operation `u`
  obtain ⟨hc_u, -, -, -, -⟩ := scanOperation_calls ctx st_pre u st_u hs_u
  have hcount_outs : (outputCalls ctx st_pre u).count (.notifyFirstUse ind) = 0 := by
    rw [count_outputCalls, if_neg (fun h => hno u h.1)]
  have hcount_vars : (variableCalls ctx st_pre u).count (.notifyFirstUse ind) = 1 := by
    rw [count_variableCalls, if_pos ⟨hu, hgate_pre, hvar⟩]
  obtain ⟨vars_before, vars_after, hvars⟩ :=
    List.append_of_mem (List.count_pos_iff.1 (by rw [hcount_vars]; exact Nat.one_pos))
  have hmem_filter : ind ∈ (ctx.graph.inputsOf u).filter fun k =>
      decide (Gate ctx.graph st_pre.tensor_builder.registered k ∧
        uint32_dec (IndexMap.get st_pre.uses_map k) = 0) :=
    List.mem_filter.2 ⟨hu, decide_eq_true ⟨hgate_pre, hdec⟩⟩
  obtain ⟨ins_before, ins_after, hins⟩ := lastUseCalls_split u _ ind hmem_filter
  -- the operations after `u`
  have hgate_u : Gate ctx.graph st_u.tensor_builder.registered ind := by
    rw [hr_u]
    exact hgate0
  obtain ⟨-, hfirst_post⟩ := scanOperations_defs ctx ind post st_u st_end extra_post hs_post
    hc_post hgate_u (fun op _ => hno op)
  rw [if_pos hvar, hpost0] at hfirst_post
  have hcount_consts :
      ((prepareScanning ctx).constants.map BuilderCall.notifyFirstUse).count
        (.notifyFirstUse ind) = 0 := by
    rw [count_map_notifyFirstUse]
    exact List.count_eq_zero_of_not_mem (fun h => hnc (hcmem.1 h))
  refine ⟨by rw [hplan], pre, post, st_pre, st_u,
    prepare ++ (prepareScanning ctx).constants.map BuilderCall.notifyFirstUse ++ extra_pre,
    vars_before, vars_after, ins_before, ins_after, extra_post ++ disposeCalls st_end, rfl,
    hs_pre, hs_u, ?_, hvars, hins, hc_u, hcalls, ?_, hcount_vars⟩
  · rw [hc_pre, hstart, List.append_assoc]
  · simp only [List.count_append, count_firstUse_prepare prepare hprep, hcount_consts,
      hfirst_pre, hcount_outs, hcount_vars, count_inputCalls, hfirst_post,
      count_firstUse_disposeCalls]

/-- Witness of `planTensors_variable_first_use`: the variable of
`variableGraph`, read by the only operation. -/
theorem planTensors_variable_first_use_witness :
    variableContext.graph.WellFormed ∧ ListsEachOperationOnce variableContext.graph [0] ∧
    variableContext.graph.InputsExist ∧ Planned variableContext 0 ∧
    IndexMap.find variableContext.graph.operands 0 = some (exampleOperand false true [0] none) ∧
    ((planTensors variableContext [0]).1 = .ok () ∧
    ∃ pre post st_pre st_u before vars_before vars_after ins_before ins_after after,
      [0] = pre ++ 0 :: post ∧
      scanOperations variableContext (planTensorsStart variableContext) pre = (.ok (), st_pre) ∧
      scanOperation variableContext st_pre 0 = (.ok (), st_u) ∧
      st_pre.tensor_builder.calls = variableContext.tensor_builder.calls ++ before ∧
      variableCalls variableContext st_pre 0 =
        vars_before ++ BuilderCall.notifyFirstUse 0 :: vars_after ∧
      inputCalls variableContext st_pre 0 =
        ins_before ++ BuilderCall.notifyLastUse 0 :: BuilderCall.planDealloc 0 0 ::
          ins_after ∧
      st_u.tensor_builder.calls =
        st_pre.tensor_builder.calls ++
          (outputCalls variableContext st_pre 0 ++
            (variableCalls variableContext st_pre 0 ++ inputCalls variableContext st_pre 0)) ∧
      (planTensors variableContext [0]).2.tensor_builder.calls =
        variableContext.tensor_builder.calls ++
          (before ++
            (outputCalls variableContext st_pre 0 ++
              (variableCalls variableContext st_pre 0 ++ inputCalls variableContext st_pre 0))
            ++ after) ∧
      (before ++
        (outputCalls variableContext st_pre 0 ++
          (variableCalls variableContext st_pre 0 ++ inputCalls variableContext st_pre 0))
        ++ after).count (.notifyFirstUse 0) = 1 ∧
      (variableCalls variableContext st_pre 0).count (.notifyFirstUse 0) = 1) :=
  ⟨by decide, by decide, by decide, by decide, rfl,
    planTensors_variable_first_use variableContext [0] (by decide) (by decide) (by decide) 0
      (exampleOperand false true [0] none) 0 (by decide) rfl rfl rfl rfl rfl⟩

/-! ## Constants are notified once -/

/-- The run of `planTensors` over an order, in full: the call log as the
registrations, the first uses of the constants, the calls of the scan, and the
calls of the dispose loop. -/
theorem planTensors_whole (ctx : BackendContext) (hin : ctx.graph.InputsExist)
    (hnd : (IndexMap.keys ctx.graph.operands).Nodup) (order : List OperationIndex) :
    ∃ st_end prepare scan,
      scanOperations ctx (planTensorsStart ctx) order = (.ok (), st_end) ∧
      (∀ c ∈ prepare, c.isRegister = true) ∧
      (planTensorsStart ctx).tensor_builder.calls =
        ctx.tensor_builder.calls ++
          (prepare ++ (prepareScanning ctx).constants.map BuilderCall.notifyFirstUse) ∧
      st_end.tensor_builder.calls = (planTensorsStart ctx).tensor_builder.calls ++ scan ∧
      st_end.tensor_builder.registered = (planTensorsStart ctx).tensor_builder.registered ∧
      st_end.constants = (prepareScanning ctx).constants ∧
      planTensors ctx order = (.ok (), st_end.constants.foldl disposeConstant st_end) ∧
      (planTensors ctx order).2.tensor_builder.calls =
        ctx.tensor_builder.calls ++
          (prepare ++ (prepareScanning ctx).constants.map BuilderCall.notifyFirstUse ++ scan ++
            disposeCalls st_end) := by
  obtain ⟨prepare, hstart, hprep⟩ := planTensorsStart_calls ctx
  obtain ⟨st_end, hs⟩ := scanOperations_returns ctx hin order (planTensorsStart ctx)
  obtain ⟨⟨scan, hc⟩, hk, hr⟩ := scanOperations_frame_ok ctx order _ _ hs
  have hconsts : st_end.constants = (prepareScanning ctx).constants := by
    rw [hk, planTensorsStart_constants]
  have hplan : planTensors ctx order =
      (.ok (), st_end.constants.foldl disposeConstant st_end) := by
    unfold planTensors
    rw [hs]
  have hdispose := foldl_disposeConstant_calls st_end.constants
    (by rw [hconsts]; exact nodup_prepareScanning_constants ctx hnd) st_end
  refine ⟨st_end, prepare, scan, hs, hprep, hstart, hc, hr, hconsts, hplan, ?_⟩
  rw [hplan]
  show (st_end.constants.foldl disposeConstant st_end).tensor_builder.calls = _
  rw [hdispose, hc, hstart]
  unfold disposeCalls
  simp only [List.append_assoc]

/-- C23. No double release of constants: for a well-formed graph whose
operations read operands of the graph, and an order listing each operation
once, `planTensors` completes, and a planned constant operand (with or without
uses; as a constant it has no def and is not a variable) gets exactly one
first-use notification, issued by the first loop over the constants, and
exactly one last-use notification, issued by the dispose loop after the scan
of the operations; the scan issues no last-use notification for it. -/
theorem planTensors_constant_notified_once (ctx : BackendContext)
    (order : List OperationIndex) (hwf : ctx.graph.WellFormed)
    (horder : ListsEachOperationOnce ctx.graph order) (hin : ctx.graph.InputsExist)
    (ind : OperandIndex) (obj : Operand) (hp : Planned ctx ind)
    (hfind : IndexMap.find ctx.graph.operands ind = some obj)
    (hconst : obj.isConstant = true) (hvariable : obj.isVariable = false)
    (hdef : obj.getDef = none) :
    (planTensors ctx order).1 = .ok () ∧
    ∃ st_end prepare scan,
      scanOperations ctx (planTensorsStart ctx) order = (.ok (), st_end) ∧
      (∀ c ∈ prepare, c.isRegister = true) ∧
      st_end.tensor_builder.calls =
        ctx.tensor_builder.calls ++
          (prepare ++ (prepareScanning ctx).constants.map BuilderCall.notifyFirstUse ++ scan) ∧
      (planTensors ctx order).2.tensor_builder.calls =
        ctx.tensor_builder.calls ++
          (prepare ++ (prepareScanning ctx).constants.map BuilderCall.notifyFirstUse ++ scan ++
            disposeCalls st_end) ∧
      (prepare ++ (prepareScanning ctx).constants.map BuilderCall.notifyFirstUse ++ scan ++
        disposeCalls st_end).count (.notifyFirstUse ind) = 1 ∧
      ((prepareScanning ctx).constants.map BuilderCall.notifyFirstUse).count
        (.notifyFirstUse ind) = 1 ∧
      (prepare ++ (prepareScanning ctx).constants.map BuilderCall.notifyFirstUse ++ scan ++
        disposeCalls st_end).count (.notifyLastUse ind) = 1 ∧
      scan.count (.notifyLastUse ind) = 0 ∧
      (disposeCalls st_end).count (.notifyLastUse ind) = 1 := by
  have hnd : (IndexMap.keys ctx.graph.operands).Nodup := hwf.1
  have hmem : (ind, obj) ∈ ctx.graph.operands := IndexMap.mem_of_find hfind
  obtain ⟨-, -, -, -, hdefonly⟩ := hwf.2.2.2 (ind, obj) hmem
  have hno : ∀ op, ind ∉ ctx.graph.outputsOf op := by
    intro op h
    have := hdefonly op (mem_keys_of_mem_outputsOf h) h
    rw [show (ind, obj).2.getDef = obj.getDef from rfl, hdef] at this
    exact Option.noConfusion this
  have hvar : ¬ variableOperand ctx.graph ind = true := by
    unfold variableOperand
    rw [hfind]
    dsimp only
    rw [hvariable]
    exact Bool.noConfusion
  obtain ⟨hgate0, hcmem, hlen, hlt, hu0, -⟩ :=
    planTensorsStart_entries ctx order hwf horder ind obj hp hfind
  have hmc : ind ∈ (prepareScanning ctx).constants := hcmem.2 hconst
  have hndc := nodup_prepareScanning_constants ctx hnd
  obtain ⟨st_end, prepare, scan, hs, hprep, hstart, hc, hr, hconsts, hplan, hcalls⟩ :=
    planTensors_whole ctx hin hnd order
  rw [if_pos hconst] at hu0
  obtain ⟨hfin, hcount_scan⟩ := scanOperations_uses ctx ind order _ st_end scan 1 hs hc hgate0
    hu0 (by omega)
  rw [if_neg (fun h => absurd h.1 Nat.one_ne_zero)] at hcount_scan
  obtain ⟨-, hfirst_scan⟩ := scanOperations_defs ctx ind order _ st_end scan hs hc hgate0
    (fun op _ => hno op)
  rw [if_neg hvar] at hfirst_scan
  have hdec : uint32_dec (IndexMap.get st_end.uses_map ind) = 0 := by
    rw [IndexMap.get_eq_of_find hfin]
    exact uint32_dec_one
  have hcount_consts :
      ((prepareScanning ctx).constants.map BuilderCall.notifyFirstUse).count
        (.notifyFirstUse ind) = 1 := by
    rw [count_map_notifyFirstUse]
    exact List.count_eq_one_of_mem hndc hmc
  have hcount_dispose : (disposeCalls st_end).count (.notifyLastUse ind) = 1 := by
    rw [count_lastUse_disposeCalls st_end (by rw [hconsts]; exact hndc),
      if_pos ⟨by rw [hconsts]; exact hmc, hdec⟩]
  refine ⟨by rw [hplan], st_end, prepare, scan, hs, hprep, ?_, hcalls, ?_, hcount_consts, ?_,
    hcount_scan, hcount_dispose⟩
  · rw [hc, hstart, List.append_assoc]
  · simp only [List.count_append, count_firstUse_prepare prepare hprep, hcount_consts,
      hfirst_scan, count_firstUse_disposeCalls]
  · simp only [List.count_append, count_lastUse_prepare prepare hprep,
      count_lastUse_map_firstUse, hcount_scan, hcount_dispose]

/-- Witness of `planTensors_constant_notified_once`: the constant of the
scenario-B graph. -/
theorem planTensors_constant_notified_once_witness :
    scenarioBContext.graph.WellFormed ∧ ListsEachOperationOnce scenarioBContext.graph [0, 1] ∧
    scenarioBContext.graph.InputsExist ∧ Planned scenarioBContext 0 ∧
    IndexMap.find scenarioBContext.graph.operands 0 = some (exampleOperand true false [0] none) ∧
    ((planTensors scenarioBContext [0, 1]).1 = .ok () ∧
    ∃ st_end prepare scan,
      scanOperations scenarioBContext (planTensorsStart scenarioBContext) [0, 1] =
        (.ok (), st_end) ∧
      (∀ c ∈ prepare, c.isRegister = true) ∧
      st_end.tensor_builder.calls =
        scenarioBContext.tensor_builder.calls ++
          (prepare ++
            (prepareScanning scenarioBContext).constants.map BuilderCall.notifyFirstUse ++
            scan) ∧
      (planTensors scenarioBContext [0, 1]).2.tensor_builder.calls =
        scenarioBContext.tensor_builder.calls ++
          (prepare ++
            (prepareScanning scenarioBContext).constants.map BuilderCall.notifyFirstUse ++
            scan ++ disposeCalls st_end) ∧
      (prepare ++ (prepareScanning scenarioBContext).constants.map BuilderCall.notifyFirstUse ++
        scan ++ disposeCalls st_end).count (.notifyFirstUse 0) = 1 ∧
      ((prepareScanning scenarioBContext).constants.map BuilderCall.notifyFirstUse).count
        (.notifyFirstUse 0) = 1 ∧
      (prepare ++ (prepareScanning scenarioBContext).constants.map BuilderCall.notifyFirstUse ++
        scan ++ disposeCalls st_end).count (.notifyLastUse 0) = 1 ∧
      scan.count (.notifyLastUse 0) = 0 ∧
      (disposeCalls st_end).count (.notifyLastUse 0) = 1) :=
  ⟨by decide, by decide, by decide, by decide, rfl,
    planTensors_constant_notified_once scenarioBContext [0, 1] (by decide) (by decide)
      (by decide) 0 (exampleOperand true false [0] none) (by decide) rfl rfl rfl rfl⟩

/-! ## Unconsumed outputs -/

/-- C27. Unconsumed outputs are never released: for a well-formed graph
whose operations read operands of the graph and in which a defined operand is
neither a constant nor a variable, and an order listing each operation once,
`planTensors` completes, and a planned operand `ind` that operation `d`
defines and that has an empty use set gets one first-use notification and no
last-use notification among the calls issued; `d` is in the order; the
entries of `ind` in the remaining-use map and in the pending-def map are zero
at the end, and both final assertions hold when the registrations at entry
are limited to planned operands. -/
theorem planTensors_unconsumed_output (ctx : BackendContext)
    (order : List OperationIndex) (hwf : ctx.graph.WellFormed)
    (horder : ListsEachOperationOnce ctx.graph order) (hin : ctx.graph.InputsExist)
    (hmodel : ctx.graph.DefinedAreComputed) (ind : OperandIndex) (obj : Operand)
    (d : OperationIndex) (hp : Planned ctx ind)
    (hfind : IndexMap.find ctx.graph.operands ind = some obj) (hdef : obj.getDef = some d)
    (huses : obj.getUses = []) :
    (planTensors ctx order).1 = .ok () ∧
    d ∈ order ∧
    (∃ issued,
      (planTensors ctx order).2.tensor_builder.calls = ctx.tensor_builder.calls ++ issued ∧
      issued.count (.notifyFirstUse ind) = 1 ∧
      issued.count (.notifyLastUse ind) = 0) ∧
    IndexMap.find (planTensors ctx order).2.uses_map ind = some 0 ∧
    IndexMap.find (planTensors ctx order).2.def_map ind = some 0 ∧
    ((∀ k ∈ ctx.tensor_builder.registered, k ∉ model_io ctx.graph → Planned ctx k) →
      usesAllZero (planTensors ctx order).2 = true ∧
      defsAllZero (planTensors ctx order).2 = true) := by
  have hnd : (IndexMap.keys ctx.graph.operands).Nodup := hwf.1
  have hmem : (ind, obj) ∈ ctx.graph.operands := IndexMap.mem_of_find hfind
  obtain ⟨-, -, -, hdefout, hdefonly⟩ := hwf.2.2.2 (ind, obj) hmem
  have hout : ind ∈ ctx.graph.outputsOf d := hdefout d hdef
  have honly : ∀ op_ind, ind ∈ ctx.graph.outputsOf op_ind → op_ind = d := by
    intro op_ind h
    have := hdefonly op_ind (mem_keys_of_mem_outputsOf h) h
    rw [show (ind, obj).2.getDef = obj.getDef from rfl, hdef] at this
    exact (Option.some.inj this).symm
  obtain ⟨hconst, hvariable⟩ := hmodel (ind, obj) hmem (by
    show obj.getDef.isSome = true
    rw [hdef]
    rfl)
  have hnc : ¬ obj.isConstant = true := by
    rw [show obj.isConstant = false from hconst]
    exact Bool.noConfusion
  have hvar : variableOperand ctx.graph ind = false := by
    unfold variableOperand
    rw [hfind]
    exact hvariable
  have hd_order : d ∈ order := mem_order_of_mem_keys horder (mem_keys_of_mem_outputsOf hout)
  obtain ⟨hgate0, hcmem, hlen, hlt, hu0, hd0⟩ :=
    planTensorsStart_entries ctx order hwf horder ind obj hp hfind
  have hrem0 : remainingUses ctx.graph ind order = 0 := by
    rw [hlen, huses]
    rfl
  obtain ⟨st_end, prepare, scan, hs, hprep, hstart, hc, hr, hconsts, hplan, hcalls⟩ :=
    planTensors_whole ctx hin hnd order
  -- last uses
  rw [if_neg hnc] at hu0
  obtain ⟨hfin, hcount_last⟩ := scanOperations_uses ctx ind order _ st_end scan 0 hs hc hgate0
    hu0 (by omega)
  rw [if_neg (fun h => absurd h.2 (by rw [hrem0]; exact Nat.lt_irrefl 0))] at hcount_last
  have hnotconst : ind ∉ st_end.constants := by
    rw [hconsts]
    exact fun h => hnc (hcmem.1 h)
  have hcount_dispose : (disposeCalls st_end).count (.notifyLastUse ind) = 0 := by
    rw [count_lastUse_disposeCalls st_end
      (by rw [hconsts]; exact nodup_prepareScanning_constants ctx hnd),
      if_neg (fun h => hnotconst h.1)]
  -- first uses
  have hdef1 : IndexMap.find (planTensorsStart ctx).def_map ind = some 1 := by
    rw [hd0, hdef]
    rfl
  obtain ⟨st', extra, hs', hc', hn', -, -, hd'⟩ :=
    scanOperations_count_firstUse ctx hin ind d honly hout hvar order (planTensorsStart ctx) 1
      hgate0 hdef1
  rw [hs] at hs'
  have hst : st_end = st' := (Prod.mk.inj hs').2
  subst hst
  have hextra : scan = extra := List.append_cancel_left (hc.symm.trans hc')
  subst hextra
  rw [if_pos ⟨Nat.one_ne_zero, hd_order⟩] at hn'
  rw [if_pos hd_order] at hd'
  have hcount_consts :
      ((prepareScanning ctx).constants.map BuilderCall.notifyFirstUse).count
        (.notifyFirstUse ind) = 0 := by
    rw [count_map_notifyFirstUse]
    exact List.count_eq_zero_of_not_mem (fun h => hnc (hcmem.1 h))
  have hfinal_uses : IndexMap.find (planTensors ctx order).2.uses_map ind = some 0 := by
    rw [hplan]
    show IndexMap.find (st_end.constants.foldl disposeConstant st_end).uses_map ind = some 0
    rw [foldl_disposeConstant_find _
      (by rw [hconsts]; exact nodup_prepareScanning_constants ctx hnd), if_neg hnotconst, hfin]
  have hfinal_defs : IndexMap.find (planTensors ctx order).2.def_map ind = some 0 := by
    rw [hplan]
    show IndexMap.find (st_end.constants.foldl disposeConstant st_end).def_map ind = some 0
    rw [(foldl_disposeConstant_frame _ _).1, hd']
  refine ⟨by rw [hplan], hd_order, ⟨_, hcalls, ?_, ?_⟩, hfinal_uses, hfinal_defs, ?_⟩
  · simp only [List.count_append, count_firstUse_prepare prepare hprep, hcount_consts, hn',
      count_firstUse_disposeCalls]
  · simp only [List.count_append, count_lastUse_prepare prepare hprep,
      count_lastUse_map_firstUse, hcount_last, hcount_dispose]
  · intro hreg
    exact (planTensors_all_zero ctx order hwf horder hreg).2

/-- Witness of `planTensors_unconsumed_output`: operand `2` of
`unconsumedGraph`. -/
theorem planTensors_unconsumed_output_witness :
    unconsumedContext.graph.WellFormed ∧ ListsEachOperationOnce unconsumedContext.graph [0] ∧
    unconsumedContext.graph.InputsExist ∧ unconsumedContext.graph.DefinedAreComputed ∧
    Planned unconsumedContext 2 ∧
    IndexMap.find unconsumedContext.graph.operands 2 =
      some (exampleOperand false false [] (some 0)) ∧
    ((planTensors unconsumedContext [0]).1 = .ok () ∧
    0 ∈ [0] ∧
    (∃ issued,
      (planTensors unconsumedContext [0]).2.tensor_builder.calls =
        unconsumedContext.tensor_builder.calls ++ issued ∧
      issued.count (.notifyFirstUse 2) = 1 ∧
      issued.count (.notifyLastUse 2) = 0) ∧
    IndexMap.find (planTensors unconsumedContext [0]).2.uses_map 2 = some 0 ∧
    IndexMap.find (planTensors unconsumedContext [0]).2.def_map 2 = some 0 ∧
    ((∀ k ∈ unconsumedContext.tensor_builder.registered,
        k ∉ model_io unconsumedContext.graph → Planned unconsumedContext k) →
      usesAllZero (planTensors unconsumedContext [0]).2 = true ∧
      defsAllZero (planTensors unconsumedContext [0]).2 = true)) :=
  ⟨by decide, by decide, by decide, by decide, by decide, rfl,
    planTensors_unconsumed_output unconsumedContext [0] (by decide) (by decide) (by decide)
      (by decide) 2 (exampleOperand false false [] (some 0)) 0 (by decide) rfl rfl rfl⟩

/-! ## Buffers are live when used -/

theorem takeWhile_ne_of_not_mem (pre post : List OperationIndex) (c : OperationIndex)
    (h : c ∉ pre) :
    (pre ++ c :: post).takeWhile (fun op_ind => decide (op_ind ≠ c)) = pre := by
  induction pre with
  | nil => simp [List.takeWhile]
  | cons a t ih =>
    have hac : a ≠ c := fun hh => h (hh ▸ List.mem_cons_self _ _)
    have hne : decide (a ≠ c) = true := by simpa using hac
    rw [List.cons_append]
    simp only [List.takeWhile_cons, hne, if_true]
    rw [ih (fun hh => h (List.mem_cons_of_mem _ hh))]

theorem mem_of_mem_takeWhile_ne (pre rest : List OperationIndex) (r x : OperationIndex)
    (hr : r ∈ pre)
    (hx : x ∈ (pre ++ rest).takeWhile (fun op_ind => decide (op_ind ≠ r))) : x ∈ pre := by
  induction pre with
  | nil => exact absurd hr (List.not_mem_nil _)
  | cons a t ih =>
    rw [List.cons_append] at hx
    by_cases har : a = r
    · have hne : decide (a ≠ r) = false := by simpa using har
      simp only [List.takeWhile_cons, hne] at hx
      exact absurd hx (List.not_mem_nil _)
    · have hne : decide (a ≠ r) = true := by simpa using har
      simp only [List.takeWhile_cons, hne, if_true] at hx
      rcases List.mem_cons.1 hx with hx | hx
      · rw [hx]
        exact List.mem_cons_self _ _
      · rcases List.mem_cons.1 hr with hr | hr
        · exact absurd hr.symm har
        · exact List.mem_cons_of_mem _ (ih hr hx)

/-- The first use of an operand whose pending def is still set is notified by
the "Define outputs" loop of the operation that writes it. -/
theorem firstUse_mem_outputCalls (ctx : BackendContext) (ind : OperandIndex)
    (d : OperationIndex) (pre : List OperationIndex) (st st_pre : PlanState)
    (hs : scanOperations ctx st pre = (.ok (), st_pre))
    (hgate : Gate ctx.graph st.tensor_builder.registered ind)
    (hdef : IndexMap.find st.def_map ind = some 1)
    (hno : ∀ op ∈ pre, ind ∉ ctx.graph.outputsOf op)
    (hout : ind ∈ ctx.graph.outputsOf d) :
    BuilderCall.notifyFirstUse ind ∈ outputCalls ctx st_pre d := by
  obtain ⟨⟨extra, hc⟩, -, hr⟩ := scanOperations_frame_ok ctx pre st st_pre hs
  obtain ⟨hfin, -⟩ := scanOperations_defs ctx ind pre st st_pre extra hs hc hgate hno
  have hget : IndexMap.get st_pre.def_map ind = 1 := by
    rw [IndexMap.get_eq_of_find (hfin.trans hdef)]
  have hgate_pre : Gate ctx.graph st_pre.tensor_builder.registered ind := by
    rw [hr]
    exact hgate
  unfold outputCalls
  exact List.mem_map.2 ⟨ind, List.mem_filter.2 ⟨hout, decide_eq_true
    ⟨hgate_pre, by rw [hget]; exact Nat.one_ne_zero⟩⟩, rfl⟩

/-- C26. Buffers are live when used: for a well-formed graph whose operations
read operands of the graph and in which every planned operand without a def
is a constant or a variable, and an order that is a topological order listing
each operation once, `planTensors` completes, and for every operation `op` of
the graph and every planned operand `ind` among its inputs and outputs the
call log splits into the calls issued before `op` is processed, the calls of
the "Define outputs", "Scan variable tensors" and input-release loops of
`op`, and the calls issued afterwards, such that a first-use notification of
`ind` is issued before the end of the "Scan variable tensors" loop of `op`,
and no last-use notification of `ind` is issued before the input-release loop
of `op`. -/
theorem planTensors_live_when_used (ctx : BackendContext) (order : List OperationIndex)
    (hwf : ctx.graph.WellFormed) (horder : ListsEachOperationOnce ctx.graph order)
    (hin : ctx.graph.InputsExist) (htopo : TopologicalOrder ctx.graph order)
    (hdata : UndefinedHaveData ctx) (op : OperationIndex)
    (hop : op ∈ IndexMap.keys ctx.graph.operations) (ind : OperandIndex)
    (hp : Planned ctx ind)
    (hio : ind ∈ ctx.graph.inputsOf op ∨ ind ∈ ctx.graph.outputsOf op) :
    (planTensors ctx order).1 = .ok () ∧
    ∃ pre post st_pre st_op before after,
      order = pre ++ op :: post ∧
      scanOperations ctx (planTensorsStart ctx) pre = (.ok (), st_pre) ∧
      scanOperation ctx st_pre op = (.ok (), st_op) ∧
      st_pre.tensor_builder.calls = ctx.tensor_builder.calls ++ before ∧
      st_op.tensor_builder.calls =
        st_pre.tensor_builder.calls ++
          (outputCalls ctx st_pre op ++ (variableCalls ctx st_pre op ++
            inputCalls ctx st_pre op)) ∧
      (planTensors ctx order).2.tensor_builder.calls =
        ctx.tensor_builder.calls ++
          (before ++
            (outputCalls ctx st_pre op ++ (variableCalls ctx st_pre op ++
              inputCalls ctx st_pre op)) ++ after) ∧
      BuilderCall.notifyFirstUse ind ∈
        before ++ (outputCalls ctx st_pre op ++ variableCalls ctx st_pre op) ∧
      BuilderCall.notifyLastUse ind ∉
        before ++ (outputCalls ctx st_pre op ++ variableCalls ctx st_pre op) := by
  have hnd : (IndexMap.keys ctx.graph.operands).Nodup := hwf.1
  obtain ⟨obj, hfind⟩ := IndexMap.exists_find_of_mem_keys hp.1
  have hmem : (ind, obj) ∈ ctx.graph.operands := IndexMap.mem_of_find hfind
  obtain ⟨-, -, -, hdefout, hdefonly⟩ := hwf.2.2.2 (ind, obj) hmem
  have hwriter : ∀ w, ind ∈ ctx.graph.outputsOf w → obj.getDef = some w := fun w h =>
    hdefonly w (mem_keys_of_mem_outputsOf h) h
  obtain ⟨hgate0, hcmem, hlen, hlt, hu0, hd0⟩ :=
    planTensorsStart_entries ctx order hwf horder ind obj hp hfind
  have hop_order : op ∈ order := mem_order_of_mem_keys horder hop
  obtain ⟨pre, post, hsplit⟩ := List.append_of_mem hop_order
  subst hsplit
  have hnot : op ∉ pre := by
    have hcount := horder op hop
    rw [List.count_append, List.count_cons_self] at hcount
    intro h
    have := List.count_pos_iff.2 h
    omega
  have htake : (pre ++ op :: post).takeWhile (fun op_ind => decide (op_ind ≠ op)) = pre :=
    takeWhile_ne_of_not_mem pre post op hnot
  obtain ⟨st_pre, st_op, st_end, prepare, extra_pre, extra_post, hs_pre, hs_op, hs_post, hprep,
    hstart, hc_pre, hc_post, hr_pre, hr_op, hconsts, hplan, hcalls⟩ :=
    planTensors_split ctx hin hnd pre op post
  obtain ⟨hc_op, -, -, -, -⟩ := scanOperation_calls ctx st_pre op st_op hs_op
  have hgate_pre : Gate ctx.graph st_pre.tensor_builder.registered ind := by
    rw [hr_pre]
    exact hgate0
  -- no last use before the input-release loop of `op`
  have hu_pre : IndexMap.find (planTensorsStart ctx).uses_map ind =
      some ((remainingUses ctx.graph ind pre +
        (remainingUses ctx.graph ind (op :: post) + if obj.isConstant = true then 1 else 0))
          % 4294967296) := by
    rw [hu0, remainingUses_append, Nat.add_assoc]
  have hbound : remainingUses ctx.graph ind pre +
      (remainingUses ctx.graph ind (op :: post) + if obj.isConstant = true then 1 else 0) ≤
        4294967296 := by
    have h1 : remainingUses ctx.graph ind (pre ++ op :: post) < 4294967296 := by
      rw [hlen]
      exact hlt
    rw [remainingUses_append] at h1
    by_cases hc : obj.isConstant = true
    · rw [if_pos hc]
      omega
    · rw [if_neg hc]
      omega
  obtain ⟨-, hcount_pre⟩ := scanOperations_uses ctx ind pre _ st_pre extra_pre _ hs_pre hc_pre
    hgate0 hu_pre hbound
  have hlast_pre : BuilderCall.notifyLastUse ind ∉ extra_pre := by
    rw [← List.count_eq_zero, hcount_pre, if_neg]
    rintro ⟨hzero, hpos⟩
    rcases hio with hinp | hout
    · rw [remainingUses_cons, if_pos hinp] at hzero
      omega
    · obtain ⟨r, hr, hread⟩ : ∃ r ∈ pre, ind ∈ ctx.graph.inputsOf r := by
        by_contra hcon
        have : remainingUses ctx.graph ind pre = 0 :=
          (remainingUses_eq_zero_iff _ _ _).2 fun r hr hread => hcon ⟨r, hr, hread⟩
        omega
      have hbefore := htopo op hop r (mem_keys_of_mem_inputsOf hread) ind hout hread
      exact hnot (mem_of_mem_takeWhile_ne pre (op :: post) r op hr hbefore.2)
  have hlast : BuilderCall.notifyLastUse ind ∉
      (prepare ++ (prepareScanning ctx).constants.map BuilderCall.notifyFirstUse ++ extra_pre) ++
        (outputCalls ctx st_pre op ++ variableCalls ctx st_pre op) := by
    intro h
    have hcount : ((prepare ++
        (prepareScanning ctx).constants.map BuilderCall.notifyFirstUse ++ extra_pre) ++
        (outputCalls ctx st_pre op ++ variableCalls ctx st_pre op)).count
          (.notifyLastUse ind) = 0 := by
      simp only [List.count_append, count_lastUse_prepare prepare hprep,
        count_lastUse_map_firstUse, List.count_eq_zero.2 hlast_pre, count_lastUse_outputCalls,
        count_lastUse_variableCalls]
    exact absurd (List.count_pos_iff.2 h) (by rw [hcount]; exact Nat.lt_irrefl 0)
  -- a first use by the end of the "Scan variable tensors" loop of `op`
  have hfirst_out : ind ∈ ctx.graph.outputsOf op →
      BuilderCall.notifyFirstUse ind ∈ outputCalls ctx st_pre op := by
    intro hout
    have hdef1 : IndexMap.find (planTensorsStart ctx).def_map ind = some 1 := by
      rw [hd0, hwriter op hout]
      rfl
    refine firstUse_mem_outputCalls ctx ind op pre _ st_pre hs_pre hgate0 hdef1 ?_ hout
    intro w hw hwout
    have h1 := hwriter w hwout
    rw [hwriter op hout] at h1
    exact hnot (Option.some.inj h1 ▸ hw)
  have hfirst : BuilderCall.notifyFirstUse ind ∈
      (prepare ++ (prepareScanning ctx).constants.map BuilderCall.notifyFirstUse ++ extra_pre) ++
        (outputCalls ctx st_pre op ++ variableCalls ctx st_pre op) := by
    rcases hio with hinp | hout
    · cases hdef : obj.getDef with
      | some d =>
        -- the producer is listed before `op`
        have hdout : ind ∈ ctx.graph.outputsOf d := hdefout d hdef
        have hdkey := mem_keys_of_mem_outputsOf hdout
        have hbefore := htopo d hdkey op hop ind hdout hinp
        have hdpre : d ∈ pre := by
          have := hbefore.2
          rw [htake] at this
          exact this
        obtain ⟨p1, p2, hp12⟩ := List.append_of_mem hdpre
        subst hp12
        have hd1 : d ∉ p1 := by
          have hcount := horder d hdkey
          rw [List.count_append, List.count_append, List.count_cons_self] at hcount
          intro h
          have := List.count_pos_iff.2 h
          omega
        obtain ⟨st_p1, hs_p1, hs_rest⟩ := scanOperations_append_ok ctx p1 (d :: p2) _ _ hs_pre
        obtain ⟨st_d, hs_d, hs_p2⟩ := scanOperations_cons_ok ctx st_p1 st_pre d p2 hs_rest
        obtain ⟨⟨e1, he1⟩, -, -⟩ := scanOperations_frame_ok ctx p1 _ _ hs_p1
        obtain ⟨hc_d, -, -, -, -⟩ := scanOperation_calls ctx st_p1 d st_d hs_d
        obtain ⟨⟨e2, he2⟩, -, -⟩ := scanOperations_frame_ok ctx p2 _ _ hs_p2
        have hextra : extra_pre = e1 ++ (outputCalls ctx st_p1 d ++
            (variableCalls ctx st_p1 d ++ inputCalls ctx st_p1 d)) ++ e2 := by
          have h1 : (planTensorsStart ctx).tensor_builder.calls ++ extra_pre =
              (planTensorsStart ctx).tensor_builder.calls ++
                (e1 ++ (outputCalls ctx st_p1 d ++
                  (variableCalls ctx st_p1 d ++ inputCalls ctx st_p1 d)) ++ e2) := by
            rw [← hc_pre, he2, hc_d, he1]
            simp only [List.append_assoc]
          exact List.append_cancel_left h1
        have hdef1 : IndexMap.find (planTensorsStart ctx).def_map ind = some 1 := by
          rw [hd0, hdef]
          rfl
        have hmem_d : BuilderCall.notifyFirstUse ind ∈ outputCalls ctx st_p1 d := by
          refine firstUse_mem_outputCalls ctx ind d p1 _ st_p1 hs_p1 hgate0 hdef1 ?_ hdout
          intro w hw hwout
          have h1 := hwriter w hwout
          rw [hdef] at h1
          exact hd1 (Option.some.inj h1 ▸ hw)
        rw [hextra]
        simp only [List.mem_append]
        exact Or.inl (Or.inr (Or.inl (Or.inr (Or.inl hmem_d))))
      | none =>
        rcases hdata (ind, obj) hmem hp hdef with hc | hv
        · have : BuilderCall.notifyFirstUse ind ∈
              (prepareScanning ctx).constants.map BuilderCall.notifyFirstUse :=
            List.mem_map.2 ⟨ind, hcmem.2 hc, rfl⟩
          simp only [List.mem_append]
          exact Or.inl (Or.inl (Or.inr this))
        · have hvar : variableOperand ctx.graph ind = true := by
            unfold variableOperand
            rw [hfind]
            exact hv
          have : BuilderCall.notifyFirstUse ind ∈ variableCalls ctx st_pre op := by
            unfold variableCalls
            exact List.mem_map.2 ⟨ind, List.mem_filter.2 ⟨hinp, decide_eq_true
              ⟨hgate_pre, hvar⟩⟩, rfl⟩
          simp only [List.mem_append]
          exact Or.inr (Or.inr this)
    · have := hfirst_out hout
      simp only [List.mem_append]
      exact Or.inr (Or.inl this)
  refine ⟨by rw [hplan], pre, post, st_pre, st_op,
    prepare ++ (prepareScanning ctx).constants.map BuilderCall.notifyFirstUse ++ extra_pre,
    extra_post ++ disposeCalls st_end, rfl, hs_pre, hs_op, ?_, hc_op, hcalls, hfirst, hlast⟩
  rw [hc_pre, hstart, List.append_assoc]

/-- Witness of `planTensors_live_when_used`: operand `T` of the scenario-B
graph and its reader `OpB`. -/
theorem planTensors_live_when_used_witness :
    scenarioBContext.graph.WellFormed ∧ ListsEachOperationOnce scenarioBContext.graph [0, 1] ∧
    scenarioBContext.graph.InputsExist ∧ TopologicalOrder scenarioBContext.graph [0, 1] ∧
    UndefinedHaveData scenarioBContext ∧
    1 ∈ IndexMap.keys scenarioBContext.graph.operations ∧ Planned scenarioBContext 2 ∧
    (2 ∈ scenarioBContext.graph.inputsOf 1 ∨ 2 ∈ scenarioBContext.graph.outputsOf 1) ∧
    ((planTensors scenarioBContext [0, 1]).1 = .ok () ∧
    ∃ pre post st_pre st_op before after,
      [0, 1] = pre ++ 1 :: post ∧
      scanOperations scenarioBContext (planTensorsStart scenarioBContext) pre = (.ok (), st_pre) ∧
      scanOperation scenarioBContext st_pre 1 = (.ok (), st_op) ∧
      st_pre.tensor_builder.calls = scenarioBContext.tensor_builder.calls ++ before ∧
      st_op.tensor_builder.calls =
        st_pre.tensor_builder.calls ++
          (outputCalls scenarioBContext st_pre 1 ++ (variableCalls scenarioBContext st_pre 1 ++
            inputCalls scenarioBContext st_pre 1)) ∧
      (planTensors scenarioBContext [0, 1]).2.tensor_builder.calls =
        scenarioBContext.tensor_builder.calls ++
          (before ++
            (outputCalls scenarioBContext st_pre 1 ++ (variableCalls scenarioBContext st_pre 1 ++
              inputCalls scenarioBContext st_pre 1)) ++ after) ∧
      BuilderCall.notifyFirstUse 2 ∈
        before ++ (outputCalls scenarioBContext st_pre 1 ++
          variableCalls scenarioBContext st_pre 1) ∧
      BuilderCall.notifyLastUse 2 ∉
        before ++ (outputCalls scenarioBContext st_pre 1 ++
          variableCalls scenarioBContext st_pre 1)) :=
  ⟨by decide, by decide, by decide, by decide, by decide, by decide, by decide, by decide,
    planTensors_live_when_used scenarioBContext [0, 1] (by decide) (by decide) (by decide)
      (by decide) (by decide) 1 (by decide) 2 (by decide) (by decide)⟩

/-! ## Single writer during migrant resolution -/

theorem callsTimed_append (l1 l2 : List MigrantCall)
    (st : IndexMap PortableTensorRegistryTemplate) :
    CallsTimed st (l1 ++ l2) ↔
      CallsTimed st l1 ∧ CallsTimed (l1.foldl applyMigrantCall st) l2 := by
  induction l1 generalizing st with
  | nil => simp [CallsTimed]
  | cons c t ih =>
    show (_ ∧ CallsTimed (applyMigrantCall st c) (t ++ l2)) ↔ _
    rw [ih]
    exact ⟨fun h => ⟨⟨h.1, h.2.1⟩, h.2.2⟩, fun h => ⟨h.1.1, h.1.2, h.2⟩⟩

theorem traced_nil (st : IndexMap PortableTensorRegistryTemplate) :
    Traced st [] (.ok ()) st :=
  { timed := trivial
    replay := rfl
    no_tensor := fun _ hc => absurd hc (List.not_mem_nil _)
    error := fun _ h => Except.noConfusion h }

theorem traced_out_of_range (st : IndexMap PortableTensorRegistryTemplate) :
    Traced st [] (.error "out_of_range") st :=
  { timed := trivial
    replay := rfl
    no_tensor := fun _ hc => absurd hc (List.not_mem_nil _)
    error := fun _ h => Or.inl (Except.error.inj h).symm }

theorem traced_null_lower_info (st : IndexMap PortableTensorRegistryTemplate) :
    Traced st [] (.error "null lower info") st :=
  { timed := trivial
    replay := rfl
    no_tensor := fun _ hc => absurd hc (List.not_mem_nil _)
    error := fun _ h => Or.inr (Or.inl (Except.error.inj h).symm) }

theorem traced_append {st st1 st2 : IndexMap PortableTensorRegistryTemplate}
    {l1 l2 : List MigrantCall} {outcome : Except String Unit}
    (h1 : Traced st l1 (.ok ()) st1) (h2 : Traced st1 l2 outcome st2) :
    Traced st (l1 ++ l2) outcome st2 :=
  { timed := (callsTimed_append l1 l2 st).2 ⟨h1.timed, by rw [← h1.replay]; exact h2.timed⟩
    replay := by rw [List.foldl_append, ← h1.replay, h2.replay]
    no_tensor := by
      intro c hc
      rcases List.mem_append.1 hc with hc | hc
      · exact h1.no_tensor c hc
      · exact h2.no_tensor c hc
    error := by
      intro msg hmsg
      rcases h2.error msg hmsg with h | h | ⟨c, hc, h⟩
      · exact Or.inl h
      · exact Or.inr (Or.inl h)
      · exact Or.inr (Or.inr ⟨c, List.mem_append_right _ hc, h⟩) }

theorem traced_stop {st st1 : IndexMap PortableTensorRegistryTemplate}
    {l1 : List MigrantCall} {outcome : Except String Unit}
    (h1 : Traced st l1 outcome st1) : Traced st (l1 ++ []) outcome st1 := by
  rw [List.append_nil]
  exact h1

theorem migrateOperand_traced (tensor_regs : List Backend) (b : Backend)
    (st : IndexMap PortableTensorRegistryTemplate) (ind : OperandIndex) :
    Traced st (migrateOperandCall tensor_regs b st ind).toList
      (migrateOperand tensor_regs b st ind).1 (migrateOperand tensor_regs b st ind).2 := by
  unfold migrateOperandCall migrateOperand
  cases hreg : IndexMap.find st b with
  | none => exact traced_out_of_range st
  | some reg =>
    dsimp only
    by_cases hsome : (reg.getITensor ind).isSome = true
    · rw [if_pos hsome, if_pos hsome]
      exact traced_nil st
    · rw [if_neg hsome, if_neg hsome]
      have hnone : reg.getITensor ind = none := by
        cases hg : reg.getITensor ind with
        | none => rfl
        | some t => simp [hg] at hsome
      cases hf : TensorRegistries.getITensor tensor_regs st ind with
      | none => exact traced_nil st
      | some tensor =>
        dsimp only
        by_cases hp : tensor.portable = true
        · rw [if_pos hp, if_pos hp]
          cases hset : reg.setMigrantTensor ind (some tensor) with
          | mk r reg' =>
            have hreplay : IndexMap.set st b reg' =
                [({ backend := b, ind := ind, tensor := tensor, registry := reg } :
                  MigrantCall)].foldl applyMigrantCall st := by
              show _ = IndexMap.set st b (reg.setMigrantTensor ind (some tensor)).2
              rw [hset]
            cases r with
            | ok v =>
              exact
                { timed := ⟨hreg, trivial⟩
                  replay := hreplay
                  no_tensor := by
                    intro c hc
                    rw [List.mem_singleton.1 hc]
                    exact hnone
                  error := fun msg h => Except.noConfusion h }
            | error msg0 =>
              exact
                { timed := ⟨hreg, trivial⟩
                  replay := hreplay
                  no_tensor := by
                    intro c hc
                    rw [List.mem_singleton.1 hc]
                    exact hnone
                  error := by
                    intro msg h
                    refine Or.inr (Or.inr ⟨_, List.mem_singleton_self _, ?_⟩)
                    show (reg.setMigrantTensor ind (some tensor)).1 = _
                    rw [hset, ← Except.error.inj h] }
        · rw [if_neg hp, if_neg hp]
          exact traced_nil st

theorem migrateOperands_traced (tensor_regs : List Backend) (b : Backend)
    (l : List OperandIndex) (st : IndexMap PortableTensorRegistryTemplate) :
    Traced st (migrateOperandsCalls tensor_regs b st l)
      (migrateOperands tensor_regs b st l).1 (migrateOperands tensor_regs b st l).2 := by
  induction l generalizing st with
  | nil => exact traced_nil st
  | cons ind rest ih =>
    have hstep := migrateOperand_traced tensor_regs b st ind
    unfold migrateOperandsCalls migrateOperands
    cases hs : migrateOperand tensor_regs b st ind with
    | mk r st1 =>
      rw [hs] at hstep
      cases r with
      | error msg => exact traced_stop hstep
      | ok u => exact traced_append hstep (ih st1)

theorem migrateOperation_traced (lgraph : LoweredGraph) (tensor_regs : List Backend)
    (st : IndexMap PortableTensorRegistryTemplate) (e : OperationIndex × Operation) :
    Traced st (migrateOperationCalls lgraph tensor_regs st e)
      (migrateOperation lgraph tensor_regs st e).1
      (migrateOperation lgraph tensor_regs st e).2 := by
  unfold migrateOperationCalls migrateOperation
  cases hli : IndexMap.find lgraph.lower_info.operation e.1 with
  | none => exact traced_null_lower_info st
  | some lower_info =>
    dsimp only
    cases hreg : IndexMap.find st lower_info.backend with
    | none => exact traced_out_of_range st
    | some reg => exact migrateOperands_traced tensor_regs lower_info.backend _ st

theorem migrateOperations_traced (lgraph : LoweredGraph) (tensor_regs : List Backend)
    (l : List (OperationIndex × Operation)) (st : IndexMap PortableTensorRegistryTemplate) :
    Traced st (migrateOperationsCalls lgraph tensor_regs st l)
      (migrateOperations lgraph tensor_regs st l).1
      (migrateOperations lgraph tensor_regs st l).2 := by
  induction l generalizing st with
  | nil => exact traced_nil st
  | cons e rest ih =>
    have hstep := migrateOperation_traced lgraph tensor_regs st e
    unfold migrateOperationsCalls migrateOperations
    cases hs : migrateOperation lgraph tensor_regs st e with
    | mk r st1 =>
      rw [hs] at hstep
      cases r with
      | error msg => exact traced_stop hstep
      | ok u => exact traced_append hstep (ih st1)

/-- On a registry with no null entry, a call of `setMigrantTensor` for an
operand the registry returns no tensor for finds neither a native nor a
migrant entry, and returns `true`. -/
theorem setMigrantTensor_of_no_tensor (reg : PortableTensorRegistryTemplate) (h : NonNull reg)
    (ind : OperandIndex) (tensor : ITensor) (hg : reg.getITensor ind = none) :
    IndexMap.find reg._native ind = none ∧ IndexMap.find reg._migrant ind = none ∧
      reg.setMigrantTensor ind (some tensor) =
        (.ok true, { reg with _migrant := IndexMap.set reg._migrant ind (some tensor) }) := by
  obtain ⟨hn, hm⟩ := find_none_of_getITensor_none reg h ind hg
  refine ⟨hn, hm, ?_⟩
  unfold PortableTensorRegistryTemplate.setMigrantTensor
  rw [hn]

theorem nonNull_applyMigrantCall (st : IndexMap PortableTensorRegistryTemplate)
    (c : MigrantCall) (hnn : ∀ b reg, IndexMap.find st b = some reg → NonNull reg)
    (hc : IndexMap.find st c.backend = some c.registry) :
    ∀ b reg, IndexMap.find (applyMigrantCall st c) b = some reg → NonNull reg := by
  intro b reg hf
  unfold applyMigrantCall at hf
  rw [IndexMap.find_set] at hf
  by_cases hb : c.backend = b
  · rw [if_pos hb] at hf
    rw [← Option.some.inj hf]
    exact nonNull_setMigrantTensor c.registry c.ind c.tensor (hnn _ _ hc)
  · rw [if_neg hb] at hf
    exact hnn b reg hf

theorem calls_return (calls : List MigrantCall) (st : IndexMap PortableTensorRegistryTemplate)
    (ht : CallsTimed st calls) (hno : ∀ c ∈ calls, c.registry.getITensor c.ind = none)
    (hnn : ∀ b reg, IndexMap.find st b = some reg → NonNull reg) :
    ∀ c ∈ calls, IndexMap.find c.registry._native c.ind = none ∧
      IndexMap.find c.registry._migrant c.ind = none ∧
      (c.registry.setMigrantTensor c.ind (some c.tensor)).1 = .ok true := by
  induction calls generalizing st with
  | nil => exact fun c hc => absurd hc (List.not_mem_nil _)
  | cons c0 rest ih =>
    obtain ⟨h0, hrest⟩ := ht
    intro c hc
    rcases List.mem_cons.1 hc with hc | hc
    · rw [hc]
      obtain ⟨hn, hm, hset⟩ := setMigrantTensor_of_no_tensor c0.registry (hnn _ _ h0) c0.ind
        c0.tensor (hno c0 (List.mem_cons_self _ _))
      exact ⟨hn, hm, by rw [hset]⟩
    · exact ih (applyMigrantCall st c0) hrest
        (fun c' hc' => hno c' (List.mem_cons_of_mem _ hc'))
        (nonNull_applyMigrantCall st c0 hnn h0) c hc

/-- A registry that returns a tensor for an operand keeps returning one
through later calls made for operands their registry returns no tensor for. -/
theorem hasTensor_applyMigrantCall (st : IndexMap PortableTensorRegistryTemplate)
    (c : MigrantCall) (b : Backend) (ind : OperandIndex)
    (h : ∃ reg, IndexMap.find st b = some reg ∧ reg.getITensor ind ≠ none)
    (hc : IndexMap.find st c.backend = some c.registry)
    (hno : c.registry.getITensor c.ind = none) :
    ∃ reg, IndexMap.find (applyMigrantCall st c) b = some reg ∧ reg.getITensor ind ≠ none := by
  obtain ⟨reg, hreg, hg⟩ := h
  unfold applyMigrantCall
  rw [IndexMap.find_set]
  by_cases hb : c.backend = b
  · rw [if_pos hb]
    rw [hb, hreg] at hc
    have hcr : reg = c.registry := Option.some.inj hc
    have hne : c.ind ≠ ind := by
      intro hi
      rw [← hcr, hi] at hno
      exact hg hno
    refine ⟨_, rfl, ?_⟩
    have hsame : (c.registry.setMigrantTensor c.ind (some c.tensor)).2.getITensor ind =
        c.registry.getITensor ind := by
      unfold PortableTensorRegistryTemplate.setMigrantTensor
      cases hn : IndexMap.find c.registry._native c.ind with
      | some t => rfl
      | none =>
        exact getITensor_congr rfl (IndexMap.find_set_ne _ _ hne)
    rw [hsame, ← hcr]
    exact hg
  · rw [if_neg hb]
    exact ⟨reg, hreg, hg⟩

theorem no_repeated_call (calls : List MigrantCall)
    (st : IndexMap PortableTensorRegistryTemplate) (b : Backend) (ind : OperandIndex)
    (h : ∃ reg, IndexMap.find st b = some reg ∧ reg.getITensor ind ≠ none)
    (ht : CallsTimed st calls) (hno : ∀ c ∈ calls, c.registry.getITensor c.ind = none) :
    ∀ c ∈ calls, (c.backend, c.ind) ≠ (b, ind) := by
  induction calls generalizing st with
  | nil => exact fun c hc => absurd hc (List.not_mem_nil _)
  | cons c0 rest ih =>
    obtain ⟨h0, hrest⟩ := ht
    have hno0 := hno c0 (List.mem_cons_self _ _)
    intro c hc
    rcases List.mem_cons.1 hc with hc | hc
    · rw [hc]
      intro heq
      obtain ⟨reg, hreg, hg⟩ := h
      have hb : c0.backend = b := (Prod.mk.inj heq).1
      have hi : c0.ind = ind := (Prod.mk.inj heq).2
      rw [hb, hreg] at h0
      rw [← Option.some.inj h0, hi] at hno0
      exact hg hno0
    · exact ih (applyMigrantCall st c0) (hasTensor_applyMigrantCall st c0 b ind h h0 hno0) hrest
        (fun c' hc' => hno c' (List.mem_cons_of_mem _ hc')) c hc

theorem nodup_calls (calls : List MigrantCall) (st : IndexMap PortableTensorRegistryTemplate)
    (ht : CallsTimed st calls) (hno : ∀ c ∈ calls, c.registry.getITensor c.ind = none)
    (hnn : ∀ b reg, IndexMap.find st b = some reg → NonNull reg) :
    (calls.map fun c => (c.backend, c.ind)).Nodup := by
  induction calls generalizing st with
  | nil => exact List.nodup_nil
  | cons c0 rest ih =>
    obtain ⟨h0, hrest⟩ := ht
    have hno0 := hno c0 (List.mem_cons_self _ _)
    have hno' : ∀ c ∈ rest, c.registry.getITensor c.ind = none :=
      fun c' hc' => hno c' (List.mem_cons_of_mem _ hc')
    rw [List.map_cons, List.nodup_cons]
    refine ⟨?_, ih (applyMigrantCall st c0) hrest hno' (nonNull_applyMigrantCall st c0 hnn h0)⟩
    intro hmem
    obtain ⟨c, hc, hpair⟩ := List.mem_map.1 hmem
    obtain ⟨-, -, hset⟩ := setMigrantTensor_of_no_tensor c0.registry (hnn _ _ h0) c0.ind
      c0.tensor hno0
    have hhas : ∃ reg, IndexMap.find (applyMigrantCall st c0) c0.backend = some reg ∧
        reg.getITensor c0.ind ≠ none := by
      refine ⟨_, by unfold applyMigrantCall; exact IndexMap.find_set_self _ _ _, ?_⟩
      rw [hset]
      have hm : IndexMap.find
          ({ c0.registry with
              _migrant := IndexMap.set c0.registry._migrant c0.ind (some c0.tensor) } :
            PortableTensorRegistryTemplate)._migrant c0.ind = some (some c0.tensor) :=
        IndexMap.find_set_self _ _ _
      rw [getITensor_of_migrant hm]
      exact fun h => Option.noConfusion h
    exact no_repeated_call rest _ c0.backend c0.ind hhas hrest hno' c hc hpair

/-- C24. Single writer during migrant resolution: every call of
`setMigrantTensor` that `prepareMigrantTensors` makes is made on the registry
of a backend as it is at the time, for an operand index for which that
registry returns no tensor, and the calls account for every change of the
registries. Consequently, on registries built from the empty registry by
`setNativeTensor` and `setMigrantTensor` with tensors that are not null, which
satisfy the exclusivity invariant, every call finds neither a native nor a
migrant entry for its operand and returns `true`, no (backend, operand) pair
is written twice, `prepareMigrantTensors` does not raise the "native tensor
already exists" error, and the native map of every registry is left as it
was. -/
theorem prepareMigrantTensors_single_writer (lgraph : LoweredGraph)
    (tensor_regs : List Backend) (backend_contexts : IndexMap PortableTensorRegistryTemplate) :
    CallsTimed backend_contexts
      (prepareMigrantTensorsCalls lgraph tensor_regs backend_contexts) ∧
    (prepareMigrantTensors lgraph tensor_regs backend_contexts).2 =
      (prepareMigrantTensorsCalls lgraph tensor_regs backend_contexts).foldl applyMigrantCall
        backend_contexts ∧
    (∀ c ∈ prepareMigrantTensorsCalls lgraph tensor_regs backend_contexts,
      c.registry.getITensor c.ind = none) ∧
    ((∀ e ∈ backend_contexts, e.2.Built) →
      (∀ e ∈ backend_contexts, Exclusive e.2) ∧
      (∀ c ∈ prepareMigrantTensorsCalls lgraph tensor_regs backend_contexts,
        IndexMap.find c.registry._native c.ind = none ∧
        IndexMap.find c.registry._migrant c.ind = none ∧
        (c.registry.setMigrantTensor c.ind (some c.tensor)).1 = .ok true) ∧
      ((prepareMigrantTensorsCalls lgraph tensor_regs backend_contexts).map
        fun c => (c.backend, c.ind)).Nodup ∧
      (prepareMigrantTensors lgraph tensor_regs backend_contexts).1 ≠
        .error "Tried to set a migrant tensor but a native tensor already exists." ∧
      ∀ b reg reg', IndexMap.find backend_contexts b = some reg →
        IndexMap.find (prepareMigrantTensors lgraph tensor_regs backend_contexts).2 b =
          some reg' →
        reg'._native = reg._native) := by
  have htr : Traced backend_contexts
      (prepareMigrantTensorsCalls lgraph tensor_regs backend_contexts)
      (prepareMigrantTensors lgraph tensor_regs backend_contexts).1
      (prepareMigrantTensors lgraph tensor_regs backend_contexts).2 :=
    migrateOperations_traced lgraph tensor_regs lgraph.graph.operations backend_contexts
  refine ⟨htr.timed, htr.replay, htr.no_tensor, ?_⟩
  intro hbuilt
  have hex : ∀ e ∈ backend_contexts, Exclusive e.2 := by
    intro e he
    obtain ⟨calls, -, hr⟩ := hbuilt e he
    rw [hr]
    exact exclusive_runRegistryCalls calls _ exclusive_empty
  have hnn : ∀ b reg, IndexMap.find backend_contexts b = some reg → NonNull reg := by
    intro b reg h
    obtain ⟨calls, hcalls, hr⟩ := hbuilt (b, reg) (IndexMap.mem_of_find h)
    rw [show reg = _ from hr]
    exact nonNull_runRegistryCalls calls _ nonNull_empty hcalls
  have hret := calls_return _ backend_contexts htr.timed htr.no_tensor hnn
  refine ⟨hex, hret, nodup_calls _ backend_contexts htr.timed htr.no_tensor hnn, ?_, ?_⟩
  · intro herr
    rcases htr.error _ herr with h | h | ⟨c, hc, h⟩
    · exact absurd h (by decide)
    · exact absurd h (by decide)
    · rw [(hret c hc).2.2] at h
      exact Except.noConfusion h
  · intro b reg reg' h h'
    have hext := (migrateOperations_spec lgraph tensor_regs backend_contexts
      lgraph.graph.operations backend_contexts (extends_refl _ _)).1
    exact (hext.regs b reg reg' h h').1

theorem portableRegistries_built : ∀ e ∈ portableRegistries, e.2.Built := by
  intro e he
  simp only [portableRegistries, List.mem_cons, List.mem_singleton, List.not_mem_nil,
    or_false] at he
  rcases he with he | he | he
  · rw [he]
    exact ⟨[.setNativeTensor 0 (some { id := 100, portable := true }),
      .setNativeTensor 2 (some { id := 102, portable := true })], by decide, rfl⟩
  · rw [he]
    exact ⟨[.setNativeTensor 3 (some { id := 103, portable := true })], by decide, rfl⟩
  · rw [he]
    exact ⟨[.setNativeTensor 1 (some { id := 101, portable := true })], by decide, rfl⟩

/-- Witness of `prepareMigrantTensors_single_writer`: the scenario-B graph
with registries, built by `setNativeTensor`, in which every tensor is
portable; `OpA` on backend `0` gets the graph input from backend `2`, `OpB` on
backend `1` gets `T` from backend `0`. -/
theorem prepareMigrantTensors_single_writer_witness :
    (∀ e ∈ portableRegistries, e.2.Built) ∧
    (prepareMigrantTensorsCalls scenarioBLowered [0, 1, 2] portableRegistries).map
        (fun c => (c.backend, c.ind)) = [(0, 1), (1, 2)] ∧
    (CallsTimed portableRegistries
      (prepareMigrantTensorsCalls scenarioBLowered [0, 1, 2] portableRegistries) ∧
    (prepareMigrantTensors scenarioBLowered [0, 1, 2] portableRegistries).2 =
      (prepareMigrantTensorsCalls scenarioBLowered [0, 1, 2] portableRegistries).foldl
        applyMigrantCall portableRegistries ∧
    (∀ c ∈ prepareMigrantTensorsCalls scenarioBLowered [0, 1, 2] portableRegistries,
      c.registry.getITensor c.ind = none) ∧
    ((∀ e ∈ portableRegistries, e.2.Built) →
      (∀ e ∈ portableRegistries, Exclusive e.2) ∧
      (∀ c ∈ prepareMigrantTensorsCalls scenarioBLowered [0, 1, 2] portableRegistries,
        IndexMap.find c.registry._native c.ind = none ∧
        IndexMap.find c.registry._migrant c.ind = none ∧
        (c.registry.setMigrantTensor c.ind (some c.tensor)).1 = .ok true) ∧
      ((prepareMigrantTensorsCalls scenarioBLowered [0, 1, 2] portableRegistries).map
        fun c => (c.backend, c.ind)).Nodup ∧
      (prepareMigrantTensors scenarioBLowered [0, 1, 2] portableRegistries).1 ≠
        .error "Tried to set a migrant tensor but a native tensor already exists." ∧
      ∀ b reg reg', IndexMap.find portableRegistries b = some reg →
        IndexMap.find (prepareMigrantTensors scenarioBLowered [0, 1, 2] portableRegistries).2 b =
          some reg' →
        reg'._native = reg._native)) :=
  ⟨portableRegistries_built, by decide,
    prepareMigrantTensors_single_writer scenarioBLowered [0, 1, 2] portableRegistries⟩

/-! ## A tensor that no registry holds -/

theorem migrateOperand_noTensor (tensor_regs : List Backend) (b : Backend)
    (st : IndexMap PortableTensorRegistryTemplate) (ind i : OperandIndex)
    (h : NoTensor st i) :
    NoTensor (migrateOperand tensor_regs b st ind).2 i := by
  unfold migrateOperand
  cases hf : IndexMap.find st b with
  | none => exact h
  | some reg =>
    have hreg : reg.getITensor i = none := h (b, reg) (IndexMap.mem_of_find hf)
    by_cases hs : (reg.getITensor ind).isSome = true
    · simp only [hs, if_true]
      exact h
    · simp only [hs, Bool.false_eq_true, if_false]
      cases hc : TensorRegistries.getITensor tensor_regs st ind with
      | none => exact h
      | some tensor =>
        have hne : ind ≠ i := by
          intro hi
          subst hi
          rw [getITensor_combined_none tensor_regs st ind h] at hc
          exact Option.noConfusion hc
        by_cases hp : tensor.portable = true
        · simp only [hp, if_true]
          unfold PortableTensorRegistryTemplate.setMigrantTensor
          cases hn : IndexMap.find reg._native ind with
          | some x =>
            intro e he
            rcases IndexMap.mem_of_mem_set _ _ _ _ he with h' | h'
            · rw [h']
              exact hreg
            · exact h e h'
          | none =>
            intro e he
            rcases IndexMap.mem_of_mem_set _ _ _ _ he with h' | h'
            · rw [h']
              show PortableTensorRegistryTemplate.getITensor _ i = none
              rw [← hreg]
              exact getITensor_congr rfl (IndexMap.find_set_ne _ _ hne)
            · exact h e h'
        · simp only [hp, Bool.false_eq_true, if_false]
          exact h

theorem migrateOperandCall_ind (tensor_regs : List Backend) (b : Backend)
    (st : IndexMap PortableTensorRegistryTemplate) (ind i : OperandIndex)
    (h : NoTensor st i) :
    ∀ c ∈ (migrateOperandCall tensor_regs b st ind).toList, c.ind ≠ i := by
  intro c hc
  rw [Option.mem_toList] at hc
  unfold migrateOperandCall at hc
  cases hf : IndexMap.find st b with
  | none =>
    rw [hf] at hc
    exact Option.noConfusion hc
  | some reg =>
    rw [hf] at hc
    dsimp only at hc
    by_cases hs : (reg.getITensor ind).isSome = true
    · rw [if_pos hs] at hc
      exact Option.noConfusion hc
    · rw [if_neg hs] at hc
      cases hl : TensorRegistries.getITensor tensor_regs st ind with
      | none =>
        rw [hl] at hc
        exact Option.noConfusion hc
      | some tensor =>
        rw [hl] at hc
        dsimp only at hc
        by_cases hp : tensor.portable = true
        · rw [if_pos hp] at hc
          rw [← Option.some.inj hc]
          intro hi
          have hi' : ind = i := hi
          subst hi'
          rw [getITensor_combined_none tensor_regs st ind h] at hl
          exact Option.noConfusion hl
        · rw [if_neg hp] at hc
          exact Option.noConfusion hc

theorem migrateOperands_noTensor (tensor_regs : List Backend) (b : Backend)
    (l : List OperandIndex) (st : IndexMap PortableTensorRegistryTemplate) (i : OperandIndex)
    (h : NoTensor st i) :
    NoTensor (migrateOperands tensor_regs b st l).2 i ∧
      ∀ c ∈ migrateOperandsCalls tensor_regs b st l, c.ind ≠ i := by
  induction l generalizing st with
  | nil => exact ⟨h, fun c hc => absurd hc (List.not_mem_nil _)⟩
  | cons ind rest ih =>
    have h1 := migrateOperand_noTensor tensor_regs b st ind i h
    have h2 := migrateOperandCall_ind tensor_regs b st ind i h
    unfold migrateOperands migrateOperandsCalls
    cases hstep : migrateOperand tensor_regs b st ind with
    | mk outcome st' =>
      rw [hstep] at h1
      cases outcome with
      | error msg =>
        refine ⟨h1, ?_⟩
        intro c hc
        rw [List.append_nil] at hc
        exact h2 c hc
      | ok u =>
        obtain ⟨ih1, ih2⟩ := ih st' h1
        refine ⟨ih1, ?_⟩
        intro c hc
        rcases List.mem_append.1 hc with hc | hc
        · exact h2 c hc
        · exact ih2 c hc

theorem migrateOperation_noTensor (lgraph : LoweredGraph) (tensor_regs : List Backend)
    (st : IndexMap PortableTensorRegistryTemplate) (e : OperationIndex × Operation)
    (i : OperandIndex) (h : NoTensor st i) :
    NoTensor (migrateOperation lgraph tensor_regs st e).2 i ∧
      ∀ c ∈ migrateOperationCalls lgraph tensor_regs st e, c.ind ≠ i := by
  unfold migrateOperation migrateOperationCalls
  cases hli : IndexMap.find lgraph.lower_info.operation e.1 with
  | none => exact ⟨h, fun c hc => absurd hc (List.not_mem_nil _)⟩
  | some lower_info =>
    dsimp only
    cases hf : IndexMap.find st lower_info.backend with
    | none => exact ⟨h, fun c hc => absurd hc (List.not_mem_nil _)⟩
    | some reg => exact migrateOperands_noTensor tensor_regs lower_info.backend _ st i h

theorem migrateOperations_noTensor (lgraph : LoweredGraph) (tensor_regs : List Backend)
    (l : List (OperationIndex × Operation)) (st : IndexMap PortableTensorRegistryTemplate)
    (i : OperandIndex) (h : NoTensor st i) :
    NoTensor (migrateOperations lgraph tensor_regs st l).2 i ∧
      ∀ c ∈ migrateOperationsCalls lgraph tensor_regs st l, c.ind ≠ i := by
  induction l generalizing st with
  | nil => exact ⟨h, fun c hc => absurd hc (List.not_mem_nil _)⟩
  | cons e rest ih =>
    obtain ⟨h1, h2⟩ := migrateOperation_noTensor lgraph tensor_regs st e i h
    unfold migrateOperations migrateOperationsCalls
    cases hstep : migrateOperation lgraph tensor_regs st e with
    | mk outcome st' =>
      rw [hstep] at h1
      cases outcome with
      | error msg =>
        refine ⟨h1, ?_⟩
        intro c hc
        rw [List.append_nil] at hc
        exact h2 c hc
      | ok u =>
        obtain ⟨ih1, ih2⟩ := ih st' h1
        refine ⟨ih1, ?_⟩
        intro c hc
        rcases List.mem_append.1 hc with hc | hc
        · exact h2 c hc
        · exact ih2 c hc

/-- C1. Balance invariant of `planTensors`: for a well-formed graph and an
order that lists each operation of the graph exactly once, `planTensors` runs
to its end with every entry of its remaining-use map and every entry of its
pending-def map equal to zero, so that both final assertions hold. This is so
where `genTensors` enters it, after the registration of the operands that are
neither graph inputs or outputs nor external, and on the tensor builder
`genTensors` is given; that tensor builder holds registrations of no other
operands, a fresh one holding none at all. -/
theorem planTensors_balanced (ctx : BackendContext) (order : List OperationIndex)
    (hwf : ctx.graph.WellFormed) (horder : ListsEachOperationOnce ctx.graph order)
    (hreg : ∀ ind ∈ ctx.tensor_builder.registered, ind ∉ model_io ctx.graph →
      Planned ctx ind) :
    ((planTensors (registeredContext ctx) order).1 = .ok () ∧
      usesAllZero (planTensors (registeredContext ctx) order).2 = true ∧
      defsAllZero (planTensors (registeredContext ctx) order).2 = true) ∧
    ((planTensors ctx order).1 = .ok () ∧
      usesAllZero (planTensors ctx order).2 = true ∧
      defsAllZero (planTensors ctx order).2 = true) := by
  refine ⟨planTensors_all_zero (registeredContext ctx) order hwf horder ?_,
    planTensors_all_zero ctx order hwf horder hreg⟩
  intro ind hind hio
  rcases (registeredContext_registered ctx ind).1 hind with h | h
  · exact hreg ind h hio
  · exact h

/-- Witness of `planTensors_balanced` on the scenario-B graph, with the fresh
tensor builder of `scenarioBContext`. -/
theorem planTensors_balanced_witness :
    scenarioBContext.graph.WellFormed ∧ ListsEachOperationOnce scenarioBContext.graph [0, 1] ∧
    scenarioBContext.tensor_builder.registered = [] ∧
    (((planTensors (registeredContext scenarioBContext) [0, 1]).1 = .ok () ∧
      usesAllZero (planTensors (registeredContext scenarioBContext) [0, 1]).2 = true ∧
      defsAllZero (planTensors (registeredContext scenarioBContext) [0, 1]).2 = true) ∧
    ((planTensors scenarioBContext [0, 1]).1 = .ok () ∧
      usesAllZero (planTensors scenarioBContext [0, 1]).2 = true ∧
      defsAllZero (planTensors scenarioBContext [0, 1]).2 = true)) :=
  ⟨by decide, by decide, rfl,
    planTensors_balanced scenarioBContext [0, 1] (by decide) (by decide) (by decide)⟩

/-! ## Exactly one native owner -/

theorem convertedContexts_eq :
    createBackendContexts [0, 1, 2] convertedLowered [0, 3, 1, 2] false =
      .ok convertedContexts := by
  rfl

theorem convertedTensors_eq :
    generateTensors scenarioBEnv.id "Dataflow" convertedLowered convertedContexts =
      .ok convertedTensors := by
  rfl

end onert
